import Mathlib

/-!
Verification of the maze-and-pathfinding library: a shallow embedding of its
eight maze generators and five pathfinders, together with theorems settling
the specification claims.  Grids are matrices of 0 (path) / 1 (wall) values;
randomness is modelled by an oracle, a stream of natural numbers with one
entry per call of the random source, so that a statement quantified over all
oracles covers every outcome of the random choices.  Loops without an a
priori bound take fuel and return an Option, with none marking exhaustion.
-/

namespace MazeLib

/-- A random oracle: one natural number per call of the random source. -/
abbrev Rng := Nat → Nat

/-- Value of the i-th random draw scaled to the range [0, n): models
Math.floor of (random times n). -/
def draw (rng : Rng) (i n : Nat) : Nat := rng i % n

/-- A grid coordinate (row, col); neighbour arithmetic may go negative,
hence integers. -/
abbrev Coord := Int × Int

/-- A rectangular grid of cell values, 0 = path, 1 = wall, mirroring the
number[][] matrices of the source. -/
structure Grid where
  rows : Int
  cols : Int
  val : Int → Int → Nat

/-- Write value v at position (r, c). -/
def Grid.set (g : Grid) (r c : Int) (v : Nat) : Grid :=
  ⟨g.rows, g.cols, fun r' c' => if r' = r ∧ c' = c then v else g.val r' c'⟩

/-- A fresh grid with every position holding v. -/
def mkGrid (rows cols : Int) (v : Nat) : Grid := ⟨rows, cols, fun _ _ => v⟩

/-- The four 4-directional movement offsets, in the order every pathfinder
declares them: up, down, left, right. -/
def moveDirs : List Coord := [(-1, 0), (1, 0), (0, -1), (0, 1)]

/-- The bounds-and-wall test on an endpoint, shared by all five pathfinders:
inside the matrix and not a wall. -/
def validPoint (g : Grid) (p : Coord) : Bool :=
  decide (0 ≤ p.1) && decide (p.1 < g.rows) && decide (0 ≤ p.2) &&
    decide (p.2 < g.cols) && decide (g.val p.1 p.2 ≠ 1)

/-- The bounds-and-openness test applied to each candidate neighbour:
inside the matrix and holding value 0. -/
def openCell (g : Grid) (p : Coord) : Bool :=
  decide (0 ≤ p.1) && decide (p.1 < g.rows) && decide (0 ≤ p.2) &&
    decide (p.2 < g.cols) && decide (g.val p.1 p.2 = 0)

/-- Lookup in a parent map modelled as an association list; writes shadow
older entries, matching the set semantics of the source map. -/
def pmLookup (m : List (Coord × Option Coord)) (k : Coord) : Option (Option Coord) :=
  (m.find? (fun kv => decide (kv.1 = k))).map Prod.snd

/-- Overwriting write into a parent map. -/
def pmSet (m : List (Coord × Option Coord)) (k : Coord) (v : Option Coord) :
    List (Coord × Option Coord) := (k, v) :: m

/-- Walk parent pointers back from cur, producing the start-to-end path (the
source builds the reversed list and reverses it); fuel guards against a
cyclic map. -/
def rebuild (pm : List (Coord × Option Coord)) : Nat → Coord → List Coord → Option (List Coord)
  | 0, _, _ => none
  | fuel + 1, cur, acc =>
    match pmLookup pm cur with
    | some (some p) => rebuild pm fuel p (cur :: acc)
    | _ => some (cur :: acc)

/-- Outcome of one pathfinder call: the path (or none) and the visited
trace, as the source returns them. -/
structure SearchResult where
  path : Option (List Coord)
  visitedOrder : List Coord
deriving DecidableEq, Repr

/-! ## Breadth-first search (findPathBFS) -/

/-- The working state of findPathBFS.  discovered and settled are ghost
trace fields recording, respectively, the order in which cells first enter
the visited set and the order in which they are first dequeued as current;
neither feeds back into the search. -/
structure BFSState where
  queue : List Coord
  visited : List Coord
  visitedOrder : List Coord
  parent : List (Coord × Option Coord)
  discovered : List Coord
  settled : List Coord
deriving Repr

/-- Processing of a single direction during the neighbour scan of a
dequeued cell: an unvisited open neighbour is marked visited, traced,
parented and enqueued. -/
def bfsVisitOne (g : Grid) (cur : Coord) (st : BFSState) (d : Coord) : BFSState :=
  let n : Coord := (cur.1 + d.1, cur.2 + d.2)
  if openCell g n ∧ n ∉ st.visited then
    { st with visited := st.visited ++ [n]
              visitedOrder := st.visitedOrder ++ [n]
              discovered := st.discovered ++ [n]
              parent := pmSet st.parent n (some cur)
              queue := st.queue ++ [n] }
  else st

/-- Neighbour scan of one dequeued cell, in declared direction order. -/
def bfsVisit (g : Grid) (cur : Coord) (st : BFSState) : BFSState :=
  moveDirs.foldl (bfsVisitOne g cur) st

/-- The BFS main loop: dequeue, stop at the end, otherwise expand. -/
def bfsRun (g : Grid) (e : Coord) : Nat → BFSState → Option (BFSState × Option (List Coord))
  | 0, _ => none
  | fuel + 1, st =>
    match st.queue with
    | [] => some (st, none)
    | cur :: rest =>
      let st1 : BFSState :=
        { st with queue := rest
                  settled := if cur ∈ st.settled then st.settled else st.settled ++ [cur] }
      if cur = e then
        (rebuild st1.parent (st1.parent.length + 1) e []).map (fun p => (st1, some p))
      else
        bfsRun g e fuel (bfsVisit g cur st1)

/-- Initial BFS state for a given start. -/
def bfsInit (s : Coord) : BFSState :=
  ⟨[s], [s], [s], [(s, none)], [s], []⟩

/-- The state every pathfinder returns from its invalid-endpoint guard. -/
def bfsEmpty : BFSState := ⟨[], [], [], [], [], []⟩

/-- findPathBFS: guard, then run; returns the final state with the path. -/
def findPathBFS (g : Grid) (s e : Coord) (fuel : Nat) :
    Option (BFSState × Option (List Coord)) :=
  if validPoint g s && validPoint g e then bfsRun g e fuel (bfsInit s)
  else some (bfsEmpty, none)

/-- The externally returned value of findPathBFS. -/
def bfsResult (g : Grid) (s e : Coord) (fuel : Nat) : Option SearchResult :=
  (findPathBFS g s e fuel).map (fun p => ⟨p.2, p.1.visitedOrder⟩)

/-! ## Oracle-driven shuffling

The source shuffles arrays by sorting with a random comparator, which yields
an implementation-defined permutation of the array.  We model the shuffle as
an oracle-chosen permutation: the oracle repeatedly selects which remaining
element comes next, so every permutation is a possible outcome. -/

/-- Remove the k-th element of a list, returning it with the remainder. -/
def extractNth : List α → Nat → Option (α × List α)
  | [], _ => none
  | x :: xs, 0 => some (x, xs)
  | x :: xs, k + 1 => (extractNth xs k).map (fun p => (p.1, x :: p.2))

/-- Selection loop of the oracle-driven shuffle. -/
def shuffleGo (rng : Rng) : Nat → List α → Nat → List α × Nat
  | 0, _, i => ([], i)
  | _, [], i => ([], i)
  | fuel + 1, l, i =>
    match extractNth l (draw rng i l.length) with
    | none => ([], i)
    | some (x, rest) =>
      let p := shuffleGo rng fuel rest (i + 1)
      (x :: p.1, p.2)

/-- Oracle-chosen permutation of a list, together with the next oracle index. -/
def shuffleList (rng : Rng) (l : List α) (i : Nat) : List α × Nat :=
  shuffleGo rng l.length l i

/-! ## Depth-first search (findPathDFS)

The source stack pushes and pops at the array end; the list here keeps its
newest element at the head, which is the same discipline. -/

/-- The working state of findPathDFS; discovered and settled are ghost trace
fields as in BFSState, and ri is the next oracle index. -/
structure DFSState where
  stack : List Coord
  visited : List Coord
  visitedOrder : List Coord
  parent : List (Coord × Option Coord)
  discovered : List Coord
  settled : List Coord
  ri : Nat
deriving Repr

/-- Processing of a single direction during the neighbour scan of a popped
cell: an unvisited open neighbour is marked visited, traced, parented and
pushed. -/
def dfsVisitOne (g : Grid) (cur : Coord) (st : DFSState) (d : Coord) : DFSState :=
  let n : Coord := (cur.1 + d.1, cur.2 + d.2)
  if openCell g n ∧ n ∉ st.visited then
    { st with visited := st.visited ++ [n]
              visitedOrder := st.visitedOrder ++ [n]
              discovered := st.discovered ++ [n]
              parent := pmSet st.parent n (some cur)
              stack := n :: st.stack }
  else st

/-- Neighbour scan of one popped cell in the shuffled direction order. -/
def dfsVisit (g : Grid) (cur : Coord) (sh : List Coord) (st : DFSState) : DFSState :=
  sh.foldl (dfsVisitOne g cur) st

/-- The DFS main loop: pop, stop at the end, otherwise expand with a freshly
shuffled direction order. -/
def dfsRun (g : Grid) (e : Coord) (rng : Rng) : Nat → DFSState → Option (DFSState × Option (List Coord))
  | 0, _ => none
  | fuel + 1, st =>
    match st.stack with
    | [] => some (st, none)
    | cur :: rest =>
      let st1 : DFSState :=
        { st with stack := rest
                  settled := if cur ∈ st.settled then st.settled else st.settled ++ [cur] }
      if cur = e then
        (rebuild st1.parent (st1.parent.length + 1) e []).map (fun p => (st1, some p))
      else
        let sh := shuffleList rng moveDirs st1.ri
        dfsRun g e rng fuel (dfsVisit g cur sh.1 { st1 with ri := sh.2 })

/-- Initial DFS state for a given start. -/
def dfsInit (s : Coord) : DFSState :=
  ⟨[s], [s], [s], [(s, none)], [s], [], 0⟩

/-- The guard-failure DFS state. -/
def dfsEmpty : DFSState := ⟨[], [], [], [], [], [], 0⟩

/-- findPathDFS: guard, then run. -/
def findPathDFS (g : Grid) (s e : Coord) (rng : Rng) (fuel : Nat) :
    Option (DFSState × Option (List Coord)) :=
  if validPoint g s && validPoint g e then dfsRun g e rng fuel (dfsInit s)
  else some (dfsEmpty, none)

/-- The externally returned value of findPathDFS. -/
def dfsResult (g : Grid) (s e : Coord) (rng : Rng) (fuel : Nat) : Option SearchResult :=
  (findPathDFS g s e rng fuel).map (fun p => ⟨p.2, p.1.visitedOrder⟩)

/-! ## A-star search (findPathAStar)

The source keeps the open set as a plain array, re-sorted by f at each
iteration with a stable sort and consumed from the front.  A stable
insertion sort over the insertion-ordered list reproduces that behaviour
exactly, because the result of a stable sort is unique. -/

/-- Manhattan distance, the heuristic of both A-star and Greedy. -/
def manhattan (a b : Coord) : Int :=
  ((a.1 - b.1).natAbs : Int) + ((a.2 - b.2).natAbs : Int)

/-- One open-set element of A-star: f-cost, g-cost and position. -/
structure AEntry where
  f : Int
  g : Int
  pos : Coord
deriving DecidableEq, Repr

/-- Stable insertion of an entry into a list sorted by f. -/
def insertByF (x : AEntry) : List AEntry → List AEntry
  | [] => [x]
  | y :: ys => if x.f ≤ y.f then x :: y :: ys else y :: insertByF x ys

/-- Stable sort by f-cost. -/
def sortByF (l : List AEntry) : List AEntry := l.foldr insertByF []

/-- Lookup in the g-cost map (an association list with shadowing writes). -/
def gLookup (m : List (Coord × Int)) (k : Coord) : Option Int :=
  (m.find? (fun kv => decide (kv.1 = k))).map Prod.snd

/-- Overwriting write into the g-cost map. -/
def gSet (m : List (Coord × Int)) (k : Coord) (v : Int) : List (Coord × Int) :=
  (k, v) :: m

/-- The working state of findPathAStar; settled is the ghost trace of cells
first popped and not skipped. -/
structure AStarState where
  openSet : List AEntry
  gCosts : List (Coord × Int)
  parent : List (Coord × Option Coord)
  visited : List Coord
  visitedOrder : List Coord
  settled : List Coord
deriving Repr

/-- In-place open-set adjustment of the source: if an entry for n exists
with a worse g, overwrite its f and g at its position, else append a fresh
entry at the back. -/
def osUpdate (os : List AEntry) (n : Coord) (nf tg : Int) : List AEntry :=
  match os.findIdx? (fun en => decide (en.pos = n)) with
  | some idx =>
    match os[idx]? with
    | some en => if tg < en.g then os.set idx ⟨nf, tg, n⟩ else os
    | none => os
  | none => os ++ [⟨nf, tg, n⟩]

/-- Relaxation of one neighbour of the current cell: on an unclosed or
improving route, rewrite g-cost and parent, then adjust the open set;
only those three components ever change. -/
def astarRelax (g : Grid) (e cur : Coord) (curG : Int) (visited : List Coord)
    (os : List AEntry) (gc : List (Coord × Int)) (pm : List (Coord × Option Coord))
    (d : Coord) : List AEntry × List (Coord × Int) × List (Coord × Option Coord) :=
  let n : Coord := (cur.1 + d.1, cur.2 + d.2)
  if openCell g n then
    let tg := curG + 1
    if n ∉ visited ∨ (∀ gv ∈ gLookup gc n, tg < gv) then
      (osUpdate os n (tg + manhattan n e) tg, gSet gc n tg, pmSet pm n (some cur))
    else (os, gc, pm)
  else (os, gc, pm)

/-- State-level wrapper of astarRelax. -/
def astarVisit (g : Grid) (e cur : Coord) (curG : Int) (st : AStarState) (d : Coord) :
    AStarState :=
  let t := astarRelax g e cur curG st.visited st.openSet st.gCosts st.parent d
  { st with openSet := t.1, gCosts := t.2.1, parent := t.2.2 }

/-- The A-star main loop: sort, shift, skip closed cells, settle, stop at
the end, otherwise relax the four neighbours. -/
def astarRun (g : Grid) (e : Coord) : Nat → AStarState → Option (AStarState × Option (List Coord))
  | 0, _ => none
  | fuel + 1, st =>
    match sortByF st.openSet with
    | [] => some (st, none)
    | cur :: rest =>
      if cur.pos ∈ st.visited then astarRun g e fuel { st with openSet := rest }
      else
        let st1 : AStarState :=
          { st with openSet := rest
                    visited := st.visited ++ [cur.pos]
                    visitedOrder := st.visitedOrder ++ [cur.pos]
                    settled := st.settled ++ [cur.pos] }
        if cur.pos = e then
          (rebuild st1.parent (st1.parent.length + 1) e []).map (fun p => (st1, some p))
        else
          astarRun g e fuel (moveDirs.foldl (astarVisit g e cur.pos cur.g) st1)

/-- Initial A-star state for a given start and end. -/
def astarInit (s e : Coord) : AStarState :=
  ⟨[⟨manhattan s e, 0, s⟩], [(s, 0)], [(s, none)], [], [], []⟩

/-- The guard-failure A-star state. -/
def astarEmpty : AStarState := ⟨[], [], [], [], [], []⟩

/-- findPathAStar: guard, then run. -/
def findPathAStar (g : Grid) (s e : Coord) (fuel : Nat) :
    Option (AStarState × Option (List Coord)) :=
  if validPoint g s && validPoint g e then astarRun g e fuel (astarInit s e)
  else some (astarEmpty, none)

/-- The externally returned value of findPathAStar. -/
def astarResult (g : Grid) (s e : Coord) (fuel : Nat) : Option SearchResult :=
  (findPathAStar g s e fuel).map (fun p => ⟨p.2, p.1.visitedOrder⟩)

/-! ## Greedy best-first search (findPathGreedy) -/

/-- One open-set element of Greedy: h-cost and position. -/
structure GEntry where
  h : Int
  pos : Coord
deriving DecidableEq, Repr

/-- Stable insertion of an entry into a list sorted by h. -/
def insertByH (x : GEntry) : List GEntry → List GEntry
  | [] => [x]
  | y :: ys => if x.h ≤ y.h then x :: y :: ys else y :: insertByH x ys

/-- Stable sort by h-cost. -/
def sortByH (l : List GEntry) : List GEntry := l.foldr insertByH []

/-- The working state of findPathGreedy; settled is the ghost settle trace
and firstParent the ghost map keeping only the first parent ever recorded
for each cell. -/
structure GreedyState where
  openSet : List GEntry
  parent : List (Coord × Option Coord)
  firstParent : List (Coord × Option Coord)
  visited : List Coord
  visitedOrder : List Coord
  settled : List Coord
deriving Repr

/-- Write into the ghost first-parent map only when the key is absent. -/
def fpSet (m : List (Coord × Option Coord)) (k : Coord) (v : Option Coord) :
    List (Coord × Option Coord) :=
  match pmLookup m k with
  | some _ => m
  | none => (k, v) :: m

/-- Neighbour scan of the current Greedy cell: every open unclosed
neighbour is pushed with its h-cost and its parent pointer rewritten to the
current cell. -/
def greedyVisit (g : Grid) (e cur : Coord) (st : GreedyState) (d : Coord) : GreedyState :=
  let n : Coord := (cur.1 + d.1, cur.2 + d.2)
  if openCell g n ∧ n ∉ st.visited then
    { st with openSet := st.openSet ++ [⟨manhattan n e, n⟩]
              parent := pmSet st.parent n (some cur)
              firstParent := fpSet st.firstParent n (some cur) }
  else st

/-- The Greedy main loop: sort by h, shift, skip closed cells, settle, stop
at the end, otherwise scan the four neighbours. -/
def greedyRun (g : Grid) (e : Coord) : Nat → GreedyState → Option (GreedyState × Option (List Coord))
  | 0, _ => none
  | fuel + 1, st =>
    match sortByH st.openSet with
    | [] => some (st, none)
    | cur :: rest =>
      if cur.pos ∈ st.visited then greedyRun g e fuel { st with openSet := rest }
      else
        let st1 : GreedyState :=
          { st with openSet := rest
                    visited := st.visited ++ [cur.pos]
                    visitedOrder := st.visitedOrder ++ [cur.pos]
                    settled := st.settled ++ [cur.pos] }
        if cur.pos = e then
          (rebuild st1.parent (st1.parent.length + 1) e []).map (fun p => (st1, some p))
        else
          greedyRun g e fuel (moveDirs.foldl (greedyVisit g e cur.pos) st1)

/-- Initial Greedy state for a given start and end. -/
def greedyInit (s e : Coord) : GreedyState :=
  ⟨[⟨manhattan s e, s⟩], [(s, none)], [(s, none)], [], [], []⟩

/-- The guard-failure Greedy state. -/
def greedyEmpty : GreedyState := ⟨[], [], [], [], [], []⟩

/-- findPathGreedy: guard, then run. -/
def findPathGreedy (g : Grid) (s e : Coord) (fuel : Nat) :
    Option (GreedyState × Option (List Coord)) :=
  if validPoint g s && validPoint g e then greedyRun g e fuel (greedyInit s e)
  else some (greedyEmpty, none)

/-- The externally returned value of findPathGreedy. -/
def greedyResult (g : Grid) (s e : Coord) (fuel : Nat) : Option SearchResult :=
  (findPathGreedy g s e fuel).map (fun p => ⟨p.2, p.1.visitedOrder⟩)

/-! ## Random mouse (findPathRandomMouse)

The source bounds the walk by maxSteps, incrementing the counter at every
loop entry, so the loop runs at most maxSteps iterations and the remaining
step budget is the structural recursion measure; no extra fuel is needed.
The path stack keeps its newest element at the list head. -/

/-- The working state of the random-mouse walk. -/
structure MouseState where
  pathStack : List Coord
  visited : List Coord
  visitedOrder : List Coord
  cur : Coord
  ri : Nat
deriving Repr

/-- Accumulation of one direction into the possible-moves and
unvisited-moves lists of the mouse. -/
def mouseMovesOne (g : Grid) (cur : Coord) (visited : List Coord) (d : Coord)
    (acc : List Coord × List Coord) : List Coord × List Coord :=
  let n : Coord := (cur.1 + d.1, cur.2 + d.2)
  if openCell g n then
    (n :: acc.1, if n ∉ visited then n :: acc.2 else acc.2)
  else acc

/-- The passable neighbours of the current cell, in declared direction
order, paired with the unvisited ones among them. -/
def mouseMoves (g : Grid) (st : MouseState) : List Coord × List Coord :=
  moveDirs.foldr (mouseMovesOne g st.cur st.visited) ([], [])

/-- One oracle-chosen element of a non-empty list. -/
def pickFrom (rng : Rng) (i : Nat) (l : List Coord) : Coord :=
  l.getD (draw rng i l.length) (0, 0)

/-- One iteration of the random-mouse loop body; none models the break
statements of the source (stuck with no move, or the unreachable empty
stack). -/
def mouseStep (g : Grid) (rng : Rng) (st : MouseState) : Option MouseState :=
  let mv := mouseMoves g st
  match mv.2 with
  | u :: us =>
    let n := pickFrom rng st.ri (u :: us)
    some { pathStack := n :: st.pathStack
           visited := st.visited ++ [n]
           visitedOrder := st.visitedOrder ++ [n]
           cur := n
           ri := st.ri + 1 }
  | [] =>
    if 1 < mv.1.length then
      let prev := st.pathStack[1]?
      let back := mv.1.filter (fun m => decide (¬ prev = some m))
      match back with
      | [] => none
      | b :: bs =>
        let n := pickFrom rng st.ri (b :: bs)
        some { st with pathStack := n :: st.pathStack, cur := n, ri := st.ri + 1 }
    else
      if mv.1.length = 1 ∧ 1 < st.pathStack.length then
        match st.pathStack with
        | _ :: p :: rest => some { st with pathStack := p :: rest, cur := p }
        | _ => none
      else none

/-- The random-mouse loop, recursing on the remaining step budget; the
state it stops in is inspected by the wrapper. -/
def mouseLoop (g : Grid) (e : Coord) (rng : Rng) : Nat → MouseState → MouseState
  | 0, st => st
  | rem + 1, st =>
    if st.cur = e then st
    else
      match mouseStep g rng st with
      | some st1 => mouseLoop g e rng rem st1
      | none => st

/-- findPathRandomMouse: guard, walk, then the end test on the stopping
state; the raw traversed stack (reversed into start-first order, as the
source array reads) is the returned path. -/
def findPathRandomMouse (g : Grid) (s e : Coord) (maxSteps : Nat) (rng : Rng) :
    MouseState × Option (List Coord) :=
  if validPoint g s && validPoint g e then
    let st := mouseLoop g e rng maxSteps ⟨[s], [s], [s], s, 0⟩
    if st.cur = e then (st, some st.pathStack.reverse) else (st, none)
  else (⟨[], [], [], s, 0⟩, none)

/-- The externally returned value of findPathRandomMouse. -/
def mouseResult (g : Grid) (s e : Coord) (maxSteps : Nat) (rng : Rng) : SearchResult :=
  let p := findPathRandomMouse g s e maxSteps rng
  ⟨p.2, p.1.visitedOrder⟩

/-! ## Maze generators

Every generator builds a grid of (2 * height + 1) by (2 * width + 1)
positions; logical cell (i, j) sits at grid position (2i+1, 2j+1).  After
its own algorithm, each forces the entrance (1, 0) and the exit
(gridHeight - 2, gridWidth - 1) open. -/

/-- The inclusive integer range from a to b. -/
def intRange (a b : Int) : List Int :=
  (List.range (b + 1 - a).toNat).map (fun (k : Nat) => a + (k : Int))

/-- All logical cells in row-major order, as the generator loops visit
them. -/
def cellList (h w : Nat) : List (Nat × Nat) :=
  (List.range h).flatMap (fun i => (List.range w).map (fun j => (i, j)))

/-- The four cell-to-cell offsets in grid coordinates (skipping walls), in
declared order: up, down, left, right. -/
def dirs2 : List Coord := [(-2, 0), (2, 0), (0, -2), (0, 2)]

/-- The interior-odd-cell test shared by the generators: strictly inside
the outer ring and both coordinates odd. -/
def isCellG (gh gw r c : Int) : Bool :=
  decide (0 < r) && decide (r < gh - 1) && decide (0 < c) && decide (c < gw - 1) &&
    decide (r % 2 = 1) && decide (c % 2 = 1)

/-! ### Binary Tree (generateBinaryTreeMaze) -/

/-- Carve one cell of the binary-tree maze and its upward or leftward
passage; the oracle is consulted only when both directions exist. -/
def binTreeCell (rng : Rng) (p : Grid × Nat) (cell : Nat × Nat) : Grid × Nat :=
  let r : Int := 2 * (cell.1 : Int) + 1
  let c : Int := 2 * (cell.2 : Int) + 1
  let g := p.1.set r c 0
  if 1 < r ∧ 1 < c then
    if draw rng p.2 2 = 0 then (g.set (r - 1) c 0, p.2 + 1)
    else (g.set r (c - 1) 0, p.2 + 1)
  else if 1 < r then (g.set (r - 1) c 0, p.2)
  else if 1 < c then (g.set r (c - 1) 0, p.2)
  else (g, p.2)

/-- generateBinaryTreeMaze: per-cell local carving, then entrance and
exit. -/
def generateBinaryTreeMaze (w h : Nat) (rng : Rng) : Grid :=
  let gh : Int := 2 * (h : Int) + 1
  let gw : Int := 2 * (w : Int) + 1
  let g0 := mkGrid gh gw 1
  let p := (cellList h w).foldl (binTreeCell rng) (g0, 0)
  (p.1.set 1 0 0).set (gh - 2) (gw - 1) 0

/-! ### Recursive Division (generateRecursiveDivisionMaze) -/

/-- Draw a horizontal wall across the chamber, sparing the passage
column. -/
def hWall (g : Grid) (wallRow passageCol c1 c2 : Int) : Grid :=
  (intRange c1 c2).foldl (fun g c => if c ≠ passageCol then g.set wallRow c 1 else g) g

/-- Draw a vertical wall across the chamber, sparing the passage row. -/
def vWall (g : Grid) (wallCol passageRow r1 r2 : Int) : Grid :=
  (intRange r1 r2).foldl (fun g r => if r ≠ passageRow then g.set r wallCol 1 else g) g

/-- The recursive chamber division of the source: stop when the chamber
spans fewer than five grid lines (fewer than three cells) on either axis,
else bisect along the longer axis (ties decided by the oracle) with a wall
holding one passage, and recurse into both halves. -/
def divide (rng : Rng) : Nat → Grid → Int → Int → Int → Int → Nat → Option (Grid × Nat)
  | 0, _, _, _, _, _, _ => none
  | fuel + 1, g, r1, c1, r2, c2, i =>
    if r2 - r1 < 4 ∨ c2 - c1 < 4 then some (g, i)
    else
      let dh : Bool × Nat :=
        if c2 - c1 < r2 - r1 then (true, i)
        else if r2 - r1 = c2 - c1 then (draw rng i 2 = 0, i + 1)
        else (false, i)
      if dh.1 then
        let wallRow := r1 + 1 + 2 * ((draw rng dh.2 ((r2 - r1) / 2).toNat : Nat) : Int)
        let passageCol := c1 + 2 * ((draw rng (dh.2 + 1) (((c2 - c1) / 2).toNat + 1) : Nat) : Int)
        match divide rng fuel (hWall g wallRow passageCol c1 c2) r1 c1 (wallRow - 1) c2 (dh.2 + 2) with
        | none => none
        | some (g2, i2) => divide rng fuel g2 (wallRow + 1) c1 r2 c2 i2
      else
        let wallCol := c1 + 1 + 2 * ((draw rng dh.2 ((c2 - c1) / 2).toNat : Nat) : Int)
        let passageRow := r1 + 2 * ((draw rng (dh.2 + 1) (((r2 - r1) / 2).toNat + 1) : Nat) : Int)
        match divide rng fuel (vWall g wallCol passageRow r1 r2) r1 c1 r2 (wallCol - 1) (dh.2 + 2) with
        | none => none
        | some (g2, i2) => divide rng fuel g2 r1 (wallCol + 1) r2 c2 i2

/-- generateRecursiveDivisionMaze: open grid, outer walls, division of the
inner rectangle, then entrance and exit. -/
def generateRecursiveDivisionMaze (w h : Nat) (rng : Rng) : Option Grid :=
  let gh : Int := 2 * (h : Int) + 1
  let gw : Int := 2 * (w : Int) + 1
  let g0 := mkGrid gh gw 0
  let g1 := (intRange 0 (gh - 1)).foldl (fun g r => (g.set r 0 1).set r (gw - 1) 1) g0
  let g2 := (intRange 0 (gw - 1)).foldl (fun g c => (g.set 0 c 1).set (gh - 1) c 1) g1
  (divide rng (w + h + 2) g2 1 1 (gh - 2) (gw - 2) 0).map
    (fun p => (p.1.set 1 0 0).set (gh - 2) (gw - 1) 0)

/-! ### Randomized Prim (generatePrimsMaze) -/

/-- The cells flanking a wall position, scanned in declared direction
order (the source stops after finding two). -/
def primAdj (gh gw wr wc : Int) : List Coord :=
  moveDirs.filterMap (fun d =>
    let cr := wr + d.1
    let cc := wc + d.2
    if isCellG gh gw cr cc then some (cr, cc) else none)

/-- Push the walls around a just-carved cell onto the frontier list,
skipping positions outside the inner area, already-carved positions, and
duplicates. -/
def primPushWalls (gh gw : Int) (mz : Grid) (r c : Int) (walls : List Coord) : List Coord :=
  moveDirs.foldl (fun ws d =>
    let nw : Coord := (r + d.1, c + d.2)
    if 0 < nw.1 ∧ nw.1 < gh - 1 ∧ 0 < nw.2 ∧ nw.2 < gw - 1 ∧ mz.val nw.1 nw.2 = 1 ∧ nw ∉ ws
    then ws ++ [nw] else ws) walls

/-- The Prim frontier loop: pick a random wall, carve it iff exactly one
flanking cell is already carved, and push the new frontier walls. -/
def primLoop (gh gw : Int) (rng : Rng) : Nat → Grid → List Coord → Nat → Option (Grid × Nat)
  | 0, _, _, _ => none
  | fuel + 1, mz, walls, i =>
    match walls with
    | [] => some (mz, i)
    | _ :: _ =>
      match extractNth walls (draw rng i walls.length) with
      | none => none
      | some (wall, walls1) =>
        match primAdj gh gw wall.1 wall.2 with
        | c1 :: c2 :: _ =>
          if mz.val c1.1 c1.2 = 0 ∧ mz.val c2.1 c2.2 = 1 then
            let mz1 := (mz.set wall.1 wall.2 0).set c2.1 c2.2 0
            primLoop gh gw rng fuel mz1 (primPushWalls gh gw mz1 c2.1 c2.2 walls1) (i + 1)
          else if mz.val c1.1 c1.2 = 1 ∧ mz.val c2.1 c2.2 = 0 then
            let mz1 := (mz.set wall.1 wall.2 0).set c1.1 c1.2 0
            primLoop gh gw rng fuel mz1 (primPushWalls gh gw mz1 c1.1 c1.2 walls1) (i + 1)
          else primLoop gh gw rng fuel mz walls1 (i + 1)
        | _ => primLoop gh gw rng fuel mz walls1 (i + 1)

/-- generatePrimsMaze: random start cell, frontier-wall growth, then
entrance and exit. -/
def generatePrimsMaze (w h : Nat) (rng : Rng) : Option Grid :=
  let gh : Int := 2 * (h : Int) + 1
  let gw : Int := 2 * (w : Int) + 1
  let sr : Int := 2 * ((draw rng 0 h : Nat) : Int) + 1
  let sc : Int := 2 * ((draw rng 1 w : Nat) : Int) + 1
  let mz0 := (mkGrid gh gw 1).set sr sc 0
  let walls0 := primPushWalls gh gw mz0 sr sc []
  (primLoop gh gw rng (5 * w * h + 10) mz0 walls0 2).map
    (fun p => (p.1.set 1 0 0).set (gh - 2) (gw - 1) 0)

/-! ### Recursive Backtracker (generateRecursiveBacktrackerMaze) -/

/-- The depth-first carving of the backtracker: carve the entered cell,
then try the four directions in oracle-shuffled order, tunnelling through
the wall and recursing whenever the neighbour cell is still solid. -/
def carveGo (gh gw : Int) (rng : Rng) : Nat → Grid → Int → Int → Nat → Option (Grid × Nat)
  | 0, _, _, _, _ => none
  | fuel + 1, mz, r, c, i0 =>
    let mz0 := mz.set r c 0
    let sh := shuffleList rng dirs2 i0
    match sh.1 with
    | [d1, d2, d3, d4] =>
      let t1 : Option (Grid × Nat) :=
        if isCellG gh gw (r + d1.1) (c + d1.2) ∧ mz0.val (r + d1.1) (c + d1.2) = 1 then
          carveGo gh gw rng fuel (mz0.set (r + d1.1 / 2) (c + d1.2 / 2) 0) (r + d1.1) (c + d1.2) sh.2
        else some (mz0, sh.2)
      match t1 with
      | none => none
      | some (mz1, i1) =>
        let t2 : Option (Grid × Nat) :=
          if isCellG gh gw (r + d2.1) (c + d2.2) ∧ mz1.val (r + d2.1) (c + d2.2) = 1 then
            carveGo gh gw rng fuel (mz1.set (r + d2.1 / 2) (c + d2.2 / 2) 0) (r + d2.1) (c + d2.2) i1
          else some (mz1, i1)
        match t2 with
        | none => none
        | some (mz2, i2) =>
          let t3 : Option (Grid × Nat) :=
            if isCellG gh gw (r + d3.1) (c + d3.2) ∧ mz2.val (r + d3.1) (c + d3.2) = 1 then
              carveGo gh gw rng fuel (mz2.set (r + d3.1 / 2) (c + d3.2 / 2) 0) (r + d3.1) (c + d3.2) i2
            else some (mz2, i2)
          match t3 with
          | none => none
          | some (mz3, i3) =>
            if isCellG gh gw (r + d4.1) (c + d4.2) ∧ mz3.val (r + d4.1) (c + d4.2) = 1 then
              carveGo gh gw rng fuel (mz3.set (r + d4.1 / 2) (c + d4.2 / 2) 0) (r + d4.1) (c + d4.2) i3
            else some (mz3, i3)
    | _ => none

/-- generateRecursiveBacktrackerMaze: depth-first carving from a random
cell, then entrance and exit. -/
def generateRecursiveBacktrackerMaze (w h : Nat) (rng : Rng) : Option Grid :=
  let gh : Int := 2 * (h : Int) + 1
  let gw : Int := 2 * (w : Int) + 1
  let sr : Int := 2 * ((draw rng 0 h : Nat) : Int) + 1
  let sc : Int := 2 * ((draw rng 1 w : Nat) : Int) + 1
  (carveGo gh gw rng (w * h + 1) (mkGrid gh gw 1) sr sc 2).map
    (fun p => (p.1.set 1 0 0).set (gh - 2) (gw - 1) 0)

/-! ### Growing Tree (generateGrowingTreeMaze) -/

/-- The cell-selection policy of the growing tree. -/
inductive GTMethod where
  | newest
  | oldest
  | random
deriving DecidableEq, Repr

/-- The unvisited in-bounds neighbours of a cell, in declared direction
order; cells are in cell coordinates here. -/
def gtUnvisited (w h : Nat) (vis : List Coord) (cell : Coord) : List Coord :=
  moveDirs.filterMap (fun d =>
    let n : Coord := (cell.1 + d.1, cell.2 + d.2)
    if (0 ≤ n.1 ∧ n.1 < (h : Int) ∧ 0 ≤ n.2 ∧ n.2 < (w : Int)) ∧ n ∉ vis then some n
    else none)

/-- Index chosen from the active list under a policy: the last for newest,
the first for oldest, an oracle pick for random. -/
def gtIndex (method : GTMethod) (rng : Rng) (i len : Nat) : Nat :=
  match method with
  | .newest => len - 1
  | .oldest => 0
  | .random => draw rng i len

/-- The oracle index after the policy choice: random consumes one draw. -/
def gtNextI (method : GTMethod) (i : Nat) : Nat :=
  match method with
  | .random => i + 1
  | _ => i

/-- The growing-tree loop: pick an active cell per the policy; carve to a
random unvisited neighbour and push it, or retire the cell. -/
def gtLoop (w h : Nat) (rng : Rng) (method : GTMethod) :
    Nat → Grid → List Coord → List Coord → Nat → Option (Grid × Nat)
  | 0, _, _, _, _ => none
  | fuel + 1, mz, active, vis, i =>
    match active with
    | [] => some (mz, i)
    | _ :: _ =>
      let ci : Nat := gtIndex method rng i active.length
      let i1 : Nat := gtNextI method i
      let cell := active.getD ci (0, 0)
      match gtUnvisited w h vis cell with
      | [] => gtLoop w h rng method fuel mz (active.eraseIdx ci) vis i1
      | u :: us =>
        let nxt := pickFrom rng i1 (u :: us)
        let mz1 := (mz.set (((2 * cell.1 + 1) + (2 * nxt.1 + 1)) / 2)
          (((2 * cell.2 + 1) + (2 * nxt.2 + 1)) / 2) 0).set (2 * nxt.1 + 1) (2 * nxt.2 + 1) 0
        gtLoop w h rng method fuel mz1 (active ++ [nxt]) (vis ++ [nxt]) (i1 + 1)

/-- generateGrowingTreeMaze: one random seed cell, then policy-driven
growth, then entrance and exit. -/
def generateGrowingTreeMaze (w h : Nat) (rng : Rng) (method : GTMethod) : Option Grid :=
  let gh : Int := 2 * (h : Int) + 1
  let gw : Int := 2 * (w : Int) + 1
  let sr : Int := ((draw rng 0 h : Nat) : Int)
  let sc : Int := ((draw rng 1 w : Nat) : Int)
  let mz0 := (mkGrid gh gw 1).set (2 * sr + 1) (2 * sc + 1) 0
  (gtLoop w h rng method (2 * w * h + 2) mz0 [(sr, sc)] [(sr, sc)] 2).map
    (fun p => (p.1.set 1 0 0).set (gh - 2) (gw - 1) 0)

/-! ### Aldous-Broder (generateAldousBroderMaze) -/

/-- The Aldous-Broder random-walk loop: step in a random direction,
carving the wall and the stepped-to cell when it is new, until the visit
counter covers every cell. -/
def abLoop (w h : Nat) (gh gw : Int) (rng : Rng) :
    Nat → Grid → List Coord → Nat → Coord → Nat → Option Grid
  | 0, _, _, _, _, _ => none
  | fuel + 1, mz, vis, count, cur, i =>
    if count < w * h then
      let d := dirs2.getD (draw rng i 4) (0, 0)
      let nxt : Coord := (cur.1 + d.1, cur.2 + d.2)
      if isCellG gh gw nxt.1 nxt.2 then
        let cellNext : Coord := ((nxt.1 - 1) / 2, (nxt.2 - 1) / 2)
        if cellNext ∉ vis then
          let mz1 := (mz.set ((cur.1 + nxt.1) / 2) ((cur.2 + nxt.2) / 2) 0).set nxt.1 nxt.2 0
          abLoop w h gh gw rng fuel mz1 (vis ++ [cellNext]) (count + 1) nxt (i + 1)
        else abLoop w h gh gw rng fuel mz vis count nxt (i + 1)
      else abLoop w h gh gw rng fuel mz vis count cur (i + 1)
    else some mz

/-- generateAldousBroderMaze: random seed cell, walk until cover, then
entrance and exit; the fuel bounds the walk length. -/
def generateAldousBroderMaze (w h : Nat) (rng : Rng) (fuel : Nat) : Option Grid :=
  let gh : Int := 2 * (h : Int) + 1
  let gw : Int := 2 * (w : Int) + 1
  let sr : Int := ((draw rng 0 h : Nat) : Int)
  let sc : Int := ((draw rng 1 w : Nat) : Int)
  let mz0 := (mkGrid gh gw 1).set (2 * sr + 1) (2 * sc + 1) 0
  (abLoop w h gh gw rng fuel mz0 [(sr, sc)] 1 (2 * sr + 1, 2 * sc + 1) 2).map
    (fun g => (g.set 1 0 0).set (gh - 2) (gw - 1) 0)

/-! ### Wilson (generateWilsonsMaze) -/

/-- Append a coordinate to a list unless already present (set add). -/
def addUnique (l : List Coord) (x : Coord) : List Coord :=
  if x ∈ l then l else l ++ [x]

/-- Repeatedly draw random cells until one outside the carved set appears;
coordinates returned in grid coordinates. -/
def wilsonPick (w h : Nat) (rng : Rng) : Nat → List Coord → Nat → Option (Coord × Nat)
  | 0, _, _ => none
  | fuel + 1, vis, i =>
    let gpos : Coord := (2 * ((draw rng i h : Nat) : Int) + 1, 2 * ((draw rng (i + 1) w : Nat) : Int) + 1)
    if gpos ∈ vis then wilsonPick w h rng fuel vis (i + 2) else some (gpos, i + 2)

/-- The loop-erased random walk of Wilson: wander between cells, truncate
the walk upon revisiting a cell of the current path, stop upon reaching
the carved set. -/
def wilsonWalk (gh gw : Int) (rng : Rng) (vis : List Coord) :
    Nat → List Coord → List Coord → Coord → Nat → Option (List Coord × Nat)
  | 0, _, _, _, _ => none
  | fuel + 1, path, pv, cur, i =>
    if cur ∈ vis then some (path, i)
    else
      let d := dirs2.getD (draw rng i 4) (0, 0)
      let nxt : Coord := (cur.1 + d.1, cur.2 + d.2)
      if isCellG gh gw nxt.1 nxt.2 then
        if nxt ∈ pv then
          match path.findIdx? (fun p => decide (p = nxt)) with
          | none => none
          | some idx =>
            let dropped := path.drop (idx + 1)
            wilsonWalk gh gw rng vis fuel (path.take (idx + 1))
              (pv.filter (fun x => x ∉ dropped)) nxt (i + 1)
        else wilsonWalk gh gw rng vis fuel (path ++ [nxt]) (pv ++ [nxt]) nxt (i + 1)
      else wilsonWalk gh gw rng vis fuel path pv cur (i + 1)

/-- Carve a finished walk into the maze: each cell, and the wall between
each consecutive pair, with every cell joining the carved set. -/
def wilsonCarve : Grid → List Coord → List Coord → Option Coord → Grid × List Coord
  | mz, vis, [], _ => (mz, vis)
  | mz, vis, p :: rest, prev =>
    let mz1 := mz.set p.1 p.2 0
    let mz2 :=
      match prev with
      | none => mz1
      | some q => mz1.set ((p.1 + q.1) / 2) ((p.2 + q.2) / 2) 0
    wilsonCarve mz2 (addUnique vis p) rest (some p)

/-- The outer Wilson loop: while uncarved cells remain, walk from a fresh
uncarved cell and carve the loop-erased path. -/
def wilsonOuter (w h : Nat) (gh gw : Int) (rng : Rng) (walkFuel : Nat) :
    Nat → Grid → List Coord → Nat → Option Grid
  | 0, _, _, _ => none
  | fuel + 1, mz, vis, i =>
    if vis.length < w * h then
      match wilsonPick w h rng walkFuel vis i with
      | none => none
      | some (start, i1) =>
        match wilsonWalk gh gw rng vis walkFuel [start] [start] start i1 with
        | none => none
        | some (path, i2) =>
          let cv := wilsonCarve mz vis path none
          wilsonOuter w h gh gw rng walkFuel fuel cv.1 cv.2 i2
    else some mz

/-- generateWilsonsMaze: one random carved seed, then loop-erased walks
until cover, then entrance and exit; the fuel bounds each walk and the
rejection sampling of fresh cells. -/
def generateWilsonsMaze (w h : Nat) (rng : Rng) (fuel : Nat) : Option Grid :=
  let gh : Int := 2 * (h : Int) + 1
  let gw : Int := 2 * (w : Int) + 1
  let sp : Coord := (2 * ((draw rng 0 h : Nat) : Int) + 1, 2 * ((draw rng 1 w : Nat) : Int) + 1)
  let mz0 := (mkGrid gh gw 1).set sp.1 sp.2 0
  (wilsonOuter w h gh gw rng fuel (w * h + 1) mz0 [sp] 2).map
    (fun g => (g.set 1 0 0).set (gh - 2) (gw - 1) 0)

/-! ### Randomized Kruskal (generateKruskalsMaze) -/

/-- An internal wall of the Kruskal generator: its grid position and the
two flanking cells in cell coordinates. -/
structure KWall where
  r : Int
  c : Int
  a : Nat × Nat
  b : Nat × Nat
deriving DecidableEq, Repr

/-- All internal walls, horizontal (between column-adjacent cells) first,
then vertical, as the source builds them. -/
def kruskalWalls (w h : Nat) : List KWall :=
  ((List.range h).flatMap (fun (r : Nat) => (List.range (w - 1)).map (fun (c : Nat) =>
    (⟨2 * (r : Int) + 1, 2 * (c : Int) + 2, (r, c), (r, c + 1)⟩ : KWall)))) ++
  ((List.range (h - 1)).flatMap (fun (r : Nat) => (List.range w).map (fun (c : Nat) =>
    (⟨2 * (r : Int) + 2, 2 * (c : Int) + 1, (r, c), (r + 1, c)⟩ : KWall))))

/-- Root lookup with path compression, the parent array modelled as a
function updated pointwise; fuel bounds the pointer chain. -/
def findSet (parent : Nat → Nat) : Nat → Nat → Option (Nat × (Nat → Nat))
  | 0, _ => none
  | fuel + 1, i =>
    if parent i = i then some (i, parent)
    else
      match findSet parent fuel (parent i) with
      | none => none
      | some (r, p1) => some (r, fun j => if j = i then r else p1 j)

/-- Union by rank of the sets of two elements, re-resolving both roots as
the source does. -/
def unionSets (parent : Nat → Nat) (rank : Nat → Nat) (fuel i j : Nat) :
    Option ((Nat → Nat) × (Nat → Nat)) :=
  match findSet parent fuel i with
  | none => none
  | some (ri, p1) =>
    match findSet p1 fuel j with
    | none => none
    | some (rj, p2) =>
      if ri ≠ rj then
        if rank ri < rank rj then some (fun k => if k = ri then rj else p2 k, rank)
        else if rank rj < rank ri then some (fun k => if k = rj then ri else p2 k, rank)
        else some (fun k => if k = rj then ri else p2 k,
          fun k => if k = ri then rank ri + 1 else rank k)
      else some (p2, rank)

/-- The Kruskal wall scan: carve a wall and merge whenever its flanking
cells lie in different components. -/
def kruskalProcess (w : Nat) (fuel : Nat) :
    List KWall → Grid → (Nat → Nat) → (Nat → Nat) → Option Grid
  | [], g, _, _ => some g
  | wall :: rest, g, parent, rank =>
    let i1 := wall.a.1 * w + wall.a.2
    let i2 := wall.b.1 * w + wall.b.2
    match findSet parent fuel i1 with
    | none => none
    | some (r1, p1) =>
      match findSet p1 fuel i2 with
      | none => none
      | some (r2, p2) =>
        if r1 ≠ r2 then
          match unionSets p2 rank fuel i1 i2 with
          | none => none
          | some (p3, rk3) => kruskalProcess w fuel rest (g.set wall.r wall.c 0) p3 rk3
        else kruskalProcess w fuel rest g p2 rank

/-- generateKruskalsMaze: carve all cells, shuffle the walls, scan them
with the union-find, then entrance and exit. -/
def generateKruskalsMaze (w h : Nat) (rng : Rng) : Option Grid :=
  let gh : Int := 2 * (h : Int) + 1
  let gw : Int := 2 * (w : Int) + 1
  let g0 := mkGrid gh gw 1
  let g1 := (cellList h w).foldl
    (fun g p => g.set (2 * (p.1 : Int) + 1) (2 * (p.2 : Int) + 1) 0) g0
  let sh := shuffleList rng (kruskalWalls w h) 0
  (kruskalProcess w (w * h + 1) sh.1 g1 (fun i => i) (fun _ => 0)).map
    (fun g => (g.set 1 0 0).set (gh - 2) (gw - 1) 0)

/-! ## Observation helpers on generated grids -/

/-- All interior positions (strictly inside the outer ring) of a maze of
the given logical size: rows 1 to 2h-1 and columns 1 to 2w-1. -/
def interiorList (w h : Nat) : List Coord :=
  (intRange 1 (2 * (h : Int) - 1)).flatMap
    (fun r => (intRange 1 (2 * (w : Int) - 1)).map (fun c => (r, c)))

/-- The number of interior positions holding a wall. -/
def interiorWallCount (w h : Nat) (g : Grid) : Nat :=
  (interiorList w h).countP (fun p => decide (g.val p.1 p.2 = 1))

/-- Membership of a position in a closed rectangle of grid positions. -/
def inRect (p : Coord) (r1 c1 r2 c2 : Int) : Prop :=
  r1 ≤ p.1 ∧ p.1 ≤ r2 ∧ c1 ≤ p.2 ∧ p.2 ≤ c2

/-- Membership of a position on the outermost ring of a maze of the given
logical size. -/
def onRing (w h : Nat) (p : Coord) : Prop :=
  (0 ≤ p.1 ∧ p.1 ≤ 2 * (h : Int) ∧ 0 ≤ p.2 ∧ p.2 ≤ 2 * (w : Int)) ∧
  (p.1 = 0 ∨ p.1 = 2 * (h : Int) ∨ p.2 = 0 ∨ p.2 = 2 * (w : Int))

/-- The entrance-and-exit invariant of the spec: the outermost ring is all
wall except the entrance (1, 0) and the exit (gridHeight - 2,
gridWidth - 1), which are path. -/
def ringSpec (w h : Nat) (g : Grid) : Prop :=
  ∀ p : Coord, onRing w h p →
    g.val p.1 p.2 =
      if p = ((1 : Int), (0 : Int)) ∨ p = (2 * (h : Int) - 1, 2 * (w : Int)) then 0 else 1

/-- The spec claim that recursive division splits every chamber having at
least two cells along both axes; in particular any maze of width and
height at least two keeps at least one interior wall. -/
def divisionSplitClaim : Prop :=
  ∀ (w h : Nat) (rng : Rng) (g : Grid), 2 ≤ w → 2 ≤ h →
    generateRecursiveDivisionMaze w h rng = some g → 1 ≤ interiorWallCount w h g

/-- The invariant tying the visited trace to the visited set: the trace has
no duplicate and only holds cells already in the set. -/
def traceInv (vo visited : List Coord) : Prop :=
  vo.Nodup ∧ ∀ c ∈ vo, c ∈ visited

/-- The spec claim that BFS, DFS, A-star and Greedy all append to the
visited trace exactly when a cell is first settled (popped as current) and
never on mere enqueue: formally, the returned trace equals the ghost settle
trace for each of the four. -/
def visitedAtSettleClaim : Prop :=
  (∀ (g : Grid) (s e : Coord) (fuel : Nat) out,
    findPathBFS g s e fuel = some out → out.1.visitedOrder = out.1.settled) ∧
  (∀ (g : Grid) (s e : Coord) (rng : Rng) (fuel : Nat) out,
    findPathDFS g s e rng fuel = some out → out.1.visitedOrder = out.1.settled) ∧
  (∀ (g : Grid) (s e : Coord) (fuel : Nat) out,
    findPathAStar g s e fuel = some out → out.1.visitedOrder = out.1.settled) ∧
  (∀ (g : Grid) (s e : Coord) (fuel : Nat) out,
    findPathGreedy g s e fuel = some out → out.1.visitedOrder = out.1.settled)

/-- The spec claim that Greedy keeps the first-discovered parent of every
cell permanently: formally, the final parent map agrees with the ghost
first-parent map everywhere. -/
def greedyFirstParentClaim : Prop :=
  ∀ (g : Grid) (s e : Coord) (fuel : Nat) out,
    findPathGreedy g s e fuel = some out →
    ∀ c, pmLookup out.1.parent c = pmLookup out.1.firstParent c

/-- The spec claim that the random mouse with a budget of one step returns
a null path whenever start and end differ. -/
def mouseOneStepClaim : Prop :=
  ∀ (g : Grid) (s e : Coord) (rng : Rng),
    validPoint g s = true → validPoint g e = true → s ≠ e →
    (findPathRandomMouse g s e 1 rng).2 = none

/-! ## Spanning-tree observations on generated grids -/

/-- The grid position of a logical cell: both coordinates odd. -/
def cellPos (p : Nat × Nat) : Coord := (2 * (p.1 : Int) + 1, 2 * (p.2 : Int) + 1)

/-- The grid positions of all logical cells of a w-by-h maze. -/
def cellPosList (w h : Nat) : List Coord := (cellList h w).map cellPos

/-- The number of positions of a list holding a carved (path) value. -/
def countOpen (l : List Coord) (g : Grid) : Nat :=
  l.countP (fun p => decide (g.val p.1 p.2 = 0))

/-- The number of open logical-cell positions. -/
def openCellCount (w h : Nat) (g : Grid) : Nat := countOpen (cellPosList w h) g

/-- The interior positions separating two orthogonally adjacent cells:
one coordinate odd, the other even, strictly inside the ring. -/
def passageList (w h : Nat) : List Coord :=
  ((cellList h (w - 1)).map (fun p => ((2 * (p.1 : Int) + 1, 2 * (p.2 : Int) + 2) : Coord))) ++
  ((cellList (h - 1) w).map (fun p => ((2 * (p.1 : Int) + 2, 2 * (p.2 : Int) + 1) : Coord)))

/-- The number of carved internal passage positions. -/
def passageCount (w h : Nat) (g : Grid) : Nat := countOpen (passageList w h) g

/-- One four-directional move between two carved grid positions. -/
def stepAdj (g : Grid) (p q : Coord) : Prop :=
  g.val p.1 p.2 = 0 ∧ g.val q.1 q.2 = 0 ∧ (q.1 - p.1, q.2 - p.2) ∈ moveDirs

/-- Reachability by four-directional moves through carved positions. -/
def connectedIn (g : Grid) (p q : Coord) : Prop :=
  Relation.ReflTransGen (stepAdj g) p q

/-- The perfect-maze property of the spec: every logical cell is carved
(hence exactly w*h open cell positions), exactly w*h - 1 internal passage
positions are carved, and every two cell positions are joined through
carved positions. -/
def perfectMaze (w h : Nat) (g : Grid) : Prop :=
  (∀ p ∈ cellPosList w h, g.val p.1 p.2 = 0) ∧
  openCellCount w h g = w * h ∧
  passageCount w h g = w * h - 1 ∧
  ∀ p ∈ cellPosList w h, ∀ q ∈ cellPosList w h, connectedIn g p q

/-- Invariant of the binary-tree fold after the first n cells in row-major
order: processed cells are carved, later cells and their upward and
leftward walls are intact, the open counts match, and every processed cell
reaches the first cell. -/
def btInv (w h n : Nat) (g : Grid) : Prop :=
  (∀ a b : Nat, a < h → b < w → a * w + b < n →
    g.val (2 * (a : Int) + 1) (2 * (b : Int) + 1) = 0) ∧
  (∀ a b : Nat, a < h → b < w → n ≤ a * w + b →
    g.val (2 * (a : Int) + 1) (2 * (b : Int) + 1) = 1 ∧
    g.val (2 * (a : Int)) (2 * (b : Int) + 1) = 1 ∧
    g.val (2 * (a : Int) + 1) (2 * (b : Int)) = 1) ∧
  openCellCount w h g = n ∧
  passageCount w h g = n - 1 ∧
  (∀ a b : Nat, a < h → b < w → a * w + b < n →
    connectedIn g (2 * (a : Int) + 1, 2 * (b : Int) + 1) ((1 : Int), (1 : Int)))

/-- Invariant of the growth generators (Aldous-Broder and growing tree),
with the visited list holding logical cells as integer pairs: the visited
list is duplicate-free and in bounds, a cell position is carved exactly
when its cell is visited, a carved passage joins two visited cells, the
open counts match the visited count, and every visited cell reaches the
anchor position. -/
def growInv (w h : Nat) (s : Coord) (g : Grid) (vis : List Coord) : Prop :=
  vis.Nodup ∧
  (∀ p ∈ vis, ∃ a b : Nat, a < h ∧ b < w ∧ p = ((a : Int), (b : Int))) ∧
  (∀ a b : Nat, a < h → b < w →
    (g.val (2 * (a : Int) + 1) (2 * (b : Int) + 1) = 0 ↔ ((a : Int), (b : Int)) ∈ vis)) ∧
  (∀ a b : Nat, a + 1 < h → b < w → g.val (2 * (a : Int) + 2) (2 * (b : Int) + 1) = 0 →
    ((a : Int), (b : Int)) ∈ vis ∧ ((a : Int) + 1, (b : Int)) ∈ vis) ∧
  (∀ a b : Nat, a < h → b + 1 < w → g.val (2 * (a : Int) + 1) (2 * (b : Int) + 2) = 0 →
    ((a : Int), (b : Int)) ∈ vis ∧ ((a : Int), (b : Int) + 1) ∈ vis) ∧
  openCellCount w h g = vis.length ∧
  passageCount w h g = vis.length - 1 ∧
  (∀ p ∈ vis, connectedIn g (2 * p.1 + 1, 2 * p.2 + 1) s)

/-- Invariant of the Prim frontier loop: values are binary, the frontier
holds distinct uncarved internal wall positions, a carved wall joins two
carved cells, the counts are tied, every carved cell reaches the seed,
every wall between a carved and an uncarved cell is on the frontier, and
the seed cell is carved. -/
def primInv (w h : Nat) (s : Coord) (g : Grid) (walls : List Coord) : Prop :=
  (∀ r c : Int, g.val r c = 0 ∨ g.val r c = 1) ∧
  (∀ m ∈ walls, m ∈ passageList w h) ∧
  (∀ m ∈ walls, g.val m.1 m.2 = 1) ∧
  walls.Nodup ∧
  (∀ a b : Nat, a < h → b + 1 < w → g.val (2 * (a : Int) + 1) (2 * (b : Int) + 2) = 0 →
    g.val (2 * (a : Int) + 1) (2 * (b : Int) + 1) = 0 ∧
    g.val (2 * (a : Int) + 1) (2 * (b : Int) + 3) = 0) ∧
  (∀ a b : Nat, a + 1 < h → b < w → g.val (2 * (a : Int) + 2) (2 * (b : Int) + 1) = 0 →
    g.val (2 * (a : Int) + 1) (2 * (b : Int) + 1) = 0 ∧
    g.val (2 * (a : Int) + 3) (2 * (b : Int) + 1) = 0) ∧
  openCellCount w h g = passageCount w h g + 1 ∧
  (∀ a b : Nat, a < h → b < w → g.val (2 * (a : Int) + 1) (2 * (b : Int) + 1) = 0 →
    connectedIn g (2 * (a : Int) + 1, 2 * (b : Int) + 1) s) ∧
  (∀ a b : Nat, a < h → b + 1 < w →
    ((g.val (2 * (a : Int) + 1) (2 * (b : Int) + 1) = 0 ∧
      g.val (2 * (a : Int) + 1) (2 * (b : Int) + 3) = 1) ∨
     (g.val (2 * (a : Int) + 1) (2 * (b : Int) + 1) = 1 ∧
      g.val (2 * (a : Int) + 1) (2 * (b : Int) + 3) = 0)) →
    ((2 * (a : Int) + 1, 2 * (b : Int) + 2) : Coord) ∈ walls) ∧
  (∀ a b : Nat, a + 1 < h → b < w →
    ((g.val (2 * (a : Int) + 1) (2 * (b : Int) + 1) = 0 ∧
      g.val (2 * (a : Int) + 3) (2 * (b : Int) + 1) = 1) ∨
     (g.val (2 * (a : Int) + 1) (2 * (b : Int) + 1) = 1 ∧
      g.val (2 * (a : Int) + 3) (2 * (b : Int) + 1) = 0)) →
    ((2 * (a : Int) + 2, 2 * (b : Int) + 1) : Coord) ∈ walls) ∧
  (∃ a0 b0 : Nat, a0 < h ∧ b0 < w ∧ s = (2 * (a0 : Int) + 1, 2 * (b0 : Int) + 1) ∧
    g.val s.1 s.2 = 0)

/-- Every in-bounds cell neighbour of the logical cell p is carved in g;
the closure property the depth-first backtracker guarantees on return. -/
def cellDone (w h : Nat) (g : Grid) (p : Coord) : Prop :=
  ∀ d ∈ moveDirs, 0 ≤ p.1 + d.1 → p.1 + d.1 < (h : Int) → 0 ≤ p.2 + d.2 →
    p.2 + d.2 < (w : Int) → g.val (2 * (p.1 + d.1) + 1) (2 * (p.2 + d.2) + 1) = 0

/-- Union-find abstraction: a ghost map ρ names the representative of
every element; parent steps stay inside the class, and representatives
are exactly the parent fixpoints. -/
def KUF (parent ρ : Nat → Nat) : Prop :=
  (∀ i, ρ (parent i) = ρ i) ∧
  (∀ i, parent (ρ i) = ρ i) ∧
  (∀ i, parent i = i → ρ i = i)

/-- Invariant of the Kruskal wall scan: every cell is carved, the carved
passages and the component count sum to the cell count, and same-class
cells are joined in the grid. -/
def kruskalInv (w h : Nat) (g : Grid) (ρ : Nat → Nat) : Prop :=
  (∀ a b : Nat, a < h → b < w → g.val (2 * (a : Int) + 1) (2 * (b : Int) + 1) = 0) ∧
  passageCount w h g + (Finset.image ρ (Finset.range (h * w))).card = h * w ∧
  (∀ a b a' b' : Nat, a < h → b < w → a' < h → b' < w →
    ρ (a * w + b) = ρ (a' * w + b') →
    connectedIn g (2 * (a : Int) + 1, 2 * (b : Int) + 1)
      (2 * (a' : Int) + 1, 2 * (b' : Int) + 1))

/-- Cell-to-cell adjacency of grid positions: one step of two in a single
axis, as the Wilson walk moves. -/
def adj2 (p q : Coord) : Prop := ((q.1 - p.1, q.2 - p.2) : Coord) ∈ dirs2

/-- Floating-chain invariant of the Wilson carve: tree cells cvis and the
partially carved walk chain are carved and duplicate-free, every open
wall lies within the tree or within the chain, the counts account for the
two components, tree cells reach the anchor, chain cells reach the cell
qc, the chain's newest. -/
def wchainInv (w h : Nat) (s : Coord) (g : Grid) (cvis chain : List Coord)
    (qc : Nat × Nat) : Prop :=
  (cvis ++ chain).Nodup ∧
  (∀ p ∈ cvis ++ chain, ∃ a b : Nat, a < h ∧ b < w ∧ p = ((a : Int), (b : Int))) ∧
  (∀ a b : Nat, a < h → b < w →
    (g.val (2 * (a : Int) + 1) (2 * (b : Int) + 1) = 0 ↔
      ((a : Int), (b : Int)) ∈ cvis ++ chain)) ∧
  (∀ a b : Nat, a + 1 < h → b < w → g.val (2 * (a : Int) + 2) (2 * (b : Int) + 1) = 0 →
    (((a : Int), (b : Int)) ∈ cvis ∧ ((a : Int) + 1, (b : Int)) ∈ cvis) ∨
    (((a : Int), (b : Int)) ∈ chain ∧ ((a : Int) + 1, (b : Int)) ∈ chain)) ∧
  (∀ a b : Nat, a < h → b + 1 < w → g.val (2 * (a : Int) + 1) (2 * (b : Int) + 2) = 0 →
    (((a : Int), (b : Int)) ∈ cvis ∧ ((a : Int), (b : Int) + 1) ∈ cvis) ∨
    (((a : Int), (b : Int)) ∈ chain ∧ ((a : Int), (b : Int) + 1) ∈ chain)) ∧
  openCellCount w h g = (cvis ++ chain).length ∧
  passageCount w h g + 2 = (cvis ++ chain).length ∧
  (∀ p ∈ cvis, connectedIn g (2 * p.1 + 1, 2 * p.2 + 1) s) ∧
  (((qc.1 : Nat) : Int), ((qc.2 : Nat) : Int)) ∈ chain ∧ qc.1 < h ∧ qc.2 < w ∧
  (∀ p ∈ chain, connectedIn g (2 * p.1 + 1, 2 * p.2 + 1)
    (2 * ((qc.1 : Nat) : Int) + 1, 2 * ((qc.2 : Nat) : Int) + 1))

/-! ## Theorems -/

@[simp] theorem Grid.set_rows (g : Grid) (r c : Int) (v : Nat) : (g.set r c v).rows = g.rows := rfl

@[simp] theorem Grid.set_cols (g : Grid) (r c : Int) (v : Nat) : (g.set r c v).cols = g.cols := rfl

theorem Grid.val_set (g : Grid) (r c : Int) (v : Nat) (r' c' : Int) :
    (g.set r c v).val r' c' = if r' = r ∧ c' = c then v else g.val r' c' := rfl

@[simp] theorem Grid.val_set_self (g : Grid) (r c : Int) (v : Nat) :
    (g.set r c v).val r c = v := by simp [Grid.set]

theorem Grid.val_set_other (g : Grid) (r c : Int) (v : Nat) (r' c' : Int)
    (h : ¬(r' = r ∧ c' = c)) : (g.set r c v).val r' c' = g.val r' c' := by
  simp [Grid.set, h]

/-- A property preserved by each fold step is preserved by the whole fold. -/
theorem foldl_pres {σ α : Type} (P : σ → Prop) (f : σ → α → σ)
    (hf : ∀ s a, P s → P (f s a)) : ∀ (l : List α) (s : σ), P s → P (l.foldl f s) := by
  intro l
  induction l with
  | nil => intro s h; simpa using h
  | cons a t ih => intro s h; exact ih (f s a) (hf s a h)

/-- Appending a cell that is outside the visited set keeps the trace
invariant, with the cell also entering the set. -/
theorem traceInv_append {vo visited : List Coord} {n : Coord}
    (h : traceInv vo visited) (hn : n ∉ visited) :
    traceInv (vo ++ [n]) (visited ++ [n]) := by
  refine ⟨?_, ?_⟩
  · have hnvo : n ∉ vo := fun hmem => hn (h.2 n hmem)
    simp [List.nodup_append, h.1, hnvo]
  · intro c hc
    rcases List.mem_append.1 hc with hc | hc
    · exact List.mem_append.2 (Or.inl (h.2 c hc))
    · exact List.mem_append.2 (Or.inr hc)

theorem bfsVisitOne_traceInv (g : Grid) (cur : Coord) (st : BFSState) (d : Coord)
    (h : traceInv st.visitedOrder st.visited) :
    traceInv (bfsVisitOne g cur st d).visitedOrder (bfsVisitOne g cur st d).visited := by
  unfold bfsVisitOne
  dsimp only
  split
  next hc => exact traceInv_append h hc.2
  next => exact h

theorem bfsRun_traceInv (g : Grid) (e : Coord) :
    ∀ (fuel : Nat) (st : BFSState) out, traceInv st.visitedOrder st.visited →
      bfsRun g e fuel st = some out → traceInv out.1.visitedOrder out.1.visited := by
  intro fuel
  induction fuel with
  | zero => intro st out _ h; simp [bfsRun] at h
  | succ f ih =>
    intro st out hinv hrun
    unfold bfsRun at hrun
    cases hq : st.queue with
    | nil => rw [hq] at hrun; cases hrun; exact hinv
    | cons cur rest =>
      rw [hq] at hrun
      dsimp only at hrun
      by_cases hce : cur = e
      · rw [if_pos hce] at hrun
        rcases Option.map_eq_some'.1 hrun with ⟨p, _, hp⟩
        rw [← hp]
        exact hinv
      · rw [if_neg hce] at hrun
        refine ih _ _ ?_ hrun
        unfold bfsVisit
        refine foldl_pres (fun st => traceInv st.visitedOrder st.visited)
          (bfsVisitOne g cur) (bfsVisitOne_traceInv g cur) moveDirs _ ?_
        exact hinv

theorem dfsVisitOne_traceInv (g : Grid) (cur : Coord) (st : DFSState) (d : Coord)
    (h : traceInv st.visitedOrder st.visited) :
    traceInv (dfsVisitOne g cur st d).visitedOrder (dfsVisitOne g cur st d).visited := by
  unfold dfsVisitOne
  dsimp only
  split
  next hc => exact traceInv_append h hc.2
  next => exact h

theorem dfsRun_traceInv (g : Grid) (e : Coord) (rng : Rng) :
    ∀ (fuel : Nat) (st : DFSState) out, traceInv st.visitedOrder st.visited →
      dfsRun g e rng fuel st = some out → traceInv out.1.visitedOrder out.1.visited := by
  intro fuel
  induction fuel with
  | zero => intro st out _ h; simp [dfsRun] at h
  | succ f ih =>
    intro st out hinv hrun
    unfold dfsRun at hrun
    cases hq : st.stack with
    | nil => rw [hq] at hrun; cases hrun; exact hinv
    | cons cur rest =>
      rw [hq] at hrun
      dsimp only at hrun
      by_cases hce : cur = e
      · rw [if_pos hce] at hrun
        rcases Option.map_eq_some'.1 hrun with ⟨p, _, hp⟩
        rw [← hp]
        exact hinv
      · rw [if_neg hce] at hrun
        refine ih _ _ ?_ hrun
        unfold dfsVisit
        refine foldl_pres (fun st => traceInv st.visitedOrder st.visited)
          (dfsVisitOne g cur) (dfsVisitOne_traceInv g cur) _ _ ?_
        exact hinv

theorem astarRun_traceInv (g : Grid) (e : Coord) :
    ∀ (fuel : Nat) (st : AStarState) out, traceInv st.visitedOrder st.visited →
      astarRun g e fuel st = some out → traceInv out.1.visitedOrder out.1.visited := by
  intro fuel
  induction fuel with
  | zero => intro st out _ h; simp [astarRun] at h
  | succ f ih =>
    intro st out hinv hrun
    unfold astarRun at hrun
    cases hq : sortByF st.openSet with
    | nil => rw [hq] at hrun; cases hrun; exact hinv
    | cons cur rest =>
      rw [hq] at hrun
      dsimp only at hrun
      by_cases hv : cur.pos ∈ st.visited
      · rw [if_pos hv] at hrun
        refine ih _ _ ?_ hrun
        exact hinv
      · rw [if_neg hv] at hrun
        have hinv1 := traceInv_append hinv hv
        by_cases hce : cur.pos = e
        · rw [if_pos hce] at hrun
          rcases Option.map_eq_some'.1 hrun with ⟨p, _, hp⟩
          rw [← hp]
          exact hinv1
        · rw [if_neg hce] at hrun
          refine ih _ _ ?_ hrun
          refine foldl_pres (fun st => traceInv st.visitedOrder st.visited)
            (astarVisit g e cur.pos cur.g) (fun st d h => ?_) moveDirs _ ?_
          · exact h
          · exact hinv1

theorem greedyVisit_visited (g : Grid) (e cur : Coord) (st : GreedyState) (d : Coord) :
    (greedyVisit g e cur st d).visited = st.visited ∧
    (greedyVisit g e cur st d).visitedOrder = st.visitedOrder := by
  unfold greedyVisit
  dsimp only
  split
  next => exact ⟨rfl, rfl⟩
  next => exact ⟨rfl, rfl⟩

theorem greedyRun_traceInv (g : Grid) (e : Coord) :
    ∀ (fuel : Nat) (st : GreedyState) out, traceInv st.visitedOrder st.visited →
      greedyRun g e fuel st = some out → traceInv out.1.visitedOrder out.1.visited := by
  intro fuel
  induction fuel with
  | zero => intro st out _ h; simp [greedyRun] at h
  | succ f ih =>
    intro st out hinv hrun
    unfold greedyRun at hrun
    cases hq : sortByH st.openSet with
    | nil => rw [hq] at hrun; cases hrun; exact hinv
    | cons cur rest =>
      rw [hq] at hrun
      dsimp only at hrun
      by_cases hv : cur.pos ∈ st.visited
      · rw [if_pos hv] at hrun
        refine ih _ _ ?_ hrun
        exact hinv
      · rw [if_neg hv] at hrun
        have hinv1 := traceInv_append hinv hv
        by_cases hce : cur.pos = e
        · rw [if_pos hce] at hrun
          rcases Option.map_eq_some'.1 hrun with ⟨p, _, hp⟩
          rw [← hp]
          exact hinv1
        · rw [if_neg hce] at hrun
          refine ih _ _ ?_ hrun
          refine foldl_pres (fun st => traceInv st.visitedOrder st.visited)
            (greedyVisit g e cur.pos) (fun st d h => ?_) moveDirs _ ?_
          · have hg := greedyVisit_visited g e cur.pos st d
            show traceInv (greedyVisit g e cur.pos st d).visitedOrder
              (greedyVisit g e cur.pos st d).visited
            rw [hg.1, hg.2]
            exact h
          · exact hinv1

/-- C9: for BFS, DFS, A-star and Greedy, no coordinate appears twice in the
returned visited trace, on every input, oracle, and fuel. -/
theorem visitedOrder_no_repeat (g : Grid) (s e : Coord) (rng : Rng) (fuel : Nat) :
    (∀ out, findPathBFS g s e fuel = some out → out.1.visitedOrder.Nodup) ∧
    (∀ out, findPathDFS g s e rng fuel = some out → out.1.visitedOrder.Nodup) ∧
    (∀ out, findPathAStar g s e fuel = some out → out.1.visitedOrder.Nodup) ∧
    (∀ out, findPathGreedy g s e fuel = some out → out.1.visitedOrder.Nodup) := by
  have hinitB : traceInv (bfsInit s).visitedOrder (bfsInit s).visited := by
    simp [bfsInit, traceInv]
  have hinitD : traceInv (dfsInit s).visitedOrder (dfsInit s).visited := by
    simp [dfsInit, traceInv]
  have hinitA : traceInv (astarInit s e).visitedOrder (astarInit s e).visited := by
    simp [astarInit, traceInv]
  have hinitG : traceInv (greedyInit s e).visitedOrder (greedyInit s e).visited := by
    simp [greedyInit, traceInv]
  refine ⟨fun out h => ?_, fun out h => ?_, fun out h => ?_, fun out h => ?_⟩
  · unfold findPathBFS at h
    split at h
    · exact (bfsRun_traceInv g e fuel _ out hinitB h).1
    · cases h; simp [bfsEmpty]
  · unfold findPathDFS at h
    split at h
    · exact (dfsRun_traceInv g e rng fuel _ out hinitD h).1
    · cases h; simp [dfsEmpty]
  · unfold findPathAStar at h
    split at h
    · exact (astarRun_traceInv g e fuel _ out hinitA h).1
    · cases h; simp [astarEmpty]
  · unfold findPathGreedy at h
    split at h
    · exact (greedyRun_traceInv g e fuel _ out hinitG h).1
    · cases h; simp [greedyEmpty]

/-- Witness for C9 on the fully open 3 by 3 grid. -/
theorem visitedOrder_no_repeat_witness :
    ((findPathBFS (mkGrid 3 3 0) (0, 0) (2, 2) 30).getD (bfsEmpty, none)).1.visitedOrder.Nodup ∧
    ((findPathDFS (mkGrid 3 3 0) (0, 0) (2, 2) (fun _ => 0) 30).getD
      (dfsEmpty, none)).1.visitedOrder.Nodup ∧
    ((findPathAStar (mkGrid 3 3 0) (0, 0) (2, 2) 30).getD (astarEmpty, none)).1.visitedOrder.Nodup ∧
    ((findPathGreedy (mkGrid 3 3 0) (0, 0) (2, 2) 30).getD
      (greedyEmpty, none)).1.visitedOrder.Nodup := by
  have h := visitedOrder_no_repeat (mkGrid 3 3 0) (0, 0) (2, 2) (fun _ => 0) 30
  exact ⟨h.1 _ rfl, h.2.1 _ rfl, h.2.2.1 _ rfl, h.2.2.2 _ rfl⟩

/-- C4: with an out-of-bounds or wall endpoint, every one of the five
pathfinders returns a null path and an empty visited trace, before any
search step. -/
theorem invalid_endpoint_fails_fast (g : Grid) (s e : Coord) (rng : Rng)
    (fuel maxSteps : Nat) (h : validPoint g s = false ∨ validPoint g e = false) :
    bfsResult g s e fuel = some ⟨none, []⟩ ∧
    dfsResult g s e rng fuel = some ⟨none, []⟩ ∧
    astarResult g s e fuel = some ⟨none, []⟩ ∧
    greedyResult g s e fuel = some ⟨none, []⟩ ∧
    mouseResult g s e maxSteps rng = ⟨none, []⟩ := by
  have hg : (validPoint g s && validPoint g e) = false := by
    rcases h with h | h <;> simp [h]
  refine ⟨?_, ?_, ?_, ?_, ?_⟩ <;>
    simp [bfsResult, findPathBFS, dfsResult, findPathDFS, astarResult, findPathAStar,
      greedyResult, findPathGreedy, mouseResult, findPathRandomMouse, hg,
      bfsEmpty, dfsEmpty, astarEmpty, greedyEmpty]

/-- Witness for C4 at a concrete grid with an out-of-range end. -/
theorem invalid_endpoint_fails_fast_witness :
    bfsResult (mkGrid 1 1 0) (0, 0) (5, 5) 9 = some ⟨none, []⟩ ∧
    dfsResult (mkGrid 1 1 0) (0, 0) (5, 5) (fun _ => 0) 9 = some ⟨none, []⟩ ∧
    astarResult (mkGrid 1 1 0) (0, 0) (5, 5) 9 = some ⟨none, []⟩ ∧
    greedyResult (mkGrid 1 1 0) (0, 0) (5, 5) 9 = some ⟨none, []⟩ ∧
    mouseResult (mkGrid 1 1 0) (0, 0) (5, 5) 7 (fun _ => 0) = ⟨none, []⟩ :=
  invalid_endpoint_fails_fast (mkGrid 1 1 0) (0, 0) (5, 5) (fun _ => 0) 9 7
    (Or.inr (by decide))

/-- C10: with a valid coordinate used as both start and end, every
pathfinder returns the singleton path and the singleton visited trace. -/
theorem start_eq_end_singleton (g : Grid) (s : Coord) (rng : Rng) (fuel maxSteps : Nat)
    (hv : validPoint g s = true) (hf : 1 ≤ fuel) (hm : 1 ≤ maxSteps) :
    bfsResult g s s fuel = some ⟨some [s], [s]⟩ ∧
    dfsResult g s s rng fuel = some ⟨some [s], [s]⟩ ∧
    astarResult g s s fuel = some ⟨some [s], [s]⟩ ∧
    greedyResult g s s fuel = some ⟨some [s], [s]⟩ ∧
    mouseResult g s s maxSteps rng = ⟨some [s], [s]⟩ := by
  obtain ⟨f, rfl⟩ : ∃ f, fuel = f + 1 := ⟨fuel - 1, by omega⟩
  obtain ⟨m, rfl⟩ : ∃ m, maxSteps = m + 1 := ⟨maxSteps - 1, by omega⟩
  refine ⟨?_, ?_, ?_, ?_, ?_⟩
  · simp [bfsResult, findPathBFS, hv, bfsRun, bfsInit, rebuild, pmLookup]
  · simp [dfsResult, findPathDFS, hv, dfsRun, dfsInit, rebuild, pmLookup]
  · simp [astarResult, findPathAStar, hv, astarRun, astarInit, rebuild, pmLookup,
      sortByF, insertByF]
  · simp [greedyResult, findPathGreedy, hv, greedyRun, greedyInit, rebuild, pmLookup,
      sortByH, insertByH]
  · simp [mouseResult, findPathRandomMouse, hv, mouseLoop]

/-- Witness for C10 on the fully open 2 by 2 grid. -/
theorem start_eq_end_singleton_witness :
    bfsResult (mkGrid 2 2 0) (1, 1) (1, 1) 5 = some ⟨some [(1, 1)], [(1, 1)]⟩ ∧
    dfsResult (mkGrid 2 2 0) (1, 1) (1, 1) (fun _ => 0) 5 = some ⟨some [(1, 1)], [(1, 1)]⟩ ∧
    astarResult (mkGrid 2 2 0) (1, 1) (1, 1) 5 = some ⟨some [(1, 1)], [(1, 1)]⟩ ∧
    greedyResult (mkGrid 2 2 0) (1, 1) (1, 1) 5 = some ⟨some [(1, 1)], [(1, 1)]⟩ ∧
    mouseResult (mkGrid 2 2 0) (1, 1) (1, 1) 4 (fun _ => 0) = ⟨some [(1, 1)], [(1, 1)]⟩ :=
  start_eq_end_singleton (mkGrid 2 2 0) (1, 1) (fun _ => 0) 5 4 (by decide)
    (by decide) (by decide)

/-! ### C5: where the visited trace is appended -/

theorem bfsVisitOne_vo_disc (g : Grid) (cur : Coord) (st : BFSState) (d : Coord)
    (h : st.visitedOrder = st.discovered) :
    (bfsVisitOne g cur st d).visitedOrder = (bfsVisitOne g cur st d).discovered := by
  unfold bfsVisitOne
  dsimp only
  split
  next => exact congrArg (fun l => l ++ _) h
  next => exact h

theorem bfsRun_vo_disc (g : Grid) (e : Coord) :
    ∀ (fuel : Nat) (st : BFSState) out, st.visitedOrder = st.discovered →
      bfsRun g e fuel st = some out → out.1.visitedOrder = out.1.discovered := by
  intro fuel
  induction fuel with
  | zero => intro st out _ h; simp [bfsRun] at h
  | succ f ih =>
    intro st out hinv hrun
    unfold bfsRun at hrun
    cases hq : st.queue with
    | nil => rw [hq] at hrun; cases hrun; exact hinv
    | cons cur rest =>
      rw [hq] at hrun
      dsimp only at hrun
      by_cases hce : cur = e
      · rw [if_pos hce] at hrun
        rcases Option.map_eq_some'.1 hrun with ⟨p, _, hp⟩
        rw [← hp]
        exact hinv
      · rw [if_neg hce] at hrun
        refine ih _ _ ?_ hrun
        unfold bfsVisit
        refine foldl_pres (fun st => st.visitedOrder = st.discovered)
          (bfsVisitOne g cur) (bfsVisitOne_vo_disc g cur) moveDirs _ ?_
        exact hinv

theorem dfsVisitOne_vo_disc (g : Grid) (cur : Coord) (st : DFSState) (d : Coord)
    (h : st.visitedOrder = st.discovered) :
    (dfsVisitOne g cur st d).visitedOrder = (dfsVisitOne g cur st d).discovered := by
  unfold dfsVisitOne
  dsimp only
  split
  next => exact congrArg (fun l => l ++ _) h
  next => exact h

theorem dfsRun_vo_disc (g : Grid) (e : Coord) (rng : Rng) :
    ∀ (fuel : Nat) (st : DFSState) out, st.visitedOrder = st.discovered →
      dfsRun g e rng fuel st = some out → out.1.visitedOrder = out.1.discovered := by
  intro fuel
  induction fuel with
  | zero => intro st out _ h; simp [dfsRun] at h
  | succ f ih =>
    intro st out hinv hrun
    unfold dfsRun at hrun
    cases hq : st.stack with
    | nil => rw [hq] at hrun; cases hrun; exact hinv
    | cons cur rest =>
      rw [hq] at hrun
      dsimp only at hrun
      by_cases hce : cur = e
      · rw [if_pos hce] at hrun
        rcases Option.map_eq_some'.1 hrun with ⟨p, _, hp⟩
        rw [← hp]
        exact hinv
      · rw [if_neg hce] at hrun
        refine ih _ _ ?_ hrun
        unfold dfsVisit
        refine foldl_pres (fun st => st.visitedOrder = st.discovered)
          (dfsVisitOne g cur) (dfsVisitOne_vo_disc g cur) _ _ ?_
        exact hinv

theorem astarRun_vo_settled (g : Grid) (e : Coord) :
    ∀ (fuel : Nat) (st : AStarState) out, st.visitedOrder = st.settled →
      astarRun g e fuel st = some out → out.1.visitedOrder = out.1.settled := by
  intro fuel
  induction fuel with
  | zero => intro st out _ h; simp [astarRun] at h
  | succ f ih =>
    intro st out hinv hrun
    unfold astarRun at hrun
    cases hq : sortByF st.openSet with
    | nil => rw [hq] at hrun; cases hrun; exact hinv
    | cons cur rest =>
      rw [hq] at hrun
      dsimp only at hrun
      by_cases hv : cur.pos ∈ st.visited
      · rw [if_pos hv] at hrun
        refine ih _ _ ?_ hrun
        exact hinv
      · rw [if_neg hv] at hrun
        have hinv1 : st.visitedOrder ++ [cur.pos] = st.settled ++ [cur.pos] :=
          congrArg (fun l => l ++ _) hinv
        by_cases hce : cur.pos = e
        · rw [if_pos hce] at hrun
          rcases Option.map_eq_some'.1 hrun with ⟨p, _, hp⟩
          rw [← hp]
          exact hinv1
        · rw [if_neg hce] at hrun
          refine ih _ _ ?_ hrun
          refine foldl_pres (fun st => st.visitedOrder = st.settled)
            (astarVisit g e cur.pos cur.g) (fun st d h => ?_) moveDirs _ ?_
          · exact h
          · exact hinv1

theorem greedyVisit_settled (g : Grid) (e cur : Coord) (st : GreedyState) (d : Coord) :
    (greedyVisit g e cur st d).settled = st.settled := by
  unfold greedyVisit
  dsimp only
  split
  next => rfl
  next => rfl

theorem greedyRun_vo_settled (g : Grid) (e : Coord) :
    ∀ (fuel : Nat) (st : GreedyState) out, st.visitedOrder = st.settled →
      greedyRun g e fuel st = some out → out.1.visitedOrder = out.1.settled := by
  intro fuel
  induction fuel with
  | zero => intro st out _ h; simp [greedyRun] at h
  | succ f ih =>
    intro st out hinv hrun
    unfold greedyRun at hrun
    cases hq : sortByH st.openSet with
    | nil => rw [hq] at hrun; cases hrun; exact hinv
    | cons cur rest =>
      rw [hq] at hrun
      dsimp only at hrun
      by_cases hv : cur.pos ∈ st.visited
      · rw [if_pos hv] at hrun
        refine ih _ _ ?_ hrun
        exact hinv
      · rw [if_neg hv] at hrun
        have hinv1 : st.visitedOrder ++ [cur.pos] = st.settled ++ [cur.pos] :=
          congrArg (fun l => l ++ _) hinv
        by_cases hce : cur.pos = e
        · rw [if_pos hce] at hrun
          rcases Option.map_eq_some'.1 hrun with ⟨p, _, hp⟩
          rw [← hp]
          exact hinv1
        · rw [if_neg hce] at hrun
          refine ih _ _ ?_ hrun
          refine foldl_pres (fun st => st.visitedOrder = st.settled)
            (greedyVisit g e cur.pos) (fun st d h => ?_) moveDirs _ ?_
          · show (greedyVisit g e cur.pos st d).visitedOrder =
              (greedyVisit g e cur.pos st d).settled
            rw [(greedyVisit_visited g e cur.pos st d).2, greedyVisit_settled]
            exact h
          · exact hinv1

/-- C5, counterexample: the claim that all four tracing pathfinders append
to the visited trace only at first settle fails, concretely for DFS on the
fully open 2 by 2 grid, where the trace holds a never-settled cell in push
order. -/
theorem visitedAtSettle_counterexample : ¬ visitedAtSettleClaim := by
  intro h
  have hd := h.2.1 (mkGrid 2 2 0) (0, 0) (1, 1) (fun _ => 0) 30
    ((findPathDFS (mkGrid 2 2 0) (0, 0) (1, 1) (fun _ => 0) 30).getD (dfsEmpty, none)) rfl
  exact absurd hd (by decide)

/-- C5, amended: A-star and Greedy append to the visited trace exactly when
a cell is first settled, while BFS and DFS append exactly when a cell first
enters the visited set, on enqueue. -/
theorem visited_trace_sites (g : Grid) (s e : Coord) (rng : Rng) (fuel : Nat) :
    (∀ out, findPathAStar g s e fuel = some out → out.1.visitedOrder = out.1.settled) ∧
    (∀ out, findPathGreedy g s e fuel = some out → out.1.visitedOrder = out.1.settled) ∧
    (∀ out, findPathBFS g s e fuel = some out → out.1.visitedOrder = out.1.discovered) ∧
    (∀ out, findPathDFS g s e rng fuel = some out → out.1.visitedOrder = out.1.discovered) := by
  refine ⟨fun out h => ?_, fun out h => ?_, fun out h => ?_, fun out h => ?_⟩
  · unfold findPathAStar at h
    split at h
    · exact astarRun_vo_settled g e fuel _ out rfl h
    · cases h; rfl
  · unfold findPathGreedy at h
    split at h
    · exact greedyRun_vo_settled g e fuel _ out rfl h
    · cases h; rfl
  · unfold findPathBFS at h
    split at h
    · exact bfsRun_vo_disc g e fuel _ out rfl h
    · cases h; rfl
  · unfold findPathDFS at h
    split at h
    · exact dfsRun_vo_disc g e rng fuel _ out rfl h
    · cases h; rfl

/-- Witness for the amended C5 on the fully open 2 by 2 grid. -/
theorem visited_trace_sites_witness :
    ((findPathAStar (mkGrid 2 2 0) (0, 0) (1, 1) 30).getD (astarEmpty, none)).1.visitedOrder =
      ((findPathAStar (mkGrid 2 2 0) (0, 0) (1, 1) 30).getD (astarEmpty, none)).1.settled ∧
    ((findPathDFS (mkGrid 2 2 0) (0, 0) (1, 1) (fun _ => 0) 30).getD
        (dfsEmpty, none)).1.visitedOrder =
      ((findPathDFS (mkGrid 2 2 0) (0, 0) (1, 1) (fun _ => 0) 30).getD
        (dfsEmpty, none)).1.discovered := by
  have h := visited_trace_sites (mkGrid 2 2 0) (0, 0) (1, 1) (fun _ => 0) 30
  exact ⟨h.1 _ rfl, h.2.2.2 _ rfl⟩

/-! ### C7: Greedy parent pointers -/

theorem pmLookup_pmSet_ne (m : List (Coord × Option Coord)) (k c : Coord)
    (v : Option Coord) (h : k ≠ c) : pmLookup (pmSet m k v) c = pmLookup m c := by
  simp [pmLookup, pmSet, List.find?_cons, h]

/-- Once a cell is in the visited (closed) set, the rest of a Greedy run
never changes its recorded parent. -/
theorem greedyRun_parent_stable (g : Grid) (e : Coord) :
    ∀ (fuel : Nat) (st : GreedyState) out, greedyRun g e fuel st = some out →
      ∀ c ∈ st.visited, pmLookup out.1.parent c = pmLookup st.parent c := by
  intro fuel
  induction fuel with
  | zero => intro st out h; simp [greedyRun] at h
  | succ f ih =>
    intro st out hrun c hc
    unfold greedyRun at hrun
    cases hq : sortByH st.openSet with
    | nil => rw [hq] at hrun; cases hrun; rfl
    | cons cur rest =>
      rw [hq] at hrun
      dsimp only at hrun
      by_cases hv : cur.pos ∈ st.visited
      · rw [if_pos hv] at hrun
        exact ih _ _ hrun c hc
      · rw [if_neg hv] at hrun
        by_cases hce : cur.pos = e
        · rw [if_pos hce] at hrun
          rcases Option.map_eq_some'.1 hrun with ⟨p, _, hp⟩
          rw [← hp]
        · rw [if_neg hce] at hrun
          have hstep : ∀ (s : GreedyState) (d : Coord),
              (s.visited = st.visited ++ [cur.pos] ∧
                pmLookup s.parent c = pmLookup st.parent c) →
              ((greedyVisit g e cur.pos s d).visited = st.visited ++ [cur.pos] ∧
                pmLookup (greedyVisit g e cur.pos s d).parent c = pmLookup st.parent c) := by
            intro s d hs
            unfold greedyVisit
            dsimp only
            split
            next hcond =>
              refine ⟨hs.1, ?_⟩
              have hne : (cur.pos.1 + d.1, cur.pos.2 + d.2) ≠ c := by
                intro hEq
                apply hcond.2
                rw [hEq, hs.1]
                exact List.mem_append.2 (Or.inl hc)
              rw [pmLookup_pmSet_ne _ _ _ _ hne]
              exact hs.2
            next => exact hs
          have hfold := foldl_pres
            (fun s => s.visited = st.visited ++ [cur.pos] ∧
              pmLookup s.parent c = pmLookup st.parent c)
            (greedyVisit g e cur.pos) hstep moveDirs
            { st with openSet := rest, visited := st.visited ++ [cur.pos],
                      visitedOrder := st.visitedOrder ++ [cur.pos],
                      settled := st.settled ++ [cur.pos] } ⟨rfl, rfl⟩
          have hm : c ∈ (List.foldl (greedyVisit g e cur.pos)
              { st with openSet := rest, visited := st.visited ++ [cur.pos],
                        visitedOrder := st.visitedOrder ++ [cur.pos],
                        settled := st.settled ++ [cur.pos] } moveDirs).visited := by
            rw [hfold.1]
            exact List.mem_append.2 (Or.inl hc)
          have hih := ih _ _ hrun c hm
          rw [hih, hfold.2]

/-- C7, counterexample: Greedy does not keep the first-discovered parent;
on the fully open 3 by 3 grid, cell (1,1) is first discovered from (1,0)
but its final recorded parent is (2,1). -/
theorem greedyFirstParent_counterexample : ¬ greedyFirstParentClaim := by
  intro h
  have hg := h (mkGrid 3 3 0) (0, 0) (2, 2) 50
    ((findPathGreedy (mkGrid 3 3 0) (0, 0) (2, 2) 50).getD (greedyEmpty, none)) rfl (1, 1)
  exact absurd hg (by decide)

/-- C7, amended: a Greedy parent pointer may be rewritten by each later
rediscovery of a still-open cell (the most recent discovery wins), but as
soon as the cell is settled into the closed set its recorded parent never
changes for the remainder of the run. -/
theorem greedy_parent_fixed_once_settled (g : Grid) (e : Coord) (fuel : Nat)
    (st : GreedyState) (out : GreedyState × Option (List Coord))
    (hrun : greedyRun g e fuel st = some out) :
    ∀ c ∈ st.visited, pmLookup out.1.parent c = pmLookup st.parent c :=
  greedyRun_parent_stable g e fuel st out hrun

/-- Witness for the amended C7: a mid-run state on the open 3 by 3 grid
whose settled start keeps its parent through the remaining run. -/
theorem greedy_parent_fixed_once_settled_witness :
    (0, 0) ∈ ([(0, 0)] : List Coord) ∧
    pmLookup ((greedyRun (mkGrid 3 3 0) (2, 2) 40
        ⟨[⟨3, (0, 1)⟩, ⟨3, (1, 0)⟩], [((0, 1), some (0, 0)), ((1, 0), some (0, 0)), ((0, 0), none)],
          [((0, 1), some (0, 0)), ((1, 0), some (0, 0)), ((0, 0), none)],
          [(0, 0)], [(0, 0)], [(0, 0)]⟩).getD (greedyEmpty, none)).1.parent (0, 0) =
      pmLookup [((0, 1), some (0, 0)), ((1, 0), some (0, 0)), ((0, 0), none)] (0, 0) := by
  refine ⟨by decide, ?_⟩
  exact greedy_parent_fixed_once_settled (mkGrid 3 3 0) (2, 2) 40
    ⟨[⟨3, (0, 1)⟩, ⟨3, (1, 0)⟩], [((0, 1), some (0, 0)), ((1, 0), some (0, 0)), ((0, 0), none)],
      [((0, 1), some (0, 0)), ((1, 0), some (0, 0)), ((0, 0), none)],
      [(0, 0)], [(0, 0)], [(0, 0)]⟩
    ((greedyRun (mkGrid 3 3 0) (2, 2) 40
      ⟨[⟨3, (0, 1)⟩, ⟨3, (1, 0)⟩], [((0, 1), some (0, 0)), ((1, 0), some (0, 0)), ((0, 0), none)],
        [((0, 1), some (0, 0)), ((1, 0), some (0, 0)), ((0, 0), none)],
        [(0, 0)], [(0, 0)], [(0, 0)]⟩).getD (greedyEmpty, none)) rfl (0, 0) (by decide)

/-! ### C8: the mouse with a one-step budget -/

theorem pickFrom_mem (rng : Rng) (i : Nat) (l : List Coord) (h : l ≠ []) :
    pickFrom rng i l ∈ l := by
  unfold pickFrom
  have hlt : draw rng i l.length < l.length := Nat.mod_lt _ (List.length_pos.2 h)
  rw [List.getD_eq_getElem l (0, 0) hlt]
  exact List.getElem_mem hlt

/-- Every coordinate in either component of mouseMoves is one of the four
neighbours of the current cell. -/
theorem mouseMoves_mem_neighbour (g : Grid) (cur : Coord) (visited : List Coord) :
    ∀ (l : List Coord) (x : Coord),
      (x ∈ (l.foldr (mouseMovesOne g cur visited) ([], [])).1 ∨
       x ∈ (l.foldr (mouseMovesOne g cur visited) ([], [])).2) →
      ∃ d ∈ l, x = (cur.1 + d.1, cur.2 + d.2) := by
  intro l
  induction l with
  | nil => intro x hx; simp at hx
  | cons d t ih =>
    intro x hx
    rw [List.foldr_cons] at hx
    unfold mouseMovesOne at hx
    dsimp only at hx
    by_cases ho : openCell g (cur.1 + d.1, cur.2 + d.2) = true
    · rw [if_pos ho] at hx
      dsimp only at hx
      rcases hx with hx | hx
      · rcases List.mem_cons.1 hx with h | h
        · exact ⟨d, List.mem_cons_self d t, h⟩
        · rcases ih x (Or.inl h) with ⟨d', hd', he⟩
          exact ⟨d', List.mem_cons_of_mem d hd', he⟩
      · by_cases hu : (cur.1 + d.1, cur.2 + d.2) ∈ visited
        · rw [if_neg (by simpa using hu)] at hx
          rcases ih x (Or.inr hx) with ⟨d', hd', he⟩
          exact ⟨d', List.mem_cons_of_mem d hd', he⟩
        · rw [if_pos (by simpa using hu)] at hx
          rcases List.mem_cons.1 hx with h | h
          · exact ⟨d, List.mem_cons_self d t, h⟩
          · rcases ih x (Or.inr h) with ⟨d', hd', he⟩
            exact ⟨d', List.mem_cons_of_mem d hd', he⟩
    · rw [if_neg ho] at hx
      rcases ih x hx with ⟨d', hd', he⟩
      exact ⟨d', List.mem_cons_of_mem d hd', he⟩

/-- C8, counterexample: with maxSteps one and the end one step from the
start, the single permitted move can reach the end, and the mouse then
returns a path rather than none. -/
theorem mouseOneStep_counterexample : ¬ mouseOneStepClaim := by
  intro h
  have hc := h (mkGrid 1 2 0) (0, 0) (0, 1) (fun _ => 0) (by decide) (by decide) (by decide)
  exact absurd hc (by decide)

/-- Where a successful mouse step can land: in one of the possible moves,
or back on the second entry of the path stack. -/
theorem mouseStep_cur (g : Grid) (rng : Rng) (st st1 : MouseState)
    (hstep : mouseStep g rng st = some st1) :
    st1.cur ∈ (mouseMoves g st).1 ∨ st1.cur ∈ (mouseMoves g st).2 ∨
    st.pathStack[1]? = some st1.cur := by
  unfold mouseStep at hstep
  dsimp only at hstep
  cases hmv2 : (mouseMoves g st).2 with
  | cons u us =>
    rw [hmv2] at hstep
    dsimp only at hstep
    cases hstep
    refine Or.inr (Or.inl ?_)
    show pickFrom rng st.ri (u :: us) ∈ u :: us
    exact pickFrom_mem rng st.ri (u :: us) (by simp)
  | nil =>
    rw [hmv2] at hstep
    dsimp only at hstep
    by_cases hlen : 1 < (mouseMoves g st).1.length
    · rw [if_pos hlen] at hstep
      cases hbk : (mouseMoves g st).1.filter
          (fun m => decide (¬ st.pathStack[1]? = some m)) with
      | nil => rw [hbk] at hstep; cases hstep
      | cons b bs =>
        rw [hbk] at hstep
        dsimp only at hstep
        cases hstep
        refine Or.inl ?_
        have hmem := pickFrom_mem rng st.ri (b :: bs) (by simp)
        have hmem2 : pickFrom rng st.ri (b :: bs) ∈ (mouseMoves g st).1.filter
            (fun m => decide (¬ st.pathStack[1]? = some m)) := by
          rw [hbk]; exact hmem
        show pickFrom rng st.ri (b :: bs) ∈ (mouseMoves g st).1
        exact (List.mem_filter.1 hmem2).1
    · rw [if_neg hlen] at hstep
      by_cases hc : (mouseMoves g st).1.length = 1 ∧ 1 < st.pathStack.length
      · rw [if_pos hc] at hstep
        cases hps : st.pathStack with
        | nil => rw [hps] at hstep; cases hstep
        | cons a t =>
          cases t with
          | nil => rw [hps] at hstep; cases hstep
          | cons p rest =>
            rw [hps] at hstep
            dsimp only at hstep
            cases hstep
            refine Or.inr (Or.inr ?_)
            simp
      · rw [if_neg hc] at hstep
        cases hstep

/-- C8, amended: with maxSteps one and distinct endpoints, the mouse
returns a null path whenever the end is not one of the four neighbours of
the start (one step can reach at most a neighbour). -/
theorem mouse_one_step_none (g : Grid) (s e : Coord) (rng : Rng)
    (hs : validPoint g s = true) (he : validPoint g e = true) (hne : s ≠ e)
    (hfar : ∀ d ∈ moveDirs, (s.1 + d.1, s.2 + d.2) ≠ e) :
    (findPathRandomMouse g s e 1 rng).2 = none := by
  have hcur : (mouseLoop g e rng 1 ⟨[s], [s], [s], s, 0⟩).cur ≠ e := by
    unfold mouseLoop
    dsimp only
    rw [if_neg hne]
    cases hstep : mouseStep g rng ⟨[s], [s], [s], s, 0⟩ with
    | none => exact hne
    | some st1 =>
      have hwhere := mouseStep_cur g rng _ _ hstep
      dsimp only
      unfold mouseLoop
      rcases hwhere with hw | hw | hw
      · intro hxe
        rcases mouseMoves_mem_neighbour g s [s] moveDirs st1.cur (Or.inl hw) with ⟨d, hd, hxd⟩
        exact hfar d hd (hxd ▸ hxe)
      · intro hxe
        rcases mouseMoves_mem_neighbour g s [s] moveDirs st1.cur (Or.inr hw) with ⟨d, hd, hxd⟩
        exact hfar d hd (hxd ▸ hxe)
      · simp at hw
  unfold findPathRandomMouse
  rw [if_pos (by simp [hs, he])]
  dsimp only
  rw [if_neg hcur]

/-- Witness for the amended C8 on a 1 by 3 corridor whose far end cannot be
reached in one step. -/
theorem mouse_one_step_none_witness :
    (findPathRandomMouse (mkGrid 1 3 0) (0, 0) (0, 2) 1 (fun _ => 0)).2 = none :=
  mouse_one_step_none (mkGrid 1 3 0) (0, 0) (0, 2) (fun _ => 0) (by decide) (by decide)
    (by decide) (by decide)

/-! ### C6: the recursive-division stopping condition -/

theorem intRange_mem {a b x : Int} : x ∈ intRange a b ↔ a ≤ x ∧ x ≤ b := by
  unfold intRange
  constructor
  · intro hx
    rcases List.mem_map.1 hx with ⟨k, hk, rfl⟩
    rw [List.mem_range] at hk
    omega
  · intro hx
    refine List.mem_map.2 ⟨(x - a).toNat, ?_, ?_⟩
    · rw [List.mem_range]; omega
    · show a + ((x - a).toNat : Int) = x
      omega

theorem draw_lt (rng : Rng) (i n : Nat) (h : 0 < n) : draw rng i n < n :=
  Nat.mod_lt _ h

/-- Value map of the horizontal-wall fold: every listed column other than
the passage is set to wall on the wall row; nothing else changes. -/
theorem hWallFold_val (wr pc : Int) :
    ∀ (l : List Int) (g : Grid) (r' c' : Int),
      ((l.foldl (fun g c => if c ≠ pc then g.set wr c 1 else g) g).val r' c') =
      if r' = wr ∧ c' ∈ l ∧ c' ≠ pc then 1 else g.val r' c' := by
  intro l
  induction l with
  | nil => intro g r' c'; simp
  | cons c t ih =>
    intro g r' c'
    rw [List.foldl_cons, ih]
    by_cases h1 : r' = wr ∧ c' ∈ t ∧ c' ≠ pc
    · rw [if_pos h1, if_pos ⟨h1.1, List.mem_cons_of_mem c h1.2.1, h1.2.2⟩]
    · rw [if_neg h1]
      by_cases h2 : r' = wr ∧ c' ∈ c :: t ∧ c' ≠ pc
      · rw [if_pos h2]
        have hcc : c' = c := by
          rcases List.mem_cons.1 h2.2.1 with h | h
          · exact h
          · exact absurd ⟨h2.1, h, h2.2.2⟩ h1
        rw [if_pos (hcc ▸ h2.2.2), h2.1, hcc]
        simp
      · rw [if_neg h2]
        by_cases hc : c ≠ pc
        · rw [if_pos hc]
          apply Grid.val_set_other
          rintro ⟨h1', h2'⟩
          exact h2 ⟨h1', by rw [h2']; exact List.mem_cons_self c t, by rw [h2']; exact hc⟩
        · rw [if_neg hc]

/-- Value map of the vertical-wall fold. -/
theorem vWallFold_val (wc pr : Int) :
    ∀ (l : List Int) (g : Grid) (r' c' : Int),
      ((l.foldl (fun g r => if r ≠ pr then g.set r wc 1 else g) g).val r' c') =
      if c' = wc ∧ r' ∈ l ∧ r' ≠ pr then 1 else g.val r' c' := by
  intro l
  induction l with
  | nil => intro g r' c'; simp
  | cons r t ih =>
    intro g r' c'
    rw [List.foldl_cons, ih]
    by_cases h1 : c' = wc ∧ r' ∈ t ∧ r' ≠ pr
    · rw [if_pos h1, if_pos ⟨h1.1, List.mem_cons_of_mem r h1.2.1, h1.2.2⟩]
    · rw [if_neg h1]
      by_cases h2 : c' = wc ∧ r' ∈ r :: t ∧ r' ≠ pr
      · rw [if_pos h2]
        have hrr : r' = r := by
          rcases List.mem_cons.1 h2.2.1 with h | h
          · exact h
          · exact absurd ⟨h2.1, h, h2.2.2⟩ h1
        rw [if_pos (hrr ▸ h2.2.2), h2.1, hrr]
        simp
      · rw [if_neg h2]
        by_cases hr : r ≠ pr
        · rw [if_pos hr]
          apply Grid.val_set_other
          rintro ⟨h1', h2'⟩
          exact h2 ⟨h2', by rw [h1']; exact List.mem_cons_self r t, by rw [h1']; exact hr⟩
        · rw [if_neg hr]

theorem hWall_val (g : Grid) (wr pc c1 c2 r' c' : Int) :
    (hWall g wr pc c1 c2).val r' c' =
    if r' = wr ∧ (c1 ≤ c' ∧ c' ≤ c2) ∧ c' ≠ pc then 1 else g.val r' c' := by
  unfold hWall
  rw [hWallFold_val]
  by_cases h : r' = wr ∧ c' ∈ intRange c1 c2 ∧ c' ≠ pc
  · rw [if_pos h, if_pos ⟨h.1, intRange_mem.1 h.2.1, h.2.2⟩]
  · rw [if_neg h, if_neg (fun hc => h ⟨hc.1, intRange_mem.2 hc.2.1, hc.2.2⟩)]

theorem vWall_val (g : Grid) (wc pr r1 r2 r' c' : Int) :
    (vWall g wc pr r1 r2).val r' c' =
    if c' = wc ∧ (r1 ≤ r' ∧ r' ≤ r2) ∧ r' ≠ pr then 1 else g.val r' c' := by
  unfold vWall
  rw [vWallFold_val]
  by_cases h : c' = wc ∧ r' ∈ intRange r1 r2 ∧ r' ≠ pr
  · rw [if_pos h, if_pos ⟨h.1, intRange_mem.1 h.2.1, h.2.2⟩]
  · rw [if_neg h, if_neg (fun hc => h ⟨hc.1, intRange_mem.2 hc.2.1, hc.2.2⟩)]

/-- Division never writes outside its chamber rectangle. -/
theorem divide_val_outside (rng : Rng) :
    ∀ (fuel : Nat) (g : Grid) (r1 c1 r2 c2 : Int) (i : Nat) out,
      divide rng fuel g r1 c1 r2 c2 i = some out →
      ∀ p : Coord, ¬ inRect p r1 c1 r2 c2 → out.1.val p.1 p.2 = g.val p.1 p.2 := by
  intro fuel
  induction fuel with
  | zero => intro g r1 c1 r2 c2 i out h; simp [divide] at h
  | succ f ih =>
    intro g r1 c1 r2 c2 i out h p hp
    unfold divide at h
    by_cases hguard : r2 - r1 < 4 ∨ c2 - c1 < 4
    · rw [if_pos hguard] at h; cases h; rfl
    · rw [if_neg hguard] at h
      push_neg at hguard
      dsimp only at h
      set dh : Bool × Nat :=
        (if c2 - c1 < r2 - r1 then (true, i)
         else if r2 - r1 = c2 - c1 then (decide (draw rng i 2 = 0), i + 1)
         else (false, i)) with hdh
      cases hb : dh.1
      · rw [hb] at h
        rw [if_neg Bool.false_ne_true] at h
        have hk := draw_lt rng dh.2 ((c2 - c1) / 2).toNat (by omega)
        set K : Nat := draw rng dh.2 ((c2 - c1) / 2).toNat with hK
        have hwc : c1 + 1 ≤ c1 + 1 + 2 * (K : Int) ∧ c1 + 1 + 2 * (K : Int) ≤ c2 - 1 := by
          omega
        cases hsub1 : divide rng f
            (vWall g (c1 + 1 + 2 * (K : Int))
              (r1 + 2 * ((draw rng (dh.2 + 1) (((r2 - r1) / 2).toNat + 1) : Nat) : Int)) r1 r2)
            r1 c1 r2 (c1 + 1 + 2 * (K : Int) - 1) (dh.2 + 2) with
        | none => rw [hsub1] at h; cases h
        | some out1 =>
          rw [hsub1] at h
          dsimp only at h
          have h2 := ih _ _ _ _ _ _ _ h p (by unfold inRect at hp ⊢; omega)
          have h1 := ih _ _ _ _ _ _ _ hsub1 p (by unfold inRect at hp ⊢; omega)
          rw [h2, h1, vWall_val]
          rw [if_neg ?_]
          unfold inRect at hp
          rintro ⟨hc, hr, -⟩
          omega
      · rw [hb] at h
        rw [if_pos rfl] at h
        have hk := draw_lt rng dh.2 ((r2 - r1) / 2).toNat (by omega)
        set K : Nat := draw rng dh.2 ((r2 - r1) / 2).toNat with hK
        cases hsub1 : divide rng f
            (hWall g (r1 + 1 + 2 * (K : Int))
              (c1 + 2 * ((draw rng (dh.2 + 1) (((c2 - c1) / 2).toNat + 1) : Nat) : Int)) c1 c2)
            r1 c1 (r1 + 1 + 2 * (K : Int) - 1) c2 (dh.2 + 2) with
        | none => rw [hsub1] at h; cases h
        | some out1 =>
          rw [hsub1] at h
          dsimp only at h
          have h2 := ih _ _ _ _ _ _ _ h p (by unfold inRect at hp ⊢; omega)
          have h1 := ih _ _ _ _ _ _ _ hsub1 p (by unfold inRect at hp ⊢; omega)
          rw [h2, h1, hWall_val]
          rw [if_neg ?_]
          unfold inRect at hp
          rintro ⟨hr, hc, -⟩
          omega

theorem interiorList_mem {w h : Nat} {p : Coord} :
    p ∈ interiorList w h ↔
    1 ≤ p.1 ∧ p.1 ≤ 2 * (h : Int) - 1 ∧ 1 ≤ p.2 ∧ p.2 ≤ 2 * (w : Int) - 1 := by
  unfold interiorList
  constructor
  · intro hp
    rcases List.mem_flatMap.1 hp with ⟨r, hr, hp2⟩
    rcases List.mem_map.1 hp2 with ⟨c, hc, rfl⟩
    have h1 := intRange_mem.1 hr
    have h2 := intRange_mem.1 hc
    exact ⟨h1.1, h1.2, h2.1, h2.2⟩
  · rintro ⟨a1, a2, a3, a4⟩
    refine List.mem_flatMap.2 ⟨p.1, intRange_mem.2 ⟨a1, a2⟩, ?_⟩
    exact List.mem_map.2 ⟨p.2, intRange_mem.2 ⟨a3, a4⟩, by simp⟩

/-- C6, counterexample: the division guard stops already at chambers of
two cells along an axis, so the two-by-two maze has a fully open interior
with no wall at all, whatever the oracle says. -/
theorem divisionSplit_counterexample : ¬ divisionSplitClaim := by
  intro hclaim
  have hc := hclaim 2 2 (fun _ => 0)
    ((generateRecursiveDivisionMaze 2 2 (fun _ => 0)).getD (mkGrid 0 0 0))
    (by decide) (by decide) rfl
  exact absurd hc (by decide)

/-- C6, amended: the division recursion stops exactly when the chamber has
fewer than three cells along either axis (grid span below five lines):
such chambers are returned untouched, while any maze with at least three
cells along both axes is split, leaving at least one interior wall. -/
theorem division_stop_condition (rng : Rng) :
    (∀ (fuel : Nat) (g : Grid) (r1 c1 r2 c2 : Int) (i : Nat),
      r2 - r1 < 4 ∨ c2 - c1 < 4 → divide rng (fuel + 1) g r1 c1 r2 c2 i = some (g, i)) ∧
    (∀ (w h : Nat) (g : Grid), 3 ≤ w → 3 ≤ h →
      generateRecursiveDivisionMaze w h rng = some g → 1 ≤ interiorWallCount w h g) := by
  constructor
  · intro fuel g r1 c1 r2 c2 i h
    unfold divide
    rw [if_pos h]
  · intro w h g hw hh hgen
    unfold generateRecursiveDivisionMaze at hgen
    dsimp only at hgen
    rcases Option.map_eq_some'.1 hgen with ⟨out, hdiv, rfl⟩
    rw [show w + h + 2 = (w + h + 1) + 1 from rfl] at hdiv
    unfold divide at hdiv
    rw [if_neg (by push_neg; constructor <;> omega)] at hdiv
    dsimp only at hdiv
    set dh : Bool × Nat :=
      (if 2 * (w : Int) + 1 - 2 - 1 < 2 * (h : Int) + 1 - 2 - 1 then (true, 0)
       else if 2 * (h : Int) + 1 - 2 - 1 = 2 * (w : Int) + 1 - 2 - 1 then
         (decide (draw rng 0 2 = 0), 0 + 1)
       else (false, 0)) with hdh
    have hcount : ∀ p : Coord, p ∈ interiorList w h →
        (((out.1.set 1 0 0).set (2 * (h : Int) + 1 - 2) (2 * (w : Int) + 1 - 1) 0).val p.1 p.2 = 1) →
        1 ≤ interiorWallCount w h ((out.1.set 1 0 0).set (2 * (h : Int) + 1 - 2) (2 * (w : Int) + 1 - 1) 0) := by
      intro p hp hv
      have hpos : (0 : Nat) < (interiorList w h).countP
          (fun q : Coord => decide
            ((((out.1.set 1 0 0).set (2 * (h : Int) + 1 - 2) (2 * (w : Int) + 1 - 1) 0).val q.1 q.2 = 1))) :=
        List.countP_pos_iff.2 ⟨p, hp, by simpa using hv⟩
      exact hpos
    cases hb : dh.1
    · rw [hb] at hdiv
      rw [if_neg Bool.false_ne_true] at hdiv
      have hk := draw_lt rng dh.2 ((2 * (w : Int) + 1 - 2 - 1) / 2).toNat (by omega)
      set K : Nat := draw rng dh.2 ((2 * (w : Int) + 1 - 2 - 1) / 2).toNat with hK
      set KP : Nat := draw rng (dh.2 + 1) (((2 * (h : Int) + 1 - 2 - 1) / 2).toNat + 1) with hKP
      cases hsub1 : divide rng (w + h + 1)
          (vWall (((intRange 0 (2 * (w : Int) + 1 - 1)).foldl
            (fun g c => (g.set 0 c 1).set (2 * (h : Int) + 1 - 1) c 1)
            ((intRange 0 (2 * (h : Int) + 1 - 1)).foldl
              (fun g r => (g.set r 0 1).set r (2 * (w : Int) + 1 - 1) 1)
              (mkGrid (2 * (h : Int) + 1) (2 * (w : Int) + 1) 0))))
            (1 + 1 + 2 * (K : Int)) (1 + 2 * (KP : Int)) 1 (2 * (h : Int) + 1 - 2))
          1 1 (2 * (h : Int) + 1 - 2) (1 + 1 + 2 * (K : Int) - 1) (dh.2 + 2) with
      | none => rw [hsub1] at hdiv; cases hdiv
      | some out1 =>
        rw [hsub1] at hdiv
        dsimp only at hdiv
        have hKb : (K : Int) < (2 * (w : Int) + 1 - 2 - 1) / 2 := by omega
        refine hcount (2, 1 + 1 + 2 * (K : Int)) (interiorList_mem.2 (by constructor <;> [omega; constructor <;> [omega; constructor <;> omega]])) ?_
        rw [Grid.val_set_other _ _ _ _ _ _ (by rintro ⟨h1, h2⟩; omega)]
        rw [Grid.val_set_other _ _ _ _ _ _ (by rintro ⟨h1, h2⟩; omega)]
        rw [divide_val_outside rng _ _ _ _ _ _ _ _ hdiv (2, 1 + 1 + 2 * (K : Int))
          (by unfold inRect; dsimp only; omega)]
        rw [divide_val_outside rng _ _ _ _ _ _ _ _ hsub1 (2, 1 + 1 + 2 * (K : Int))
          (by unfold inRect; dsimp only; omega)]
        rw [vWall_val]
        rw [if_pos (by refine ⟨rfl, ⟨by omega, by omega⟩, by omega⟩)]
    · rw [hb] at hdiv
      rw [if_pos rfl] at hdiv
      have hk := draw_lt rng dh.2 ((2 * (h : Int) + 1 - 2 - 1) / 2).toNat (by omega)
      set K : Nat := draw rng dh.2 ((2 * (h : Int) + 1 - 2 - 1) / 2).toNat with hK
      set KP : Nat := draw rng (dh.2 + 1) (((2 * (w : Int) + 1 - 2 - 1) / 2).toNat + 1) with hKP
      cases hsub1 : divide rng (w + h + 1)
          (hWall (((intRange 0 (2 * (w : Int) + 1 - 1)).foldl
            (fun g c => (g.set 0 c 1).set (2 * (h : Int) + 1 - 1) c 1)
            ((intRange 0 (2 * (h : Int) + 1 - 1)).foldl
              (fun g r => (g.set r 0 1).set r (2 * (w : Int) + 1 - 1) 1)
              (mkGrid (2 * (h : Int) + 1) (2 * (w : Int) + 1) 0))))
            (1 + 1 + 2 * (K : Int)) (1 + 2 * (KP : Int)) 1 (2 * (w : Int) + 1 - 2))
          1 1 (1 + 1 + 2 * (K : Int) - 1) (2 * (w : Int) + 1 - 2) (dh.2 + 2) with
      | none => rw [hsub1] at hdiv; cases hdiv
      | some out1 =>
        rw [hsub1] at hdiv
        dsimp only at hdiv
        have hKb : (K : Int) < (2 * (h : Int) + 1 - 2 - 1) / 2 := by omega
        refine hcount (1 + 1 + 2 * (K : Int), 2) (interiorList_mem.2 (by constructor <;> [omega; constructor <;> [omega; constructor <;> omega]])) ?_
        rw [Grid.val_set_other _ _ _ _ _ _ (by rintro ⟨h1, h2⟩; omega)]
        rw [Grid.val_set_other _ _ _ _ _ _ (by rintro ⟨h1, h2⟩; omega)]
        rw [divide_val_outside rng _ _ _ _ _ _ _ _ hdiv (1 + 1 + 2 * (K : Int), 2)
          (by unfold inRect; dsimp only; omega)]
        rw [divide_val_outside rng _ _ _ _ _ _ _ _ hsub1 (1 + 1 + 2 * (K : Int), 2)
          (by unfold inRect; dsimp only; omega)]
        rw [hWall_val]
        rw [if_pos (by refine ⟨rfl, ⟨by omega, by omega⟩, by omega⟩)]

/-- Witness for the amended C6: a three-cell chamber is returned untouched,
and the three-by-three maze keeps an interior wall. -/
theorem division_stop_condition_witness :
    divide (fun _ => 0) 1 (mkGrid 5 5 0) 1 1 3 3 0 = some (mkGrid 5 5 0, 0) ∧
    1 ≤ interiorWallCount 3 3
      ((generateRecursiveDivisionMaze 3 3 (fun _ => 0)).getD (mkGrid 0 0 0)) := by
  constructor
  · exact (division_stop_condition (fun _ => 0)).1 0 (mkGrid 5 5 0) 1 1 3 3 0 (by omega)
  · exact (division_stop_condition (fun _ => 0)).2 3 3 _ (by decide) (by decide) rfl

/-! ### C3: the entrance-and-exit ring invariant -/

/-- A property preserved by each fold step over listed elements is
preserved by the whole fold. -/
theorem foldl_pres_mem {σ α : Type} (P : σ → Prop) :
    ∀ (l : List α) (f : σ → α → σ), (∀ s a, a ∈ l → P s → P (f s a)) →
    ∀ s, P s → P (l.foldl f s) := by
  intro l
  induction l with
  | nil => intro f _ s h; simpa using h
  | cons a t ih =>
    intro f hf s h
    rw [List.foldl_cons]
    exact ih f (fun s b hb => hf s b (List.mem_cons_of_mem a hb)) _
      (hf s a (List.mem_cons_self a t) h)

/-- A write inside a rectangle leaves every position outside it alone. -/
theorem val_set_outside {g : Grid} {r c : Int} {v : Nat} {p : Coord} {r1 c1 r2 c2 : Int}
    (hp : ¬ inRect p r1 c1 r2 c2)
    (h1 : r1 ≤ r) (h2 : r ≤ r2) (h3 : c1 ≤ c) (h4 : c ≤ c2) :
    (g.set r c v).val p.1 p.2 = g.val p.1 p.2 := by
  apply Grid.val_set_other
  rintro ⟨hr, hc⟩
  exact hp ⟨by omega, by omega, by omega, by omega⟩

theorem cellList_mem {h w : Nat} {p : Nat × Nat} :
    p ∈ cellList h w ↔ p.1 < h ∧ p.2 < w := by
  unfold cellList
  constructor
  · intro hp
    rcases List.mem_flatMap.1 hp with ⟨r, hr, hp2⟩
    rcases List.mem_map.1 hp2 with ⟨c, hc, rfl⟩
    exact ⟨List.mem_range.1 hr, List.mem_range.1 hc⟩
  · rintro ⟨h1, h2⟩
    refine List.mem_flatMap.2 ⟨p.1, List.mem_range.2 h1, ?_⟩
    exact List.mem_map.2 ⟨p.2, List.mem_range.2 h2, by simp⟩

theorem onRing_not_inRect {w h : Nat} {p : Coord} (hp : onRing w h p) :
    ¬ inRect p 1 1 (2 * (h : Int) - 1) (2 * (w : Int) - 1) := by
  unfold onRing at hp
  unfold inRect
  omega

/-- A binary-tree carving step writes only strictly inside the ring. -/
theorem binTreeCell_val_outside (rng : Rng) (w h : Nat) (p : Coord)
    (hp : ¬ inRect p 1 1 (2 * (h : Int) - 1) (2 * (w : Int) - 1)) :
    ∀ (st : Grid × Nat) (cell : Nat × Nat), cell ∈ cellList h w →
      (binTreeCell rng st cell).1.val p.1 p.2 = st.1.val p.1 p.2 := by
  intro st cell hcell
  have hb := cellList_mem.1 hcell
  unfold binTreeCell
  dsimp only
  split_ifs with h1 h2 h3 h4
  · rw [val_set_outside hp (by omega) (by omega) (by omega) (by omega),
      val_set_outside hp (by omega) (by omega) (by omega) (by omega)]
  · rw [val_set_outside hp (by omega) (by omega) (by omega) (by omega),
      val_set_outside hp (by omega) (by omega) (by omega) (by omega)]
  · rw [val_set_outside hp (by omega) (by omega) (by omega) (by omega),
      val_set_outside hp (by omega) (by omega) (by omega) (by omega)]
  · rw [val_set_outside hp (by omega) (by omega) (by omega) (by omega),
      val_set_outside hp (by omega) (by omega) (by omega) (by omega)]
  · rw [val_set_outside hp (by omega) (by omega) (by omega) (by omega)]

/-- The entrance-and-exit wrapper shared by every generator: if the carved
grid still has the full wall ring, forcing the two doors open establishes
the ring invariant. -/
theorem ring_after_doors {w h : Nat} (g1 : Grid) (hw : 1 ≤ w)
    (hg : ∀ p : Coord, onRing w h p → g1.val p.1 p.2 = 1) :
    ringSpec w h ((g1.set 1 0 0).set (2 * (h : Int) + 1 - 2) (2 * (w : Int) + 1 - 1) 0) := by
  intro p hp
  by_cases he : p = ((1 : Int), (0 : Int)) ∨ p = (2 * (h : Int) - 1, 2 * (w : Int))
  · rw [if_pos he]
    rcases he with he | he
    · rw [he]
      rw [Grid.val_set_other _ _ _ _ _ _ (by rintro ⟨h1, h2⟩; dsimp only at h1 h2; omega)]
      exact Grid.val_set_self _ _ _ _
    · rw [he, show 2 * (h : Int) + 1 - 2 = 2 * (h : Int) - 1 by ring,
        show 2 * (w : Int) + 1 - 1 = 2 * (w : Int) by ring]
      exact Grid.val_set_self _ _ _ _
  · rw [if_neg he]
    push_neg at he
    rw [Grid.val_set_other _ _ _ _ _ _ (fun hc =>
      he.2 (by rw [Prod.ext_iff]; exact ⟨by omega, by omega⟩))]
    rw [Grid.val_set_other _ _ _ _ _ _ (fun hc =>
      he.1 (by rw [Prod.ext_iff]; exact ⟨hc.1, hc.2⟩))]
    exact hg p hp

/-- Ring invariant of the binary-tree generator. -/
theorem binTree_ring (w h : Nat) (rng : Rng) (hw : 1 ≤ w) :
    ringSpec w h (generateBinaryTreeMaze w h rng) := by
  unfold generateBinaryTreeMaze
  dsimp only
  refine ring_after_doors _ hw ?_
  intro p hp
  have hpr := onRing_not_inRect hp
  refine foldl_pres_mem (fun st : Grid × Nat => st.1.val p.1 p.2 = 1) (cellList h w)
    (binTreeCell rng) ?_ _ rfl
  intro s a ha hs
  rw [binTreeCell_val_outside rng w h p hpr s a ha]
  exact hs

/-- Value map of the side-columns fold of the division generator. -/
theorem ringColsFold_val (cL cR : Int) :
    ∀ (l : List Int) (g : Grid) (r' c' : Int),
      ((l.foldl (fun g r => (g.set r cL 1).set r cR 1) g).val r' c') =
      if (c' = cL ∨ c' = cR) ∧ r' ∈ l then 1 else g.val r' c' := by
  intro l
  induction l with
  | nil => intro g r' c'; simp
  | cons r t ih =>
    intro g r' c'
    rw [List.foldl_cons, ih]
    by_cases h1 : (c' = cL ∨ c' = cR) ∧ r' ∈ t
    · rw [if_pos h1, if_pos ⟨h1.1, List.mem_cons_of_mem r h1.2⟩]
    · rw [if_neg h1]
      by_cases h2 : (c' = cL ∨ c' = cR) ∧ r' ∈ r :: t
      · rw [if_pos h2]
        have hrr : r' = r := by
          rcases List.mem_cons.1 h2.2 with h | h
          · exact h
          · exact absurd ⟨h2.1, h⟩ h1
        rcases h2.1 with hc | hc
        · by_cases hlr : c' = cR
          · rw [hrr, hlr]; simp
          · rw [Grid.val_set_other _ _ _ _ _ _ (by rintro ⟨-, h⟩; exact hlr h), hrr, hc]
            simp
        · rw [hrr, hc]; simp
      · rw [if_neg h2]
        have hne : ¬ (r' = r ∧ (c' = cL ∨ c' = cR)) := by
          rintro ⟨ha, hb⟩
          exact h2 ⟨hb, by rw [ha]; exact List.mem_cons_self r t⟩
        rw [Grid.val_set_other _ _ _ _ _ _ (by rintro ⟨ha, hb⟩; exact hne ⟨ha, Or.inr hb⟩)]
        rw [Grid.val_set_other _ _ _ _ _ _ (by rintro ⟨ha, hb⟩; exact hne ⟨ha, Or.inl hb⟩)]

/-- Value map of the top-and-bottom-rows fold of the division generator. -/
theorem ringRowsFold_val (rT rB : Int) :
    ∀ (l : List Int) (g : Grid) (r' c' : Int),
      ((l.foldl (fun g c => (g.set rT c 1).set rB c 1) g).val r' c') =
      if (r' = rT ∨ r' = rB) ∧ c' ∈ l then 1 else g.val r' c' := by
  intro l
  induction l with
  | nil => intro g r' c'; simp
  | cons c t ih =>
    intro g r' c'
    rw [List.foldl_cons, ih]
    by_cases h1 : (r' = rT ∨ r' = rB) ∧ c' ∈ t
    · rw [if_pos h1, if_pos ⟨h1.1, List.mem_cons_of_mem c h1.2⟩]
    · rw [if_neg h1]
      by_cases h2 : (r' = rT ∨ r' = rB) ∧ c' ∈ c :: t
      · rw [if_pos h2]
        have hcc : c' = c := by
          rcases List.mem_cons.1 h2.2 with h | h
          · exact h
          · exact absurd ⟨h2.1, h⟩ h1
        rcases h2.1 with hr | hr
        · by_cases hlr : r' = rB
          · rw [hcc, hlr]; simp
          · rw [Grid.val_set_other _ _ _ _ _ _ (by rintro ⟨h, -⟩; exact hlr h), hcc, hr]
            simp
        · rw [hcc, hr]; simp
      · rw [if_neg h2]
        have hne : ¬ (c' = c ∧ (r' = rT ∨ r' = rB)) := by
          rintro ⟨ha, hb⟩
          exact h2 ⟨hb, by rw [ha]; exact List.mem_cons_self c t⟩
        rw [Grid.val_set_other _ _ _ _ _ _ (by rintro ⟨ha, hb⟩; exact hne ⟨hb, Or.inr ha⟩)]
        rw [Grid.val_set_other _ _ _ _ _ _ (by rintro ⟨ha, hb⟩; exact hne ⟨hb, Or.inl ha⟩)]

/-- Ring invariant of the recursive-division generator. -/
theorem division_ring (w h : Nat) (rng : Rng) (hw : 1 ≤ w) (g : Grid)
    (hgen : generateRecursiveDivisionMaze w h rng = some g) : ringSpec w h g := by
  unfold generateRecursiveDivisionMaze at hgen
  dsimp only at hgen
  rcases Option.map_eq_some'.1 hgen with ⟨out, hdiv, rfl⟩
  refine ring_after_doors _ hw ?_
  intro p hp
  rw [divide_val_outside rng _ _ _ _ _ _ _ _ hdiv p
    (by have := onRing_not_inRect hp; unfold inRect at this ⊢; omega)]
  rw [ringRowsFold_val, ringColsFold_val]
  unfold onRing at hp
  by_cases hrow : p.1 = 0 ∨ p.1 = 2 * (h : Int) + 1 - 1
  · rw [if_pos ⟨hrow, intRange_mem.2 ⟨by omega, by omega⟩⟩]
  · rw [if_neg (by rintro ⟨ha, -⟩; exact hrow ha)]
    have hcol : p.2 = 0 ∨ p.2 = 2 * (w : Int) + 1 - 1 := by omega
    rw [if_pos ⟨hcol, intRange_mem.2 ⟨by omega, by omega⟩⟩]

theorem extractNth_mem {α : Type} :
    ∀ (l : List α) (k : Nat) (x : α) (rest : List α),
      extractNth l k = some (x, rest) → x ∈ l ∧ ∀ y ∈ rest, y ∈ l := by
  intro l
  induction l with
  | nil => intro k x rest h; simp [extractNth] at h
  | cons a t ih =>
    intro k x rest h
    cases k with
    | zero =>
      unfold extractNth at h
      cases h
      exact ⟨List.mem_cons_self a t, fun y hy => List.mem_cons_of_mem a hy⟩
    | succ k =>
      unfold extractNth at h
      cases he : extractNth t k with
      | none => rw [he] at h; cases h
      | some pr =>
        rw [he] at h
        simp only [Option.map_some'] at h
        cases h
        rcases ih k pr.1 pr.2 (by rw [he]) with ⟨h1, h2⟩
        refine ⟨List.mem_cons_of_mem a h1, ?_⟩
        intro y hy
        rcases List.mem_cons.1 hy with hy | hy
        · rw [hy]; exact List.mem_cons_self a t
        · exact List.mem_cons_of_mem a (h2 y hy)

theorem shuffleGo_subset {α : Type} (rng : Rng) :
    ∀ (fuel : Nat) (l : List α) (i : Nat) (x : α),
      x ∈ (shuffleGo rng fuel l i).1 → x ∈ l := by
  intro fuel
  induction fuel with
  | zero => intro l i x hx; simp [shuffleGo] at hx
  | succ f ih =>
    intro l i x hx
    cases l with
    | nil => simp [shuffleGo] at hx
    | cons a t =>
      unfold shuffleGo at hx
      cases he : extractNth (a :: t) (draw rng i (a :: t).length) with
      | none => rw [he] at hx; simp at hx
      | some pr =>
        rw [he] at hx
        dsimp only at hx
        rcases extractNth_mem _ _ _ _ he with ⟨h1, h2⟩
        rcases List.mem_cons.1 hx with hx | hx
        · rw [hx]; exact h1
        · exact h2 x (ih pr.2 (i + 1) x hx)

theorem kruskalWalls_bounds {w h : Nat} {wall : KWall} (hmem : wall ∈ kruskalWalls w h) :
    1 ≤ wall.r ∧ wall.r ≤ 2 * (h : Int) - 1 ∧ 1 ≤ wall.c ∧ wall.c ≤ 2 * (w : Int) - 1 ∧
    wall.a.1 < h ∧ wall.a.2 < w ∧ wall.b.1 < h ∧ wall.b.2 < w := by
  unfold kruskalWalls at hmem
  rcases List.mem_append.1 hmem with hm | hm
  · rcases List.mem_flatMap.1 hm with ⟨r, hr, hm2⟩
    rcases List.mem_map.1 hm2 with ⟨c, hc, rfl⟩
    rw [List.mem_range] at hr hc
    refine ⟨by dsimp only; omega, by dsimp only; omega, by dsimp only; omega,
      by dsimp only; omega, by dsimp only; omega, by dsimp only; omega,
      by dsimp only; omega, by dsimp only; omega⟩
  · rcases List.mem_flatMap.1 hm with ⟨r, hr, hm2⟩
    rcases List.mem_map.1 hm2 with ⟨c, hc, rfl⟩
    rw [List.mem_range] at hr hc
    refine ⟨by dsimp only; omega, by dsimp only; omega, by dsimp only; omega,
      by dsimp only; omega, by dsimp only; omega, by dsimp only; omega,
      by dsimp only; omega, by dsimp only; omega⟩

/-- The Kruskal scan writes only at listed wall positions. -/
theorem kruskalProcess_val_outside (w : Nat) (fuel : Nat) (p : Coord)
    (r1 c1 r2 c2 : Int) (hp : ¬ inRect p r1 c1 r2 c2) :
    ∀ (ws : List KWall) (g : Grid) (parent rank : Nat → Nat) (out : Grid),
      (∀ wl ∈ ws, r1 ≤ wl.r ∧ wl.r ≤ r2 ∧ c1 ≤ wl.c ∧ wl.c ≤ c2) →
      kruskalProcess w fuel ws g parent rank = some out →
      out.val p.1 p.2 = g.val p.1 p.2 := by
  intro ws
  induction ws with
  | nil => intro g parent rank out _ hrun; cases hrun; rfl
  | cons wall rest ih =>
    intro g parent rank out hb hrun
    unfold kruskalProcess at hrun
    dsimp only at hrun
    cases hf1 : findSet parent fuel (wall.a.1 * w + wall.a.2) with
    | none => rw [hf1] at hrun; cases hrun
    | some q1 =>
      rw [hf1] at hrun
      dsimp only at hrun
      cases hf2 : findSet q1.2 fuel (wall.b.1 * w + wall.b.2) with
      | none => rw [hf2] at hrun; cases hrun
      | some q2 =>
        rw [hf2] at hrun
        dsimp only at hrun
        by_cases hroots : q1.1 ≠ q2.1
        · rw [if_pos hroots] at hrun
          cases hu : unionSets q2.2 rank fuel (wall.a.1 * w + wall.a.2)
              (wall.b.1 * w + wall.b.2) with
          | none => rw [hu] at hrun; cases hrun
          | some pr =>
            rw [hu] at hrun
            dsimp only at hrun
            have hw := hb wall (List.mem_cons_self wall rest)
            rw [ih _ _ _ _ (fun wl hwl => hb wl (List.mem_cons_of_mem wall hwl)) hrun]
            exact val_set_outside hp (by omega) (by omega) (by omega) (by omega)
        · rw [if_neg hroots] at hrun
          exact ih _ _ _ _ (fun wl hwl => hb wl (List.mem_cons_of_mem wall hwl)) hrun

/-- Ring invariant of the Kruskal generator. -/
theorem kruskal_ring (w h : Nat) (rng : Rng) (hw : 1 ≤ w) (g : Grid)
    (hgen : generateKruskalsMaze w h rng = some g) : ringSpec w h g := by
  unfold generateKruskalsMaze at hgen
  dsimp only at hgen
  rcases Option.map_eq_some'.1 hgen with ⟨out, hrun, rfl⟩
  refine ring_after_doors _ hw ?_
  intro p hp
  have hpr := onRing_not_inRect hp
  rw [kruskalProcess_val_outside w (w * h + 1) p 1 1 (2 * (h : Int) - 1) (2 * (w : Int) - 1)
    hpr _ _ _ _ _ ?_ hrun]
  · refine foldl_pres_mem (fun g2 : Grid => g2.val p.1 p.2 = 1) (cellList h w) _ ?_ _ rfl
    intro s a ha hs
    have hc := cellList_mem.1 ha
    rw [val_set_outside hpr (by omega) (by omega) (by omega) (by omega)]
    exact hs
  · intro wl hwl
    have := kruskalWalls_bounds (shuffleGo_subset rng _ _ _ _ hwl)
    exact ⟨this.1, this.2.1, this.2.2.1, this.2.2.2.1⟩

theorem primAdj_bounds {gh gw wr wc : Int} {q : Coord} (hq : q ∈ primAdj gh gw wr wc) :
    0 < q.1 ∧ q.1 < gh - 1 ∧ 0 < q.2 ∧ q.2 < gw - 1 ∧ q.1 % 2 = 1 ∧ q.2 % 2 = 1 := by
  unfold primAdj at hq
  rcases List.mem_filterMap.1 hq with ⟨d, _, hf⟩
  dsimp only at hf
  by_cases hc : isCellG gh gw (wr + d.1) (wc + d.2) = true
  · rw [if_pos hc] at hf
    cases hf
    simp only [isCellG, Bool.and_eq_true, decide_eq_true_eq] at hc
    exact ⟨hc.1.1.1.1.1, hc.1.1.1.1.2, hc.1.1.1.2, hc.1.1.2, hc.1.2, hc.2⟩
  · rw [if_neg hc] at hf
    cases hf

/-- Pushing frontier walls keeps every listed wall inside the inner area. -/
theorem primPushWalls_bounds {gh gw : Int} {mz : Grid} {r c : Int} {ws : List Coord}
    (hws : ∀ wl ∈ ws, 0 < wl.1 ∧ wl.1 < gh - 1 ∧ 0 < wl.2 ∧ wl.2 < gw - 1) :
    ∀ wl ∈ primPushWalls gh gw mz r c ws,
      0 < wl.1 ∧ wl.1 < gh - 1 ∧ 0 < wl.2 ∧ wl.2 < gw - 1 := by
  unfold primPushWalls
  refine foldl_pres
    (fun ws : List Coord => ∀ wl ∈ ws, 0 < wl.1 ∧ wl.1 < gh - 1 ∧ 0 < wl.2 ∧ wl.2 < gw - 1)
    _ ?_ moveDirs ws hws
  intro s d hs
  dsimp only
  split
  next hcond =>
    intro wl hwl
    rcases List.mem_append.1 hwl with hwl | hwl
    · exact hs wl hwl
    · rcases List.mem_singleton.1 hwl with rfl
      exact ⟨hcond.1, hcond.2.1, hcond.2.2.1, hcond.2.2.2.1⟩
  next => exact hs

/-- The Prim loop writes only strictly inside the ring. -/
theorem primLoop_val_outside (gh gw : Int) (rng : Rng) (p : Coord)
    (hp : ¬ inRect p 1 1 (gh - 2) (gw - 2)) :
    ∀ (fuel : Nat) (mz : Grid) (walls : List Coord) (i : Nat) out,
      (∀ wl ∈ walls, 0 < wl.1 ∧ wl.1 < gh - 1 ∧ 0 < wl.2 ∧ wl.2 < gw - 1) →
      primLoop gh gw rng fuel mz walls i = some out →
      out.1.val p.1 p.2 = mz.val p.1 p.2 := by
  intro fuel
  induction fuel with
  | zero => intro mz walls i out _ h; simp [primLoop] at h
  | succ f ih =>
    intro mz walls i out hb hrun
    unfold primLoop at hrun
    cases walls with
    | nil => cases hrun; rfl
    | cons w0 wrest =>
      cases he : extractNth (w0 :: wrest) (draw rng i (w0 :: wrest).length) with
      | none => rw [he] at hrun; cases hrun
      | some pr =>
        rw [he] at hrun
        dsimp only at hrun
        rcases extractNth_mem _ _ _ _ he with ⟨hw1, hw2⟩
        have hwb := hb pr.1 hw1
        have hrest : ∀ wl ∈ pr.2, 0 < wl.1 ∧ wl.1 < gh - 1 ∧ 0 < wl.2 ∧ wl.2 < gw - 1 :=
          fun wl hwl => hb wl (hw2 wl hwl)
        cases hadj : primAdj gh gw pr.1.1 pr.1.2 with
        | nil => rw [hadj] at hrun; exact ih _ _ _ _ hrest hrun
        | cons q1 qt =>
          rw [hadj] at hrun
          cases qt with
          | nil => exact ih _ _ _ _ hrest hrun
          | cons q2 qtt =>
            have hq1 : q1 ∈ primAdj gh gw pr.1.1 pr.1.2 := by
              rw [hadj]; exact List.mem_cons_self _ _
            have hq2 : q2 ∈ primAdj gh gw pr.1.1 pr.1.2 := by
              rw [hadj]; exact List.mem_cons_of_mem _ (List.mem_cons_self _ _)
            have hb1 := primAdj_bounds hq1
            have hb2 := primAdj_bounds hq2
            dsimp only at hrun
            split at hrun
            · rw [ih _ _ _ _ (primPushWalls_bounds hrest) hrun]
              rw [val_set_outside hp (by omega) (by omega) (by omega) (by omega)]
              rw [val_set_outside hp (by omega) (by omega) (by omega) (by omega)]
            · split at hrun
              · rw [ih _ _ _ _ (primPushWalls_bounds hrest) hrun]
                rw [val_set_outside hp (by omega) (by omega) (by omega) (by omega)]
                rw [val_set_outside hp (by omega) (by omega) (by omega) (by omega)]
              · exact ih _ _ _ _ hrest hrun

/-- Ring invariant of the Prim generator. -/
theorem prim_ring (w h : Nat) (rng : Rng) (hw : 1 ≤ w) (hh : 1 ≤ h) (g : Grid)
    (hgen : generatePrimsMaze w h rng = some g) : ringSpec w h g := by
  unfold generatePrimsMaze at hgen
  dsimp only at hgen
  rcases Option.map_eq_some'.1 hgen with ⟨out, hrun, rfl⟩
  refine ring_after_doors _ hw ?_
  intro p hp
  have hpr : ¬ inRect p 1 1 (2 * (h : Int) + 1 - 2) (2 * (w : Int) + 1 - 2) := by
    have := onRing_not_inRect hp
    unfold inRect at this ⊢
    omega
  rw [primLoop_val_outside _ _ rng p hpr _ _ _ _ _
    (primPushWalls_bounds (by intro wl hwl; simp at hwl)) hrun]
  have hs1 : draw rng 0 h < h := draw_lt rng 0 h (by omega)
  have hs2 : draw rng 1 w < w := draw_lt rng 1 w (by omega)
  rw [val_set_outside hpr (by omega) (by omega) (by omega) (by omega)]
  rfl

theorem dirs2_mem_cases {d : Coord} (hd : d ∈ dirs2) :
    d = ((-2 : Int), (0 : Int)) ∨ d = (2, 0) ∨ d = (0, -2) ∨ d = (0, 2) := by
  simp only [dirs2, List.mem_cons, List.not_mem_nil, or_false] at hd
  exact hd

/-- The backtracker carving writes only strictly inside the ring, as long
as it starts on an interior cell position. -/
theorem carveGo_val_outside (gh gw : Int) (rng : Rng) (p : Coord)
    (hp : ¬ inRect p 1 1 (gh - 2) (gw - 2)) :
    ∀ (fuel : Nat) (mz : Grid) (r c : Int) (i : Nat) out,
      1 ≤ r → r ≤ gh - 2 → 1 ≤ c → c ≤ gw - 2 →
      carveGo gh gw rng fuel mz r c i = some out →
      out.1.val p.1 p.2 = mz.val p.1 p.2 := by
  intro fuel
  induction fuel with
  | zero => intro mz r c i out _ _ _ _ hrun; simp [carveGo] at hrun
  | succ f ih =>
    intro mz r c i out hr1 hr2 hc1 hc2 hrun
    have hblock : ∀ (d : Coord), d ∈ dirs2 → ∀ (mzc : Grid) (ic : Nat)
        (prc : Grid × Nat),
        (if isCellG gh gw (r + d.1) (c + d.2) = true ∧ mzc.val (r + d.1) (c + d.2) = 1 then
          carveGo gh gw rng f (mzc.set (r + d.1 / 2) (c + d.2 / 2) 0) (r + d.1) (c + d.2) ic
         else some (mzc, ic)) = some prc →
        prc.1.val p.1 p.2 = mzc.val p.1 p.2 := by
      intro d hd mzc ic prc hif
      by_cases hcnd : isCellG gh gw (r + d.1) (c + d.2) = true ∧
          mzc.val (r + d.1) (c + d.2) = 1
      · rw [if_pos hcnd] at hif
        have hbnd := hcnd.1
        simp only [isCellG, Bool.and_eq_true, decide_eq_true_eq] at hbnd
        rw [ih _ _ _ _ _ (by omega) (by omega) (by omega) (by omega) hif]
        rcases dirs2_mem_cases hd with rfl | rfl | rfl | rfl <;>
          exact val_set_outside hp (by omega) (by omega) (by omega) (by omega)
      · rw [if_neg hcnd] at hif
        cases hif
        rfl
    unfold carveGo at hrun
    dsimp only at hrun
    have hsub : ∀ x ∈ (shuffleList rng dirs2 i).1, x ∈ dirs2 := by
      intro x hx
      exact shuffleGo_subset rng _ _ _ x hx
    cases hL : (shuffleList rng dirs2 i).1 with
    | nil => rw [hL] at hrun; cases hrun
    | cons d1 t1 =>
      cases t1 with
      | nil => rw [hL] at hrun; cases hrun
      | cons d2 t2 =>
        cases t2 with
        | nil => rw [hL] at hrun; cases hrun
        | cons d3 t3 =>
          cases t3 with
          | nil => rw [hL] at hrun; cases hrun
          | cons d4 t4 =>
            cases t4 with
            | cons d5 t5 => rw [hL] at hrun; cases hrun
            | nil =>
              rw [hL] at hrun
              dsimp only at hrun
              have hm1 : d1 ∈ dirs2 := hsub d1 (by rw [hL]; simp)
              have hm2 : d2 ∈ dirs2 := hsub d2 (by rw [hL]; simp)
              have hm3 : d3 ∈ dirs2 := hsub d3 (by rw [hL]; simp)
              have hm4 : d4 ∈ dirs2 := hsub d4 (by rw [hL]; simp)
              split at hrun
              next heq1 => cases hrun
              next pr1 heq1 =>
                split at hrun
                next heq2 => cases hrun
                next pr2 heq2 =>
                  split at hrun
                  next heq3 => cases hrun
                  next pr3 heq3 =>
                    rw [hblock d4 hm4 _ _ _ hrun, hblock d3 hm3 _ _ _ heq3,
                      hblock d2 hm2 _ _ _ heq2, hblock d1 hm1 _ _ _ heq1]
                    exact val_set_outside hp (by omega) (by omega) (by omega) (by omega)

/-- Ring invariant of the recursive-backtracker generator. -/
theorem backtracker_ring (w h : Nat) (rng : Rng) (hw : 1 ≤ w) (hh : 1 ≤ h) (g : Grid)
    (hgen : generateRecursiveBacktrackerMaze w h rng = some g) : ringSpec w h g := by
  unfold generateRecursiveBacktrackerMaze at hgen
  dsimp only at hgen
  rcases Option.map_eq_some'.1 hgen with ⟨out, hrun, rfl⟩
  refine ring_after_doors _ hw ?_
  intro p hp
  have hpr : ¬ inRect p 1 1 (2 * (h : Int) + 1 - 2) (2 * (w : Int) + 1 - 2) := by
    have := onRing_not_inRect hp
    unfold inRect at this ⊢
    omega
  have hs1 : draw rng 0 h < h := draw_lt rng 0 h (by omega)
  have hs2 : draw rng 1 w < w := draw_lt rng 1 w (by omega)
  rw [carveGo_val_outside _ _ rng p hpr _ _ _ _ _ _ (by omega) (by omega) (by omega)
    (by omega) hrun]
  rfl

theorem gtUnvisited_bounds {w h : Nat} {vis : List Coord} {cell q : Coord}
    (hq : q ∈ gtUnvisited w h vis cell) :
    0 ≤ q.1 ∧ q.1 < (h : Int) ∧ 0 ≤ q.2 ∧ q.2 < (w : Int) := by
  unfold gtUnvisited at hq
  rcases List.mem_filterMap.1 hq with ⟨d, _, hf⟩
  dsimp only at hf
  by_cases hc : (0 ≤ cell.1 + d.1 ∧ cell.1 + d.1 < (h : Int) ∧ 0 ≤ cell.2 + d.2 ∧
      cell.2 + d.2 < (w : Int)) ∧ (cell.1 + d.1, cell.2 + d.2) ∉ vis
  · rw [if_pos hc] at hf
    cases hf
    exact ⟨hc.1.1, hc.1.2.1, hc.1.2.2.1, hc.1.2.2.2⟩
  · rw [if_neg hc] at hf
    cases hf

/-- The growing-tree loop writes only strictly inside the ring, as long as
every active cell is in bounds. -/
theorem gtLoop_val_outside (w h : Nat) (rng : Rng) (method : GTMethod) (p : Coord)
    (hp : ¬ inRect p 1 1 (2 * (h : Int) - 1) (2 * (w : Int) - 1)) (hw : 1 ≤ w) (hh : 1 ≤ h) :
    ∀ (fuel : Nat) (mz : Grid) (active vis : List Coord) (i : Nat) out,
      (∀ cl ∈ active, 0 ≤ cl.1 ∧ cl.1 < (h : Int) ∧ 0 ≤ cl.2 ∧ cl.2 < (w : Int)) →
      gtLoop w h rng method fuel mz active vis i = some out →
      out.1.val p.1 p.2 = mz.val p.1 p.2 := by
  intro fuel
  induction fuel with
  | zero => intro mz active vis i out _ h; simp [gtLoop] at h
  | succ f ih =>
    intro mz active vis i out hb hrun
    unfold gtLoop at hrun
    cases active with
    | nil => cases hrun; rfl
    | cons a0 arest =>
      dsimp only at hrun
      have hcell : ∀ (ci : Nat), 0 ≤ ((a0 :: arest).getD ci (0, 0)).1 ∧
          ((a0 :: arest).getD ci (0, 0)).1 < (h : Int) ∧
          0 ≤ ((a0 :: arest).getD ci (0, 0)).2 ∧
          ((a0 :: arest).getD ci (0, 0)).2 < (w : Int) := by
        intro ci
        by_cases hlt : ci < (a0 :: arest).length
        · rw [List.getD_eq_getElem _ _ hlt]
          exact hb _ (List.getElem_mem hlt)
        · rw [List.getD_eq_default _ _ (by omega)]
          refine ⟨by omega, by omega, by omega, by omega⟩
      cases hu : gtUnvisited w h vis ((a0 :: arest).getD
          (gtIndex method rng i (a0 :: arest).length) (0, 0)) with
      | nil =>
        rw [hu] at hrun
        exact ih _ _ _ _ _ (fun cl hcl => hb cl (List.eraseIdx_subset _ _ hcl)) hrun
      | cons u us =>
        rw [hu] at hrun
        dsimp only at hrun
        have hnxt : pickFrom rng (gtNextI method i) (u :: us) ∈ gtUnvisited w h vis
            ((a0 :: arest).getD (gtIndex method rng i (a0 :: arest).length) (0, 0)) := by
          rw [hu]
          exact pickFrom_mem _ _ _ (by simp)
        have hnb := gtUnvisited_bounds hnxt
        have hcb := hcell (gtIndex method rng i (a0 :: arest).length)
        rw [ih _ _ _ _ _ ?_ hrun]
        · rw [val_set_outside hp (by omega) (by omega) (by omega) (by omega)]
          rw [val_set_outside hp (by omega) (by omega) (by omega) (by omega)]
        · intro cl hcl
          rcases List.mem_append.1 hcl with hcl | hcl
          · exact hb cl hcl
          · rcases List.mem_singleton.1 hcl with rfl
            exact hnb

/-- Ring invariant of the growing-tree generator, for every policy. -/
theorem growingTree_ring (w h : Nat) (rng : Rng) (method : GTMethod)
    (hw : 1 ≤ w) (hh : 1 ≤ h) (g : Grid)
    (hgen : generateGrowingTreeMaze w h rng method = some g) : ringSpec w h g := by
  unfold generateGrowingTreeMaze at hgen
  dsimp only at hgen
  rcases Option.map_eq_some'.1 hgen with ⟨out, hrun, rfl⟩
  refine ring_after_doors _ hw ?_
  intro p hp
  have hpr := onRing_not_inRect hp
  have hs1 : draw rng 0 h < h := draw_lt rng 0 h (by omega)
  have hs2 : draw rng 1 w < w := draw_lt rng 1 w (by omega)
  rw [gtLoop_val_outside w h rng method p hpr hw hh _ _ _ _ _ _ ?_ hrun]
  · rw [val_set_outside hpr (by omega) (by omega) (by omega) (by omega)]
    rfl
  · intro cl hcl
    rcases List.mem_singleton.1 hcl with rfl
    refine ⟨by omega, by omega, by omega, by omega⟩

/-- The Aldous-Broder loop writes only strictly inside the ring, as long
as the walker stands on an interior cell position. -/
theorem abLoop_val_outside (w h : Nat) (gh gw : Int) (rng : Rng) (p : Coord)
    (hp : ¬ inRect p 1 1 (gh - 2) (gw - 2)) :
    ∀ (fuel : Nat) (mz : Grid) (vis : List Coord) (count : Nat) (cur : Coord) (i : Nat) out,
      1 ≤ cur.1 → cur.1 ≤ gh - 2 → 1 ≤ cur.2 → cur.2 ≤ gw - 2 →
      abLoop w h gh gw rng fuel mz vis count cur i = some out →
      out.val p.1 p.2 = mz.val p.1 p.2 := by
  intro fuel
  induction fuel with
  | zero => intro mz vis count cur i out _ _ _ _ h; simp [abLoop] at h
  | succ f ih =>
    intro mz vis count cur i out h1 h2 h3 h4 hrun
    unfold abLoop at hrun
    by_cases hcnt : count < w * h
    · rw [if_pos hcnt] at hrun
      dsimp only at hrun
      have hdm : dirs2.getD (draw rng i 4) (0, 0) ∈ dirs2 := by
        have : draw rng i 4 < dirs2.length := draw_lt rng i 4 (by simp)
        rw [List.getD_eq_getElem _ _ this]
        exact List.getElem_mem this
      by_cases hic : isCellG gh gw (cur.1 + (dirs2.getD (draw rng i 4) (0, 0)).1)
          (cur.2 + (dirs2.getD (draw rng i 4) (0, 0)).2) = true
      · rw [if_pos hic] at hrun
        have hbn := hic
        simp only [isCellG, Bool.and_eq_true, decide_eq_true_eq] at hbn
        by_cases hvin : ((cur.1 + (dirs2.getD (draw rng i 4) (0, 0)).1 - 1) / 2,
            (cur.2 + (dirs2.getD (draw rng i 4) (0, 0)).2 - 1) / 2) ∉ vis
        · rw [if_pos hvin] at hrun
          rw [ih _ _ _ _ _ _ (by omega) (by omega) (by omega) (by omega) hrun]
          rcases dirs2_mem_cases hdm with hd | hd | hd | hd <;> rw [hd] at hbn ⊢ <;>
            dsimp only <;>
            rw [val_set_outside hp (by omega) (by omega) (by omega) (by omega),
              val_set_outside hp (by omega) (by omega) (by omega) (by omega)]
        · rw [if_neg hvin] at hrun
          exact ih _ _ _ _ _ _ (by omega) (by omega) (by omega) (by omega) hrun
      · rw [if_neg hic] at hrun
        exact ih _ _ _ _ _ _ h1 h2 h3 h4 hrun
    · rw [if_neg hcnt] at hrun
      cases hrun
      rfl

/-- Ring invariant of the Aldous-Broder generator. -/
theorem aldousBroder_ring (w h : Nat) (rng : Rng) (fuel : Nat) (hw : 1 ≤ w) (hh : 1 ≤ h)
    (g : Grid) (hgen : generateAldousBroderMaze w h rng fuel = some g) : ringSpec w h g := by
  unfold generateAldousBroderMaze at hgen
  dsimp only at hgen
  rcases Option.map_eq_some'.1 hgen with ⟨out, hrun, rfl⟩
  refine ring_after_doors _ hw ?_
  intro p hp
  have hpr : ¬ inRect p 1 1 (2 * (h : Int) + 1 - 2) (2 * (w : Int) + 1 - 2) := by
    have := onRing_not_inRect hp
    unfold inRect at this ⊢
    omega
  have hs1 : draw rng 0 h < h := draw_lt rng 0 h (by omega)
  have hs2 : draw rng 1 w < w := draw_lt rng 1 w (by omega)
  rw [abLoop_val_outside w h _ _ rng p hpr _ _ _ _ _ _ _ (by dsimp only; omega)
    (by dsimp only; omega) (by dsimp only; omega) (by dsimp only; omega) hrun]
  rw [val_set_outside hpr (by omega) (by omega) (by omega) (by omega)]
  rfl

/-- Carving a walk whose cells are interior writes only strictly inside
the ring. -/
theorem wilsonCarve_val_outside (gh gw : Int) (p : Coord)
    (hp : ¬ inRect p 1 1 (gh - 2) (gw - 2)) :
    ∀ (path : List Coord) (mz : Grid) (vis : List Coord) (prev : Option Coord),
      (∀ x ∈ path, 1 ≤ x.1 ∧ x.1 ≤ gh - 2 ∧ 1 ≤ x.2 ∧ x.2 ≤ gw - 2) →
      (∀ q ∈ prev, 1 ≤ q.1 ∧ q.1 ≤ gh - 2 ∧ 1 ≤ q.2 ∧ q.2 ≤ gw - 2) →
      (wilsonCarve mz vis path prev).1.val p.1 p.2 = mz.val p.1 p.2 := by
  intro path
  induction path with
  | nil => intro mz vis prev _ _; rfl
  | cons a t ih =>
    intro mz vis prev hb hprev
    have ha := hb a (List.mem_cons_self a t)
    unfold wilsonCarve
    dsimp only
    cases prev with
    | none =>
      rw [ih _ _ _ (fun x hx => hb x (List.mem_cons_of_mem a hx))
        (fun q hq => by obtain rfl : a = q := Option.some.inj hq; exact ha)]
      exact val_set_outside hp (by omega) (by omega) (by omega) (by omega)
    | some q =>
      have hq := hprev q rfl
      rw [ih _ _ _ (fun x hx => hb x (List.mem_cons_of_mem a hx))
        (fun q2 hq2 => by obtain rfl : a = q2 := Option.some.inj hq2; exact ha)]
      rw [val_set_outside hp (by omega) (by omega) (by omega) (by omega)]
      exact val_set_outside hp (by omega) (by omega) (by omega) (by omega)

/-- The loop-erased walk keeps every path cell interior. -/
theorem wilsonWalk_bounds (gh gw : Int) (rng : Rng) (vis : List Coord) :
    ∀ (fuel : Nat) (path pv : List Coord) (cur : Coord) (i : Nat) out,
      (∀ x ∈ path, 1 ≤ x.1 ∧ x.1 ≤ gh - 2 ∧ 1 ≤ x.2 ∧ x.2 ≤ gw - 2) →
      wilsonWalk gh gw rng vis fuel path pv cur i = some out →
      ∀ x ∈ out.1, 1 ≤ x.1 ∧ x.1 ≤ gh - 2 ∧ 1 ≤ x.2 ∧ x.2 ≤ gw - 2 := by
  intro fuel
  induction fuel with
  | zero => intro path pv cur i out _ h; simp [wilsonWalk] at h
  | succ f ih =>
    intro path pv cur i out hb hrun
    unfold wilsonWalk at hrun
    by_cases hin : cur ∈ vis
    · rw [if_pos hin] at hrun
      cases hrun
      exact hb
    · rw [if_neg hin] at hrun
      dsimp only at hrun
      by_cases hic : isCellG gh gw (cur.1 + (dirs2.getD (draw rng i 4) (0, 0)).1)
          (cur.2 + (dirs2.getD (draw rng i 4) (0, 0)).2) = true
      · rw [if_pos hic] at hrun
        have hbn := hic
        simp only [isCellG, Bool.and_eq_true, decide_eq_true_eq] at hbn
        by_cases hpv : (cur.1 + (dirs2.getD (draw rng i 4) (0, 0)).1,
            cur.2 + (dirs2.getD (draw rng i 4) (0, 0)).2) ∈ pv
        · rw [if_pos hpv] at hrun
          cases hfi : path.findIdx? (fun q => decide (q = (cur.1 +
              (dirs2.getD (draw rng i 4) (0, 0)).1,
              cur.2 + (dirs2.getD (draw rng i 4) (0, 0)).2))) with
          | none => rw [hfi] at hrun; cases hrun
          | some idx =>
            rw [hfi] at hrun
            dsimp only at hrun
            exact ih _ _ _ _ _ (fun x hx => hb x (List.take_subset _ _ hx)) hrun
        · rw [if_neg hpv] at hrun
          refine ih _ _ _ _ _ ?_ hrun
          intro x hx
          rcases List.mem_append.1 hx with hx | hx
          · exact hb x hx
          · rcases List.mem_singleton.1 hx with rfl
            refine ⟨by omega, by omega, by omega, by omega⟩
      · rw [if_neg hic] at hrun
        exact ih _ _ _ _ _ hb hrun

/-- The Wilson outer loop writes only strictly inside the ring. -/
theorem wilsonOuter_val_outside (w h : Nat) (gh gw : Int) (rng : Rng) (walkFuel : Nat)
    (p : Coord) (hp : ¬ inRect p 1 1 (gh - 2) (gw - 2))
    (hgh : gh = 2 * (h : Int) + 1) (hgw : gw = 2 * (w : Int) + 1)
    (hw : 1 ≤ w) (hh : 1 ≤ h) :
    ∀ (fuel : Nat) (mz : Grid) (vis : List Coord) (i : Nat) out,
      wilsonOuter w h gh gw rng walkFuel fuel mz vis i = some out →
      out.val p.1 p.2 = mz.val p.1 p.2 := by
  intro fuel
  induction fuel with
  | zero => intro mz vis i out h; simp [wilsonOuter] at h
  | succ f ih =>
    intro mz vis i out hrun
    unfold wilsonOuter at hrun
    by_cases hcnt : vis.length < w * h
    · rw [if_pos hcnt] at hrun
      cases hpick : wilsonPick w h rng walkFuel vis i with
      | none => rw [hpick] at hrun; cases hrun
      | some pk =>
        rw [hpick] at hrun
        dsimp only at hrun
        cases hwalk : wilsonWalk gh gw rng vis walkFuel [pk.1] [pk.1] pk.1 pk.2 with
        | none => rw [hwalk] at hrun; cases hrun
        | some wk =>
          rw [hwalk] at hrun
          dsimp only at hrun
          have hpkb : 1 ≤ pk.1.1 ∧ pk.1.1 ≤ gh - 2 ∧ 1 ≤ pk.1.2 ∧ pk.1.2 ≤ gw - 2 := by
            have : ∀ (fuel2 : Nat) (vis2 : List Coord) (i2 : Nat) pk2,
                wilsonPick w h rng fuel2 vis2 i2 = some pk2 →
                1 ≤ pk2.1.1 ∧ pk2.1.1 ≤ gh - 2 ∧ 1 ≤ pk2.1.2 ∧ pk2.1.2 ≤ gw - 2 := by
              intro fuel2
              induction fuel2 with
              | zero => intro vis2 i2 pk2 hx; simp [wilsonPick] at hx
              | succ f2 ih2 =>
                intro vis2 i2 pk2 hx
                unfold wilsonPick at hx
                dsimp only at hx
                split at hx
                · exact ih2 _ _ _ hx
                · cases hx
                  have d1 : draw rng i2 h < h := draw_lt rng i2 h (by omega)
                  have d2 : draw rng (i2 + 1) w < w := draw_lt rng (i2 + 1) w (by omega)
                  refine ⟨by dsimp only; omega, by dsimp only; omega,
                    by dsimp only; omega, by dsimp only; omega⟩
            exact this walkFuel vis i pk hpick
          have hwb := wilsonWalk_bounds gh gw rng vis walkFuel _ _ _ _ _
            (fun x hx => by rcases List.mem_singleton.1 hx with rfl; exact hpkb) hwalk
          rw [ih _ _ _ _ hrun]
          exact wilsonCarve_val_outside gh gw p hp _ _ _ _ hwb (fun q hq => by cases hq)
    · rw [if_neg hcnt] at hrun
      cases hrun
      rfl

/-- Ring invariant of the Wilson generator. -/
theorem wilson_ring (w h : Nat) (rng : Rng) (fuel : Nat) (hw : 1 ≤ w) (hh : 1 ≤ h)
    (g : Grid) (hgen : generateWilsonsMaze w h rng fuel = some g) : ringSpec w h g := by
  unfold generateWilsonsMaze at hgen
  dsimp only at hgen
  rcases Option.map_eq_some'.1 hgen with ⟨out, hrun, rfl⟩
  refine ring_after_doors _ hw ?_
  intro p hp
  have hpr : ¬ inRect p 1 1 (2 * (h : Int) + 1 - 2) (2 * (w : Int) + 1 - 2) := by
    have := onRing_not_inRect hp
    unfold inRect at this ⊢
    omega
  have hs1 : draw rng 0 h < h := draw_lt rng 0 h (by omega)
  have hs2 : draw rng 1 w < w := draw_lt rng 1 w (by omega)
  rw [wilsonOuter_val_outside w h _ _ rng fuel p hpr rfl rfl hw hh _ _ _ _ _ hrun]
  rw [val_set_outside hpr (by omega) (by omega) (by omega) (by omega)]
  rfl

/-- C3: for every one of the eight generators, any width and height at
least one, and every oracle, the outermost ring of the returned grid is
wall except the forced entrance (1, 0) and exit
(gridHeight - 2, gridWidth - 1), which are path. -/
theorem ring_invariant_all (w h : Nat) (rng : Rng) (fuel : Nat) (method : GTMethod)
    (hw : 1 ≤ w) (hh : 1 ≤ h) :
    ringSpec w h (generateBinaryTreeMaze w h rng) ∧
    (∀ g, generateRecursiveDivisionMaze w h rng = some g → ringSpec w h g) ∧
    (∀ g, generateKruskalsMaze w h rng = some g → ringSpec w h g) ∧
    (∀ g, generatePrimsMaze w h rng = some g → ringSpec w h g) ∧
    (∀ g, generateRecursiveBacktrackerMaze w h rng = some g → ringSpec w h g) ∧
    (∀ g, generateGrowingTreeMaze w h rng method = some g → ringSpec w h g) ∧
    (∀ g, generateAldousBroderMaze w h rng fuel = some g → ringSpec w h g) ∧
    (∀ g, generateWilsonsMaze w h rng fuel = some g → ringSpec w h g) :=
  ⟨binTree_ring w h rng hw,
   fun g hg => division_ring w h rng hw g hg,
   fun g hg => kruskal_ring w h rng hw g hg,
   fun g hg => prim_ring w h rng hw hh g hg,
   fun g hg => backtracker_ring w h rng hw hh g hg,
   fun g hg => growingTree_ring w h rng method hw hh g hg,
   fun g hg => aldousBroder_ring w h rng fuel hw hh g hg,
   fun g hg => wilson_ring w h rng fuel hw hh g hg⟩

/-- Witness for C3, instantiating every generator on a concrete size and
oracle. -/
theorem ring_invariant_all_witness :
    ringSpec 2 2 (generateBinaryTreeMaze 2 2 (fun i => (i * 31 + 17) % 97)) ∧
    ringSpec 2 2 ((generateRecursiveDivisionMaze 2 2 (fun i => (i * 31 + 17) % 97)).getD
      (mkGrid 0 0 0)) ∧
    ringSpec 2 2 ((generateKruskalsMaze 2 2 (fun i => (i * 31 + 17) % 97)).getD
      (mkGrid 0 0 0)) ∧
    ringSpec 2 2 ((generatePrimsMaze 2 2 (fun i => (i * 31 + 17) % 97)).getD
      (mkGrid 0 0 0)) ∧
    ringSpec 2 2 ((generateRecursiveBacktrackerMaze 2 2 (fun i => (i * 31 + 17) % 97)).getD
      (mkGrid 0 0 0)) ∧
    ringSpec 2 2 ((generateGrowingTreeMaze 2 2 (fun i => (i * 31 + 17) % 97)
      GTMethod.newest).getD (mkGrid 0 0 0)) ∧
    ringSpec 1 1 ((generateAldousBroderMaze 1 1 (fun i => (i * 31 + 17) % 97) 40).getD
      (mkGrid 0 0 0)) ∧
    ringSpec 1 1 ((generateWilsonsMaze 1 1 (fun i => (i * 31 + 17) % 97) 40).getD
      (mkGrid 0 0 0)) := by
  have h22 := ring_invariant_all 2 2 (fun i => (i * 31 + 17) % 97) 40 GTMethod.newest
    (by decide) (by decide)
  have h11 := ring_invariant_all 1 1 (fun i => (i * 31 + 17) % 97) 40 GTMethod.newest
    (by decide) (by decide)
  exact ⟨h22.1, h22.2.1 _ rfl, h22.2.2.1 _ rfl, h22.2.2.2.1 _ rfl, h22.2.2.2.2.1 _ rfl,
    h22.2.2.2.2.2.1 _ rfl, h11.2.2.2.2.2.2.1 _ rfl, h11.2.2.2.2.2.2.2 _ rfl⟩

/-! ## Infrastructure for the spanning-tree observations -/

theorem countOpen_cons (a : Coord) (t : List Coord) (g : Grid) :
    countOpen (a :: t) g = countOpen t g + (if g.val a.1 a.2 = 0 then 1 else 0) := by
  unfold countOpen
  simp [List.countP_cons]

theorem countOpen_congr {l : List Coord} {g g' : Grid}
    (h : ∀ p ∈ l, g'.val p.1 p.2 = g.val p.1 p.2) : countOpen l g' = countOpen l g := by
  induction l with
  | nil => rfl
  | cons a t ih =>
    rw [countOpen_cons, countOpen_cons, ih (fun p hp => h p (List.mem_cons_of_mem a hp)),
      h a (List.mem_cons_self a t)]

theorem countOpen_set_not_mem {l : List Coord} {g : Grid} {p0 : Coord} {v : Nat}
    (h : p0 ∉ l) : countOpen l (g.set p0.1 p0.2 v) = countOpen l g :=
  countOpen_congr (fun p hp => Grid.val_set_other g p0.1 p0.2 v p.1 p.2
    (fun hc => h (by rwa [show p0 = p from (Prod.ext_iff.2 ⟨hc.1.symm, hc.2.symm⟩)])))

theorem countOpen_set_open {l : List Coord} {g : Grid} {p0 : Coord}
    (h : g.val p0.1 p0.2 = 0) : countOpen l (g.set p0.1 p0.2 0) = countOpen l g :=
  countOpen_congr (fun p _ => by
    by_cases hc : p.1 = p0.1 ∧ p.2 = p0.2
    · rw [Grid.val_set, if_pos hc, hc.1, hc.2, h]
    · exact Grid.val_set_other g p0.1 p0.2 0 p.1 p.2 hc)

theorem countOpen_set_mem {l : List Coord} {g : Grid} {p0 : Coord}
    (hmem : p0 ∈ l) (hnd : l.Nodup) (hcl : g.val p0.1 p0.2 ≠ 0) :
    countOpen l (g.set p0.1 p0.2 0) = countOpen l g + 1 := by
  induction l with
  | nil => cases hmem
  | cons a t ih =>
    rw [countOpen_cons, countOpen_cons]
    rcases List.mem_cons.1 hmem with rfl | hmem'
    · have hnt : p0 ∉ t := (List.nodup_cons.1 hnd).1
      rw [countOpen_set_not_mem hnt, Grid.val_set_self, if_pos rfl, if_neg hcl]
    · have hne : a ≠ p0 := fun he => (List.nodup_cons.1 hnd).1 (he ▸ hmem')
      have hva : (g.set p0.1 p0.2 0).val a.1 a.2 = g.val a.1 a.2 :=
        Grid.val_set_other g p0.1 p0.2 0 a.1 a.2
          (fun hc => hne (Prod.ext_iff.2 ⟨hc.1, hc.2⟩))
      rw [ih hmem' (List.nodup_cons.1 hnd).2, hva]
      omega

theorem cellList_nodup (h w : Nat) : (cellList h w).Nodup := by
  induction h with
  | zero => simp [cellList]
  | succ n ih =>
    have hsplit : cellList (n + 1) w =
        cellList n w ++ (List.range w).map (fun j => (n, j)) := by
      unfold cellList
      rw [List.range_succ, List.flatMap_append]
      simp
    rw [hsplit]
    refine List.Nodup.append ih ?_ ?_
    · exact (List.nodup_range _).map (fun a b hab => by
        simpa using congrArg Prod.snd hab)
    · intro p hp hq
      rcases List.mem_flatMap.1 hp with ⟨r, hr, hp2⟩
      rcases List.mem_map.1 hp2 with ⟨c, _, rfl⟩
      rcases List.mem_map.1 hq with ⟨j, _, hj⟩
      rw [List.mem_range] at hr
      have := congrArg Prod.fst hj
      simp at this
      omega

theorem cellPos_inj : Function.Injective cellPos := by
  intro p q hpq
  unfold cellPos at hpq
  rw [Prod.mk.injEq] at hpq
  refine Prod.ext_iff.2 ⟨?_, ?_⟩ <;> omega

theorem cellPosList_nodup (w h : Nat) : (cellPosList w h).Nodup :=
  (cellList_nodup h w).map cellPos_inj

theorem cellPosList_mem {w h : Nat} {p : Coord} :
    p ∈ cellPosList w h ↔
      ∃ i j : Nat, i < h ∧ j < w ∧ p = (2 * (i : Int) + 1, 2 * (j : Int) + 1) := by
  unfold cellPosList
  constructor
  · intro hp
    rcases List.mem_map.1 hp with ⟨q, hq, rfl⟩
    rw [cellList_mem] at hq
    exact ⟨q.1, q.2, hq.1, hq.2, rfl⟩
  · rintro ⟨i, j, hi, hj, rfl⟩
    exact List.mem_map.2 ⟨(i, j), cellList_mem.2 ⟨hi, hj⟩, rfl⟩

theorem passageList_mem {w h : Nat} {p : Coord} :
    p ∈ passageList w h ↔
      (∃ i j : Nat, i < h ∧ j < w - 1 ∧ p = (2 * (i : Int) + 1, 2 * (j : Int) + 2)) ∨
      (∃ i j : Nat, i < h - 1 ∧ j < w ∧ p = (2 * (i : Int) + 2, 2 * (j : Int) + 1)) := by
  unfold passageList
  rw [List.mem_append]
  constructor
  · rintro (hp | hp) <;> rcases List.mem_map.1 hp with ⟨q, hq, rfl⟩ <;>
      rw [cellList_mem] at hq
    · exact Or.inl ⟨q.1, q.2, hq.1, hq.2, rfl⟩
    · exact Or.inr ⟨q.1, q.2, hq.1, hq.2, rfl⟩
  · rintro (⟨i, j, hi, hj, rfl⟩ | ⟨i, j, hi, hj, rfl⟩)
    · exact Or.inl (List.mem_map.2 ⟨(i, j), cellList_mem.2 ⟨hi, hj⟩, rfl⟩)
    · exact Or.inr (List.mem_map.2 ⟨(i, j), cellList_mem.2 ⟨hi, hj⟩, rfl⟩)

theorem passageList_nodup (w h : Nat) : (passageList w h).Nodup := by
  unfold passageList
  refine List.Nodup.append ?_ ?_ ?_
  · exact (cellList_nodup h (w - 1)).map (fun a b hab => by
      have h1 := congrArg Prod.fst hab
      have h2 := congrArg Prod.snd hab
      simp at h1 h2
      exact Prod.ext_iff.2 ⟨h1, h2⟩)
  · exact (cellList_nodup (h - 1) w).map (fun a b hab => by
      have h1 := congrArg Prod.fst hab
      have h2 := congrArg Prod.snd hab
      simp at h1 h2
      exact Prod.ext_iff.2 ⟨h1, h2⟩)
  · intro p hp hq
    rcases List.mem_map.1 hp with ⟨q1, _, rfl⟩
    rcases List.mem_map.1 hq with ⟨q2, _, hj⟩
    have := congrArg Prod.fst hj
    simp at this
    omega

theorem cellList_length (h w : Nat) : (cellList h w).length = h * w := by
  unfold cellList
  induction h with
  | zero => simp
  | succ n ih =>
    rw [List.range_succ, List.flatMap_append]
    simp only [List.length_append, ih]
    simp [Nat.succ_mul]

theorem cellPosList_length (w h : Nat) : (cellPosList w h).length = w * h := by
  unfold cellPosList
  rw [List.length_map, cellList_length]
  exact Nat.mul_comm h w

theorem nodup_covers {l L : List Coord} (hd : l.Nodup) (hsub : ∀ x ∈ l, x ∈ L)
    (hlen : L.length ≤ l.length) : ∀ x ∈ L, x ∈ l := by
  intro x hxL
  by_contra hxl
  have hsub' : l ⊆ L.erase x := fun {y} hy =>
    (List.mem_erase_of_ne (fun he => hxl (by rw [← he]; exact hy))).2 (hsub y hy)
  have h1 : l.length ≤ (L.erase x).length := (hd.subperm hsub').length_le
  have h2 : (L.erase x).length = L.length - 1 := List.length_erase_of_mem hxL
  have h3 : 0 < L.length := List.length_pos.2 (fun he => by simp [he] at hxL)
  omega

theorem stepAdj_mono {g g' : Grid} (hm : ∀ r c, g.val r c = 0 → g'.val r c = 0)
    {p q : Coord} (h : stepAdj g p q) : stepAdj g' p q :=
  ⟨hm _ _ h.1, hm _ _ h.2.1, h.2.2⟩

theorem connectedIn_mono {g g' : Grid} (hm : ∀ r c, g.val r c = 0 → g'.val r c = 0)
    {p q : Coord} (h : connectedIn g p q) : connectedIn g' p q := by
  induction h with
  | refl => exact Relation.ReflTransGen.refl
  | tail _ hstep ih => exact Relation.ReflTransGen.tail ih (stepAdj_mono hm hstep)

theorem val_mono_set0 (g : Grid) (r c : Int) :
    ∀ r' c', g.val r' c' = 0 → (g.set r c 0).val r' c' = 0 := by
  intro r' c' hv
  by_cases hc : r' = r ∧ c' = c
  · rw [Grid.val_set, if_pos hc]
  · rw [Grid.val_set_other g r c 0 r' c' hc]
    exact hv

theorem stepAdj_symm {g : Grid} {p q : Coord} (h : stepAdj g p q) : stepAdj g q p := by
  refine ⟨h.2.1, h.1, ?_⟩
  have hd := h.2.2
  simp only [moveDirs, List.mem_cons, List.not_mem_nil, or_false, Prod.ext_iff] at hd ⊢
  omega

theorem connectedIn_symm {g : Grid} {p q : Coord} (h : connectedIn g p q) :
    connectedIn g q p := by
  induction h with
  | refl => exact Relation.ReflTransGen.refl
  | tail _ hstep ih =>
    exact Relation.ReflTransGen.trans (Relation.ReflTransGen.single (stepAdj_symm hstep)) ih

/-- A set of logical cells closed under in-bounds adjacency that holds one
cell holds every cell. -/
theorem cell_closure {w h : Nat} (S : Nat → Nat → Prop)
    (hcl : ∀ i j i' j', i < h → j < w → i' < h → j' < w → S i j →
      ((i' = i + 1 ∧ j' = j) ∨ (i = i' + 1 ∧ j' = j) ∨
       (j' = j + 1 ∧ i' = i) ∨ (j = j' + 1 ∧ i' = i)) → S i' j')
    {a b : Nat} (ha : a < h) (hb : b < w) (hS : S a b) :
    ∀ i j, i < h → j < w → S i j := by
  have key : ∀ d i j, i < h → j < w →
      (i - a) + (a - i) + (j - b) + (b - j) ≤ d → S i j := by
    intro d
    induction d with
    | zero =>
      intro i j _ _ hd
      have hia : i = a ∧ j = b := by omega
      rw [hia.1, hia.2]
      exact hS
    | succ d ih =>
      intro i j hi hj hd
      by_cases hia : i = a
      · by_cases hjb : j = b
        · rw [hia, hjb]; exact hS
        · rcases Nat.lt_or_ge j b with hlt | hge
          · exact hcl i (j + 1) i j hi (by omega) hi hj
              (ih i (j + 1) hi (by omega) (by omega)) (by omega)
          · exact hcl i (j - 1) i j hi (by omega) hi hj
              (ih i (j - 1) hi (by omega) (by omega)) (by omega)
      · rcases Nat.lt_or_ge i a with hlt | hge
        · exact hcl (i + 1) j i j (by omega) hj hi hj
            (ih (i + 1) j (by omega) hj (by omega)) (by omega)
        · exact hcl (i - 1) j i j (by omega) hj hi hj
            (ih (i - 1) j (by omega) hj (by omega)) (by omega)
  intro i j hi hj
  exact key ((i - a) + (a - i) + (j - b) + (b - j)) i j hi hj le_rfl

/-- Carving positions outside the interior rectangle preserves the
perfect-maze property. -/
theorem perfectMaze_set_outside {w h : Nat} {g : Grid} {r c : Int}
    (hout : ¬ inRect (r, c) 1 1 (2 * (h : Int) - 1) (2 * (w : Int) - 1))
    (hpm : perfectMaze w h g) : perfectMaze w h (g.set r c 0) := by
  have hcell : ∀ p ∈ cellPosList w h, ¬(p.1 = r ∧ p.2 = c) := by
    intro p hp hc
    rcases cellPosList_mem.1 hp with ⟨i, j, hi, hj, rfl⟩
    apply hout
    unfold inRect
    simp only at hc
    constructor
    · omega
    · refine ⟨?_, ?_, ?_⟩ <;> omega
  have hpass : ∀ p ∈ passageList w h, ¬(p.1 = r ∧ p.2 = c) := by
    intro p hp hc
    rcases passageList_mem.1 hp with ⟨i, j, hi, hj, rfl⟩ | ⟨i, j, hi, hj, rfl⟩ <;>
      · apply hout
        unfold inRect
        simp only at hc
        constructor
        · omega
        · refine ⟨?_, ?_, ?_⟩ <;> omega
  refine ⟨?_, ?_, ?_, ?_⟩
  · intro p hp
    rw [Grid.val_set_other g r c 0 p.1 p.2 (hcell p hp)]
    exact hpm.1 p hp
  · rw [show openCellCount w h (g.set r c 0) = openCellCount w h g from
      countOpen_congr (fun p hp => Grid.val_set_other g r c 0 p.1 p.2 (hcell p hp))]
    exact hpm.2.1
  · rw [show passageCount w h (g.set r c 0) = passageCount w h g from
      countOpen_congr (fun p hp => Grid.val_set_other g r c 0 p.1 p.2 (hpass p hp))]
    exact hpm.2.2.1
  · intro p hp q hq
    exact connectedIn_mono (val_mono_set0 g r c) (hpm.2.2.2 p hp q hq)

/-! ## Row-major indexing of the cell list -/

theorem mul_add_div {w : Nat} (hw : 0 < w) (x y : Nat) (hy : y < w) : (x * w + y) / w = x := by
  rw [Nat.add_comm, Nat.add_mul_div_right y x hw, Nat.div_eq_of_lt hy, Nat.zero_add]

theorem mul_add_mod (w x y : Nat) (hy : y < w) : (x * w + y) % w = y := by
  rw [Nat.add_comm, Nat.add_mul_mod_self_right, Nat.mod_eq_of_lt hy]

theorem ord_lt {a b h w : Nat} (ha : a < h) (hb : b < w) : a * w + b < h * w := by
  calc a * w + b < a * w + w := by omega
  _ = (a + 1) * w := by ring
  _ ≤ h * w := Nat.mul_le_mul_right w ha

theorem ord_uniq {w a b a' b' : Nat} (hb : b < w) (hb' : b' < w)
    (he : a * w + b = a' * w + b') : a = a' ∧ b = b' := by
  have hw : 0 < w := by omega
  constructor
  · rw [← mul_add_div hw a b hb, ← mul_add_div hw a' b' hb', he]
  · rw [← mul_add_mod w a b hb, ← mul_add_mod w a' b' hb', he]

theorem cellList_succ (n w : Nat) :
    cellList (n + 1) w = cellList n w ++ (List.range w).map (fun j => (n, j)) := by
  unfold cellList
  rw [List.range_succ, List.flatMap_append]
  simp

theorem cellList_eq_map_range (h w : Nat) :
    cellList h w = (List.range (h * w)).map (fun k => (k / w, k % w)) := by
  rcases Nat.eq_zero_or_pos w with rfl | hw
  · simp [cellList]
  · induction h with
    | zero => simp [cellList]
    | succ n ih =>
      rw [cellList_succ, ih]
      rw [show (n + 1) * w = n * w + w from by ring, List.range_add, List.map_append,
        List.map_map]
      congr 1
      apply List.map_congr_left
      intro j hj
      rw [List.mem_range] at hj
      simp only [Function.comp_apply]
      rw [show n * w + j = j + n * w from by ring] at *
      rw [Prod.mk.injEq]
      constructor
      · rw [show j + n * w = j + w * n from by ring, Nat.add_mul_div_left j n hw,
          Nat.div_eq_of_lt hj, Nat.zero_add]
      · rw [show j + n * w = j + w * n from by ring, Nat.add_mul_mod_self_left,
          Nat.mod_eq_of_lt hj]

theorem cellList_getElem_eq {h w : Nat} {n : Nat} (hn : n < h * w) :
    (cellList h w)[n]? = some (n / w, n % w) := by
  rw [cellList_eq_map_range, List.getElem?_map, List.getElem?_range hn]
  rfl

theorem cellList_drop {h w n : Nat} (hn : n < h * w) :
    (cellList h w).drop n = (n / w, n % w) :: (cellList h w).drop (n + 1) := by
  have hlen : n < (cellList h w).length := by rw [cellList_length]; exact hn
  rw [List.drop_eq_getElem_cons hlen]
  congr 1
  have hge := cellList_getElem_eq (h := h) (w := w) hn
  rw [List.getElem?_eq_getElem hlen] at hge
  exact Option.some.inj hge

/-! ## Binary tree: the carving step preserves the invariant -/

/-- Carving cell (ci, cj) and its upward wall advances the invariant. -/
theorem btStepUp {w h : Nat} (hw : 0 < w) {n ci cj : Nat} (hci : ci < h) (hcj : cj < w)
    (hci0 : 0 < ci) (hord : ci * w + cj = n) {g : Grid} (hinv : btInv w h n g) :
    btInv w h (n + 1)
      ((g.set (2 * (ci : Int) + 1) (2 * (cj : Int) + 1) 0).set
        (2 * (ci : Int)) (2 * (cj : Int) + 1) 0) := by
  obtain ⟨h1, h2, h3, h4, h5⟩ := hinv
  have hfresh := h2 ci cj hci hcj (Nat.le_of_eq hord.symm)
  have hmono : ∀ r' c', g.val r' c' = 0 →
      ((g.set (2 * (ci : Int) + 1) (2 * (cj : Int) + 1) 0).set
        (2 * (ci : Int)) (2 * (cj : Int) + 1) 0).val r' c' = 0 :=
    fun r' c' hv => val_mono_set0 _ _ _ r' c' (val_mono_set0 g _ _ r' c' hv)
  have hvcell : ((g.set (2 * (ci : Int) + 1) (2 * (cj : Int) + 1) 0).set
      (2 * (ci : Int)) (2 * (cj : Int) + 1) 0).val (2 * (ci : Int) + 1) (2 * (cj : Int) + 1)
      = 0 := by
    rw [Grid.val_set_other _ _ _ _ _ _ (by rw [not_and]; intro hr; omega), Grid.val_set_self]
  have hvup : ((g.set (2 * (ci : Int) + 1) (2 * (cj : Int) + 1) 0).set
      (2 * (ci : Int)) (2 * (cj : Int) + 1) 0).val (2 * (ci : Int)) (2 * (cj : Int) + 1)
      = 0 := Grid.val_set_self _ _ _ _
  refine ⟨?_, ?_, ?_, ?_, ?_⟩
  · intro a b ha hb habn
    by_cases hab : a * w + b = n
    · obtain ⟨rfl, rfl⟩ := ord_uniq hb hcj (hab.trans hord.symm)
      exact hvcell
    · exact hmono _ _ (h1 a b ha hb (by omega))
  · intro a b ha hb hge
    have hne : ¬(a = ci ∧ b = cj) := by
      rintro ⟨rfl, rfl⟩
      omega
    have hold := h2 a b ha hb (Nat.le_of_succ_le hge)
    refine ⟨?_, ?_, ?_⟩
    · rw [Grid.val_set_other _ _ _ _ _ _ (by rw [not_and]; intro hr; omega),
        Grid.val_set_other _ _ _ _ _ _ ?_]
      · exact hold.1
      · rintro ⟨hr, hc⟩
        exact hne ⟨by omega, by omega⟩
    · rw [Grid.val_set_other _ _ _ _ _ _ ?_,
        Grid.val_set_other _ _ _ _ _ _ (by rw [not_and]; intro hr; omega)]
      · exact hold.2.1
      · rintro ⟨hr, hc⟩
        exact hne ⟨by omega, by omega⟩
    · rw [Grid.val_set_other _ _ _ _ _ _ (by rw [not_and]; intro hr; omega),
        Grid.val_set_other _ _ _ _ _ _ (by rw [not_and]; intro _ hc; omega)]
      exact hold.2.2
  · have hmem : ((2 * (ci : Int) + 1, 2 * (cj : Int) + 1) : Coord) ∈ cellPosList w h :=
      cellPosList_mem.2 ⟨ci, cj, hci, hcj, rfl⟩
    have hstep1 : countOpen (cellPosList w h)
        (g.set (2 * (ci : Int) + 1) (2 * (cj : Int) + 1) 0)
        = countOpen (cellPosList w h) g + 1 :=
      countOpen_set_mem hmem (cellPosList_nodup w h) (by rw [hfresh.1]; omega)
    have hnot : ((2 * (ci : Int), 2 * (cj : Int) + 1) : Coord) ∉ cellPosList w h := by
      intro hm
      rcases cellPosList_mem.1 hm with ⟨i, j, _, _, hpe⟩
      rw [Prod.mk.injEq] at hpe
      omega
    unfold openCellCount at h3 ⊢
    rw [countOpen_set_not_mem hnot, hstep1, h3]
  · have hnot1 : ((2 * (ci : Int) + 1, 2 * (cj : Int) + 1) : Coord) ∉ passageList w h := by
      intro hm
      rcases passageList_mem.1 hm with ⟨i, j, _, _, hpe⟩ | ⟨i, j, _, _, hpe⟩ <;>
        (rw [Prod.mk.injEq] at hpe; omega)
    have hmem2 : ((2 * (ci : Int), 2 * (cj : Int) + 1) : Coord) ∈ passageList w h := by
      apply passageList_mem.2
      refine Or.inr ⟨ci - 1, cj, by omega, hcj, ?_⟩
      rw [Prod.mk.injEq]
      constructor
      · omega
      · rfl
    have hup1 : (g.set (2 * (ci : Int) + 1) (2 * (cj : Int) + 1) 0).val
        (2 * (ci : Int)) (2 * (cj : Int) + 1) = 1 := by
      rw [Grid.val_set_other _ _ _ _ _ _ (by rw [not_and]; intro hr; omega)]
      exact hfresh.2.1
    have hn1 : 1 ≤ n := by
      rw [← hord]
      calc 1 ≤ w := hw
      _ ≤ ci * w := Nat.le_mul_of_pos_left w hci0
      _ ≤ ci * w + cj := Nat.le_add_right _ _
    unfold passageCount at h4 ⊢
    rw [countOpen_set_mem hmem2 (passageList_nodup w h) (by rw [hup1]; omega),
      countOpen_set_not_mem hnot1, h4]
    omega
  · intro a b ha hb habn
    by_cases hab : a * w + b = n
    · obtain ⟨rfl, rfl⟩ := ord_uniq hb hcj (hab.trans hord.symm)
      have hkey : (a - 1) * w + b < n := by
        rw [← hord]
        have hsp : (a - 1) * w + w = a * w := by
          rw [Nat.sub_one_mul]
          exact Nat.sub_add_cancel (Nat.le_mul_of_pos_left w hci0)
        calc (a - 1) * w + b < ((a - 1) * w + w) + b :=
              Nat.add_lt_add_right (Nat.lt_add_of_pos_right hw) b
        _ = a * w + b := by rw [hsp]
      have hvprev : ((g.set (2 * (a : Int) + 1) (2 * (b : Int) + 1) 0).set
          (2 * (a : Int)) (2 * (b : Int) + 1) 0).val
          (2 * ((a - 1 : Nat) : Int) + 1) (2 * (b : Int) + 1) = 0 :=
        hmono _ _ (h1 (a - 1) b (by omega) hcj hkey)
      have hstep1 : stepAdj ((g.set (2 * (a : Int) + 1) (2 * (b : Int) + 1) 0).set
          (2 * (a : Int)) (2 * (b : Int) + 1) 0)
          (2 * (a : Int) + 1, 2 * (b : Int) + 1) (2 * (a : Int), 2 * (b : Int) + 1) := by
        refine ⟨hvcell, hvup, ?_⟩
        simp only [moveDirs, List.mem_cons, List.not_mem_nil, or_false, Prod.ext_iff]
        omega
      have hstep2 : stepAdj ((g.set (2 * (a : Int) + 1) (2 * (b : Int) + 1) 0).set
          (2 * (a : Int)) (2 * (b : Int) + 1) 0)
          (2 * (a : Int), 2 * (b : Int) + 1)
          (2 * ((a - 1 : Nat) : Int) + 1, 2 * (b : Int) + 1) := by
        refine ⟨hvup, hvprev, ?_⟩
        simp only [moveDirs, List.mem_cons, List.not_mem_nil, or_false, Prod.ext_iff]
        omega
      exact Relation.ReflTransGen.head hstep1 (Relation.ReflTransGen.head hstep2
        (connectedIn_mono hmono (h5 (a - 1) b (by omega) hcj hkey)))
    · exact connectedIn_mono hmono (h5 a b ha hb (by omega))

/-- Carving cell (ci, cj) and its leftward wall advances the invariant. -/
theorem btStepLeft {w h : Nat} {n ci cj : Nat} (hci : ci < h) (hcj : cj < w)
    (hcj0 : 0 < cj) (hord : ci * w + cj = n) {g : Grid} (hinv : btInv w h n g) :
    btInv w h (n + 1)
      ((g.set (2 * (ci : Int) + 1) (2 * (cj : Int) + 1) 0).set
        (2 * (ci : Int) + 1) (2 * (cj : Int)) 0) := by
  obtain ⟨h1, h2, h3, h4, h5⟩ := hinv
  have hfresh := h2 ci cj hci hcj (Nat.le_of_eq hord.symm)
  have hmono : ∀ r' c', g.val r' c' = 0 →
      ((g.set (2 * (ci : Int) + 1) (2 * (cj : Int) + 1) 0).set
        (2 * (ci : Int) + 1) (2 * (cj : Int)) 0).val r' c' = 0 :=
    fun r' c' hv => val_mono_set0 _ _ _ r' c' (val_mono_set0 g _ _ r' c' hv)
  have hvcell : ((g.set (2 * (ci : Int) + 1) (2 * (cj : Int) + 1) 0).set
      (2 * (ci : Int) + 1) (2 * (cj : Int)) 0).val (2 * (ci : Int) + 1) (2 * (cj : Int) + 1)
      = 0 := by
    rw [Grid.val_set_other _ _ _ _ _ _ (by rw [not_and]; intro _ hc; omega),
      Grid.val_set_self]
  have hvleft : ((g.set (2 * (ci : Int) + 1) (2 * (cj : Int) + 1) 0).set
      (2 * (ci : Int) + 1) (2 * (cj : Int)) 0).val (2 * (ci : Int) + 1) (2 * (cj : Int))
      = 0 := Grid.val_set_self _ _ _ _
  refine ⟨?_, ?_, ?_, ?_, ?_⟩
  · intro a b ha hb habn
    by_cases hab : a * w + b = n
    · obtain ⟨rfl, rfl⟩ := ord_uniq hb hcj (hab.trans hord.symm)
      exact hvcell
    · exact hmono _ _ (h1 a b ha hb (by omega))
  · intro a b ha hb hge
    have hne : ¬(a = ci ∧ b = cj) := by
      rintro ⟨rfl, rfl⟩
      omega
    have hold := h2 a b ha hb (Nat.le_of_succ_le hge)
    refine ⟨?_, ?_, ?_⟩
    · rw [Grid.val_set_other _ _ _ _ _ _ (by rw [not_and]; intro _ hc; omega),
        Grid.val_set_other _ _ _ _ _ _ ?_]
      · exact hold.1
      · rintro ⟨hr, hc⟩
        exact hne ⟨by omega, by omega⟩
    · rw [Grid.val_set_other _ _ _ _ _ _ (by rw [not_and]; intro hr; omega),
        Grid.val_set_other _ _ _ _ _ _ (by rw [not_and]; intro hr; omega)]
      exact hold.2.1
    · rw [Grid.val_set_other _ _ _ _ _ _ ?_,
        Grid.val_set_other _ _ _ _ _ _ (by rw [not_and]; intro _ hc; omega)]
      · exact hold.2.2
      · rintro ⟨hr, hc⟩
        exact hne ⟨by omega, by omega⟩
  · have hmem : ((2 * (ci : Int) + 1, 2 * (cj : Int) + 1) : Coord) ∈ cellPosList w h :=
      cellPosList_mem.2 ⟨ci, cj, hci, hcj, rfl⟩
    have hstep1 : countOpen (cellPosList w h)
        (g.set (2 * (ci : Int) + 1) (2 * (cj : Int) + 1) 0)
        = countOpen (cellPosList w h) g + 1 :=
      countOpen_set_mem hmem (cellPosList_nodup w h) (by rw [hfresh.1]; omega)
    have hnot : ((2 * (ci : Int) + 1, 2 * (cj : Int)) : Coord) ∉ cellPosList w h := by
      intro hm
      rcases cellPosList_mem.1 hm with ⟨i, j, _, _, hpe⟩
      rw [Prod.mk.injEq] at hpe
      omega
    unfold openCellCount at h3 ⊢
    rw [countOpen_set_not_mem hnot, hstep1, h3]
  · have hnot1 : ((2 * (ci : Int) + 1, 2 * (cj : Int) + 1) : Coord) ∉ passageList w h := by
      intro hm
      rcases passageList_mem.1 hm with ⟨i, j, _, _, hpe⟩ | ⟨i, j, _, _, hpe⟩ <;>
        (rw [Prod.mk.injEq] at hpe; omega)
    have hmem2 : ((2 * (ci : Int) + 1, 2 * (cj : Int)) : Coord) ∈ passageList w h := by
      apply passageList_mem.2
      refine Or.inl ⟨ci, cj - 1, hci, by omega, ?_⟩
      rw [Prod.mk.injEq]
      constructor
      · rfl
      · omega
    have hleft1 : (g.set (2 * (ci : Int) + 1) (2 * (cj : Int) + 1) 0).val
        (2 * (ci : Int) + 1) (2 * (cj : Int)) = 1 := by
      rw [Grid.val_set_other _ _ _ _ _ _ (by rw [not_and]; intro _ hc; omega)]
      exact hfresh.2.2
    have hn1 : 1 ≤ n := by omega
    unfold passageCount at h4 ⊢
    rw [countOpen_set_mem hmem2 (passageList_nodup w h) (by rw [hleft1]; omega),
      countOpen_set_not_mem hnot1, h4]
    omega
  · intro a b ha hb habn
    by_cases hab : a * w + b = n
    · obtain ⟨rfl, rfl⟩ := ord_uniq hb hcj (hab.trans hord.symm)
      have hkey : a * w + (b - 1) < n := by omega
      have hvprev : ((g.set (2 * (a : Int) + 1) (2 * (b : Int) + 1) 0).set
          (2 * (a : Int) + 1) (2 * (b : Int)) 0).val
          (2 * (a : Int) + 1) (2 * ((b - 1 : Nat) : Int) + 1) = 0 :=
        hmono _ _ (h1 a (b - 1) hci (by omega) hkey)
      have hstep1 : stepAdj ((g.set (2 * (a : Int) + 1) (2 * (b : Int) + 1) 0).set
          (2 * (a : Int) + 1) (2 * (b : Int)) 0)
          (2 * (a : Int) + 1, 2 * (b : Int) + 1) (2 * (a : Int) + 1, 2 * (b : Int)) := by
        refine ⟨hvcell, hvleft, ?_⟩
        simp only [moveDirs, List.mem_cons, List.not_mem_nil, or_false, Prod.ext_iff]
        omega
      have hstep2 : stepAdj ((g.set (2 * (a : Int) + 1) (2 * (b : Int) + 1) 0).set
          (2 * (a : Int) + 1) (2 * (b : Int)) 0)
          (2 * (a : Int) + 1, 2 * (b : Int))
          (2 * (a : Int) + 1, 2 * ((b - 1 : Nat) : Int) + 1) := by
        refine ⟨hvleft, hvprev, ?_⟩
        simp only [moveDirs, List.mem_cons, List.not_mem_nil, or_false, Prod.ext_iff]
        omega
      exact Relation.ReflTransGen.head hstep1 (Relation.ReflTransGen.head hstep2
        (connectedIn_mono hmono (h5 a (b - 1) hci (by omega) hkey)))
    · exact connectedIn_mono hmono (h5 a b ha hb (by omega))

/-- Carving the very first cell (0, 0) establishes the invariant at one. -/
theorem btStepNone {w h : Nat} (hh : 0 < h) (hw : 0 < w) {g : Grid}
    (hinv : btInv w h 0 g) :
    btInv w h 1 (g.set 1 1 0) := by
  obtain ⟨_, h2, h3, h4, _⟩ := hinv
  have hfresh := h2 0 0 hh hw (Nat.zero_le _)
  refine ⟨?_, ?_, ?_, ?_, ?_⟩
  · intro a b ha hb habn
    have hab : a = 0 ∧ b = 0 := by
      constructor
      · by_contra hc
        have : 1 * w ≤ a * w := Nat.mul_le_mul_right w (by omega)
        omega
      · omega
    obtain ⟨rfl, rfl⟩ := hab
    exact Grid.val_set_self _ _ _ _
  · intro a b ha hb hge
    have hne : ¬(a = 0 ∧ b = 0) := by
      rintro ⟨rfl, rfl⟩
      omega
    have hold := h2 a b ha hb (Nat.zero_le _)
    refine ⟨?_, ?_, ?_⟩
    · rw [Grid.val_set_other _ _ _ _ _ _ ?_]
      · exact hold.1
      · rintro ⟨hr, hc⟩
        exact hne ⟨by omega, by omega⟩
    · rw [Grid.val_set_other _ _ _ _ _ _ (by rw [not_and]; intro hr; omega)]
      exact hold.2.1
    · rw [Grid.val_set_other _ _ _ _ _ _ (by rw [not_and]; intro _ hc; omega)]
      exact hold.2.2
  · have hmem : (((1 : Int), (1 : Int)) : Coord) ∈ cellPosList w h := by
      apply cellPosList_mem.2
      exact ⟨0, 0, hh, hw, by rw [Prod.mk.injEq]; omega⟩
    have hfr : g.val (1 : Int) (1 : Int) = 1 := by
      have hx := hfresh.1
      rwa [show (2 * ((0 : Nat) : Int) + 1) = (1 : Int) from by omega] at hx
    unfold openCellCount at h3 ⊢
    rw [countOpen_set_mem hmem (cellPosList_nodup w h) (by rw [hfr]; omega), h3]
  · have hnot1 : (((1 : Int), (1 : Int)) : Coord) ∉ passageList w h := by
      intro hm
      rcases passageList_mem.1 hm with ⟨i, j, _, _, hpe⟩ | ⟨i, j, _, _, hpe⟩ <;>
        (rw [Prod.mk.injEq] at hpe; omega)
    unfold passageCount at h4 ⊢
    rw [countOpen_set_not_mem hnot1, h4]
  · intro a b ha hb habn
    have hab : a = 0 ∧ b = 0 := by
      constructor
      · by_contra hc
        have : 1 * w ≤ a * w := Nat.mul_le_mul_right w (by omega)
        omega
      · omega
    obtain ⟨rfl, rfl⟩ := hab
    exact Relation.ReflTransGen.refl

/-- One binary-tree fold step advances the invariant, whatever the
oracle says. -/
theorem btStep {w h : Nat} (rng : Rng) (hw : 0 < w) (hh : 0 < h) {n : Nat} (hn : n < h * w)
    {g : Grid} (acc : Nat) (hinv : btInv w h n g) :
    btInv w h (n + 1) (binTreeCell rng (g, acc) (n / w, n % w)).1 := by
  have hci : n / w < h := by
    rw [Nat.div_lt_iff_lt_mul hw]
    exact hn
  have hcj : n % w < w := Nat.mod_lt n hw
  have hord : (n / w) * w + n % w = n := by
    rw [Nat.mul_comm]
    exact Nat.div_add_mod n w
  unfold binTreeCell
  dsimp only
  by_cases hA : (1 : Int) < 2 * ((n / w : Nat) : Int) + 1 ∧
      (1 : Int) < 2 * ((n % w : Nat) : Int) + 1
  · rw [if_pos hA]
    by_cases hd : draw rng acc 2 = 0
    · rw [if_pos hd]
      dsimp only
      rw [show (2 * ((n / w : Nat) : Int) + 1) - 1 = 2 * ((n / w : Nat) : Int) from by ring]
      exact btStepUp hw hci hcj (by omega) hord hinv
    · rw [if_neg hd]
      dsimp only
      rw [show (2 * ((n % w : Nat) : Int) + 1) - 1 = 2 * ((n % w : Nat) : Int) from by ring]
      exact btStepLeft hci hcj (by omega) hord hinv
  · rw [if_neg hA]
    by_cases hB : (1 : Int) < 2 * ((n / w : Nat) : Int) + 1
    · rw [if_pos hB]
      dsimp only
      rw [show (2 * ((n / w : Nat) : Int) + 1) - 1 = 2 * ((n / w : Nat) : Int) from by ring]
      exact btStepUp hw hci hcj (by omega) hord hinv
    · rw [if_neg hB]
      by_cases hC : (1 : Int) < 2 * ((n % w : Nat) : Int) + 1
      · rw [if_pos hC]
        dsimp only
        rw [show (2 * ((n % w : Nat) : Int) + 1) - 1 = 2 * ((n % w : Nat) : Int) from by ring]
        exact btStepLeft hci hcj (by omega) hord hinv
      · rw [if_neg hC]
        dsimp only
        have hdiv : n / w = 0 := by
          generalize n / w = q at hB ⊢
          omega
        have hmod : n % w = 0 := by
          generalize n % w = q at hC ⊢
          omega
        have h0 : n = 0 := by
          rw [hdiv, Nat.zero_mul, Nat.zero_add] at hord
          omega
        subst h0
        rw [hdiv, hmod]
        exact btStepNone hh hw hinv

/-- Folding the remaining cells carries the invariant to the end. -/
theorem btFold {w h : Nat} (rng : Rng) (hw : 0 < w) (hh : 0 < h) :
    ∀ (k n : Nat), n + k = h * w → ∀ (g : Grid) (acc : Nat), btInv w h n g →
      btInv w h (h * w) (((cellList h w).drop n).foldl (binTreeCell rng) (g, acc)).1 := by
  intro k
  induction k with
  | zero =>
    intro n hk g acc hinv
    have hn : n = h * w := by omega
    subst hn
    rw [List.drop_eq_nil_of_le (le_of_eq (cellList_length h w))]
    exact hinv
  | succ k ih =>
    intro n hk g acc hinv
    have hn : n < h * w := by omega
    rw [cellList_drop hn, List.foldl_cons]
    have hstep := btStep rng hw hh hn acc hinv
    have hrec := ih (n + 1) (by omega) (binTreeCell rng (g, acc) (n / w, n % w)).1
      (binTreeCell rng (g, acc) (n / w, n % w)).2 hstep
    rwa [Prod.mk.eta] at hrec

/-- The completed invariant is the perfect-maze property. -/
theorem btInv_perfect {w h : Nat} {g : Grid} (hinv : btInv w h (h * w) g) :
    perfectMaze w h g := by
  obtain ⟨h1, _, h3, h4, h5⟩ := hinv
  refine ⟨?_, ?_, ?_, ?_⟩
  · intro p hp
    rcases cellPosList_mem.1 hp with ⟨i, j, hi, hj, rfl⟩
    exact h1 i j hi hj (ord_lt hi hj)
  · rw [h3, Nat.mul_comm]
  · rw [h4, Nat.mul_comm]
  · intro p hp q hq
    rcases cellPosList_mem.1 hp with ⟨i, j, hi, hj, rfl⟩
    rcases cellPosList_mem.1 hq with ⟨i', j', hi', hj', rfl⟩
    exact Relation.ReflTransGen.trans (h5 i j hi hj (ord_lt hi hj))
      (connectedIn_symm (h5 i' j' hi' hj' (ord_lt hi' hj')))

/-- The binary-tree generator always yields a perfect maze. -/
theorem binTree_perfect (w h : Nat) (rng : Rng) (hw : 1 ≤ w) (hh : 1 ≤ h) :
    perfectMaze w h (generateBinaryTreeMaze w h rng) := by
  unfold generateBinaryTreeMaze
  dsimp only
  apply perfectMaze_set_outside (by intro hr; unfold inRect at hr; omega)
  apply perfectMaze_set_outside (by intro hr; unfold inRect at hr; omega)
  apply btInv_perfect
  have h0 : btInv w h 0 (mkGrid (2 * (h : Int) + 1) (2 * (w : Int) + 1) 1) := by
    refine ⟨?_, ?_, ?_, ?_, ?_⟩
    · intro a b _ _ hlt
      exact absurd hlt (Nat.not_lt_zero _)
    · intro a b _ _ _
      exact ⟨rfl, rfl, rfl⟩
    · exact List.countP_eq_zero.2 (fun p _ => by simp [mkGrid, Grid.val])
    · exact List.countP_eq_zero.2 (fun p _ => by simp [mkGrid, Grid.val])
    · intro a b _ _ hlt
      exact absurd hlt (Nat.not_lt_zero _)
  have hf := btFold rng (by omega) (by omega) (h * w) 0 (by omega) _ 0 h0
  rwa [List.drop_zero] at hf

/-! ## The shared carve step of the growth generators -/

theorem val_set2_other {g : Grid} {r1 c1 r2 c2 : Int} {v1 v2 : Nat} {r' c' : Int}
    (h1 : ¬(r' = r1 ∧ c' = c1)) (h2 : ¬(r' = r2 ∧ c' = c2)) :
    ((g.set r1 c1 v1).set r2 c2 v2).val r' c' = g.val r' c' := by
  rw [Grid.val_set_other _ _ _ _ _ _ h2, Grid.val_set_other _ _ _ _ _ _ h1]

/-- Carving the wall between a carved cell (a, b) and a fresh adjacent cell
(a', b'), then the fresh cell itself, bumps both open counts by one and
joins the two cell positions. -/
theorem carve_step {w h : Nat} {g : Grid} {a b a' b' : Nat}
    (ha : a < h) (hb : b < w) (ha' : a' < h) (hb' : b' < w)
    (hadj : (a' = a + 1 ∧ b' = b) ∨ (a = a' + 1 ∧ b' = b) ∨
            (b' = b + 1 ∧ a' = a) ∨ (b = b' + 1 ∧ a' = a))
    (hopen : g.val (2 * (a : Int) + 1) (2 * (b : Int) + 1) = 0)
    (hcellfresh : g.val (2 * (a' : Int) + 1) (2 * (b' : Int) + 1) ≠ 0)
    (hmidfresh : g.val ((a : Int) + (a' : Int) + 1) ((b : Int) + (b' : Int) + 1) ≠ 0) :
    openCellCount w h ((g.set ((a : Int) + (a' : Int) + 1) ((b : Int) + (b' : Int) + 1) 0).set
        (2 * (a' : Int) + 1) (2 * (b' : Int) + 1) 0) = openCellCount w h g + 1 ∧
    passageCount w h ((g.set ((a : Int) + (a' : Int) + 1) ((b : Int) + (b' : Int) + 1) 0).set
        (2 * (a' : Int) + 1) (2 * (b' : Int) + 1) 0) = passageCount w h g + 1 ∧
    connectedIn ((g.set ((a : Int) + (a' : Int) + 1) ((b : Int) + (b' : Int) + 1) 0).set
        (2 * (a' : Int) + 1) (2 * (b' : Int) + 1) 0)
      (2 * (a : Int) + 1, 2 * (b : Int) + 1) (2 * (a' : Int) + 1, 2 * (b' : Int) + 1) := by
  have hmidcell : (((a : Int) + (a' : Int) + 1, (b : Int) + (b' : Int) + 1) : Coord)
      ∉ cellPosList w h := by
    intro hm
    rcases cellPosList_mem.1 hm with ⟨i, j, _, _, hpe⟩
    rw [Prod.mk.injEq] at hpe
    omega
  have hcellpass : ((2 * (a' : Int) + 1, 2 * (b' : Int) + 1) : Coord) ∉ passageList w h := by
    intro hm
    rcases passageList_mem.1 hm with ⟨i, j, _, _, hpe⟩ | ⟨i, j, _, _, hpe⟩ <;>
      (rw [Prod.mk.injEq] at hpe; omega)
  have hmidpass : (((a : Int) + (a' : Int) + 1, (b : Int) + (b' : Int) + 1) : Coord)
      ∈ passageList w h := by
    apply passageList_mem.2
    rcases hadj with ⟨rfl, rfl⟩ | ⟨he, rfl⟩ | ⟨rfl, rfl⟩ | ⟨he, rfl⟩
    · exact Or.inr ⟨a, b', by omega, hb', by rw [Prod.mk.injEq]; constructor <;> push_cast <;> omega⟩
    · exact Or.inr ⟨a', b', by omega, hb', by rw [Prod.mk.injEq]; constructor <;> push_cast <;> omega⟩
    · exact Or.inl ⟨a', b, ha', by omega, by rw [Prod.mk.injEq]; constructor <;> push_cast <;> omega⟩
    · exact Or.inl ⟨a', b', ha', by omega, by rw [Prod.mk.injEq]; constructor <;> push_cast <;> omega⟩
  have hvmid : ((g.set ((a : Int) + (a' : Int) + 1) ((b : Int) + (b' : Int) + 1) 0).set
      (2 * (a' : Int) + 1) (2 * (b' : Int) + 1) 0).val
      ((a : Int) + (a' : Int) + 1) ((b : Int) + (b' : Int) + 1) = 0 := by
    rw [Grid.val_set_other _ _ _ _ _ _ (by rw [not_and]; intro hr hc; omega), Grid.val_set_self]
  have hvnew : ((g.set ((a : Int) + (a' : Int) + 1) ((b : Int) + (b' : Int) + 1) 0).set
      (2 * (a' : Int) + 1) (2 * (b' : Int) + 1) 0).val
      (2 * (a' : Int) + 1) (2 * (b' : Int) + 1) = 0 := Grid.val_set_self _ _ _ _
  have hvold : ((g.set ((a : Int) + (a' : Int) + 1) ((b : Int) + (b' : Int) + 1) 0).set
      (2 * (a' : Int) + 1) (2 * (b' : Int) + 1) 0).val
      (2 * (a : Int) + 1) (2 * (b : Int) + 1) = 0 := by
    rw [val_set2_other (by rw [not_and]; intro hr hc; omega)
      (by rw [not_and]; intro hr hc; omega)]
    exact hopen
  refine ⟨?_, ?_, ?_⟩
  · have hfr : (g.set ((a : Int) + (a' : Int) + 1) ((b : Int) + (b' : Int) + 1) 0).val
        (2 * (a' : Int) + 1) (2 * (b' : Int) + 1) ≠ 0 := by
      rw [Grid.val_set_other _ _ _ _ _ _ (by rw [not_and]; intro hr hc; omega)]
      exact hcellfresh
    unfold openCellCount
    rw [countOpen_set_mem (cellPosList_mem.2 ⟨a', b', ha', hb', rfl⟩)
      (cellPosList_nodup w h) hfr, countOpen_set_not_mem hmidcell]
  · unfold passageCount
    rw [countOpen_set_not_mem hcellpass,
      countOpen_set_mem hmidpass (passageList_nodup w h) hmidfresh]
  · have hstep1 : stepAdj ((g.set ((a : Int) + (a' : Int) + 1) ((b : Int) + (b' : Int) + 1)
        0).set (2 * (a' : Int) + 1) (2 * (b' : Int) + 1) 0)
        (2 * (a : Int) + 1, 2 * (b : Int) + 1)
        ((a : Int) + (a' : Int) + 1, (b : Int) + (b' : Int) + 1) := by
      refine ⟨hvold, hvmid, ?_⟩
      simp only [moveDirs, List.mem_cons, List.not_mem_nil, or_false, Prod.ext_iff]
      omega
    have hstep2 : stepAdj ((g.set ((a : Int) + (a' : Int) + 1) ((b : Int) + (b' : Int) + 1)
        0).set (2 * (a' : Int) + 1) (2 * (b' : Int) + 1) 0)
        ((a : Int) + (a' : Int) + 1, (b : Int) + (b' : Int) + 1)
        (2 * (a' : Int) + 1, 2 * (b' : Int) + 1) := by
      refine ⟨hvmid, hvnew, ?_⟩
      simp only [moveDirs, List.mem_cons, List.not_mem_nil, or_false, Prod.ext_iff]
      omega
    exact Relation.ReflTransGen.head hstep1 (Relation.ReflTransGen.single hstep2)

theorem isCellG_iff {w h : Nat} {r c : Int} :
    isCellG (2 * (h : Int) + 1) (2 * (w : Int) + 1) r c = true ↔
      ∃ a b : Nat, a < h ∧ b < w ∧ r = 2 * (a : Int) + 1 ∧ c = 2 * (b : Int) + 1 := by
  unfold isCellG
  simp only [Bool.and_eq_true, decide_eq_true_eq]
  constructor
  · intro hc
    refine ⟨((r - 1) / 2).toNat, ((c - 1) / 2).toNat, ?_, ?_, ?_, ?_⟩ <;> omega
  · rintro ⟨a, b, ha, hb, rfl, rfl⟩
    refine ⟨⟨⟨⟨⟨?_, ?_⟩, ?_⟩, ?_⟩, ?_⟩, ?_⟩ <;> omega

/-- The shared carve step, lifted to the growth invariant. -/
theorem growInv_step {w h : Nat} {s : Coord} {g : Grid} {vis : List Coord} {a b a' b' : Nat}
    (hinv : growInv w h s g vis)
    (ha : a < h) (hb : b < w) (ha' : a' < h) (hb' : b' < w)
    (hadj : (a' = a + 1 ∧ b' = b) ∨ (a = a' + 1 ∧ b' = b) ∨
            (b' = b + 1 ∧ a' = a) ∨ (b = b' + 1 ∧ a' = a))
    (hmem : ((a : Int), (b : Int)) ∈ vis)
    (hnew : ((a' : Int), (b' : Int)) ∉ vis) :
    growInv w h s ((g.set ((a : Int) + (a' : Int) + 1) ((b : Int) + (b' : Int) + 1) 0).set
      (2 * (a' : Int) + 1) (2 * (b' : Int) + 1) 0) (vis ++ [((a' : Int), (b' : Int))]) := by
  obtain ⟨h1, h2, h3, h4, h5, h6, h7, h8⟩ := hinv
  have hopen : g.val (2 * (a : Int) + 1) (2 * (b : Int) + 1) = 0 := (h3 a b ha hb).2 hmem
  have hcellfresh : g.val (2 * (a' : Int) + 1) (2 * (b' : Int) + 1) ≠ 0 :=
    fun h0 => hnew ((h3 a' b' ha' hb').1 h0)
  have hmidfresh : g.val ((a : Int) + (a' : Int) + 1) ((b : Int) + (b' : Int) + 1) ≠ 0 := by
    intro h0
    rcases hadj with ⟨he1, he2⟩ | ⟨he1, he2⟩ | ⟨he1, he2⟩ | ⟨he1, he2⟩
    · rw [show ((a : Int) + (a' : Int) + 1) = 2 * (a : Int) + 2 from by omega,
        show ((b : Int) + (b' : Int) + 1) = 2 * (b : Int) + 1 from by omega] at h0
      apply hnew
      rw [show (((a' : Nat) : Int), ((b' : Nat) : Int)) = ((a : Int) + 1, (b : Int)) from by
        rw [Prod.mk.injEq]; constructor <;> omega]
      exact (h4 a b (by omega) hb h0).2
    · rw [show ((a : Int) + (a' : Int) + 1) = 2 * (a' : Int) + 2 from by omega,
        show ((b : Int) + (b' : Int) + 1) = 2 * (b' : Int) + 1 from by omega] at h0
      apply hnew
      exact (h4 a' b' (by omega) hb' h0).1
    · rw [show ((a : Int) + (a' : Int) + 1) = 2 * (a : Int) + 1 from by omega,
        show ((b : Int) + (b' : Int) + 1) = 2 * (b : Int) + 2 from by omega] at h0
      apply hnew
      rw [show (((a' : Nat) : Int), ((b' : Nat) : Int)) = ((a : Int), (b : Int) + 1) from by
        rw [Prod.mk.injEq]; constructor <;> omega]
      exact (h5 a b ha (by omega) h0).2
    · rw [show ((a : Int) + (a' : Int) + 1) = 2 * (a' : Int) + 1 from by omega,
        show ((b : Int) + (b' : Int) + 1) = 2 * (b' : Int) + 2 from by omega] at h0
      apply hnew
      exact (h5 a' b' ha' (by omega) h0).1
  have hcarve := carve_step ha hb ha' hb' hadj hopen hcellfresh hmidfresh
  have hvnew : ((g.set ((a : Int) + (a' : Int) + 1) ((b : Int) + (b' : Int) + 1) 0).set
      (2 * (a' : Int) + 1) (2 * (b' : Int) + 1) 0).val
      (2 * (a' : Int) + 1) (2 * (b' : Int) + 1) = 0 := Grid.val_set_self _ _ _ _
  have hvmid : ((g.set ((a : Int) + (a' : Int) + 1) ((b : Int) + (b' : Int) + 1) 0).set
      (2 * (a' : Int) + 1) (2 * (b' : Int) + 1) 0).val
      ((a : Int) + (a' : Int) + 1) ((b : Int) + (b' : Int) + 1) = 0 := by
    rw [Grid.val_set_other _ _ _ _ _ _ (by rw [not_and]; intro hr hc; omega), Grid.val_set_self]
  refine ⟨?_, ?_, ?_, ?_, ?_, ?_, ?_, ?_⟩
  · simp [List.nodup_append, h1, hnew]
  · intro p hp
    rcases List.mem_append.1 hp with hp | hp
    · exact h2 p hp
    · exact ⟨a', b', ha', hb', List.mem_singleton.1 hp⟩
  · intro x y hx hy
    by_cases hxy : x = a' ∧ y = b'
    · obtain ⟨rfl, rfl⟩ := hxy
      constructor
      · intro _
        exact List.mem_append.2 (Or.inr (List.mem_singleton.2 rfl))
      · intro _
        exact hvnew
    · rw [val_set2_other (by rintro ⟨u1, u2⟩; omega)
        (by rintro ⟨u1, u2⟩; exact hxy ⟨by omega, by omega⟩), h3 x y hx hy]
      rw [List.mem_append, List.mem_singleton]
      constructor
      · exact Or.inl
      · rintro (hm | hm)
        · exact hm
        · rw [Prod.mk.injEq] at hm
          exact absurd ⟨by omega, by omega⟩ hxy
  · intro x y hx hy h0
    by_cases hqm : 2 * (x : Int) + 2 = (a : Int) + (a' : Int) + 1 ∧
        2 * (y : Int) + 1 = (b : Int) + (b' : Int) + 1
    · rcases hadj with ⟨he1, he2⟩ | ⟨he1, he2⟩ | ⟨he1, he2⟩ | ⟨he1, he2⟩
      · have hxa : x = a ∧ y = b := ⟨by omega, by omega⟩
        obtain ⟨rfl, rfl⟩ := hxa
        constructor
        · exact List.mem_append.2 (Or.inl hmem)
        · rw [show ((x : Int) + 1, (y : Int)) = (((a' : Nat) : Int), ((b' : Nat) : Int)) from by
            rw [Prod.mk.injEq]; constructor <;> omega]
          exact List.mem_append.2 (Or.inr (List.mem_singleton.2 rfl))
      · have hxa : x = a' ∧ y = b' := ⟨by omega, by omega⟩
        obtain ⟨rfl, rfl⟩ := hxa
        constructor
        · exact List.mem_append.2 (Or.inr (List.mem_singleton.2 rfl))
        · rw [show ((x : Int) + 1, (y : Int)) = (((a : Nat) : Int), ((b : Nat) : Int)) from by
            rw [Prod.mk.injEq]; constructor <;> omega]
          exact List.mem_append.2 (Or.inl hmem)
      · exact absurd hqm.1 (by omega)
      · exact absurd hqm.1 (by omega)
    · have hval : ((g.set ((a : Int) + (a' : Int) + 1) ((b : Int) + (b' : Int) + 1) 0).set
          (2 * (a' : Int) + 1) (2 * (b' : Int) + 1) 0).val
          (2 * (x : Int) + 2) (2 * (y : Int) + 1) = g.val (2 * (x : Int) + 2)
          (2 * (y : Int) + 1) := by
        apply val_set2_other
        · rintro ⟨u1, u2⟩
          exact hqm ⟨u1, u2⟩
        · rintro ⟨u1, u2⟩
          omega
      rw [hval] at h0
      obtain ⟨hm1, hm2⟩ := h4 x y hx hy h0
      exact ⟨List.mem_append.2 (Or.inl hm1), List.mem_append.2 (Or.inl hm2)⟩
  · intro x y hx hy h0
    by_cases hqm : 2 * (x : Int) + 1 = (a : Int) + (a' : Int) + 1 ∧
        2 * (y : Int) + 2 = (b : Int) + (b' : Int) + 1
    · rcases hadj with ⟨he1, he2⟩ | ⟨he1, he2⟩ | ⟨he1, he2⟩ | ⟨he1, he2⟩
      · exact absurd hqm.1 (by omega)
      · exact absurd hqm.1 (by omega)
      · have hxa : x = a ∧ y = b := ⟨by omega, by omega⟩
        obtain ⟨rfl, rfl⟩ := hxa
        constructor
        · exact List.mem_append.2 (Or.inl hmem)
        · rw [show ((x : Int), (y : Int) + 1) = (((a' : Nat) : Int), ((b' : Nat) : Int)) from by
            rw [Prod.mk.injEq]; constructor <;> omega]
          exact List.mem_append.2 (Or.inr (List.mem_singleton.2 rfl))
      · have hxa : x = a' ∧ y = b' := ⟨by omega, by omega⟩
        obtain ⟨rfl, rfl⟩ := hxa
        constructor
        · exact List.mem_append.2 (Or.inr (List.mem_singleton.2 rfl))
        · rw [show ((x : Int), (y : Int) + 1) = (((a : Nat) : Int), ((b : Nat) : Int)) from by
            rw [Prod.mk.injEq]; constructor <;> omega]
          exact List.mem_append.2 (Or.inl hmem)
    · have hval : ((g.set ((a : Int) + (a' : Int) + 1) ((b : Int) + (b' : Int) + 1) 0).set
          (2 * (a' : Int) + 1) (2 * (b' : Int) + 1) 0).val
          (2 * (x : Int) + 1) (2 * (y : Int) + 2) = g.val (2 * (x : Int) + 1)
          (2 * (y : Int) + 2) := by
        apply val_set2_other
        · rintro ⟨u1, u2⟩
          exact hqm ⟨u1, u2⟩
        · rintro ⟨u1, u2⟩
          omega
      rw [hval] at h0
      obtain ⟨hm1, hm2⟩ := h5 x y hx hy h0
      exact ⟨List.mem_append.2 (Or.inl hm1), List.mem_append.2 (Or.inl hm2)⟩
  · rw [hcarve.1, h6, List.length_append]
    rfl
  · rw [hcarve.2.1, h7, List.length_append]
    have hpos : 0 < vis.length := List.length_pos.2 (List.ne_nil_of_mem hmem)
    simp only [List.length_singleton]
    omega
  · intro p hp
    have hmono : ∀ r' c', g.val r' c' = 0 →
        ((g.set ((a : Int) + (a' : Int) + 1) ((b : Int) + (b' : Int) + 1) 0).set
          (2 * (a' : Int) + 1) (2 * (b' : Int) + 1) 0).val r' c' = 0 :=
      fun r' c' hv => val_mono_set0 _ _ _ r' c' (val_mono_set0 g _ _ r' c' hv)
    rcases List.mem_append.1 hp with hp | hp
    · exact connectedIn_mono hmono (h8 p hp)
    · obtain rfl := List.mem_singleton.1 hp
      exact Relation.ReflTransGen.trans (connectedIn_symm hcarve.2.2)
        (connectedIn_mono hmono (h8 _ hmem))

/-- A complete growth invariant is the perfect-maze property. -/
theorem growInv_perfect {w h : Nat} {s : Coord} {g : Grid} {vis : List Coord}
    (hinv : growInv w h s g vis) (hlen : w * h ≤ vis.length) : perfectMaze w h g := by
  obtain ⟨h1, h2, h3, _, _, h6, h7, h8⟩ := hinv
  have hsub : ∀ x ∈ vis, x ∈ (cellList h w).map (fun p => ((p.1 : Int), (p.2 : Int))) := by
    intro x hx
    rcases h2 x hx with ⟨a, b, ha, hb, rfl⟩
    exact List.mem_map.2 ⟨(a, b), cellList_mem.2 ⟨ha, hb⟩, rfl⟩
  have hLlen : ((cellList h w).map (fun p => ((p.1 : Int), (p.2 : Int)))).length = h * w := by
    rw [List.length_map, cellList_length]
  have hcomm : h * w = w * h := Nat.mul_comm h w
  have hcov := nodup_covers h1 hsub (by rw [hLlen]; omega)
  have hall : ∀ a b : Nat, a < h → b < w → ((a : Int), (b : Int)) ∈ vis := by
    intro a b ha hb
    exact hcov _ (List.mem_map.2 ⟨(a, b), cellList_mem.2 ⟨ha, hb⟩, rfl⟩)
  have hexact : vis.length = w * h := by
    have hle : vis.length ≤ h * w := by
      rw [← hLlen]
      exact (h1.subperm hsub).length_le
    omega
  refine ⟨?_, ?_, ?_, ?_⟩
  · intro p hp
    rcases cellPosList_mem.1 hp with ⟨i, j, hi, hj, rfl⟩
    exact (h3 i j hi hj).2 (hall i j hi hj)
  · rw [h6, hexact]
  · rw [h7, hexact]
  · intro p hp q hq
    rcases cellPosList_mem.1 hp with ⟨i, j, hi, hj, rfl⟩
    rcases cellPosList_mem.1 hq with ⟨i', j', hi', hj', rfl⟩
    exact Relation.ReflTransGen.trans (h8 _ (hall i j hi hj))
      (connectedIn_symm (h8 _ (hall i' j' hi' hj')))

/-! ## Aldous-Broder builds a perfect maze -/

theorem abLoop_perfect {w h : Nat} (rng : Rng) (s : Coord) :
    ∀ (fuel : Nat) (mz : Grid) (vis : List Coord) (cur : Coord) (i : Nat) (g : Grid),
      growInv w h s mz vis →
      (∃ a b : Nat, a < h ∧ b < w ∧ cur = (2 * (a : Int) + 1, 2 * (b : Int) + 1) ∧
        ((a : Int), (b : Int)) ∈ vis) →
      abLoop w h (2 * (h : Int) + 1) (2 * (w : Int) + 1) rng fuel mz vis vis.length cur i
        = some g →
      perfectMaze w h g := by
  intro fuel
  induction fuel with
  | zero =>
    intro mz vis cur i g _ _ hrun
    simp [abLoop] at hrun
  | succ fuel ih =>
    intro mz vis cur i g hinv hcur hrun
    obtain ⟨a, b, ha, hb, rfl, hmem⟩ := hcur
    unfold abLoop at hrun
    by_cases hcnt : vis.length < w * h
    · rw [if_pos hcnt] at hrun
      dsimp only at hrun
      have hdm : dirs2.getD (draw rng i 4) (0, 0) ∈ dirs2 := by
        have hlt : draw rng i 4 < dirs2.length := draw_lt rng i 4 (by simp)
        rw [List.getD_eq_getElem _ _ hlt]
        exact List.getElem_mem hlt
      rcases dirs2_mem_cases hdm with hd | hd | hd | hd <;> rw [hd] at hrun <;>
        dsimp only at hrun
      · -- d = (-2, 0) : move up, a' = a - 1
        by_cases hic : isCellG (2 * (h : Int) + 1) (2 * (w : Int) + 1)
            (2 * (a : Int) + 1 + -2) (2 * (b : Int) + 1 + 0) = true
        · rw [if_pos hic] at hrun
          have hbn := hic
          simp only [isCellG, Bool.and_eq_true, decide_eq_true_eq] at hbn
          have ha1 : 1 ≤ a := by omega
          have hcelleq : (((2 * (a : Int) + 1 + -2 - 1) / 2, (2 * (b : Int) + 1 + 0 - 1) / 2)
              : Coord) = (((a - 1 : Nat) : Int), ((b : Nat) : Int)) := by
            rw [Prod.mk.injEq]
            omega
          by_cases hvin : (((2 * (a : Int) + 1 + -2 - 1) / 2,
              (2 * (b : Int) + 1 + 0 - 1) / 2) : Coord) ∉ vis
          · rw [if_pos hvin] at hrun
            rw [show (2 * (a : Int) + 1 + (2 * (a : Int) + 1 + -2)) / 2
                  = (a : Int) + ((a - 1 : Nat) : Int) + 1 from by omega,
                show (2 * (b : Int) + 1 + (2 * (b : Int) + 1 + 0)) / 2
                  = (b : Int) + ((b : Nat) : Int) + 1 from by omega,
                hcelleq,
                show (2 * (a : Int) + 1 + -2) = 2 * ((a - 1 : Nat) : Int) + 1 from by omega,
                show (2 * (b : Int) + 1 + 0) = 2 * ((b : Nat) : Int) + 1 from by omega] at hrun
            rw [hcelleq] at hvin
            rw [show vis.length + 1
                = (vis ++ [((((a - 1 : Nat) : Int), ((b : Nat) : Int)) : Coord)]).length from
                by simp] at hrun
            exact ih _ _ _ _ _
              (growInv_step ⟨hinv.1, hinv.2.1, hinv.2.2.1, hinv.2.2.2.1, hinv.2.2.2.2.1,
                hinv.2.2.2.2.2.1, hinv.2.2.2.2.2.2.1, hinv.2.2.2.2.2.2.2⟩
                ha hb (by omega) hb (Or.inr (Or.inl ⟨by omega, rfl⟩)) hmem hvin)
              ⟨a - 1, b, by omega, hb, rfl,
                List.mem_append.2 (Or.inr (List.mem_singleton.2 rfl))⟩ hrun
          · rw [if_neg hvin] at hrun
            rw [not_not, hcelleq] at hvin
            exact ih _ _ _ _ _ hinv ⟨a - 1, b, by omega, hb, by rw [Prod.mk.injEq]; omega,
              hvin⟩ hrun
        · rw [if_neg hic] at hrun
          exact ih _ _ _ _ _ hinv ⟨a, b, ha, hb, rfl, hmem⟩ hrun
      · -- d = (2, 0) : move down, a' = a + 1
        by_cases hic : isCellG (2 * (h : Int) + 1) (2 * (w : Int) + 1)
            (2 * (a : Int) + 1 + 2) (2 * (b : Int) + 1 + 0) = true
        · rw [if_pos hic] at hrun
          have hbn := hic
          simp only [isCellG, Bool.and_eq_true, decide_eq_true_eq] at hbn
          have ha1 : a + 1 < h := by omega
          have hcelleq : (((2 * (a : Int) + 1 + 2 - 1) / 2, (2 * (b : Int) + 1 + 0 - 1) / 2)
              : Coord) = (((a + 1 : Nat) : Int), ((b : Nat) : Int)) := by
            rw [Prod.mk.injEq]
            omega
          by_cases hvin : (((2 * (a : Int) + 1 + 2 - 1) / 2,
              (2 * (b : Int) + 1 + 0 - 1) / 2) : Coord) ∉ vis
          · rw [if_pos hvin] at hrun
            rw [show (2 * (a : Int) + 1 + (2 * (a : Int) + 1 + 2)) / 2
                  = (a : Int) + ((a + 1 : Nat) : Int) + 1 from by omega,
                show (2 * (b : Int) + 1 + (2 * (b : Int) + 1 + 0)) / 2
                  = (b : Int) + ((b : Nat) : Int) + 1 from by omega,
                hcelleq,
                show (2 * (a : Int) + 1 + 2) = 2 * ((a + 1 : Nat) : Int) + 1 from by omega,
                show (2 * (b : Int) + 1 + 0) = 2 * ((b : Nat) : Int) + 1 from by omega] at hrun
            rw [hcelleq] at hvin
            rw [show vis.length + 1
                = (vis ++ [((((a + 1 : Nat) : Int), ((b : Nat) : Int)) : Coord)]).length from
                by simp] at hrun
            exact ih _ _ _ _ _
              (growInv_step hinv ha hb ha1 hb (Or.inl ⟨rfl, rfl⟩) hmem hvin)
              ⟨a + 1, b, ha1, hb, rfl,
                List.mem_append.2 (Or.inr (List.mem_singleton.2 rfl))⟩ hrun
          · rw [if_neg hvin] at hrun
            rw [not_not, hcelleq] at hvin
            exact ih _ _ _ _ _ hinv ⟨a + 1, b, ha1, hb, by rw [Prod.mk.injEq]; omega,
              hvin⟩ hrun
        · rw [if_neg hic] at hrun
          exact ih _ _ _ _ _ hinv ⟨a, b, ha, hb, rfl, hmem⟩ hrun
      · -- d = (0, -2) : move left, b' = b - 1
        by_cases hic : isCellG (2 * (h : Int) + 1) (2 * (w : Int) + 1)
            (2 * (a : Int) + 1 + 0) (2 * (b : Int) + 1 + -2) = true
        · rw [if_pos hic] at hrun
          have hbn := hic
          simp only [isCellG, Bool.and_eq_true, decide_eq_true_eq] at hbn
          have hb1 : 1 ≤ b := by omega
          have hcelleq : (((2 * (a : Int) + 1 + 0 - 1) / 2, (2 * (b : Int) + 1 + -2 - 1) / 2)
              : Coord) = (((a : Nat) : Int), ((b - 1 : Nat) : Int)) := by
            rw [Prod.mk.injEq]
            omega
          by_cases hvin : (((2 * (a : Int) + 1 + 0 - 1) / 2,
              (2 * (b : Int) + 1 + -2 - 1) / 2) : Coord) ∉ vis
          · rw [if_pos hvin] at hrun
            rw [show (2 * (a : Int) + 1 + (2 * (a : Int) + 1 + 0)) / 2
                  = (a : Int) + ((a : Nat) : Int) + 1 from by omega,
                show (2 * (b : Int) + 1 + (2 * (b : Int) + 1 + -2)) / 2
                  = (b : Int) + ((b - 1 : Nat) : Int) + 1 from by omega,
                hcelleq,
                show (2 * (a : Int) + 1 + 0) = 2 * ((a : Nat) : Int) + 1 from by omega,
                show (2 * (b : Int) + 1 + -2) = 2 * ((b - 1 : Nat) : Int) + 1 from by omega]
              at hrun
            rw [hcelleq] at hvin
            rw [show vis.length + 1
                = (vis ++ [((((a : Nat) : Int), ((b - 1 : Nat) : Int)) : Coord)]).length from
                by simp] at hrun
            exact ih _ _ _ _ _
              (growInv_step hinv ha hb ha (by omega)
                (Or.inr (Or.inr (Or.inr ⟨by omega, rfl⟩))) hmem hvin)
              ⟨a, b - 1, ha, by omega, rfl,
                List.mem_append.2 (Or.inr (List.mem_singleton.2 rfl))⟩ hrun
          · rw [if_neg hvin] at hrun
            rw [not_not, hcelleq] at hvin
            exact ih _ _ _ _ _ hinv ⟨a, b - 1, ha, by omega, by rw [Prod.mk.injEq]; omega,
              hvin⟩ hrun
        · rw [if_neg hic] at hrun
          exact ih _ _ _ _ _ hinv ⟨a, b, ha, hb, rfl, hmem⟩ hrun
      · -- d = (0, 2) : move right, b' = b + 1
        by_cases hic : isCellG (2 * (h : Int) + 1) (2 * (w : Int) + 1)
            (2 * (a : Int) + 1 + 0) (2 * (b : Int) + 1 + 2) = true
        · rw [if_pos hic] at hrun
          have hbn := hic
          simp only [isCellG, Bool.and_eq_true, decide_eq_true_eq] at hbn
          have hb1 : b + 1 < w := by omega
          have hcelleq : (((2 * (a : Int) + 1 + 0 - 1) / 2, (2 * (b : Int) + 1 + 2 - 1) / 2)
              : Coord) = (((a : Nat) : Int), ((b + 1 : Nat) : Int)) := by
            rw [Prod.mk.injEq]
            omega
          by_cases hvin : (((2 * (a : Int) + 1 + 0 - 1) / 2,
              (2 * (b : Int) + 1 + 2 - 1) / 2) : Coord) ∉ vis
          · rw [if_pos hvin] at hrun
            rw [show (2 * (a : Int) + 1 + (2 * (a : Int) + 1 + 0)) / 2
                  = (a : Int) + ((a : Nat) : Int) + 1 from by omega,
                show (2 * (b : Int) + 1 + (2 * (b : Int) + 1 + 2)) / 2
                  = (b : Int) + ((b + 1 : Nat) : Int) + 1 from by omega,
                hcelleq,
                show (2 * (a : Int) + 1 + 0) = 2 * ((a : Nat) : Int) + 1 from by omega,
                show (2 * (b : Int) + 1 + 2) = 2 * ((b + 1 : Nat) : Int) + 1 from by omega]
              at hrun
            rw [hcelleq] at hvin
            rw [show vis.length + 1
                = (vis ++ [((((a : Nat) : Int), ((b + 1 : Nat) : Int)) : Coord)]).length from
                by simp] at hrun
            exact ih _ _ _ _ _
              (growInv_step hinv ha hb ha hb1 (Or.inr (Or.inr (Or.inl ⟨rfl, rfl⟩))) hmem hvin)
              ⟨a, b + 1, ha, hb1, rfl,
                List.mem_append.2 (Or.inr (List.mem_singleton.2 rfl))⟩ hrun
          · rw [if_neg hvin] at hrun
            rw [not_not, hcelleq] at hvin
            exact ih _ _ _ _ _ hinv ⟨a, b + 1, ha, hb1, by rw [Prod.mk.injEq]; omega,
              hvin⟩ hrun
        · rw [if_neg hic] at hrun
          exact ih _ _ _ _ _ hinv ⟨a, b, ha, hb, rfl, hmem⟩ hrun
    · rw [if_neg hcnt] at hrun
      cases hrun
      exact growInv_perfect hinv (by omega)

/-- The seed state of the growth generators satisfies the invariant. -/
theorem growInv_init {w h : Nat} {a0 b0 : Nat} (ha0 : a0 < h) (hb0 : b0 < w) :
    growInv w h (2 * (a0 : Int) + 1, 2 * (b0 : Int) + 1)
      ((mkGrid (2 * (h : Int) + 1) (2 * (w : Int) + 1) 1).set
        (2 * (a0 : Int) + 1) (2 * (b0 : Int) + 1) 0)
      [((a0 : Int), (b0 : Int))] := by
  refine ⟨List.nodup_singleton _, ?_, ?_, ?_, ?_, ?_, ?_, ?_⟩
  · intro p hp
    exact ⟨a0, b0, ha0, hb0, List.mem_singleton.1 hp⟩
  · intro x y hx hy
    by_cases hxy : x = a0 ∧ y = b0
    · obtain ⟨rfl, rfl⟩ := hxy
      constructor
      · intro _
        exact List.mem_singleton.2 rfl
      · intro _
        exact Grid.val_set_self _ _ _ _
    · rw [Grid.val_set_other _ _ _ _ _ _
        (by rintro ⟨u1, u2⟩; exact hxy ⟨by omega, by omega⟩)]
      constructor
      · intro hv
        cases hv
      · intro hm
        rw [List.mem_singleton, Prod.mk.injEq] at hm
        exact absurd ⟨by omega, by omega⟩ hxy
  · intro x y _ _ hv
    rw [Grid.val_set_other _ (2 * (a0 : Int) + 1) (2 * (b0 : Int) + 1) 0
      (2 * (x : Int) + 2) (2 * (y : Int) + 1) (by rintro ⟨u1, u2⟩; omega)] at hv
    cases hv
  · intro x y _ _ hv
    rw [Grid.val_set_other _ (2 * (a0 : Int) + 1) (2 * (b0 : Int) + 1) 0
      (2 * (x : Int) + 1) (2 * (y : Int) + 2) (by rintro ⟨u1, u2⟩; omega)] at hv
    cases hv
  · unfold openCellCount
    rw [countOpen_set_mem (cellPosList_mem.2 ⟨a0, b0, ha0, hb0, rfl⟩)
      (cellPosList_nodup w h) (by intro hv; cases hv)]
    rw [show countOpen (cellPosList w h)
        (mkGrid (2 * (h : Int) + 1) (2 * (w : Int) + 1) 1) = 0 from
      List.countP_eq_zero.2 (fun p _ => by simp [mkGrid, Grid.val])]
    rfl
  · unfold passageCount
    have hnp : ((2 * (a0 : Int) + 1, 2 * (b0 : Int) + 1) : Coord) ∉ passageList w h := by
      intro hm
      rcases passageList_mem.1 hm with ⟨i, j, _, _, hpe⟩ | ⟨i, j, _, _, hpe⟩ <;>
        (rw [Prod.mk.injEq] at hpe; omega)
    rw [countOpen_set_not_mem hnp]
    exact List.countP_eq_zero.2 (fun p _ => by simp [mkGrid, Grid.val])
  · intro p hp
    obtain rfl := List.mem_singleton.1 hp
    exact Relation.ReflTransGen.refl

/-- C1 for Aldous-Broder: a successful run is a perfect maze. -/
theorem aldousBroder_perfect (w h : Nat) (rng : Rng) (fuel : Nat) (hw : 1 ≤ w) (hh : 1 ≤ h)
    (g : Grid) (hgen : generateAldousBroderMaze w h rng fuel = some g) :
    perfectMaze w h g := by
  unfold generateAldousBroderMaze at hgen
  dsimp only at hgen
  rcases Option.map_eq_some'.1 hgen with ⟨out, hrun, rfl⟩
  apply perfectMaze_set_outside (by intro hr; unfold inRect at hr; omega)
  apply perfectMaze_set_outside (by intro hr; unfold inRect at hr; omega)
  have hs1 : draw rng 0 h < h := draw_lt rng 0 h (by omega)
  have hs2 : draw rng 1 w < w := draw_lt rng 1 w (by omega)
  rw [show (1 : Nat) = ([((((draw rng 0 h : Nat) : Int)), (((draw rng 1 w : Nat) : Int)))]
      : List Coord).length from rfl] at hrun
  exact abLoop_perfect rng _ fuel _ _ _ _ out (growInv_init hs1 hs2)
    ⟨draw rng 0 h, draw rng 1 w, hs1, hs2, rfl, List.mem_singleton.2 rfl⟩ hrun

/-! ## Growing tree builds a perfect maze -/

theorem gtUnvisited_mem {w h : Nat} {vis : List Coord} {cell q : Coord} :
    q ∈ gtUnvisited w h vis cell ↔
      (∃ d ∈ moveDirs, q = (cell.1 + d.1, cell.2 + d.2)) ∧
      (0 ≤ q.1 ∧ q.1 < (h : Int) ∧ 0 ≤ q.2 ∧ q.2 < (w : Int)) ∧ q ∉ vis := by
  unfold gtUnvisited
  rw [List.mem_filterMap]
  constructor
  · rintro ⟨d, hd, hf⟩
    dsimp only at hf
    by_cases hc : (0 ≤ cell.1 + d.1 ∧ cell.1 + d.1 < (h : Int) ∧ 0 ≤ cell.2 + d.2 ∧
        cell.2 + d.2 < (w : Int)) ∧ (cell.1 + d.1, cell.2 + d.2) ∉ vis
    · rw [if_pos hc] at hf
      cases hf
      exact ⟨⟨d, hd, rfl⟩, hc.1, hc.2⟩
    · rw [if_neg hc] at hf
      cases hf
  · rintro ⟨⟨d, hd, rfl⟩, hb, hnv⟩
    refine ⟨d, hd, ?_⟩
    dsimp only
    rw [if_pos ⟨hb, hnv⟩]

theorem gtUnvisited_mono_nil {w h : Nat} {vis vis' : List Coord} {cell : Coord}
    (hsub : ∀ x ∈ vis, x ∈ vis') (hnil : gtUnvisited w h vis cell = []) :
    gtUnvisited w h vis' cell = [] := by
  cases hq : gtUnvisited w h vis' cell with
  | nil => rfl
  | cons a t =>
    exfalso
    have hmem : a ∈ gtUnvisited w h vis' cell := by
      rw [hq]
      exact List.mem_cons_self a t
    rcases gtUnvisited_mem.1 hmem with ⟨hdir, hb, hnv⟩
    have : a ∈ gtUnvisited w h vis cell :=
      gtUnvisited_mem.2 ⟨hdir, hb, fun hm => hnv (hsub a hm)⟩
    rw [hnil] at this
    cases this

theorem getD_of_not_mem_eraseIdx {l : List Coord} {i : Nat} {p d : Coord}
    (hp : p ∈ l) (hni : p ∉ l.eraseIdx i) : l.getD i d = p := by
  induction l generalizing i with
  | nil => cases hp
  | cons a t ih =>
    cases i with
    | zero =>
      rcases List.mem_cons.1 hp with rfl | hpt
      · rfl
      · exact absurd hpt (by simpa [List.eraseIdx] using hni)
    | succ k =>
      rw [List.eraseIdx_cons_succ] at hni
      rcases List.mem_cons.1 hp with rfl | hpt
      · exact absurd (List.mem_cons_self p _) hni
      · have hni' : p ∉ t.eraseIdx k := fun hm => hni (List.mem_cons_of_mem a hm)
        simpa using ih hpt hni'

theorem gtIndex_lt (method : GTMethod) (rng : Rng) (i len : Nat) (hl : 0 < len) :
    gtIndex method rng i len < len := by
  cases method with
  | newest => show len - 1 < len; omega
  | oldest => show 0 < len; exact hl
  | random => show draw rng i len < len; exact draw_lt rng i len hl

/-- A growth invariant whose visited set is closed under adjacency is the
perfect-maze property. -/
theorem growInv_perfect_of_closed {w h : Nat} {s : Coord} {g : Grid} {vis : List Coord}
    (hinv : growInv w h s g vis)
    (hclosed : ∀ p ∈ vis, gtUnvisited w h vis p = [])
    (hseed : ∃ a0 b0 : Nat, a0 < h ∧ b0 < w ∧ ((a0 : Int), (b0 : Int)) ∈ vis) :
    perfectMaze w h g := by
  obtain ⟨a0, b0, ha0, hb0, hmem0⟩ := hseed
  have hall : ∀ i j, i < h → j < w → (((i : Nat) : Int), ((j : Nat) : Int)) ∈ vis := by
    refine cell_closure (fun i j => (((i : Nat) : Int), ((j : Nat) : Int)) ∈ vis)
      ?_ ha0 hb0 hmem0
    intro i j i' j' hi hj hi' hj' hS hadj
    by_contra hn
    have hq : (((i' : Nat) : Int), ((j' : Nat) : Int)) ∈
        gtUnvisited w h vis (((i : Nat) : Int), ((j : Nat) : Int)) := by
      apply gtUnvisited_mem.2
      refine ⟨⟨((i' : Int) - (i : Int), (j' : Int) - (j : Int)), ?_, ?_⟩, ?_, hn⟩
      · simp only [moveDirs, List.mem_cons, List.not_mem_nil, or_false, Prod.ext_iff]
        omega
      · rw [Prod.mk.injEq]
        constructor <;> dsimp only <;> omega
      · refine ⟨?_, ?_, ?_, ?_⟩ <;> dsimp only <;> omega
    rw [hclosed _ hS] at hq
    cases hq
  apply growInv_perfect hinv
  have hsub : ∀ x ∈ (cellList h w).map (fun p => ((p.1 : Int), (p.2 : Int))), x ∈ vis := by
    intro x hx
    rcases List.mem_map.1 hx with ⟨q, hq, rfl⟩
    rw [cellList_mem] at hq
    exact hall q.1 q.2 hq.1 hq.2
  have hnd : ((cellList h w).map (fun p => ((p.1 : Int), (p.2 : Int)))).Nodup :=
    (cellList_nodup h w).map (fun p q hpq => by
      rw [Prod.mk.injEq] at hpq
      exact Prod.ext_iff.2 ⟨by omega, by omega⟩)
  have hle := (hnd.subperm hsub).length_le
  rw [List.length_map, cellList_length] at hle
  have hc := Nat.mul_comm h w
  omega

theorem gtLoop_perfect {w h : Nat} (rng : Rng) (method : GTMethod) (s : Coord) :
    ∀ (fuel : Nat) (mz : Grid) (active vis : List Coord) (i : Nat) out,
      growInv w h s mz vis →
      (∀ p ∈ active, p ∈ vis) →
      (∀ p ∈ vis, p ∉ active → gtUnvisited w h vis p = []) →
      (∃ a0 b0 : Nat, a0 < h ∧ b0 < w ∧ ((a0 : Int), (b0 : Int)) ∈ vis) →
      gtLoop w h rng method fuel mz active vis i = some out →
      perfectMaze w h out.1 := by
  intro fuel
  induction fuel with
  | zero =>
    intro mz active vis i out _ _ _ _ hrun
    simp [gtLoop] at hrun
  | succ fuel ih =>
    intro mz active vis i out hinv hact hclosed hseed hrun
    unfold gtLoop at hrun
    cases active with
    | nil =>
      cases hrun
      exact growInv_perfect_of_closed hinv
        (fun p hp => hclosed p hp (List.not_mem_nil p)) hseed
    | cons a0 arest =>
      dsimp only at hrun
      have hlen : 0 < (a0 :: arest).length := by simp
      have hlt : gtIndex method rng i (a0 :: arest).length < (a0 :: arest).length :=
        gtIndex_lt method rng i _ hlen
      have hcellmem : (a0 :: arest).getD (gtIndex method rng i (a0 :: arest).length) (0, 0)
          ∈ (a0 :: arest) := by
        rw [List.getD_eq_getElem _ _ hlt]
        exact List.getElem_mem hlt
      have hcellvis := hact _ hcellmem
      obtain ⟨a, b, ha, hb, hceq⟩ := hinv.2.1 _ hcellvis
      cases hu : gtUnvisited w h vis ((a0 :: arest).getD
          (gtIndex method rng i (a0 :: arest).length) (0, 0)) with
      | nil =>
        rw [hu] at hrun
        refine ih _ _ _ _ _ hinv (fun p hp => hact p (List.eraseIdx_subset _ _ hp))
          ?_ hseed hrun
        intro p hpv hpna
        by_cases hpa : p ∈ (a0 :: arest)
        · rw [← getD_of_not_mem_eraseIdx hpa hpna]
          exact hu
        · exact hclosed p hpv hpa
      | cons u us =>
        rw [hu] at hrun
        dsimp only at hrun
        have hnxtmem : pickFrom rng (gtNextI method i) (u :: us) ∈ gtUnvisited w h vis
            ((a0 :: arest).getD (gtIndex method rng i (a0 :: arest).length) (0, 0)) := by
          rw [hu]
          exact pickFrom_mem _ _ _ (by simp)
        rcases gtUnvisited_mem.1 hnxtmem with ⟨⟨d, hd, hnxteq⟩, hnb, hnv⟩
        rw [hceq] at hnxteq hrun
        have hmem : (((a : Nat) : Int), ((b : Nat) : Int)) ∈ vis := by
          rw [← hceq]
          exact hcellvis
        have hd4 : d = ((-1 : Int), (0 : Int)) ∨ d = (1, 0) ∨ d = (0, -1) ∨ d = (0, 1) := by
          simpa [moveDirs] using hd
        rcases hd4 with rfl | rfl | rfl | rfl
        · -- up : a' = a - 1
          rw [hnxteq] at hnb
          dsimp only at hnb
          have ha1 : 1 ≤ a := by omega
          have hne : pickFrom rng (gtNextI method i) (u :: us)
              = (((a - 1 : Nat) : Int), ((b : Nat) : Int)) := by
            rw [hnxteq, Prod.mk.injEq]
            constructor <;> dsimp only <;> omega
          rw [hne] at hrun hnv
          dsimp only at hrun
          rw [show (2 * ((a : Nat) : Int) + 1 + (2 * ((a - 1 : Nat) : Int) + 1)) / 2
                = ((a : Nat) : Int) + ((a - 1 : Nat) : Int) + 1 from by omega,
              show (2 * ((b : Nat) : Int) + 1 + (2 * ((b : Nat) : Int) + 1)) / 2
                = ((b : Nat) : Int) + ((b : Nat) : Int) + 1 from by omega] at hrun
          refine ih _ _ _ _ _
            (growInv_step hinv ha hb (by omega) hb (Or.inr (Or.inl ⟨by omega, rfl⟩))
              hmem hnv) ?_ ?_ ?_ hrun
          · intro p hp
            rcases List.mem_append.1 hp with hp | hp
            · exact List.mem_append.2 (Or.inl (hact p hp))
            · exact List.mem_append.2 (Or.inr hp)
          · intro p hpv hpna
            rcases List.mem_append.1 hpv with hpv | hpv
            · have hpa : p ∉ (a0 :: arest) :=
                fun hm => hpna (List.mem_append.2 (Or.inl hm))
              exact gtUnvisited_mono_nil (fun x hx => List.mem_append.2 (Or.inl hx))
                (hclosed p hpv hpa)
            · exact absurd (List.mem_append.2 (Or.inr hpv)) hpna
          · obtain ⟨c0, d0, hc0, hd0, hm0⟩ := hseed
            exact ⟨c0, d0, hc0, hd0, List.mem_append.2 (Or.inl hm0)⟩
        · -- down : a' = a + 1
          rw [hnxteq] at hnb
          dsimp only at hnb
          have ha1 : a + 1 < h := by omega
          have hne : pickFrom rng (gtNextI method i) (u :: us)
              = (((a + 1 : Nat) : Int), ((b : Nat) : Int)) := by
            rw [hnxteq, Prod.mk.injEq]
            constructor <;> dsimp only <;> omega
          rw [hne] at hrun hnv
          dsimp only at hrun
          rw [show (2 * ((a : Nat) : Int) + 1 + (2 * ((a + 1 : Nat) : Int) + 1)) / 2
                = ((a : Nat) : Int) + ((a + 1 : Nat) : Int) + 1 from by omega,
              show (2 * ((b : Nat) : Int) + 1 + (2 * ((b : Nat) : Int) + 1)) / 2
                = ((b : Nat) : Int) + ((b : Nat) : Int) + 1 from by omega] at hrun
          refine ih _ _ _ _ _
            (growInv_step hinv ha hb ha1 hb (Or.inl ⟨rfl, rfl⟩) hmem hnv) ?_ ?_ ?_ hrun
          · intro p hp
            rcases List.mem_append.1 hp with hp | hp
            · exact List.mem_append.2 (Or.inl (hact p hp))
            · exact List.mem_append.2 (Or.inr hp)
          · intro p hpv hpna
            rcases List.mem_append.1 hpv with hpv | hpv
            · have hpa : p ∉ (a0 :: arest) :=
                fun hm => hpna (List.mem_append.2 (Or.inl hm))
              exact gtUnvisited_mono_nil (fun x hx => List.mem_append.2 (Or.inl hx))
                (hclosed p hpv hpa)
            · exact absurd (List.mem_append.2 (Or.inr hpv)) hpna
          · obtain ⟨c0, d0, hc0, hd0, hm0⟩ := hseed
            exact ⟨c0, d0, hc0, hd0, List.mem_append.2 (Or.inl hm0)⟩
        · -- left : b' = b - 1
          rw [hnxteq] at hnb
          dsimp only at hnb
          have hb1 : 1 ≤ b := by omega
          have hne : pickFrom rng (gtNextI method i) (u :: us)
              = (((a : Nat) : Int), ((b - 1 : Nat) : Int)) := by
            rw [hnxteq, Prod.mk.injEq]
            constructor <;> dsimp only <;> omega
          rw [hne] at hrun hnv
          dsimp only at hrun
          rw [show (2 * ((a : Nat) : Int) + 1 + (2 * ((a : Nat) : Int) + 1)) / 2
                = ((a : Nat) : Int) + ((a : Nat) : Int) + 1 from by omega,
              show (2 * ((b : Nat) : Int) + 1 + (2 * ((b - 1 : Nat) : Int) + 1)) / 2
                = ((b : Nat) : Int) + ((b - 1 : Nat) : Int) + 1 from by omega] at hrun
          refine ih _ _ _ _ _
            (growInv_step hinv ha hb ha (by omega)
              (Or.inr (Or.inr (Or.inr ⟨by omega, rfl⟩))) hmem hnv) ?_ ?_ ?_ hrun
          · intro p hp
            rcases List.mem_append.1 hp with hp | hp
            · exact List.mem_append.2 (Or.inl (hact p hp))
            · exact List.mem_append.2 (Or.inr hp)
          · intro p hpv hpna
            rcases List.mem_append.1 hpv with hpv | hpv
            · have hpa : p ∉ (a0 :: arest) :=
                fun hm => hpna (List.mem_append.2 (Or.inl hm))
              exact gtUnvisited_mono_nil (fun x hx => List.mem_append.2 (Or.inl hx))
                (hclosed p hpv hpa)
            · exact absurd (List.mem_append.2 (Or.inr hpv)) hpna
          · obtain ⟨c0, d0, hc0, hd0, hm0⟩ := hseed
            exact ⟨c0, d0, hc0, hd0, List.mem_append.2 (Or.inl hm0)⟩
        · -- right : b' = b + 1
          rw [hnxteq] at hnb
          dsimp only at hnb
          have hb1 : b + 1 < w := by omega
          have hne : pickFrom rng (gtNextI method i) (u :: us)
              = (((a : Nat) : Int), ((b + 1 : Nat) : Int)) := by
            rw [hnxteq, Prod.mk.injEq]
            constructor <;> dsimp only <;> omega
          rw [hne] at hrun hnv
          dsimp only at hrun
          rw [show (2 * ((a : Nat) : Int) + 1 + (2 * ((a : Nat) : Int) + 1)) / 2
                = ((a : Nat) : Int) + ((a : Nat) : Int) + 1 from by omega,
              show (2 * ((b : Nat) : Int) + 1 + (2 * ((b + 1 : Nat) : Int) + 1)) / 2
                = ((b : Nat) : Int) + ((b + 1 : Nat) : Int) + 1 from by omega] at hrun
          refine ih _ _ _ _ _
            (growInv_step hinv ha hb ha hb1 (Or.inr (Or.inr (Or.inl ⟨rfl, rfl⟩)))
              hmem hnv) ?_ ?_ ?_ hrun
          · intro p hp
            rcases List.mem_append.1 hp with hp | hp
            · exact List.mem_append.2 (Or.inl (hact p hp))
            · exact List.mem_append.2 (Or.inr hp)
          · intro p hpv hpna
            rcases List.mem_append.1 hpv with hpv | hpv
            · have hpa : p ∉ (a0 :: arest) :=
                fun hm => hpna (List.mem_append.2 (Or.inl hm))
              exact gtUnvisited_mono_nil (fun x hx => List.mem_append.2 (Or.inl hx))
                (hclosed p hpv hpa)
            · exact absurd (List.mem_append.2 (Or.inr hpv)) hpna
          · obtain ⟨c0, d0, hc0, hd0, hm0⟩ := hseed
            exact ⟨c0, d0, hc0, hd0, List.mem_append.2 (Or.inl hm0)⟩

/-- C1 for the growing tree: a successful run is a perfect maze, for every
policy. -/
theorem growingTree_perfect (w h : Nat) (rng : Rng) (method : GTMethod)
    (hw : 1 ≤ w) (hh : 1 ≤ h) (g : Grid)
    (hgen : generateGrowingTreeMaze w h rng method = some g) : perfectMaze w h g := by
  unfold generateGrowingTreeMaze at hgen
  dsimp only at hgen
  rcases Option.map_eq_some'.1 hgen with ⟨out, hrun, rfl⟩
  apply perfectMaze_set_outside (by intro hr; unfold inRect at hr; omega)
  apply perfectMaze_set_outside (by intro hr; unfold inRect at hr; omega)
  have hs1 : draw rng 0 h < h := draw_lt rng 0 h (by omega)
  have hs2 : draw rng 1 w < w := draw_lt rng 1 w (by omega)
  exact gtLoop_perfect rng method _ _ _ _ _ _ out (growInv_init hs1 hs2)
    (fun p hp => hp)
    (fun p hpv hpna => absurd hpv (by simpa using hpna))
    ⟨draw rng 0 h, draw rng 1 w, hs1, hs2, List.mem_singleton.2 rfl⟩ hrun

/-! ## Prim builds a perfect maze -/

theorem extractNth_perm {α : Type} :
    ∀ (l : List α) (k : Nat) (x : α) (rest : List α),
      extractNth l k = some (x, rest) → l.Perm (x :: rest) := by
  intro l
  induction l with
  | nil =>
    intro k x rest hx
    simp [extractNth] at hx
  | cons a t ih =>
    intro k x rest hx
    cases k with
    | zero =>
      rw [show extractNth (a :: t) 0 = some (a, t) from rfl] at hx
      obtain ⟨rfl, rfl⟩ : a = x ∧ t = rest := by
        have := Option.some.inj hx
        exact ⟨congrArg Prod.fst this, congrArg Prod.snd this⟩
      exact List.Perm.refl _
    | succ k =>
      rw [show extractNth (a :: t) (k + 1) = (extractNth t k).map
        (fun p => (p.1, a :: p.2)) from rfl] at hx
      rcases ho : extractNth t k with _ | ⟨y, rest'⟩
      · rw [ho] at hx
        cases hx
      · rw [ho, Option.map_some'] at hx
        obtain ⟨rfl, rfl⟩ : y = x ∧ a :: rest' = rest := by
          have := Option.some.inj hx
          exact ⟨congrArg Prod.fst this, congrArg Prod.snd this⟩
        exact List.Perm.trans (List.Perm.cons a (ih k y rest' ho))
          (List.Perm.swap y a rest')

theorem passageList_mem_parity {w h : Nat} {r c : Int} :
    ((r, c) : Coord) ∈ passageList w h ↔
      1 ≤ r ∧ r ≤ 2 * (h : Int) - 1 ∧ 1 ≤ c ∧ c ≤ 2 * (w : Int) - 1 ∧
      ((r % 2 = 1 ∧ c % 2 = 0) ∨ (r % 2 = 0 ∧ c % 2 = 1)) := by
  rw [passageList_mem]
  constructor
  · rintro (⟨i, j, hi, hj, hpe⟩ | ⟨i, j, hi, hj, hpe⟩) <;> rw [Prod.mk.injEq] at hpe <;> omega
  · rintro ⟨h1, h2, h3, h4, hpar | hpar⟩
    · refine Or.inl ⟨((r - 1) / 2).toNat, ((c - 2) / 2).toNat, by omega, by omega, ?_⟩
      rw [Prod.mk.injEq]
      constructor <;> omega
    · refine Or.inr ⟨((r - 2) / 2).toNat, ((c - 1) / 2).toNat, by omega, by omega, ?_⟩
      rw [Prod.mk.injEq]
      constructor <;> omega

/-- The flanking cells of an internal wall position, in scan order. -/
theorem primAdj_passage {w h : Nat} {m : Coord} (hm : m ∈ passageList w h) :
    (∃ i j : Nat, i < h ∧ j + 1 < w ∧ m = (2 * (i : Int) + 1, 2 * (j : Int) + 2) ∧
      primAdj (2 * (h : Int) + 1) (2 * (w : Int) + 1) m.1 m.2 =
        [(2 * (i : Int) + 1, 2 * (j : Int) + 1), (2 * (i : Int) + 1, 2 * (j : Int) + 3)]) ∨
    (∃ i j : Nat, i + 1 < h ∧ j < w ∧ m = (2 * (i : Int) + 2, 2 * (j : Int) + 1) ∧
      primAdj (2 * (h : Int) + 1) (2 * (w : Int) + 1) m.1 m.2 =
        [(2 * (i : Int) + 1, 2 * (j : Int) + 1), (2 * (i : Int) + 3, 2 * (j : Int) + 1)]) := by
  have hfmF : ∀ (r c : Int), ¬(isCellG (2 * (h : Int) + 1) (2 * (w : Int) + 1) r c = true) →
      (if isCellG (2 * (h : Int) + 1) (2 * (w : Int) + 1) r c then
        some ((r, c) : Coord) else none) = none := fun r c hf => if_neg hf
  have hfmT : ∀ (r c : Int), isCellG (2 * (h : Int) + 1) (2 * (w : Int) + 1) r c = true →
      (if isCellG (2 * (h : Int) + 1) (2 * (w : Int) + 1) r c then
        some ((r, c) : Coord) else none) = some (r, c) := fun r c hf => if_pos hf
  rcases passageList_mem.1 hm with ⟨i, j, hi, hj, rfl⟩ | ⟨i, j, hi, hj, rfl⟩
  · refine Or.inl ⟨i, j, hi, by omega, rfl, ?_⟩
    unfold primAdj moveDirs
    rw [List.filterMap_cons, List.filterMap_cons, List.filterMap_cons, List.filterMap_cons,
      List.filterMap_nil]
    dsimp only
    rw [hfmF _ _ (fun ht => by rcases isCellG_iff.1 ht with ⟨a', b', _, _, he1, he2⟩; omega),
      hfmF _ _ (fun ht => by rcases isCellG_iff.1 ht with ⟨a', b', _, _, he1, he2⟩; omega),
      hfmT _ _ (isCellG_iff.2 ⟨i, j, hi, by omega, by omega, by omega⟩),
      hfmT _ _ (isCellG_iff.2 ⟨i, j + 1, hi, by omega, by omega, by push_cast; omega⟩)]
    rw [show (2 * (i : Int) + 1 + 0) = 2 * (i : Int) + 1 from by omega,
      show (2 * (j : Int) + 2 + -1) = 2 * (j : Int) + 1 from by omega,
      show (2 * (j : Int) + 2 + 1) = 2 * (j : Int) + 3 from by omega]
  · refine Or.inr ⟨i, j, by omega, hj, rfl, ?_⟩
    unfold primAdj moveDirs
    rw [List.filterMap_cons, List.filterMap_cons, List.filterMap_cons, List.filterMap_cons,
      List.filterMap_nil]
    dsimp only
    rw [hfmT _ _ (isCellG_iff.2 ⟨i, j, by omega, hj, by omega, by omega⟩),
      hfmT _ _ (isCellG_iff.2 ⟨i + 1, j, by omega, hj, by push_cast; omega, by omega⟩),
      hfmF _ _ (fun ht => by rcases isCellG_iff.1 ht with ⟨a', b', _, _, he1, he2⟩; omega),
      hfmF _ _ (fun ht => by rcases isCellG_iff.1 ht with ⟨a', b', _, _, he1, he2⟩; omega)]
    rw [show (2 * (i : Int) + 2 + -1) = 2 * (i : Int) + 1 from by omega,
      show (2 * (i : Int) + 2 + 1) = 2 * (i : Int) + 3 from by omega,
      show (2 * (j : Int) + 1 + 0) = 2 * (j : Int) + 1 from by omega]

theorem primPushWalls_sub {gh gw : Int} {g : Grid} {r c : Int} {ws : List Coord} {x : Coord}
    (hx : x ∈ ws) : x ∈ primPushWalls gh gw g r c ws := by
  unfold primPushWalls
  refine foldl_pres (fun l => x ∈ l) _ ?_ moveDirs ws hx
  intro l d hl
  dsimp only
  split
  · exact List.mem_append.2 (Or.inl hl)
  · exact hl

theorem primPushWalls_mem {gh gw : Int} {g : Grid} {r c : Int} {ws : List Coord} {x : Coord}
    (hx : x ∈ primPushWalls gh gw g r c ws) :
    x ∈ ws ∨ ((∃ d ∈ moveDirs, x = (r + d.1, c + d.2)) ∧ 0 < x.1 ∧ x.1 < gh - 1 ∧
      0 < x.2 ∧ x.2 < gw - 1 ∧ g.val x.1 x.2 = 1) := by
  unfold primPushWalls at hx
  refine foldl_pres_mem (fun l => x ∈ l →
      x ∈ ws ∨ ((∃ d ∈ moveDirs, x = (r + d.1, c + d.2)) ∧ 0 < x.1 ∧ x.1 < gh - 1 ∧
        0 < x.2 ∧ x.2 < gw - 1 ∧ g.val x.1 x.2 = 1)) moveDirs _ ?_ ws (fun hm => Or.inl hm) hx
  intro l d hd hp hm
  dsimp only at hm
  by_cases hc : 0 < r + d.1 ∧ r + d.1 < gh - 1 ∧ 0 < c + d.2 ∧ c + d.2 < gw - 1 ∧
      g.val (r + d.1) (c + d.2) = 1 ∧ ((r + d.1, c + d.2) : Coord) ∉ l
  · rw [if_pos hc] at hm
    rcases List.mem_append.1 hm with hm | hm
    · exact hp hm
    · obtain rfl := List.mem_singleton.1 hm
      exact Or.inr ⟨⟨d, hd, rfl⟩, hc.1, hc.2.1, hc.2.2.1, hc.2.2.2.1, hc.2.2.2.2.1⟩
  · rw [if_neg hc] at hm
    exact hp hm

theorem primPushWalls_nodup {gh gw : Int} {g : Grid} {r c : Int} {ws : List Coord}
    (hnd : ws.Nodup) : (primPushWalls gh gw g r c ws).Nodup := by
  unfold primPushWalls
  refine foldl_pres (fun l => l.Nodup) _ ?_ moveDirs ws hnd
  intro l d hl
  dsimp only
  by_cases hc : 0 < r + d.1 ∧ r + d.1 < gh - 1 ∧ 0 < c + d.2 ∧ c + d.2 < gw - 1 ∧
      g.val (r + d.1) (c + d.2) = 1 ∧ ((r + d.1, c + d.2) : Coord) ∉ l
  · rw [if_pos hc]
    simp [List.nodup_append, hl, hc.2.2.2.2.2]
  · rw [if_neg hc]
    exact hl

theorem primPushWalls_cover {gh gw : Int} {g : Grid} {r c : Int} {d : Coord}
    (hd : d ∈ moveDirs) (h1 : 0 < r + d.1) (h2 : r + d.1 < gh - 1) (h3 : 0 < c + d.2)
    (h4 : c + d.2 < gw - 1) (h5 : g.val (r + d.1) (c + d.2) = 1) :
    ∀ ws : List Coord, ((r + d.1, c + d.2) : Coord) ∈ primPushWalls gh gw g r c ws := by
  have hgo : ∀ (l : List Coord) (ws : List Coord), d ∈ l →
      ((r + d.1, c + d.2) : Coord) ∈ l.foldl (fun ws d =>
        let nw : Coord := (r + d.1, c + d.2)
        if 0 < nw.1 ∧ nw.1 < gh - 1 ∧ 0 < nw.2 ∧ nw.2 < gw - 1 ∧ g.val nw.1 nw.2 = 1 ∧ nw ∉ ws
        then ws ++ [nw] else ws) ws := by
    intro l
    induction l with
    | nil =>
      intro ws hm
      cases hm
    | cons e t ih =>
      intro ws hm
      rw [List.foldl_cons]
      rcases List.mem_cons.1 hm with rfl | hm
      · have hstep : ((r + d.1, c + d.2) : Coord) ∈
            (if 0 < r + d.1 ∧ r + d.1 < gh - 1 ∧ 0 < c + d.2 ∧ c + d.2 < gw - 1 ∧
              g.val (r + d.1) (c + d.2) = 1 ∧ ((r + d.1, c + d.2) : Coord) ∉ ws
            then ws ++ [(r + d.1, c + d.2)] else ws) := by
          split
          · exact List.mem_append.2 (Or.inr (List.mem_singleton.2 rfl))
          · rename_i hneg
            by_cases hin : ((r + d.1, c + d.2) : Coord) ∈ ws
            · exact hin
            · exact absurd ⟨h1, h2, h3, h4, h5, hin⟩ hneg
        refine foldl_pres (fun l => ((r + d.1, c + d.2) : Coord) ∈ l) _ ?_ t _ hstep
        intro l d' hl
        dsimp only
        split
        · exact List.mem_append.2 (Or.inl hl)
        · exact hl
      · exact ih _ hm
  intro ws
  exact hgo moveDirs ws hd

/-- Carving a frontier wall toward its uncarved flank preserves the Prim
invariant, with the new cell's walls pushed. -/
theorem primInv_carve {w h : Nat} {s : Coord} {mz : Grid} {walls walls1 : List Coord}
    {a b a' b' : Nat}
    (hinv : primInv w h s mz walls)
    (hperm : walls.Perm ((((a : Int) + (a' : Int) + 1, (b : Int) + (b' : Int) + 1) : Coord)
      :: walls1))
    (ha : a < h) (hb : b < w) (ha' : a' < h) (hb' : b' < w)
    (hadj : (a' = a + 1 ∧ b' = b) ∨ (a = a' + 1 ∧ b' = b) ∨
            (b' = b + 1 ∧ a' = a) ∨ (b = b' + 1 ∧ a' = a))
    (hopen : mz.val (2 * (a : Int) + 1) (2 * (b : Int) + 1) = 0)
    (hfresh : mz.val (2 * (a' : Int) + 1) (2 * (b' : Int) + 1) = 1) :
    primInv w h s
      ((mz.set ((a : Int) + (a' : Int) + 1) ((b : Int) + (b' : Int) + 1) 0).set
        (2 * (a' : Int) + 1) (2 * (b' : Int) + 1) 0)
      (primPushWalls (2 * (h : Int) + 1) (2 * (w : Int) + 1)
        ((mz.set ((a : Int) + (a' : Int) + 1) ((b : Int) + (b' : Int) + 1) 0).set
          (2 * (a' : Int) + 1) (2 * (b' : Int) + 1) 0)
        (2 * (a' : Int) + 1) (2 * (b' : Int) + 1) walls1) := by
  obtain ⟨p0, p1, p2, p3, p4, p5, p6, p7, p8, p9, p10⟩ := hinv
  have hmw : (((a : Int) + (a' : Int) + 1, (b : Int) + (b' : Int) + 1) : Coord) ∈ walls :=
    hperm.mem_iff.2 (List.mem_cons_self _ _)
  have hmv := p2 _ hmw
  have hwnd : ((((a : Int) + (a' : Int) + 1, (b : Int) + (b' : Int) + 1) : Coord)
      :: walls1).Nodup := hperm.nodup_iff.1 p3
  have hmnotin : (((a : Int) + (a' : Int) + 1, (b : Int) + (b' : Int) + 1) : Coord)
      ∉ walls1 := (List.nodup_cons.1 hwnd).1
  have hw1nd : walls1.Nodup := (List.nodup_cons.1 hwnd).2
  have hw1sub : ∀ x ∈ walls1, x ∈ walls :=
    fun x hx => hperm.mem_iff.2 (List.mem_cons_of_mem _ hx)
  have hcarve := carve_step (g := mz) ha hb ha' hb' hadj hopen
    (by rw [hfresh]; omega) (by dsimp only at hmv ⊢; rw [hmv]; omega)
  have hmono : ∀ r' c', mz.val r' c' = 0 →
      ((mz.set ((a : Int) + (a' : Int) + 1) ((b : Int) + (b' : Int) + 1) 0).set
        (2 * (a' : Int) + 1) (2 * (b' : Int) + 1) 0).val r' c' = 0 :=
    fun r' c' hv => val_mono_set0 _ _ _ r' c' (val_mono_set0 mz _ _ r' c' hv)
  have hvnew : ((mz.set ((a : Int) + (a' : Int) + 1) ((b : Int) + (b' : Int) + 1) 0).set
      (2 * (a' : Int) + 1) (2 * (b' : Int) + 1) 0).val
      (2 * (a' : Int) + 1) (2 * (b' : Int) + 1) = 0 := Grid.val_set_self _ _ _ _
  have hvmid : ((mz.set ((a : Int) + (a' : Int) + 1) ((b : Int) + (b' : Int) + 1) 0).set
      (2 * (a' : Int) + 1) (2 * (b' : Int) + 1) 0).val
      ((a : Int) + (a' : Int) + 1) ((b : Int) + (b' : Int) + 1) = 0 := by
    rw [Grid.val_set_other _ _ _ _ _ _ (by rw [not_and]; intro hr hc; omega), Grid.val_set_self]
  have hvold : ((mz.set ((a : Int) + (a' : Int) + 1) ((b : Int) + (b' : Int) + 1) 0).set
      (2 * (a' : Int) + 1) (2 * (b' : Int) + 1) 0).val
      (2 * (a : Int) + 1) (2 * (b : Int) + 1) = 0 := by
    rw [val_set2_other (by rw [not_and]; intro hr hc; omega)
      (by rw [not_and]; intro hr hc; omega)]
    exact hopen
  -- value of an unchanged cell position
  have hvcell : ∀ x y : Nat, ¬(x = a' ∧ y = b') →
      ((mz.set ((a : Int) + (a' : Int) + 1) ((b : Int) + (b' : Int) + 1) 0).set
        (2 * (a' : Int) + 1) (2 * (b' : Int) + 1) 0).val
        (2 * (x : Int) + 1) (2 * (y : Int) + 1) = mz.val (2 * (x : Int) + 1)
        (2 * (y : Int) + 1) := by
    intro x y hxy
    exact val_set2_other (by rw [not_and]; intro hr hc; omega)
      (by rintro ⟨hr, hc⟩; exact hxy ⟨by omega, by omega⟩)
  -- the new passage-closed facts, proved first and reused below
  have hp4' : ∀ x y : Nat, x < h → y + 1 < w →
      ((mz.set ((a : Int) + (a' : Int) + 1) ((b : Int) + (b' : Int) + 1) 0).set
        (2 * (a' : Int) + 1) (2 * (b' : Int) + 1) 0).val
        (2 * (x : Int) + 1) (2 * (y : Int) + 2) = 0 →
      ((mz.set ((a : Int) + (a' : Int) + 1) ((b : Int) + (b' : Int) + 1) 0).set
        (2 * (a' : Int) + 1) (2 * (b' : Int) + 1) 0).val
        (2 * (x : Int) + 1) (2 * (y : Int) + 1) = 0 ∧
      ((mz.set ((a : Int) + (a' : Int) + 1) ((b : Int) + (b' : Int) + 1) 0).set
        (2 * (a' : Int) + 1) (2 * (b' : Int) + 1) 0).val
        (2 * (x : Int) + 1) (2 * (y : Int) + 3) = 0 := by
    intro x y hx hy h0
    by_cases hqm : 2 * (x : Int) + 1 = (a : Int) + (a' : Int) + 1 ∧
        2 * (y : Int) + 2 = (b : Int) + (b' : Int) + 1
    · rcases hadj with ⟨he1, he2⟩ | ⟨he1, he2⟩ | ⟨he1, he2⟩ | ⟨he1, he2⟩
      · exact absurd hqm.1 (by omega)
      · exact absurd hqm.1 (by omega)
      · refine ⟨?_, ?_⟩
        · rw [show (2 * (x : Int) + 1) = 2 * ((a : Nat) : Int) + 1 from by omega,
            show (2 * (y : Int) + 1) = 2 * ((b : Nat) : Int) + 1 from by omega]
          exact hvold
        · rw [show (2 * (x : Int) + 1) = 2 * ((a' : Nat) : Int) + 1 from by omega,
            show (2 * (y : Int) + 3) = 2 * ((b' : Nat) : Int) + 1 from by omega]
          exact hvnew
      · refine ⟨?_, ?_⟩
        · rw [show (2 * (x : Int) + 1) = 2 * ((a' : Nat) : Int) + 1 from by omega,
            show (2 * (y : Int) + 1) = 2 * ((b' : Nat) : Int) + 1 from by omega]
          exact hvnew
        · rw [show (2 * (x : Int) + 1) = 2 * ((a : Nat) : Int) + 1 from by omega,
            show (2 * (y : Int) + 3) = 2 * ((b : Nat) : Int) + 1 from by omega]
          exact hvold
    · have hval : ((mz.set ((a : Int) + (a' : Int) + 1) ((b : Int) + (b' : Int) + 1) 0).set
          (2 * (a' : Int) + 1) (2 * (b' : Int) + 1) 0).val
          (2 * (x : Int) + 1) (2 * (y : Int) + 2) = mz.val (2 * (x : Int) + 1)
          (2 * (y : Int) + 2) :=
        val_set2_other (fun hc => hqm hc) (by rw [not_and]; intro hr hc; omega)
      rw [hval] at h0
      obtain ⟨hf1, hf2⟩ := p4 x y hx hy h0
      constructor
      · by_cases hx1 : x = a' ∧ y = b'
        · rw [show (2 * (x : Int) + 1) = 2 * ((a' : Nat) : Int) + 1 from by omega,
            show (2 * (y : Int) + 1) = 2 * ((b' : Nat) : Int) + 1 from by omega]
          exact hvnew
        · rw [hvcell x y hx1]
          exact hf1
      · by_cases hx2 : x = a' ∧ y + 1 = b'
        · rw [show (2 * (x : Int) + 1) = 2 * ((a' : Nat) : Int) + 1 from by omega,
            show (2 * (y : Int) + 3) = 2 * ((b' : Nat) : Int) + 1 from by omega]
          exact hvnew
        · have : ((mz.set ((a : Int) + (a' : Int) + 1) ((b : Int) + (b' : Int) + 1) 0).set
              (2 * (a' : Int) + 1) (2 * (b' : Int) + 1) 0).val
              (2 * (x : Int) + 1) (2 * (y : Int) + 3) = mz.val (2 * (x : Int) + 1)
              (2 * (y : Int) + 3) :=
            val_set2_other (by rw [not_and]; intro hr hc; omega)
              (by rintro ⟨hr, hc⟩; exact hx2 ⟨by omega, by omega⟩)
          rw [this]
          exact hf2
  have hp5' : ∀ x y : Nat, x + 1 < h → y < w →
      ((mz.set ((a : Int) + (a' : Int) + 1) ((b : Int) + (b' : Int) + 1) 0).set
        (2 * (a' : Int) + 1) (2 * (b' : Int) + 1) 0).val
        (2 * (x : Int) + 2) (2 * (y : Int) + 1) = 0 →
      ((mz.set ((a : Int) + (a' : Int) + 1) ((b : Int) + (b' : Int) + 1) 0).set
        (2 * (a' : Int) + 1) (2 * (b' : Int) + 1) 0).val
        (2 * (x : Int) + 1) (2 * (y : Int) + 1) = 0 ∧
      ((mz.set ((a : Int) + (a' : Int) + 1) ((b : Int) + (b' : Int) + 1) 0).set
        (2 * (a' : Int) + 1) (2 * (b' : Int) + 1) 0).val
        (2 * (x : Int) + 3) (2 * (y : Int) + 1) = 0 := by
    intro x y hx hy h0
    by_cases hqm : 2 * (x : Int) + 2 = (a : Int) + (a' : Int) + 1 ∧
        2 * (y : Int) + 1 = (b : Int) + (b' : Int) + 1
    · rcases hadj with ⟨he1, he2⟩ | ⟨he1, he2⟩ | ⟨he1, he2⟩ | ⟨he1, he2⟩
      · refine ⟨?_, ?_⟩
        · rw [show (2 * (x : Int) + 1) = 2 * ((a : Nat) : Int) + 1 from by omega,
            show (2 * (y : Int) + 1) = 2 * ((b : Nat) : Int) + 1 from by omega]
          exact hvold
        · rw [show (2 * (x : Int) + 3) = 2 * ((a' : Nat) : Int) + 1 from by omega,
            show (2 * (y : Int) + 1) = 2 * ((b' : Nat) : Int) + 1 from by omega]
          exact hvnew
      · refine ⟨?_, ?_⟩
        · rw [show (2 * (x : Int) + 1) = 2 * ((a' : Nat) : Int) + 1 from by omega,
            show (2 * (y : Int) + 1) = 2 * ((b' : Nat) : Int) + 1 from by omega]
          exact hvnew
        · rw [show (2 * (x : Int) + 3) = 2 * ((a : Nat) : Int) + 1 from by omega,
            show (2 * (y : Int) + 1) = 2 * ((b : Nat) : Int) + 1 from by omega]
          exact hvold
      · exact absurd hqm.2 (by omega)
      · exact absurd hqm.2 (by omega)
    · have hval : ((mz.set ((a : Int) + (a' : Int) + 1) ((b : Int) + (b' : Int) + 1) 0).set
          (2 * (a' : Int) + 1) (2 * (b' : Int) + 1) 0).val
          (2 * (x : Int) + 2) (2 * (y : Int) + 1) = mz.val (2 * (x : Int) + 2)
          (2 * (y : Int) + 1) :=
        val_set2_other (fun hc => hqm hc) (by rw [not_and]; intro hr hc; omega)
      rw [hval] at h0
      obtain ⟨hf1, hf2⟩ := p5 x y hx hy h0
      constructor
      · by_cases hx1 : x = a' ∧ y = b'
        · rw [show (2 * (x : Int) + 1) = 2 * ((a' : Nat) : Int) + 1 from by omega,
            show (2 * (y : Int) + 1) = 2 * ((b' : Nat) : Int) + 1 from by omega]
          exact hvnew
        · rw [hvcell x y hx1]
          exact hf1
      · by_cases hx2 : x + 1 = a' ∧ y = b'
        · rw [show (2 * (x : Int) + 3) = 2 * ((a' : Nat) : Int) + 1 from by omega,
            show (2 * (y : Int) + 1) = 2 * ((b' : Nat) : Int) + 1 from by omega]
          exact hvnew
        · have : ((mz.set ((a : Int) + (a' : Int) + 1) ((b : Int) + (b' : Int) + 1) 0).set
              (2 * (a' : Int) + 1) (2 * (b' : Int) + 1) 0).val
              (2 * (x : Int) + 3) (2 * (y : Int) + 1) = mz.val (2 * (x : Int) + 3)
              (2 * (y : Int) + 1) :=
            val_set2_other (by rw [not_and]; intro hr hc; omega)
              (by rintro ⟨hr, hc⟩; exact hx2 ⟨by omega, by omega⟩)
          rw [this]
          exact hf2
  have hp0' : ∀ r c : Int,
      ((mz.set ((a : Int) + (a' : Int) + 1) ((b : Int) + (b' : Int) + 1) 0).set
        (2 * (a' : Int) + 1) (2 * (b' : Int) + 1) 0).val r c = 0 ∨
      ((mz.set ((a : Int) + (a' : Int) + 1) ((b : Int) + (b' : Int) + 1) 0).set
        (2 * (a' : Int) + 1) (2 * (b' : Int) + 1) 0).val r c = 1 := by
    intro r c
    by_cases h1 : r = 2 * (a' : Int) + 1 ∧ c = 2 * (b' : Int) + 1
    · rw [Grid.val_set, if_pos h1]
      exact Or.inl rfl
    · rw [Grid.val_set_other _ _ _ _ _ _ h1]
      by_cases h2 : r = (a : Int) + (a' : Int) + 1 ∧ c = (b : Int) + (b' : Int) + 1
      · rw [Grid.val_set, if_pos h2]
        exact Or.inl rfl
      · rw [Grid.val_set_other _ _ _ _ _ _ h2]
        exact p0 r c
  refine ⟨hp0', ?_, ?_, primPushWalls_nodup hw1nd, hp4', hp5', ?_, ?_, ?_, ?_, ?_⟩
  · intro m hm
    rcases primPushWalls_mem hm with hm1 | ⟨⟨d, hd, rfl⟩, hb1, hb2, hb3, hb4, _⟩
    · exact p1 m (hw1sub m hm1)
    · have hd4 : d = ((-1 : Int), (0 : Int)) ∨ d = (1, 0) ∨ d = (0, -1) ∨ d = (0, 1) := by
        simpa [moveDirs] using hd
      apply passageList_mem_parity.2
      rcases hd4 with rfl | rfl | rfl | rfl <;> dsimp only at hb1 hb2 hb3 hb4 ⊢ <;>
        refine ⟨by omega, by omega, by omega, by omega, by omega⟩
  · intro m hm
    rcases primPushWalls_mem hm with hm1 | ⟨⟨d, hd, rfl⟩, _, _, _, _, hval⟩
    · have hmp := p1 m (hw1sub m hm1)
      have hv := p2 m (hw1sub m hm1)
      have hne1 : ¬(m.1 = (a : Int) + (a' : Int) + 1 ∧ m.2 = (b : Int) + (b' : Int) + 1) := by
        rintro ⟨h1, h2⟩
        apply hmnotin
        rw [show (((a : Int) + (a' : Int) + 1, (b : Int) + (b' : Int) + 1) : Coord)
          = m from by rw [Prod.mk.injEq]; exact ⟨h1.symm, h2.symm⟩]
        exact hm1
      have hne2 : ¬(m.1 = 2 * (a' : Int) + 1 ∧ m.2 = 2 * (b' : Int) + 1) := by
        rcases passageList_mem.1 hmp with ⟨i, j, _, _, hpe⟩ | ⟨i, j, _, _, hpe⟩ <;>
          (rw [Prod.ext_iff] at hpe; rintro ⟨h1, h2⟩; omega)
      rw [val_set2_other hne1 hne2]
      exact hv
    · exact hval
  · rw [hcarve.1, hcarve.2.1, p6]
  · intro x y hx hy h0
    by_cases hxy : x = a' ∧ y = b'
    · rw [show (2 * (x : Int) + 1) = 2 * ((a' : Nat) : Int) + 1 from by omega,
        show (2 * (y : Int) + 1) = 2 * ((b' : Nat) : Int) + 1 from by omega]
      exact Relation.ReflTransGen.trans (connectedIn_symm hcarve.2.2)
        (connectedIn_mono hmono (p7 a b ha hb hopen))
    · rw [hvcell x y hxy] at h0
      exact connectedIn_mono hmono (p7 x y hx hy h0)
  · -- horizontal boundary walls remain on the frontier
    intro x y hx hy hsplit
    by_cases hq1 : x = a' ∧ y = b'
    · rcases hsplit with ⟨hl, hr⟩ | ⟨hl, hr⟩
      · have hsep1 : ((mz.set ((a : Int) + (a' : Int) + 1) ((b : Int) + (b' : Int) + 1) 0).set
            (2 * (a' : Int) + 1) (2 * (b' : Int) + 1) 0).val
            (2 * (x : Int) + 1) (2 * (y : Int) + 2) = 1 := by
          rcases hp0' (2 * (x : Int) + 1) (2 * (y : Int) + 2) with hv0 | hv1
          · exact absurd (hp4' x y hx hy hv0).2 (by rw [hr]; omega)
          · exact hv1
        rw [show ((2 * (x : Int) + 1, 2 * (y : Int) + 2) : Coord)
            = (2 * ((a' : Nat) : Int) + 1 + ((0 : Int), (1 : Int)).1,
               2 * ((b' : Nat) : Int) + 1 + ((0 : Int), (1 : Int)).2) from by
          rw [Prod.mk.injEq]; constructor <;> dsimp only <;> omega]
        refine primPushWalls_cover (by simp [moveDirs]) (by dsimp only; omega)
          (by dsimp only; omega) (by dsimp only; omega) (by dsimp only; omega) ?_ walls1
        rw [show (2 * ((a' : Nat) : Int) + 1 + ((0 : Int), (1 : Int)).1)
              = 2 * (x : Int) + 1 from by dsimp only; omega,
            show (2 * ((b' : Nat) : Int) + 1 + ((0 : Int), (1 : Int)).2)
              = 2 * (y : Int) + 2 from by dsimp only; omega]
        exact hsep1
      · rw [show (2 * (x : Int) + 1) = 2 * ((a' : Nat) : Int) + 1 from by omega,
          show (2 * (y : Int) + 1) = 2 * ((b' : Nat) : Int) + 1 from by omega] at hl
        rw [hvnew] at hl
        cases hl
    · by_cases hq2 : x = a' ∧ y + 1 = b'
      · rcases hsplit with ⟨hl, hr⟩ | ⟨hl, hr⟩
        · rw [show (2 * (x : Int) + 1) = 2 * ((a' : Nat) : Int) + 1 from by omega,
            show (2 * (y : Int) + 3) = 2 * ((b' : Nat) : Int) + 1 from by omega] at hr
          rw [hvnew] at hr
          cases hr
        · have hsep1 : ((mz.set ((a : Int) + (a' : Int) + 1) ((b : Int) + (b' : Int) + 1)
              0).set (2 * (a' : Int) + 1) (2 * (b' : Int) + 1) 0).val
              (2 * (x : Int) + 1) (2 * (y : Int) + 2) = 1 := by
            rcases hp0' (2 * (x : Int) + 1) (2 * (y : Int) + 2) with hv0 | hv1
            · exact absurd (hp4' x y hx hy hv0).1 (by rw [hl]; omega)
            · exact hv1
          rw [show ((2 * (x : Int) + 1, 2 * (y : Int) + 2) : Coord)
              = (2 * ((a' : Nat) : Int) + 1 + ((0 : Int), (-1 : Int)).1,
                 2 * ((b' : Nat) : Int) + 1 + ((0 : Int), (-1 : Int)).2) from by
            rw [Prod.mk.injEq]; constructor <;> dsimp only <;> omega]
          refine primPushWalls_cover (by simp [moveDirs]) (by dsimp only; omega)
            (by dsimp only; omega) (by dsimp only; omega) (by dsimp only; omega) ?_ walls1
          rw [show (2 * ((a' : Nat) : Int) + 1 + ((0 : Int), (-1 : Int)).1)
                = 2 * (x : Int) + 1 from by dsimp only; omega,
              show (2 * ((b' : Nat) : Int) + 1 + ((0 : Int), (-1 : Int)).2)
                = 2 * (y : Int) + 2 from by dsimp only; omega]
          exact hsep1
      · have hlv : ((mz.set ((a : Int) + (a' : Int) + 1) ((b : Int) + (b' : Int) + 1) 0).set
            (2 * (a' : Int) + 1) (2 * (b' : Int) + 1) 0).val
            (2 * (x : Int) + 1) (2 * (y : Int) + 1) = mz.val (2 * (x : Int) + 1)
            (2 * (y : Int) + 1) := hvcell x y hq1
        have hrv : ((mz.set ((a : Int) + (a' : Int) + 1) ((b : Int) + (b' : Int) + 1) 0).set
            (2 * (a' : Int) + 1) (2 * (b' : Int) + 1) 0).val
            (2 * (x : Int) + 1) (2 * (y : Int) + 3) = mz.val (2 * (x : Int) + 1)
            (2 * (y : Int) + 3) :=
          val_set2_other (by rw [not_and]; intro hr hc; omega)
            (by rintro ⟨hr, hc⟩; exact hq2 ⟨by omega, by omega⟩)
        rw [hlv, hrv] at hsplit
        have hsw := p8 x y hx hy hsplit
        rcases List.mem_cons.1 (hperm.mem_iff.1 hsw) with hsw | hsw
        · exfalso
          rw [Prod.mk.injEq] at hsw
          rcases hadj with ⟨he1, he2⟩ | ⟨he1, he2⟩ | ⟨he1, he2⟩ | ⟨he1, he2⟩
          · omega
          · omega
          · exact hq2 ⟨by omega, by omega⟩
          · exact hq1 ⟨by omega, by omega⟩
        · exact primPushWalls_sub hsw
  · -- vertical boundary walls remain on the frontier
    intro x y hx hy hsplit
    by_cases hq1 : x = a' ∧ y = b'
    · rcases hsplit with ⟨hl, hr⟩ | ⟨hl, hr⟩
      · have hsep1 : ((mz.set ((a : Int) + (a' : Int) + 1) ((b : Int) + (b' : Int) + 1) 0).set
            (2 * (a' : Int) + 1) (2 * (b' : Int) + 1) 0).val
            (2 * (x : Int) + 2) (2 * (y : Int) + 1) = 1 := by
          rcases hp0' (2 * (x : Int) + 2) (2 * (y : Int) + 1) with hv0 | hv1
          · exact absurd (hp5' x y hx hy hv0).2 (by rw [hr]; omega)
          · exact hv1
        rw [show ((2 * (x : Int) + 2, 2 * (y : Int) + 1) : Coord)
            = (2 * ((a' : Nat) : Int) + 1 + ((1 : Int), (0 : Int)).1,
               2 * ((b' : Nat) : Int) + 1 + ((1 : Int), (0 : Int)).2) from by
          rw [Prod.mk.injEq]; constructor <;> dsimp only <;> omega]
        refine primPushWalls_cover (by simp [moveDirs]) (by dsimp only; omega)
          (by dsimp only; omega) (by dsimp only; omega) (by dsimp only; omega) ?_ walls1
        rw [show (2 * ((a' : Nat) : Int) + 1 + ((1 : Int), (0 : Int)).1)
              = 2 * (x : Int) + 2 from by dsimp only; omega,
            show (2 * ((b' : Nat) : Int) + 1 + ((1 : Int), (0 : Int)).2)
              = 2 * (y : Int) + 1 from by dsimp only; omega]
        exact hsep1
      · rw [show (2 * (x : Int) + 1) = 2 * ((a' : Nat) : Int) + 1 from by omega,
          show (2 * (y : Int) + 1) = 2 * ((b' : Nat) : Int) + 1 from by omega] at hl
        rw [hvnew] at hl
        cases hl
    · by_cases hq2 : x + 1 = a' ∧ y = b'
      · rcases hsplit with ⟨hl, hr⟩ | ⟨hl, hr⟩
        · rw [show (2 * (x : Int) + 3) = 2 * ((a' : Nat) : Int) + 1 from by omega,
            show (2 * (y : Int) + 1) = 2 * ((b' : Nat) : Int) + 1 from by omega] at hr
          rw [hvnew] at hr
          cases hr
        · have hsep1 : ((mz.set ((a : Int) + (a' : Int) + 1) ((b : Int) + (b' : Int) + 1)
              0).set (2 * (a' : Int) + 1) (2 * (b' : Int) + 1) 0).val
              (2 * (x : Int) + 2) (2 * (y : Int) + 1) = 1 := by
            rcases hp0' (2 * (x : Int) + 2) (2 * (y : Int) + 1) with hv0 | hv1
            · exact absurd (hp5' x y hx hy hv0).1 (by rw [hl]; omega)
            · exact hv1
          rw [show ((2 * (x : Int) + 2, 2 * (y : Int) + 1) : Coord)
              = (2 * ((a' : Nat) : Int) + 1 + ((-1 : Int), (0 : Int)).1,
                 2 * ((b' : Nat) : Int) + 1 + ((-1 : Int), (0 : Int)).2) from by
            rw [Prod.mk.injEq]; constructor <;> dsimp only <;> omega]
          refine primPushWalls_cover (by simp [moveDirs]) (by dsimp only; omega)
            (by dsimp only; omega) (by dsimp only; omega) (by dsimp only; omega) ?_ walls1
          rw [show (2 * ((a' : Nat) : Int) + 1 + ((-1 : Int), (0 : Int)).1)
                = 2 * (x : Int) + 2 from by dsimp only; omega,
              show (2 * ((b' : Nat) : Int) + 1 + ((-1 : Int), (0 : Int)).2)
                = 2 * (y : Int) + 1 from by dsimp only; omega]
          exact hsep1
      · have hlv : ((mz.set ((a : Int) + (a' : Int) + 1) ((b : Int) + (b' : Int) + 1) 0).set
            (2 * (a' : Int) + 1) (2 * (b' : Int) + 1) 0).val
            (2 * (x : Int) + 1) (2 * (y : Int) + 1) = mz.val (2 * (x : Int) + 1)
            (2 * (y : Int) + 1) := hvcell x y hq1
        have hrv : ((mz.set ((a : Int) + (a' : Int) + 1) ((b : Int) + (b' : Int) + 1) 0).set
            (2 * (a' : Int) + 1) (2 * (b' : Int) + 1) 0).val
            (2 * (x : Int) + 3) (2 * (y : Int) + 1) = mz.val (2 * (x : Int) + 3)
            (2 * (y : Int) + 1) :=
          val_set2_other (by rw [not_and]; intro hr hc; omega)
            (by rintro ⟨hr, hc⟩; exact hq2 ⟨by omega, by omega⟩)
        rw [hlv, hrv] at hsplit
        have hsw := p9 x y hx hy hsplit
        rcases List.mem_cons.1 (hperm.mem_iff.1 hsw) with hsw | hsw
        · exfalso
          rw [Prod.mk.injEq] at hsw
          rcases hadj with ⟨he1, he2⟩ | ⟨he1, he2⟩ | ⟨he1, he2⟩ | ⟨he1, he2⟩
          · exact hq2 ⟨by omega, by omega⟩
          · exact hq1 ⟨by omega, by omega⟩
          · omega
          · omega
        · exact primPushWalls_sub hsw
  · obtain ⟨a0, b0, ha0, hb0, hseq, hsv⟩ := p10
    exact ⟨a0, b0, ha0, hb0, hseq, hmono _ _ hsv⟩

/-- An exhausted frontier makes the Prim invariant a perfect maze. -/
theorem primInv_perfect {w h : Nat} {s : Coord} {g : Grid}
    (hinv : primInv w h s g []) : perfectMaze w h g := by
  obtain ⟨p0, _, _, _, _, _, p6, p7, p8, p9, p10⟩ := hinv
  obtain ⟨a0, b0, ha0, hb0, hseq, hsv⟩ := p10
  have hs0 : g.val (2 * (a0 : Int) + 1) (2 * (b0 : Int) + 1) = 0 := by
    rw [hseq] at hsv
    exact hsv
  have hall : ∀ i j, i < h → j < w → g.val (2 * (i : Int) + 1) (2 * (j : Int) + 1) = 0 := by
    refine cell_closure (fun i j => g.val (2 * (i : Int) + 1) (2 * (j : Int) + 1) = 0)
      ?_ ha0 hb0 hs0
    intro i j i' j' hi hj hi' hj' hS hadj
    rcases p0 (2 * (i' : Int) + 1) (2 * (j' : Int) + 1) with hv | hv
    · exact hv
    · exfalso
      rcases hadj with ⟨he1, he2⟩ | ⟨he1, he2⟩ | ⟨he1, he2⟩ | ⟨he1, he2⟩
      · have hv' : g.val (2 * (i : Int) + 3) (2 * (j : Int) + 1) = 1 := by
          rw [show (2 * (i : Int) + 3) = 2 * ((i' : Nat) : Int) + 1 from by omega,
            show (2 * (j : Int) + 1) = 2 * ((j' : Nat) : Int) + 1 from by omega]
          exact hv
        have := p9 i j (by omega) hj (Or.inl ⟨hS, hv'⟩)
        cases this
      · have hS' : g.val (2 * (i' : Int) + 3) (2 * (j' : Int) + 1) = 0 := by
          rw [show (2 * (i' : Int) + 3) = 2 * ((i : Nat) : Int) + 1 from by omega,
            show (2 * (j' : Int) + 1) = 2 * ((j : Nat) : Int) + 1 from by omega]
          exact hS
        have := p9 i' j' (by omega) hj' (Or.inr ⟨hv, hS'⟩)
        cases this
      · have hv' : g.val (2 * (i : Int) + 1) (2 * (j : Int) + 3) = 1 := by
          rw [show (2 * (i : Int) + 1) = 2 * ((i' : Nat) : Int) + 1 from by omega,
            show (2 * (j : Int) + 3) = 2 * ((j' : Nat) : Int) + 1 from by omega]
          exact hv
        have := p8 i j hi (by omega) (Or.inl ⟨hS, hv'⟩)
        cases this
      · have hS' : g.val (2 * (i' : Int) + 1) (2 * (j' : Int) + 3) = 0 := by
          rw [show (2 * (i' : Int) + 1) = 2 * ((i : Nat) : Int) + 1 from by omega,
            show (2 * (j' : Int) + 3) = 2 * ((j : Nat) : Int) + 1 from by omega]
          exact hS
        have := p8 i' j' hi' (by omega) (Or.inr ⟨hv, hS'⟩)
        cases this
  have hocc : openCellCount w h g = w * h := by
    unfold openCellCount countOpen
    rw [List.countP_eq_length.2, cellPosList_length]
    intro p hp
    rcases cellPosList_mem.1 hp with ⟨i, j, hi, hj, rfl⟩
    simpa using hall i j hi hj
  refine ⟨?_, hocc, ?_, ?_⟩
  · intro p hp
    rcases cellPosList_mem.1 hp with ⟨i, j, hi, hj, rfl⟩
    exact hall i j hi hj
  · omega
  · intro p hp q hq
    rcases cellPosList_mem.1 hp with ⟨i, j, hi, hj, rfl⟩
    rcases cellPosList_mem.1 hq with ⟨i', j', hi', hj', rfl⟩
    exact Relation.ReflTransGen.trans (p7 i j hi hj (hall i j hi hj))
      (connectedIn_symm (p7 i' j' hi' hj' (hall i' j' hi' hj')))

/-- Discarding a frontier wall that does not separate a carved cell from
an uncarved one preserves the Prim invariant. -/
theorem primInv_drop {w h : Nat} {s : Coord} {mz : Grid} {walls walls1 : List Coord}
    {m : Coord}
    (hinv : primInv w h s mz walls)
    (hperm : walls.Perm (m :: walls1))
    (hns : ∀ x y : Nat, x < h → y + 1 < w → m = (2 * (x : Int) + 1, 2 * (y : Int) + 2) →
      ¬((mz.val (2 * (x : Int) + 1) (2 * (y : Int) + 1) = 0 ∧
         mz.val (2 * (x : Int) + 1) (2 * (y : Int) + 3) = 1) ∨
        (mz.val (2 * (x : Int) + 1) (2 * (y : Int) + 1) = 1 ∧
         mz.val (2 * (x : Int) + 1) (2 * (y : Int) + 3) = 0)))
    (hnsv : ∀ x y : Nat, x + 1 < h → y < w → m = (2 * (x : Int) + 2, 2 * (y : Int) + 1) →
      ¬((mz.val (2 * (x : Int) + 1) (2 * (y : Int) + 1) = 0 ∧
         mz.val (2 * (x : Int) + 3) (2 * (y : Int) + 1) = 1) ∨
        (mz.val (2 * (x : Int) + 1) (2 * (y : Int) + 1) = 1 ∧
         mz.val (2 * (x : Int) + 3) (2 * (y : Int) + 1) = 0))) :
    primInv w h s mz walls1 := by
  obtain ⟨p0, p1, p2, p3, p4, p5, p6, p7, p8, p9, p10⟩ := hinv
  have hsub : ∀ x ∈ walls1, x ∈ walls :=
    fun x hx => hperm.mem_iff.2 (List.mem_cons_of_mem _ hx)
  refine ⟨p0, fun x hx => p1 x (hsub x hx), fun x hx => p2 x (hsub x hx),
    (List.nodup_cons.1 (hperm.nodup_iff.1 p3)).2, p4, p5, p6, p7, ?_, ?_, p10⟩
  · intro x y hx hy hsplit
    rcases List.mem_cons.1 (hperm.mem_iff.1 (p8 x y hx hy hsplit)) with heq | hm
    · exact absurd hsplit (hns x y hx hy heq.symm)
    · exact hm
  · intro x y hx hy hsplit
    rcases List.mem_cons.1 (hperm.mem_iff.1 (p9 x y hx hy hsplit)) with heq | hm
    · exact absurd hsplit (hnsv x y hx hy heq.symm)
    · exact hm

theorem primLoop_perfect {w h : Nat} (rng : Rng) (s : Coord) :
    ∀ (fuel : Nat) (mz : Grid) (walls : List Coord) (i : Nat) out,
      primInv w h s mz walls →
      primLoop (2 * (h : Int) + 1) (2 * (w : Int) + 1) rng fuel mz walls i = some out →
      perfectMaze w h out.1 := by
  intro fuel
  induction fuel with
  | zero =>
    intro mz walls i out _ hrun
    simp [primLoop] at hrun
  | succ fuel ih =>
    intro mz walls i out hinv hrun
    unfold primLoop at hrun
    cases walls with
    | nil =>
      cases hrun
      exact primInv_perfect hinv
    | cons w0 wrest =>
      cases he : extractNth (w0 :: wrest) (draw rng i (w0 :: wrest).length) with
      | none => rw [he] at hrun; cases hrun
      | some pr =>
        rw [he] at hrun
        dsimp only at hrun
        have hperm := extractNth_perm _ _ _ _ he
        have hmw : pr.1 ∈ (w0 :: wrest) := hperm.mem_iff.2 (List.mem_cons_self _ _)
        have hmp := hinv.2.1 pr.1 hmw
        rcases primAdj_passage hmp with ⟨i0, j0, hi0, hj0, hwe, hpa⟩ |
            ⟨i0, j0, hi0, hj0, hwe, hpa⟩
        · -- horizontal wall between (i0, j0) and (i0, j0 + 1)
          rw [hpa] at hrun
          dsimp only at hrun
          rw [hwe] at hrun hperm
          dsimp only at hrun
          split at hrun
          · rename_i hcond
            -- carve right flank (i0, j0 + 1)
            rw [show ((2 * (i0 : Int) + 1, 2 * (j0 : Int) + 2) : Coord)
                  = (((i0 : Nat) : Int) + ((i0 : Nat) : Int) + 1,
                     ((j0 : Nat) : Int) + ((j0 + 1 : Nat) : Int) + 1) from by
                rw [Prod.mk.injEq]; constructor <;> omega] at hperm
            rw [show (2 * (j0 : Int) + 3) = 2 * ((j0 + 1 : Nat) : Int) + 1 from by omega]
              at hcond
            have hinv2 := primInv_carve hinv hperm hi0 (by omega) hi0 hj0
              (Or.inr (Or.inr (Or.inl ⟨rfl, rfl⟩))) hcond.1 hcond.2
            rw [show (((i0 : Nat) : Int) + ((i0 : Nat) : Int) + 1) = 2 * (i0 : Int) + 1
                  from by omega,
                show (((j0 : Nat) : Int) + ((j0 + 1 : Nat) : Int) + 1) = 2 * (j0 : Int) + 2
                  from by omega,
                show (2 * ((j0 + 1 : Nat) : Int) + 1) = 2 * (j0 : Int) + 3 from by omega]
              at hinv2
            exact ih _ _ _ _ hinv2 hrun
          · split at hrun
            · rename_i hcond
              -- carve left flank (i0, j0)
              rw [show ((2 * (i0 : Int) + 1, 2 * (j0 : Int) + 2) : Coord)
                    = (((i0 + 1 : Nat) : Int) * 0 + (((i0 : Nat) : Int) + ((i0 : Nat) : Int)
                      + 1), ((j0 + 1 : Nat) : Int) + ((j0 : Nat) : Int) + 1) from by
                  rw [Prod.mk.injEq]; constructor <;> omega] at hperm
              rw [show ((((i0 + 1 : Nat) : Int)) * 0 + (((i0 : Nat) : Int)
                  + ((i0 : Nat) : Int) + 1)) = ((i0 : Nat) : Int) + ((i0 : Nat) : Int) + 1
                  from by omega] at hperm
              rw [show (2 * (j0 : Int) + 3) = 2 * ((j0 + 1 : Nat) : Int) + 1 from by omega]
                at hcond
              have hinv2 := primInv_carve hinv hperm (by omega) hj0 hi0 (by omega)
                (Or.inr (Or.inr (Or.inr ⟨rfl, rfl⟩))) hcond.2 hcond.1
              rw [show (((i0 : Nat) : Int) + ((i0 : Nat) : Int) + 1) = 2 * (i0 : Int) + 1
                    from by omega,
                  show (((j0 + 1 : Nat) : Int) + ((j0 : Nat) : Int) + 1) = 2 * (j0 : Int) + 2
                    from by omega] at hinv2
              exact ih _ _ _ _ hinv2 hrun
            · rename_i hc1 hc2
              rw [show (2 * (j0 : Int) + 3) = 2 * ((j0 + 1 : Nat) : Int) + 1 from by omega]
                at hc1 hc2
              refine ih _ _ _ _ (primInv_drop hinv hperm ?_ ?_) hrun
              · intro x y hx hy hme
                rw [Prod.mk.injEq] at hme
                have hxe : x = i0 ∧ y = j0 := ⟨by omega, by omega⟩
                rw [show (2 * (x : Int) + 1) = 2 * (i0 : Int) + 1 from by omega,
                  show (2 * (y : Int) + 1) = 2 * (j0 : Int) + 1 from by omega,
                  show (2 * (y : Int) + 3) = 2 * ((j0 + 1 : Nat) : Int) + 1 from by omega]
                rintro (hsp | hsp)
                · exact hc1 hsp
                · exact hc2 hsp
              · intro x y hx hy hme
                rw [Prod.mk.injEq] at hme
                omega
        · -- vertical wall between (i0, j0) and (i0 + 1, j0)
          rw [hpa] at hrun
          dsimp only at hrun
          rw [hwe] at hrun hperm
          dsimp only at hrun
          split at hrun
          · rename_i hcond
            rw [show ((2 * (i0 : Int) + 2, 2 * (j0 : Int) + 1) : Coord)
                  = (((i0 : Nat) : Int) + ((i0 + 1 : Nat) : Int) + 1,
                     ((j0 : Nat) : Int) + ((j0 : Nat) : Int) + 1) from by
                rw [Prod.mk.injEq]; constructor <;> omega] at hperm
            rw [show (2 * (i0 : Int) + 3) = 2 * ((i0 + 1 : Nat) : Int) + 1 from by omega]
              at hcond
            have hinv2 := primInv_carve hinv hperm (by omega) hj0 hi0 hj0
              (Or.inl ⟨rfl, rfl⟩) hcond.1 hcond.2
            rw [show (((i0 : Nat) : Int) + ((i0 + 1 : Nat) : Int) + 1) = 2 * (i0 : Int) + 2
                  from by omega,
                show (((j0 : Nat) : Int) + ((j0 : Nat) : Int) + 1) = 2 * (j0 : Int) + 1
                  from by omega,
                show (2 * ((i0 + 1 : Nat) : Int) + 1) = 2 * (i0 : Int) + 3 from by omega]
              at hinv2
            exact ih _ _ _ _ hinv2 hrun
          · split at hrun
            · rename_i hcond
              rw [show ((2 * (i0 : Int) + 2, 2 * (j0 : Int) + 1) : Coord)
                    = (((i0 + 1 : Nat) : Int) + ((i0 : Nat) : Int) + 1,
                       ((j0 : Nat) : Int) + ((j0 : Nat) : Int) + 1) from by
                  rw [Prod.mk.injEq]; constructor <;> omega] at hperm
              rw [show (2 * (i0 : Int) + 3) = 2 * ((i0 + 1 : Nat) : Int) + 1 from by omega]
                at hcond
              have hinv2 := primInv_carve hinv hperm hi0 hj0 (by omega) hj0
                (Or.inr (Or.inl ⟨rfl, rfl⟩)) hcond.2 hcond.1
              rw [show (((i0 + 1 : Nat) : Int) + ((i0 : Nat) : Int) + 1) = 2 * (i0 : Int) + 2
                    from by omega,
                  show (((j0 : Nat) : Int) + ((j0 : Nat) : Int) + 1) = 2 * (j0 : Int) + 1
                    from by omega] at hinv2
              exact ih _ _ _ _ hinv2 hrun
            · rename_i hc1 hc2
              rw [show (2 * (i0 : Int) + 3) = 2 * ((i0 + 1 : Nat) : Int) + 1 from by omega]
                at hc1 hc2
              refine ih _ _ _ _ (primInv_drop hinv hperm ?_ ?_) hrun
              · intro x y hx hy hme
                rw [Prod.mk.injEq] at hme
                omega
              · intro x y hx hy hme
                rw [Prod.mk.injEq] at hme
                rw [show (2 * (x : Int) + 1) = 2 * (i0 : Int) + 1 from by omega,
                  show (2 * (y : Int) + 1) = 2 * (j0 : Int) + 1 from by omega,
                  show (2 * (x : Int) + 3) = 2 * ((i0 + 1 : Nat) : Int) + 1 from by omega]
                rintro (hsp | hsp)
                · exact hc1 hsp
                · exact hc2 hsp

/-- The initial Prim state (fresh wall grid with one seed cell carved and
its surrounding walls pushed) satisfies the loop invariant. -/
theorem primInv_init {w h : Nat} {a0 b0 : Nat} (ha0 : a0 < h) (hb0 : b0 < w) :
    primInv w h (2 * (a0 : Int) + 1, 2 * (b0 : Int) + 1)
      ((mkGrid (2 * (h : Int) + 1) (2 * (w : Int) + 1) 1).set
        (2 * (a0 : Int) + 1) (2 * (b0 : Int) + 1) 0)
      (primPushWalls (2 * (h : Int) + 1) (2 * (w : Int) + 1)
        ((mkGrid (2 * (h : Int) + 1) (2 * (w : Int) + 1) 1).set
          (2 * (a0 : Int) + 1) (2 * (b0 : Int) + 1) 0)
        (2 * (a0 : Int) + 1) (2 * (b0 : Int) + 1) []) := by
  have hval : ∀ r c : Int,
      ((mkGrid (2 * (h : Int) + 1) (2 * (w : Int) + 1) 1).set
        (2 * (a0 : Int) + 1) (2 * (b0 : Int) + 1) 0).val r c =
      if r = 2 * (a0 : Int) + 1 ∧ c = 2 * (b0 : Int) + 1 then 0 else 1 := by
    intro r c
    by_cases hc : r = 2 * (a0 : Int) + 1 ∧ c = 2 * (b0 : Int) + 1
    · rw [if_pos hc]
      obtain ⟨rfl, rfl⟩ := hc
      exact Grid.val_set_self _ _ _ _
    · rw [if_neg hc, Grid.val_set_other _ _ _ _ _ _ hc]
      rfl
  refine ⟨?_, ?_, ?_, ?_, ?_, ?_, ?_, ?_, ?_, ?_, ?_⟩
  · intro r c
    rw [hval]
    split
    · exact Or.inl rfl
    · exact Or.inr rfl
  · intro m hm
    rcases primPushWalls_mem hm with hm0 | ⟨⟨d, hd, hde⟩, h1, h2, h3, h4, _⟩
    · cases hm0
    · rcases m with ⟨mr, mc⟩
      rw [passageList_mem_parity]
      fin_cases hd <;> (rw [Prod.mk.injEq] at hde) <;>
        exact ⟨by omega, by omega, by omega, by omega, by omega⟩
  · intro m hm
    rcases primPushWalls_mem hm with hm0 | ⟨_, _, _, _, _, hv⟩
    · cases hm0
    · exact hv
  · exact primPushWalls_nodup List.nodup_nil
  · intro a b _ _ hv
    rw [hval] at hv
    split at hv
    · rename_i hc
      omega
    · cases hv
  · intro a b _ _ hv
    rw [hval] at hv
    split at hv
    · rename_i hc
      omega
    · cases hv
  · have hocc : openCellCount w h
        ((mkGrid (2 * (h : Int) + 1) (2 * (w : Int) + 1) 1).set
          (2 * (a0 : Int) + 1) (2 * (b0 : Int) + 1) 0) = 1 := by
      unfold openCellCount
      rw [countOpen_set_mem (cellPosList_mem.2 ⟨a0, b0, ha0, hb0, rfl⟩)
        (cellPosList_nodup w h) (by intro hv; cases hv)]
      rw [show countOpen (cellPosList w h)
          (mkGrid (2 * (h : Int) + 1) (2 * (w : Int) + 1) 1) = 0 from
        List.countP_eq_zero.2 (fun p _ => by simp [mkGrid, Grid.val])]
    have hpc : passageCount w h
        ((mkGrid (2 * (h : Int) + 1) (2 * (w : Int) + 1) 1).set
          (2 * (a0 : Int) + 1) (2 * (b0 : Int) + 1) 0) = 0 := by
      unfold passageCount
      have hnp : ((2 * (a0 : Int) + 1, 2 * (b0 : Int) + 1) : Coord) ∉ passageList w h := by
        intro hm
        rw [passageList_mem_parity] at hm
        omega
      rw [countOpen_set_not_mem hnp]
      exact List.countP_eq_zero.2 (fun p _ => by simp [mkGrid, Grid.val])
    rw [hocc, hpc]
  · intro a b ha hb hv
    rw [hval] at hv
    split at hv
    · rename_i hc
      rw [show (2 * (a : Int) + 1) = 2 * (a0 : Int) + 1 from hc.1,
        show (2 * (b : Int) + 1) = 2 * (b0 : Int) + 1 from hc.2]
      exact Relation.ReflTransGen.refl
    · cases hv
  · intro a b ha hb hsplit
    rcases hsplit with ⟨hv1, hv2⟩ | ⟨hv1, hv2⟩
    · rw [hval] at hv1 hv2
      have ha0e : a = a0 ∧ b = b0 := by
        by_contra hne
        rw [if_neg (by omega)] at hv1
        cases hv1
      obtain ⟨rfl, rfl⟩ := ha0e
      have hcv := primPushWalls_cover
        (show (((0 : Int), (1 : Int)) : Coord) ∈ moveDirs from by simp [moveDirs])
        (show (0 : Int) < 2 * (a : Int) + 1 + (0 : Int) from by omega)
        (show 2 * (a : Int) + 1 + (0 : Int) < 2 * (h : Int) + 1 - 1 from by omega)
        (show (0 : Int) < 2 * (b : Int) + 1 + (1 : Int) from by omega)
        (show 2 * (b : Int) + 1 + (1 : Int) < 2 * (w : Int) + 1 - 1 from by omega)
        (show ((mkGrid (2 * (h : Int) + 1) (2 * (w : Int) + 1) 1).set
            (2 * (a : Int) + 1) (2 * (b : Int) + 1) 0).val
            (2 * (a : Int) + 1 + (0 : Int)) (2 * (b : Int) + 1 + (1 : Int)) = 1 from by
          rw [hval, if_neg (by omega)]) []
      rw [show (2 * (a : Int) + 1 + (0 : Int)) = 2 * (a : Int) + 1 from by omega,
        show (2 * (b : Int) + 1 + (1 : Int)) = 2 * (b : Int) + 2 from by omega] at hcv
      exact hcv
    · rw [hval] at hv1 hv2
      have ha0e : a = a0 ∧ b + 1 = b0 := by
        by_contra hne
        rw [if_neg (by omega)] at hv2
        cases hv2
      have hcv := primPushWalls_cover
        (show (((0 : Int), (-1 : Int)) : Coord) ∈ moveDirs from by simp [moveDirs])
        (show (0 : Int) < 2 * (a0 : Int) + 1 + (0 : Int) from by omega)
        (show 2 * (a0 : Int) + 1 + (0 : Int) < 2 * (h : Int) + 1 - 1 from by omega)
        (show (0 : Int) < 2 * (b0 : Int) + 1 + (-1 : Int) from by omega)
        (show 2 * (b0 : Int) + 1 + (-1 : Int) < 2 * (w : Int) + 1 - 1 from by omega)
        (show ((mkGrid (2 * (h : Int) + 1) (2 * (w : Int) + 1) 1).set
            (2 * (a0 : Int) + 1) (2 * (b0 : Int) + 1) 0).val
            (2 * (a0 : Int) + 1 + (0 : Int)) (2 * (b0 : Int) + 1 + (-1 : Int)) = 1 from by
          rw [hval, if_neg (by omega)]) []
      rw [show (2 * (a0 : Int) + 1 + (0 : Int)) = 2 * (a : Int) + 1 from by omega,
        show (2 * (b0 : Int) + 1 + (-1 : Int)) = 2 * (b : Int) + 2 from by omega] at hcv
      exact hcv
  · intro a b ha hb hsplit
    rcases hsplit with ⟨hv1, hv2⟩ | ⟨hv1, hv2⟩
    · rw [hval] at hv1 hv2
      have ha0e : a = a0 ∧ b = b0 := by
        by_contra hne
        rw [if_neg (by omega)] at hv1
        cases hv1
      obtain ⟨rfl, rfl⟩ := ha0e
      have hcv := primPushWalls_cover
        (show (((1 : Int), (0 : Int)) : Coord) ∈ moveDirs from by simp [moveDirs])
        (show (0 : Int) < 2 * (a : Int) + 1 + (1 : Int) from by omega)
        (show 2 * (a : Int) + 1 + (1 : Int) < 2 * (h : Int) + 1 - 1 from by omega)
        (show (0 : Int) < 2 * (b : Int) + 1 + (0 : Int) from by omega)
        (show 2 * (b : Int) + 1 + (0 : Int) < 2 * (w : Int) + 1 - 1 from by omega)
        (show ((mkGrid (2 * (h : Int) + 1) (2 * (w : Int) + 1) 1).set
            (2 * (a : Int) + 1) (2 * (b : Int) + 1) 0).val
            (2 * (a : Int) + 1 + (1 : Int)) (2 * (b : Int) + 1 + (0 : Int)) = 1 from by
          rw [hval, if_neg (by omega)]) []
      rw [show (2 * (a : Int) + 1 + (1 : Int)) = 2 * (a : Int) + 2 from by omega,
        show (2 * (b : Int) + 1 + (0 : Int)) = 2 * (b : Int) + 1 from by omega] at hcv
      exact hcv
    · rw [hval] at hv1 hv2
      have ha0e : a + 1 = a0 ∧ b = b0 := by
        by_contra hne
        rw [if_neg (by omega)] at hv2
        cases hv2
      have hcv := primPushWalls_cover
        (show (((-1 : Int), (0 : Int)) : Coord) ∈ moveDirs from by simp [moveDirs])
        (show (0 : Int) < 2 * (a0 : Int) + 1 + (-1 : Int) from by omega)
        (show 2 * (a0 : Int) + 1 + (-1 : Int) < 2 * (h : Int) + 1 - 1 from by omega)
        (show (0 : Int) < 2 * (b0 : Int) + 1 + (0 : Int) from by omega)
        (show 2 * (b0 : Int) + 1 + (0 : Int) < 2 * (w : Int) + 1 - 1 from by omega)
        (show ((mkGrid (2 * (h : Int) + 1) (2 * (w : Int) + 1) 1).set
            (2 * (a0 : Int) + 1) (2 * (b0 : Int) + 1) 0).val
            (2 * (a0 : Int) + 1 + (-1 : Int)) (2 * (b0 : Int) + 1 + (0 : Int)) = 1 from by
          rw [hval, if_neg (by omega)]) []
      rw [show (2 * (a0 : Int) + 1 + (-1 : Int)) = 2 * (a : Int) + 2 from by omega,
        show (2 * (b0 : Int) + 1 + (0 : Int)) = 2 * (b : Int) + 1 from by omega] at hcv
      exact hcv
  · refine ⟨a0, b0, ha0, hb0, rfl, ?_⟩
    exact Grid.val_set_self _ _ _ _

/-- C1 for randomized Prim: a successful run is a perfect maze. -/
theorem prims_perfect (w h : Nat) (rng : Rng) (hw : 1 ≤ w) (hh : 1 ≤ h)
    (g : Grid) (hgen : generatePrimsMaze w h rng = some g) :
    perfectMaze w h g := by
  unfold generatePrimsMaze at hgen
  dsimp only at hgen
  rcases Option.map_eq_some'.1 hgen with ⟨out, hrun, rfl⟩
  apply perfectMaze_set_outside (by intro hr; unfold inRect at hr; omega)
  apply perfectMaze_set_outside (by intro hr; unfold inRect at hr; omega)
  have hs1 : draw rng 0 h < h := draw_lt rng 0 h (by omega)
  have hs2 : draw rng 1 w < w := draw_lt rng 1 w (by omega)
  exact primLoop_perfect rng _ _ _ _ _ out (primInv_init hs1 hs2) hrun

/-! ## Recursive backtracker builds a perfect maze -/

theorem cellDone_mono {w h : Nat} {g g1 : Grid} {p : Coord}
    (hm : ∀ r c : Int, g.val r c = 0 → g1.val r c = 0) (hd : cellDone w h g p) :
    cellDone w h g1 p :=
  fun d hdm h1 h2 h3 h4 => hm _ _ (hd d hdm h1 h2 h3 h4)

theorem binary_set0 {g : Grid} {r c : Int}
    (hb : ∀ u v : Int, g.val u v = 0 ∨ g.val u v = 1) :
    ∀ u v : Int, (g.set r c 0).val u v = 0 ∨ (g.set r c 0).val u v = 1 := by
  intro u v
  by_cases hc : u = r ∧ v = c
  · obtain ⟨rfl, rfl⟩ := hc
    left
    exact Grid.val_set_self _ _ _ _
  · rw [Grid.val_set_other _ _ _ _ _ _ hc]
    exact hb u v

theorem extractNth_some {α : Type} :
    ∀ (l : List α) (k : Nat), k < l.length → ∃ x rest, extractNth l k = some (x, rest) := by
  intro l
  induction l with
  | nil => intro k hk; simp at hk
  | cons a t ih =>
    intro k hk
    cases k with
    | zero => exact ⟨a, t, rfl⟩
    | succ k =>
      obtain ⟨x, rest, hx⟩ := ih k (by simpa using hk)
      exact ⟨x, a :: rest, by simp [extractNth, hx]⟩

theorem shuffleGo_perm {α : Type} (rng : Rng) :
    ∀ (fuel : Nat) (l : List α) (i : Nat), l.length ≤ fuel →
      ((shuffleGo rng fuel l i).1).Perm l := by
  intro fuel
  induction fuel with
  | zero =>
    intro l i hl
    have hnil : l = [] := List.length_eq_zero.1 (by omega)
    subst hnil
    simp [shuffleGo]
  | succ f ih =>
    intro l i hl
    cases l with
    | nil => simp [shuffleGo]
    | cons a t =>
      unfold shuffleGo
      have hdl : draw rng i (a :: t).length < (a :: t).length :=
        draw_lt rng i _ (by simp)
      obtain ⟨x, rest, hx⟩ := extractNth_some (a :: t) _ hdl
      rw [hx]
      dsimp only
      have hperm := extractNth_perm _ _ _ _ hx
      have hlen : rest.length ≤ f := by
        have h2 := hperm.length_eq
        simp only [List.length_cons] at h2 hl
        omega
      exact ((ih rest (i + 1) hlen).cons x).trans hperm.symm

theorem shuffleList_perm {α : Type} (rng : Rng) (l : List α) (i : Nat) :
    ((shuffleList rng l i).1).Perm l :=
  shuffleGo_perm rng l.length l i le_rfl

/-- One direction probe of the backtracker body: either tunnels through
the wall and recurses, or leaves the state unchanged; the invariant
extends and the probed neighbour ends carved whenever it is an interior
cell position. -/
theorem carveStep_spec {w h : Nat} {rng : Rng} {s : Coord} {fuel : Nat}
    (ih : ∀ (mz : Grid) (a b : Nat) (i : Nat) (vis : List Coord)
        (out : Grid × Nat), a < h → b < w →
      (∀ r c : Int, mz.val r c = 0 ∨ mz.val r c = 1) →
      growInv w h s (mz.set (2 * (a : Int) + 1) (2 * (b : Int) + 1) 0) vis →
      ((a : Int), (b : Int)) ∈ vis →
      carveGo (2 * (h : Int) + 1) (2 * (w : Int) + 1) rng fuel mz
        (2 * (a : Int) + 1) (2 * (b : Int) + 1) i = some out →
      ∃ vis1 : List Coord,
        growInv w h s out.1 (vis ++ vis1) ∧
        (∀ r c : Int, out.1.val r c = 0 ∨ out.1.val r c = 1) ∧
        (∀ r c : Int, (mz.set (2 * (a : Int) + 1) (2 * (b : Int) + 1) 0).val r c = 0 →
          out.1.val r c = 0) ∧
        (∀ p ∈ ((a : Int), (b : Int)) :: vis1, cellDone w h out.1 p))
    {mzk : Grid} {a b : Nat} {d : Coord} {i : Nat} {visk : List Coord} {outk : Grid × Nat}
    (ha : a < h) (hb : b < w) (hd : d ∈ dirs2)
    (hbin : ∀ r c : Int, mzk.val r c = 0 ∨ mzk.val r c = 1)
    (hinv : growInv w h s mzk visk)
    (hmem : ((a : Int), (b : Int)) ∈ visk)
    (hrun : (if isCellG (2 * (h : Int) + 1) (2 * (w : Int) + 1)
          (2 * (a : Int) + 1 + d.1) (2 * (b : Int) + 1 + d.2) ∧
          mzk.val (2 * (a : Int) + 1 + d.1) (2 * (b : Int) + 1 + d.2) = 1 then
        carveGo (2 * (h : Int) + 1) (2 * (w : Int) + 1) rng fuel
          (mzk.set (2 * (a : Int) + 1 + d.1 / 2) (2 * (b : Int) + 1 + d.2 / 2) 0)
          (2 * (a : Int) + 1 + d.1) (2 * (b : Int) + 1 + d.2) i
      else some (mzk, i)) = some outk) :
    ∃ vis1 : List Coord,
      growInv w h s outk.1 (visk ++ vis1) ∧
      (∀ r c : Int, outk.1.val r c = 0 ∨ outk.1.val r c = 1) ∧
      (∀ r c : Int, mzk.val r c = 0 → outk.1.val r c = 0) ∧
      (∀ p ∈ vis1, cellDone w h outk.1 p) ∧
      (isCellG (2 * (h : Int) + 1) (2 * (w : Int) + 1)
          (2 * (a : Int) + 1 + d.1) (2 * (b : Int) + 1 + d.2) = true →
        outk.1.val (2 * (a : Int) + 1 + d.1) (2 * (b : Int) + 1 + d.2) = 0) := by
  split at hrun
  case isTrue hcond =>
    have hbnd := hcond.1
    simp only [isCellG, Bool.and_eq_true, decide_eq_true_eq] at hbnd
    rcases dirs2_mem_cases hd with rfl | rfl | rfl | rfl
    · -- d = (-2, 0): the neighbour is the cell above
      dsimp only at hrun hcond hbnd ⊢
      have ha1 : 1 ≤ a := by omega
      have hnew : ((((a - 1 : Nat)) : Int), ((b : Nat) : Int)) ∉ visk := by
        intro hm
        have hv := (hinv.2.2.1 (a - 1) b (by omega) hb).2 hm
        rw [show (2 * ((a - 1 : Nat) : Int) + 1) = 2 * (a : Int) + 1 + -2 from by omega]
          at hv
        have hv2 := hcond.2
        rw [show (2 * (b : Int) + 1 + 0) = 2 * (b : Int) + 1 from by omega] at hv2
        omega
      have hstep := growInv_step hinv ha hb (show a - 1 < h from by omega) hb
        (Or.inr (Or.inl ⟨by omega, rfl⟩)) hmem hnew
      rw [show (2 * (a : Int) + 1 + -2 / 2) = (a : Int) + ((a - 1 : Nat) : Int) + 1
            from by omega,
          show (2 * (b : Int) + 1 + 0 / 2) = (b : Int) + ((b : Nat) : Int) + 1
            from by omega,
          show (2 * (a : Int) + 1 + -2) = 2 * ((a - 1 : Nat) : Int) + 1 from by omega,
          show (2 * (b : Int) + 1 + 0) = 2 * ((b : Nat) : Int) + 1 from by omega] at hrun
      obtain ⟨vis1, hI, hB, hM, hD⟩ := ih _ (a - 1) b i
        (visk ++ [(((a - 1 : Nat) : Int), ((b : Nat) : Int))]) outk (by omega) hb
        (binary_set0 hbin) hstep
        (List.mem_append_right _ (List.mem_singleton.2 rfl)) hrun
      refine ⟨(((a - 1 : Nat) : Int), ((b : Nat) : Int)) :: vis1, ?_, hB, ?_, hD, ?_⟩
      · rw [List.append_assoc] at hI
        exact hI
      · intro r c hv
        exact hM r c (val_mono_set0 _ _ _ r c (val_mono_set0 _ _ _ r c hv))
      · intro hic
        rw [show (2 * (a : Int) + 1 + -2) = 2 * ((a - 1 : Nat) : Int) + 1 from by omega,
          show (2 * (b : Int) + 1 + 0) = 2 * ((b : Nat) : Int) + 1 from by omega]
        exact hM _ _ (Grid.val_set_self _ _ _ _)
    · -- d = (2, 0): the neighbour is the cell below
      dsimp only at hrun hcond hbnd ⊢
      have ha1 : a + 1 < h := by omega
      have hnew : ((((a + 1 : Nat)) : Int), ((b : Nat) : Int)) ∉ visk := by
        intro hm
        have hv := (hinv.2.2.1 (a + 1) b ha1 hb).2 hm
        rw [show (2 * ((a + 1 : Nat) : Int) + 1) = 2 * (a : Int) + 1 + 2 from by
          push_cast; omega] at hv
        have hv2 := hcond.2
        rw [show (2 * (b : Int) + 1 + 0) = 2 * (b : Int) + 1 from by omega] at hv2
        omega
      have hstep := growInv_step hinv ha hb ha1 hb
        (Or.inl ⟨rfl, rfl⟩) hmem hnew
      rw [show (2 * (a : Int) + 1 + 2 / 2) = (a : Int) + ((a + 1 : Nat) : Int) + 1
            from by push_cast; omega,
          show (2 * (b : Int) + 1 + 0 / 2) = (b : Int) + ((b : Nat) : Int) + 1
            from by omega,
          show (2 * (a : Int) + 1 + 2) = 2 * ((a + 1 : Nat) : Int) + 1 from by
            push_cast; omega,
          show (2 * (b : Int) + 1 + 0) = 2 * ((b : Nat) : Int) + 1 from by omega] at hrun
      obtain ⟨vis1, hI, hB, hM, hD⟩ := ih _ (a + 1) b i
        (visk ++ [(((a + 1 : Nat) : Int), ((b : Nat) : Int))]) outk ha1 hb
        (binary_set0 hbin) hstep
        (List.mem_append_right _ (List.mem_singleton.2 rfl)) hrun
      refine ⟨(((a + 1 : Nat) : Int), ((b : Nat) : Int)) :: vis1, ?_, hB, ?_, hD, ?_⟩
      · rw [List.append_assoc] at hI
        exact hI
      · intro r c hv
        exact hM r c (val_mono_set0 _ _ _ r c (val_mono_set0 _ _ _ r c hv))
      · intro hic
        rw [show (2 * (a : Int) + 1 + 2) = 2 * ((a + 1 : Nat) : Int) + 1 from by
            push_cast; omega,
          show (2 * (b : Int) + 1 + 0) = 2 * ((b : Nat) : Int) + 1 from by omega]
        exact hM _ _ (Grid.val_set_self _ _ _ _)
    · -- d = (0, -2): the neighbour is the cell to the left
      dsimp only at hrun hcond hbnd ⊢
      have hb1 : 1 ≤ b := by omega
      have hnew : (((a : Nat) : Int), (((b - 1 : Nat)) : Int)) ∉ visk := by
        intro hm
        have hv := (hinv.2.2.1 a (b - 1) ha (by omega)).2 hm
        rw [show (2 * ((b - 1 : Nat) : Int) + 1) = 2 * (b : Int) + 1 + -2 from by omega]
          at hv
        have hv2 := hcond.2
        rw [show (2 * (a : Int) + 1 + 0) = 2 * (a : Int) + 1 from by omega] at hv2
        omega
      have hstep := growInv_step hinv ha hb ha (show b - 1 < w from by omega)
        (Or.inr (Or.inr (Or.inr ⟨by omega, rfl⟩))) hmem hnew
      rw [show (2 * (a : Int) + 1 + 0 / 2) = (a : Int) + ((a : Nat) : Int) + 1
            from by omega,
          show (2 * (b : Int) + 1 + -2 / 2) = (b : Int) + ((b - 1 : Nat) : Int) + 1
            from by omega,
          show (2 * (a : Int) + 1 + 0) = 2 * ((a : Nat) : Int) + 1 from by omega,
          show (2 * (b : Int) + 1 + -2) = 2 * ((b - 1 : Nat) : Int) + 1 from by omega]
        at hrun
      obtain ⟨vis1, hI, hB, hM, hD⟩ := ih _ a (b - 1) i
        (visk ++ [(((a : Nat) : Int), ((b - 1 : Nat) : Int))]) outk ha (by omega)
        (binary_set0 hbin) hstep
        (List.mem_append_right _ (List.mem_singleton.2 rfl)) hrun
      refine ⟨(((a : Nat) : Int), ((b - 1 : Nat) : Int)) :: vis1, ?_, hB, ?_, hD, ?_⟩
      · rw [List.append_assoc] at hI
        exact hI
      · intro r c hv
        exact hM r c (val_mono_set0 _ _ _ r c (val_mono_set0 _ _ _ r c hv))
      · intro hic
        rw [show (2 * (a : Int) + 1 + 0) = 2 * ((a : Nat) : Int) + 1 from by omega,
          show (2 * (b : Int) + 1 + -2) = 2 * ((b - 1 : Nat) : Int) + 1 from by omega]
        exact hM _ _ (Grid.val_set_self _ _ _ _)
    · -- d = (0, 2): the neighbour is the cell to the right
      dsimp only at hrun hcond hbnd ⊢
      have hb1 : b + 1 < w := by omega
      have hnew : (((a : Nat) : Int), (((b + 1 : Nat)) : Int)) ∉ visk := by
        intro hm
        have hv := (hinv.2.2.1 a (b + 1) ha hb1).2 hm
        rw [show (2 * ((b + 1 : Nat) : Int) + 1) = 2 * (b : Int) + 1 + 2 from by
          push_cast; omega] at hv
        have hv2 := hcond.2
        rw [show (2 * (a : Int) + 1 + 0) = 2 * (a : Int) + 1 from by omega] at hv2
        omega
      have hstep := growInv_step hinv ha hb ha hb1
        (Or.inr (Or.inr (Or.inl ⟨rfl, rfl⟩))) hmem hnew
      rw [show (2 * (a : Int) + 1 + 0 / 2) = (a : Int) + ((a : Nat) : Int) + 1
            from by omega,
          show (2 * (b : Int) + 1 + 2 / 2) = (b : Int) + ((b + 1 : Nat) : Int) + 1
            from by push_cast; omega,
          show (2 * (a : Int) + 1 + 0) = 2 * ((a : Nat) : Int) + 1 from by omega,
          show (2 * (b : Int) + 1 + 2) = 2 * ((b + 1 : Nat) : Int) + 1 from by
            push_cast; omega] at hrun
      obtain ⟨vis1, hI, hB, hM, hD⟩ := ih _ a (b + 1) i
        (visk ++ [(((a : Nat) : Int), ((b + 1 : Nat) : Int))]) outk ha hb1
        (binary_set0 hbin) hstep
        (List.mem_append_right _ (List.mem_singleton.2 rfl)) hrun
      refine ⟨(((a : Nat) : Int), ((b + 1 : Nat) : Int)) :: vis1, ?_, hB, ?_, hD, ?_⟩
      · rw [List.append_assoc] at hI
        exact hI
      · intro r c hv
        exact hM r c (val_mono_set0 _ _ _ r c (val_mono_set0 _ _ _ r c hv))
      · intro hic
        rw [show (2 * (a : Int) + 1 + 0) = 2 * ((a : Nat) : Int) + 1 from by omega,
          show (2 * (b : Int) + 1 + 2) = 2 * ((b + 1 : Nat) : Int) + 1 from by
            push_cast; omega]
        exact hM _ _ (Grid.val_set_self _ _ _ _)
  case isFalse hcond =>
    cases hrun
    refine ⟨[], by rw [List.append_nil]; exact hinv, hbin, fun r c hv => hv,
      fun p hp => absurd hp (List.not_mem_nil p), ?_⟩
    intro hic
    rcases hbin (2 * (a : Int) + 1 + d.1) (2 * (b : Int) + 1 + d.2) with hv | hv
    · exact hv
    · exact absurd ⟨hic, hv⟩ hcond

/-- Full specification of the backtracker carving: from a grid whose
entered cell is freshly carved under the growth invariant, a successful
run extends the invariant and leaves every probed neighbourhood of every
newly visited cell fully carved. -/
theorem carveGo_spec {w h : Nat} (rng : Rng) (s : Coord) :
    ∀ (fuel : Nat) (mz : Grid) (a b : Nat) (i : Nat) (vis : List Coord) (out : Grid × Nat),
      a < h → b < w →
      (∀ r c : Int, mz.val r c = 0 ∨ mz.val r c = 1) →
      growInv w h s (mz.set (2 * (a : Int) + 1) (2 * (b : Int) + 1) 0) vis →
      ((a : Int), (b : Int)) ∈ vis →
      carveGo (2 * (h : Int) + 1) (2 * (w : Int) + 1) rng fuel mz
        (2 * (a : Int) + 1) (2 * (b : Int) + 1) i = some out →
      ∃ vis1 : List Coord,
        growInv w h s out.1 (vis ++ vis1) ∧
        (∀ r c : Int, out.1.val r c = 0 ∨ out.1.val r c = 1) ∧
        (∀ r c : Int, (mz.set (2 * (a : Int) + 1) (2 * (b : Int) + 1) 0).val r c = 0 →
          out.1.val r c = 0) ∧
        (∀ p ∈ ((a : Int), (b : Int)) :: vis1, cellDone w h out.1 p) := by
  intro fuel
  induction fuel with
  | zero =>
    intro mz a b i vis out _ _ _ _ _ hrun
    simp [carveGo] at hrun
  | succ fuel ih =>
    intro mz a b i vis out ha hb hbin hinv hmem hrun
    unfold carveGo at hrun
    dsimp only at hrun
    have hperm := shuffleList_perm rng dirs2 i
    cases hL : (shuffleList rng dirs2 i).1 with
    | nil => rw [hL] at hrun; cases hrun
    | cons d1 t1 =>
      cases t1 with
      | nil => rw [hL] at hrun; cases hrun
      | cons d2 t2 =>
        cases t2 with
        | nil => rw [hL] at hrun; cases hrun
        | cons d3 t3 =>
          cases t3 with
          | nil => rw [hL] at hrun; cases hrun
          | cons d4 t4 =>
            cases t4 with
            | cons d5 t5 => rw [hL] at hrun; cases hrun
            | nil =>
              rw [hL] at hrun
              dsimp only at hrun
              rw [hL] at hperm
              have hm1 : d1 ∈ dirs2 := hperm.mem_iff.1 (by simp)
              have hm2 : d2 ∈ dirs2 := hperm.mem_iff.1 (by simp)
              have hm3 : d3 ∈ dirs2 := hperm.mem_iff.1 (by simp)
              have hm4 : d4 ∈ dirs2 := hperm.mem_iff.1 (by simp)
              have hcov : ∀ x ∈ dirs2, x = d1 ∨ x = d2 ∨ x = d3 ∨ x = d4 := by
                intro x hx
                have hx2 := hperm.mem_iff.2 hx
                simpa using hx2
              split at hrun
              next heq1 => cases hrun
              next pr1 heq1 =>
                obtain ⟨vs1, hI1, hB1, hM1, hD1, hC1⟩ :=
                  carveStep_spec ih ha hb hm1 (binary_set0 hbin) hinv hmem heq1
                split at hrun
                next heq2 => cases hrun
                next pr2 heq2 =>
                  obtain ⟨vs2, hI2, hB2, hM2, hD2, hC2⟩ :=
                    carveStep_spec ih ha hb hm2 hB1 hI1
                      (List.mem_append_left _ hmem) heq2
                  split at hrun
                  next heq3 => cases hrun
                  next pr3 heq3 =>
                    obtain ⟨vs3, hI3, hB3, hM3, hD3, hC3⟩ :=
                      carveStep_spec ih ha hb hm3 hB2 hI2
                        (List.mem_append_left _ (List.mem_append_left _ hmem)) heq3
                    obtain ⟨vs4, hI4, hB4, hM4, hD4, hC4⟩ :=
                      carveStep_spec ih ha hb hm4 hB3 hI3
                        (List.mem_append_left _ (List.mem_append_left _
                          (List.mem_append_left _ hmem))) hrun
                    refine ⟨vs1 ++ (vs2 ++ (vs3 ++ vs4)), ?_, hB4, ?_, ?_⟩
                    · simp only [List.append_assoc] at hI4
                      exact hI4
                    · intro r c hv
                      exact hM4 r c (hM3 r c (hM2 r c (hM1 r c hv)))
                    · intro p hp
                      rcases List.mem_cons.1 hp with rfl | hp
                      · intro d hdm h1 h2 h3 h4
                        have h2d : ((2 * d.1, 2 * d.2) : Coord) ∈ dirs2 := by
                          fin_cases hdm <;> decide
                        show out.1.val (2 * ((a : Int) + d.1) + 1)
                          (2 * ((b : Int) + d.2) + 1) = 0
                        rw [show (2 * ((a : Int) + d.1) + 1)
                              = 2 * (a : Int) + 1 + 2 * d.1 from by ring,
                          show (2 * ((b : Int) + d.2) + 1)
                              = 2 * (b : Int) + 1 + 2 * d.2 from by ring]
                        have hic : isCellG (2 * (h : Int) + 1) (2 * (w : Int) + 1)
                            (2 * (a : Int) + 1 + 2 * d.1)
                            (2 * (b : Int) + 1 + 2 * d.2) = true := by
                          simp only [isCellG, Bool.and_eq_true, decide_eq_true_eq]
                          refine ⟨⟨⟨⟨⟨?_, ?_⟩, ?_⟩, ?_⟩, ?_⟩, ?_⟩ <;>
                            simp only at h1 h2 h3 h4 <;> omega
                        rcases hcov _ h2d with heq | heq | heq | heq
                        · subst heq
                          exact hM4 _ _ (hM3 _ _ (hM2 _ _ (hC1 hic)))
                        · subst heq
                          exact hM4 _ _ (hM3 _ _ (hC2 hic))
                        · subst heq
                          exact hM4 _ _ (hC3 hic)
                        · subst heq
                          exact hC4 hic
                      · rcases List.mem_append.1 hp with hp | hp
                        · exact cellDone_mono
                            (fun r c hv => hM4 r c (hM3 r c (hM2 r c hv)))
                            (hD1 p hp)
                        · rcases List.mem_append.1 hp with hp | hp
                          · exact cellDone_mono
                              (fun r c hv => hM4 r c (hM3 r c hv)) (hD2 p hp)
                          · rcases List.mem_append.1 hp with hp | hp
                            · exact cellDone_mono (fun r c hv => hM4 r c hv)
                                (hD3 p hp)
                            · exact hD4 p hp

/-- C1 for the recursive backtracker: a successful run is a perfect maze. -/
theorem backtracker_perfect (w h : Nat) (rng : Rng) (hw : 1 ≤ w) (hh : 1 ≤ h)
    (g : Grid) (hgen : generateRecursiveBacktrackerMaze w h rng = some g) :
    perfectMaze w h g := by
  unfold generateRecursiveBacktrackerMaze at hgen
  dsimp only at hgen
  rcases Option.map_eq_some'.1 hgen with ⟨out, hrun, rfl⟩
  apply perfectMaze_set_outside (by intro hr; unfold inRect at hr; omega)
  apply perfectMaze_set_outside (by intro hr; unfold inRect at hr; omega)
  have hs1 : draw rng 0 h < h := draw_lt rng 0 h (by omega)
  have hs2 : draw rng 1 w < w := draw_lt rng 1 w (by omega)
  obtain ⟨vis1, hinv, hbin, hmono, hdone⟩ :=
    carveGo_spec rng _ (w * h + 1) (mkGrid (2 * (h : Int) + 1) (2 * (w : Int) + 1) 1)
      (draw rng 0 h) (draw rng 1 w) 2
      [(((draw rng 0 h : Nat) : Int), ((draw rng 1 w : Nat) : Int))] out hs1 hs2
      (fun r c => Or.inr rfl) (growInv_init hs1 hs2) (List.mem_singleton.2 rfl) hrun
  refine growInv_perfect_of_closed hinv ?_ ⟨draw rng 0 h, draw rng 1 w, hs1, hs2,
    List.mem_append_left _ (List.mem_singleton.2 rfl)⟩
  intro p hp
  rw [List.eq_nil_iff_forall_not_mem]
  intro q hq
  rcases gtUnvisited_mem.1 hq with ⟨⟨d, hdm, rfl⟩, ⟨hq1, hq2, hq3, hq4⟩, hnm⟩
  dsimp only at hq1 hq2 hq3 hq4
  have hdp : cellDone w h out.1 p := hdone p hp
  have hv := hdp d hdm hq1 hq2 hq3 hq4
  have hq1t : (((p.1 + d.1).toNat : Nat) : Int) = p.1 + d.1 := Int.toNat_of_nonneg hq1
  have hq3t : (((p.2 + d.2).toNat : Nat) : Int) = p.2 + d.2 := Int.toNat_of_nonneg hq3
  have hv2 : out.1.val (2 * (((p.1 + d.1).toNat : Nat) : Int) + 1)
      (2 * (((p.2 + d.2).toNat : Nat) : Int) + 1) = 0 := by
    rw [show (2 * (((p.1 + d.1).toNat : Nat) : Int) + 1) = 2 * (p.1 + d.1) + 1
          from by omega,
      show (2 * (((p.2 + d.2).toNat : Nat) : Int) + 1) = 2 * (p.2 + d.2) + 1
          from by omega]
    exact hv
  have hmem2 := (hinv.2.2.1 (p.1 + d.1).toNat (p.2 + d.2).toNat (by omega)
    (by omega)).1 hv2
  rw [show (((((p.1 + d.1).toNat : Nat) : Int)), ((((p.2 + d.2).toNat : Nat) : Int)))
      = ((p.1 + d.1, p.2 + d.2) : Coord) from by
    rw [Prod.mk.injEq]; exact ⟨hq1t, hq3t⟩] at hmem2
  exact hnm hmem2

/-! ## Kruskal builds a perfect maze -/

theorem KUF.rho_idem {parent ρ : Nat → Nat} (hk : KUF parent ρ) (i : Nat) :
    ρ (ρ i) = ρ i := hk.2.2 _ (hk.2.1 i)

theorem findSet_sound {ρ : Nat → Nat} :
    ∀ (fuel : Nat) (parent : Nat → Nat) (i r : Nat) (p1 : Nat → Nat),
      KUF parent ρ → findSet parent fuel i = some (r, p1) →
      r = ρ i ∧ KUF p1 ρ := by
  intro fuel
  induction fuel with
  | zero => intro parent i r p1 _ hfs; simp [findSet] at hfs
  | succ f ih =>
    intro parent i r p1 hk hfs
    unfold findSet at hfs
    by_cases hpi : parent i = i
    · rw [if_pos hpi] at hfs
      cases hfs
      exact ⟨(hk.2.2 i hpi).symm, hk⟩
    · rw [if_neg hpi] at hfs
      cases hq : findSet parent f (parent i) with
      | none => rw [hq] at hfs; cases hfs
      | some pr =>
        obtain ⟨r0, q0⟩ := pr
        rw [hq] at hfs
        dsimp only at hfs
        rw [Option.some_inj] at hfs
        have he1 : r0 = r := congrArg Prod.fst hfs
        have he2 : (fun j => if j = i then r0 else q0 j) = p1 :=
          congrArg Prod.snd hfs
        subst he1
        subst he2
        obtain ⟨hr0, hk0⟩ := ih parent (parent i) r0 q0 hk hq
        have hri : r0 = ρ i := by rw [hr0, hk.1 i]
        refine ⟨hri, ?_, ?_, ?_⟩
        · intro j
          dsimp only
          by_cases hj : j = i
          · subst hj
            rw [if_pos rfl, hri, hk.rho_idem]
          · rw [if_neg hj]
            exact hk0.1 j
        · intro j
          dsimp only
          by_cases hρ : ρ j = i
          · rw [hρ, if_pos rfl, hri, ← hρ, hk.rho_idem, hρ]
          · rw [if_neg hρ]
            exact hk0.2.1 j
        · intro j hj
          dsimp only at hj
          by_cases hji : j = i
          · subst hji
            rw [if_pos rfl] at hj
            rw [← hj, hri]
            exact hk.rho_idem j
          · rw [if_neg hji] at hj
            exact hk0.2.2 j hj

theorem KUF.merge {parent ρ : Nat → Nat} {u v : Nat} (hk : KUF parent ρ)
    (hu : ρ u = u) (hv : ρ v = v) (huv : u ≠ v) :
    KUF (fun k => if k = v then u else parent k)
      (fun x => if ρ x = v then u else ρ x) := by
  obtain ⟨k1, k2, k3⟩ := hk
  refine ⟨?_, ?_, ?_⟩
  · intro i
    dsimp only
    by_cases hi : i = v
    · subst hi
      rw [if_pos rfl, hu, if_neg huv, hv, if_pos rfl]
    · rw [if_neg hi, k1 i]
  · intro i
    dsimp only
    by_cases hρ : ρ i = v
    · rw [if_pos hρ, if_neg huv]
      have h2u := k2 u
      rw [hu] at h2u
      exact h2u
    · rw [if_neg hρ, if_neg hρ]
      exact k2 i
  · intro i hpi
    dsimp only at hpi ⊢
    by_cases hi : i = v
    · subst hi
      rw [if_pos rfl] at hpi
      exact absurd hpi huv
    · rw [if_neg hi] at hpi
      rw [k3 i hpi, if_neg hi]

theorem unionSets_sound {parent ρ rank : Nat → Nat} {fuel i j : Nat}
    {p3 rk3 : Nat → Nat}
    (hk : KUF parent ρ) (hij : ρ i ≠ ρ j)
    (hu : unionSets parent rank fuel i j = some (p3, rk3)) :
    ∃ u v : Nat, ((u = ρ i ∧ v = ρ j) ∨ (u = ρ j ∧ v = ρ i)) ∧
      KUF p3 (fun x => if ρ x = v then u else ρ x) := by
  unfold unionSets at hu
  cases h1 : findSet parent fuel i with
  | none => rw [h1] at hu; cases hu
  | some pr1 =>
    obtain ⟨r1, q1⟩ := pr1
    rw [h1] at hu
    dsimp only at hu
    obtain ⟨hr1, hk1⟩ := findSet_sound fuel parent i r1 q1 hk h1
    cases h2 : findSet q1 fuel j with
    | none => rw [h2] at hu; cases hu
    | some pr2 =>
      obtain ⟨r2, q2⟩ := pr2
      rw [h2] at hu
      dsimp only at hu
      obtain ⟨hr2, hk2⟩ := findSet_sound fuel q1 j r2 q2 hk1 h2
      subst hr1 hr2
      rw [if_pos hij] at hu
      have hui : ρ (ρ i) = ρ i := hk.rho_idem i
      have huj : ρ (ρ j) = ρ j := hk.rho_idem j
      by_cases hc1 : rank (ρ i) < rank (ρ j)
      · rw [if_pos hc1] at hu
        cases hu
        exact ⟨ρ j, ρ i, Or.inr ⟨rfl, rfl⟩,
          KUF.merge hk2 huj hui (fun he => hij he.symm)⟩
      · rw [if_neg hc1] at hu
        by_cases hc2 : rank (ρ j) < rank (ρ i)
        · rw [if_pos hc2] at hu
          cases hu
          exact ⟨ρ i, ρ j, Or.inl ⟨rfl, rfl⟩, KUF.merge hk2 hui huj hij⟩
        · rw [if_neg hc2] at hu
          cases hu
          exact ⟨ρ i, ρ j, Or.inl ⟨rfl, rfl⟩, KUF.merge hk2 hui huj hij⟩

theorem kruskalWalls_mem {w h : Nat} {wl : KWall} :
    wl ∈ kruskalWalls w h ↔
      (∃ r c : Nat, r < h ∧ c + 1 < w ∧
        wl = ⟨2 * (r : Int) + 1, 2 * (c : Int) + 2, (r, c), (r, c + 1)⟩) ∨
      (∃ r c : Nat, r + 1 < h ∧ c < w ∧
        wl = ⟨2 * (r : Int) + 2, 2 * (c : Int) + 1, (r, c), (r + 1, c)⟩) := by
  unfold kruskalWalls
  rw [List.mem_append]
  constructor
  · rintro (hm | hm) <;> rcases List.mem_flatMap.1 hm with ⟨r, hr, hm2⟩ <;>
      rcases List.mem_map.1 hm2 with ⟨c, hc, rfl⟩
    · exact Or.inl ⟨r, c, List.mem_range.1 hr,
        by have := List.mem_range.1 hc; omega, rfl⟩
    · exact Or.inr ⟨r, c, by have := List.mem_range.1 hr; omega,
        List.mem_range.1 hc, rfl⟩
  · rintro (⟨r, c, hr, hc, rfl⟩ | ⟨r, c, hr, hc, rfl⟩)
    · exact Or.inl (List.mem_flatMap.2 ⟨r, List.mem_range.2 hr,
        List.mem_map.2 ⟨c, List.mem_range.2 (by omega), rfl⟩⟩)
    · exact Or.inr (List.mem_flatMap.2 ⟨r, List.mem_range.2 (by omega),
        List.mem_map.2 ⟨c, List.mem_range.2 hc, rfl⟩⟩)

theorem kruskalWalls_pos (w h : Nat) :
    (kruskalWalls w h).map (fun wl => ((wl.r, wl.c) : Coord)) = passageList w h := by
  unfold kruskalWalls passageList cellList
  simp only [List.map_append, List.map_flatMap, List.map_map]
  rfl

theorem connected_adjacent_cells {g : Grid} {a b a1 b1 : Nat}
    (hadj : (a1 = a + 1 ∧ b1 = b) ∨ (a = a1 + 1 ∧ b1 = b) ∨
            (b1 = b + 1 ∧ a1 = a) ∨ (b = b1 + 1 ∧ a1 = a))
    (hc1 : g.val (2 * (a : Int) + 1) (2 * (b : Int) + 1) = 0)
    (hc2 : g.val (2 * (a1 : Int) + 1) (2 * (b1 : Int) + 1) = 0)
    (hw : g.val ((a : Int) + (a1 : Int) + 1) ((b : Int) + (b1 : Int) + 1) = 0) :
    connectedIn g (2 * (a : Int) + 1, 2 * (b : Int) + 1)
      (2 * (a1 : Int) + 1, 2 * (b1 : Int) + 1) := by
  refine Relation.ReflTransGen.tail (Relation.ReflTransGen.single
    (show stepAdj g (2 * (a : Int) + 1, 2 * (b : Int) + 1)
      ((a : Int) + (a1 : Int) + 1, (b : Int) + (b1 : Int) + 1) from
      ⟨hc1, hw, ?_⟩))
    (show stepAdj g ((a : Int) + (a1 : Int) + 1, (b : Int) + (b1 : Int) + 1)
      (2 * (a1 : Int) + 1, 2 * (b1 : Int) + 1) from ⟨hw, hc2, ?_⟩) <;>
    (simp only [moveDirs, List.mem_cons, List.not_mem_nil, or_false, Prod.ext_iff];
     rcases hadj with ⟨he1, he2⟩ | ⟨he1, he2⟩ | ⟨he1, he2⟩ | ⟨he1, he2⟩ <;> omega)

theorem image_merge_erase {ρ : Nat → Nat} {u v n : Nat}
    (hu : ∃ x, x < n ∧ ρ x = u) (huv : u ≠ v) :
    Finset.image (fun x => if ρ x = v then u else ρ x) (Finset.range n) =
      (Finset.image ρ (Finset.range n)).erase v := by
  obtain ⟨x0, hx0, hρx0⟩ := hu
  ext y
  simp only [Finset.mem_image, Finset.mem_erase, Finset.mem_range]
  constructor
  · rintro ⟨x, hx, rfl⟩
    by_cases hxv : ρ x = v
    · rw [if_pos hxv]
      exact ⟨huv, x0, hx0, hρx0⟩
    · rw [if_neg hxv]
      exact ⟨hxv, x, hx, rfl⟩
  · rintro ⟨hyv, x, hx, rfl⟩
    exact ⟨x, hx, by rw [if_neg hyv]⟩

theorem classes_merge_connect {w h : Nat} {g g1 : Grid} {ρ : Nat → Nat} {ia ib ja jb : Nat}
    (hia : ia < h) (hib : ib < w) (hja : ja < h) (hjb : jb < w)
    (h3 : ∀ a b a1 b1 : Nat, a < h → b < w → a1 < h → b1 < w →
      ρ (a * w + b) = ρ (a1 * w + b1) →
      connectedIn g (2 * (a : Int) + 1, 2 * (b : Int) + 1)
        (2 * (a1 : Int) + 1, 2 * (b1 : Int) + 1))
    (hmono : ∀ r c : Int, g.val r c = 0 → g1.val r c = 0)
    (hbr : connectedIn g1 (2 * (ia : Int) + 1, 2 * (ib : Int) + 1)
      (2 * (ja : Int) + 1, 2 * (jb : Int) + 1)) :
    ∀ a b a1 b1 : Nat, a < h → b < w → a1 < h → b1 < w →
      (if ρ (a * w + b) = ρ (ja * w + jb) then ρ (ia * w + ib) else ρ (a * w + b)) =
      (if ρ (a1 * w + b1) = ρ (ja * w + jb) then ρ (ia * w + ib) else ρ (a1 * w + b1)) →
      connectedIn g1 (2 * (a : Int) + 1, 2 * (b : Int) + 1)
        (2 * (a1 : Int) + 1, 2 * (b1 : Int) + 1) := by
  intro a b a1 b1 ha hb ha1 hb1 heq
  by_cases h1v : ρ (a * w + b) = ρ (ja * w + jb) <;>
    by_cases h2v : ρ (a1 * w + b1) = ρ (ja * w + jb)
  · exact connectedIn_mono hmono (h3 a b a1 b1 ha hb ha1 hb1 (h1v.trans h2v.symm))
  · rw [if_pos h1v, if_neg h2v] at heq
    refine Relation.ReflTransGen.trans
      (connectedIn_mono hmono (h3 a b ja jb ha hb hja hjb h1v))
      (Relation.ReflTransGen.trans (connectedIn_symm hbr)
        (connectedIn_mono hmono (h3 ia ib a1 b1 hia hib ha1 hb1 heq)))
  · rw [if_neg h1v, if_pos h2v] at heq
    refine Relation.ReflTransGen.trans
      (connectedIn_mono hmono (h3 a b ia ib ha hb hia hib heq))
      (Relation.ReflTransGen.trans hbr
        (connectedIn_mono hmono (h3 ja jb a1 b1 hja hjb ha1 hb1 h2v.symm)))
  · rw [if_neg h1v, if_neg h2v] at heq
    exact connectedIn_mono hmono (h3 a b a1 b1 ha hb ha1 hb1 heq)

theorem foldl_carve_val (l : List (Nat × Nat)) (g : Grid) (r c : Int) :
    (l.foldl (fun g p => g.set (2 * (p.1 : Int) + 1) (2 * (p.2 : Int) + 1) 0) g).val r c
      = if ∃ p ∈ l, r = 2 * (p.1 : Int) + 1 ∧ c = 2 * (p.2 : Int) + 1 then 0
        else g.val r c := by
  induction l generalizing g with
  | nil => simp
  | cons q t ih =>
    rw [List.foldl_cons, ih]
    by_cases hq : r = 2 * (q.1 : Int) + 1 ∧ c = 2 * (q.2 : Int) + 1
    · rw [if_pos (show ∃ p ∈ q :: t, r = 2 * (p.1 : Int) + 1 ∧ c = 2 * (p.2 : Int) + 1
        from ⟨q, List.mem_cons_self q t, hq⟩)]
      split
      · rfl
      · obtain ⟨hr, hc⟩ := hq
        rw [hr, hc]
        exact Grid.val_set_self _ _ _ _
    · have hiff : (∃ p ∈ q :: t, r = 2 * (p.1 : Int) + 1 ∧ c = 2 * (p.2 : Int) + 1) ↔
          (∃ p ∈ t, r = 2 * (p.1 : Int) + 1 ∧ c = 2 * (p.2 : Int) + 1) := by
        constructor
        · rintro ⟨p, hp, hpe⟩
          rcases List.mem_cons.1 hp with rfl | hp
          · exact absurd hpe hq
          · exact ⟨p, hp, hpe⟩
        · rintro ⟨p, hp, hpe⟩
          exact ⟨p, List.mem_cons_of_mem _ hp, hpe⟩
      by_cases ht : ∃ p ∈ t, r = 2 * (p.1 : Int) + 1 ∧ c = 2 * (p.2 : Int) + 1
      · rw [if_pos ht, if_pos (hiff.2 ht)]
      · rw [if_neg ht, if_neg (fun hx => ht (hiff.1 hx))]
        exact Grid.val_set_other _ _ _ _ _ _
          (fun hc2 => hq ⟨hc2.1, hc2.2⟩)

/-- The Kruskal wall scan preserves the invariant; classes only ever
merge, and both flanking cells of every scanned wall end in one class. -/
theorem kruskalProcess_spec {w h : Nat} (fuel : Nat) :
    ∀ (rem : List KWall) (g : Grid) (parent rank ρ : Nat → Nat) (gout : Grid),
      (∀ wl ∈ rem, wl ∈ kruskalWalls w h) →
      ((rem.map (fun wl => ((wl.r, wl.c) : Coord))).Nodup) →
      (∀ wl ∈ rem, g.val wl.r wl.c = 1) →
      KUF parent ρ →
      kruskalInv w h g ρ →
      kruskalProcess w fuel rem g parent rank = some gout →
      ∃ ρ2 : Nat → Nat,
        kruskalInv w h gout ρ2 ∧
        (∀ x y : Nat, ρ x = ρ y → ρ2 x = ρ2 y) ∧
        (∀ wl ∈ rem, ρ2 (wl.a.1 * w + wl.a.2) = ρ2 (wl.b.1 * w + wl.b.2)) := by
  intro rem
  induction rem with
  | nil =>
    intro g parent rank ρ gout _ _ _ _ hinv hrun
    cases hrun
    exact ⟨ρ, hinv, fun x y hxy => hxy, fun wl hwl => absurd hwl (List.not_mem_nil wl)⟩
  | cons wall rest ih =>
    intro g parent rank ρ gout hsub hnd hcl hkuf hinv hrun
    have hwf := kruskalWalls_mem.1 (hsub wall (List.mem_cons_self wall rest))
    unfold kruskalProcess at hrun
    dsimp only at hrun
    have hsub2 : ∀ wl ∈ rest, wl ∈ kruskalWalls w h :=
      fun wl hwl => hsub wl (List.mem_cons_of_mem _ hwl)
    simp only [List.map_cons] at hnd
    have hnd2 : (rest.map (fun wl => ((wl.r, wl.c) : Coord))).Nodup :=
      (List.nodup_cons.1 hnd).2
    have hndh : ((wall.r, wall.c) : Coord) ∉
        rest.map (fun wl => ((wl.r, wl.c) : Coord)) :=
      (List.nodup_cons.1 hnd).1
    rcases hwf with ⟨r, c, hr, hc, rfl⟩ | ⟨r, c, hr, hc, rfl⟩
    all_goals dsimp only at hrun hcl hndh
    case cons.inl.intro.intro.intro.intro =>

      cases h1 : findSet parent fuel (r * w + c) with
      | none => rw [h1] at hrun; cases hrun
      | some pr1 =>
        obtain ⟨r1, q1⟩ := pr1
        rw [h1] at hrun
        dsimp only at hrun
        obtain ⟨hr1, hk1⟩ := findSet_sound fuel parent _ r1 q1 hkuf h1
        cases h2 : findSet q1 fuel (r * w + (c + 1)) with
        | none => rw [h2] at hrun; cases hrun
        | some pr2 =>
          obtain ⟨r2, q2⟩ := pr2
          rw [h2] at hrun
          dsimp only at hrun
          obtain ⟨hr2, hk2⟩ := findSet_sound fuel q1 _ r2 q2 hk1 h2
          subst hr1
          subst hr2
          by_cases hne : ρ (r * w + c) ≠ ρ (r * w + (c + 1))
          · rw [if_pos hne] at hrun
            cases h3 : unionSets q2 rank fuel (r * w + c) (r * w + (c + 1)) with
            | none => rw [h3] at hrun; cases hrun
            | some pr3 =>
              obtain ⟨p3, rk3⟩ := pr3
              rw [h3] at hrun
              dsimp only at hrun
              obtain ⟨u, v, huv, hk3⟩ := unionSets_sound hk2 hne h3
              have hclh := hcl _ (List.mem_cons_self _ _)
              dsimp only at hclh
              have hcellL : g.val (2 * (r : Int) + 1) (2 * (c : Int) + 1) = 0 :=
                hinv.1 r c (hr) (by omega)
              have hcellR : g.val (2 * (r : Int) + 1) (2 * ((c + 1 : Nat) : Int) + 1) = 0 :=
                hinv.1 (r) (c + 1) (hr) (hc)
              have hmg := val_mono_set0 g (2 * (r : Int) + 1) (2 * (c : Int) + 2)
              have hwopen : (g.set (2 * (r : Int) + 1) (2 * (c : Int) + 2) 0).val
                  ((r : Int) + ((r : Int)) + 1) ((c : Int) + (((c + 1 : Nat) : Int)) + 1) = 0 := by
                rw [show ((r : Int) + ((r : Int)) + 1) = (2 * (r : Int) + 1) from by push_cast; omega,
                  show ((c : Int) + (((c + 1 : Nat) : Int)) + 1) = (2 * (c : Int) + 2) from by push_cast; omega]
                exact Grid.val_set_self _ _ _ _
              have hbr := connected_adjacent_cells (Or.inr (Or.inr (Or.inl ⟨rfl, rfl⟩)))
                (hmg _ _ hcellL) (hmg _ _ hcellR) hwopen
              have hpc : passageCount w h (g.set (2 * (r : Int) + 1) (2 * (c : Int) + 2) 0)
                  = passageCount w h g + 1 := by
                have hpm : (((2 * (r : Int) + 1), (2 * (c : Int) + 2)) : Coord) ∈ passageList w h :=
                  passageList_mem.2 (Or.inl ⟨r, c, hr, by omega, rfl⟩)
                unfold passageCount
                exact countOpen_set_mem hpm (passageList_nodup w h)
                  (by intro h0; rw [hclh] at h0; cases h0)
              have hi1 : r * w + c < h * w := ord_lt (hr) (by omega)
              have hi2 : (r * w + (c + 1)) < h * w := ord_lt (hr) (hc)
              have huw : ∃ x, x < h * w ∧ ρ x = u := by
                rcases huv with ⟨hu, _⟩ | ⟨hu, _⟩
                · exact ⟨r * w + c, hi1, hu.symm⟩
                · exact ⟨(r * w + (c + 1)), hi2, hu.symm⟩
              have hvw : v ∈ Finset.image ρ (Finset.range (h * w)) := by
                rcases huv with ⟨_, hv⟩ | ⟨_, hv⟩
                · exact Finset.mem_image.2 ⟨(r * w + (c + 1)), Finset.mem_range.2 hi2, hv.symm⟩
                · exact Finset.mem_image.2 ⟨r * w + c, Finset.mem_range.2 hi1, hv.symm⟩
              have hneuv : u ≠ v := by
                rcases huv with ⟨hu, hv⟩ | ⟨hu, hv⟩
                · rw [hu, hv]; exact hne
                · rw [hu, hv]; exact fun he => hne he.symm
              have himg := image_merge_erase (n := h * w) huw hneuv
              have hK2 : passageCount w h (g.set (2 * (r : Int) + 1) (2 * (c : Int) + 2) 0) +
                  (Finset.image (fun x => if ρ x = v then u else ρ x)
                    (Finset.range (h * w))).card = h * w := by
                rw [hpc, himg, Finset.card_erase_of_mem hvw]
                have hc1 : 1 ≤ (Finset.image ρ (Finset.range (h * w))).card :=
                  Finset.card_pos.2 ⟨v, hvw⟩
                have hold := hinv.2.1
                omega
              have hK3 : ∀ a b a1 b1 : Nat, a < h → b < w → a1 < h → b1 < w →
                  (if ρ (a * w + b) = v then u else ρ (a * w + b)) =
                  (if ρ (a1 * w + b1) = v then u else ρ (a1 * w + b1)) →
                  connectedIn (g.set (2 * (r : Int) + 1) (2 * (c : Int) + 2) 0)
                    (2 * (a : Int) + 1, 2 * (b : Int) + 1)
                    (2 * (a1 : Int) + 1, 2 * (b1 : Int) + 1) := by
                rcases huv with ⟨hu, hv⟩ | ⟨hu, hv⟩
                · subst hu
                  subst hv
                  exact classes_merge_connect (hr) (by omega) (hr) (hc)
                    hinv.2.2 hmg hbr
                · subst hu
                  subst hv
                  exact classes_merge_connect (hr) (hc) (hr) (by omega)
                    hinv.2.2 hmg (connectedIn_symm hbr)
              have hcl2 : ∀ wl ∈ rest,
                  (g.set (2 * (r : Int) + 1) (2 * (c : Int) + 2) 0).val wl.r wl.c = 1 := by
                intro wl hwl
                have hne2 : ¬(wl.r = (2 * (r : Int) + 1) ∧ wl.c = (2 * (c : Int) + 2)) := by
                  intro hcc
                  exact hndh (List.mem_map.2 ⟨wl, hwl,
                    by rw [Prod.mk.injEq]; exact ⟨hcc.1, hcc.2⟩⟩)
                rw [Grid.val_set_other _ _ _ _ _ _ hne2]
                exact hcl wl (List.mem_cons_of_mem _ hwl)
              obtain ⟨ρ2, hI2, hmono2, hcov2⟩ := ih (g.set (2 * (r : Int) + 1) (2 * (c : Int) + 2) 0)
                p3 rk3 (fun x => if ρ x = v then u else ρ x) gout
                hsub2 hnd2 hcl2 hk3
                ⟨fun a b ha hb => hmg _ _ (hinv.1 a b ha hb), hK2, hK3⟩ hrun
              refine ⟨ρ2, hI2, ?_, ?_⟩
              · intro x y hxy
                exact hmono2 x y (by rw [hxy])
              · intro wl hwl
                rcases List.mem_cons.1 hwl with rfl | hwl
                · dsimp only
                  apply hmono2
                  dsimp only
                  rcases huv with ⟨hu, hv⟩ | ⟨hu, hv⟩
                  · subst hu
                    subst hv
                    rw [if_neg hne, if_pos rfl]
                  · subst hu
                    subst hv
                    rw [if_pos rfl, if_neg (fun he => hne he.symm)]
                · exact hcov2 wl hwl
          · rw [if_neg hne] at hrun
            have heq2 := not_not.1 hne
            obtain ⟨ρ2, hI2, hmono2, hcov2⟩ := ih g q2 rank ρ gout hsub2 hnd2
              (fun wl hwl => hcl wl (List.mem_cons_of_mem _ hwl)) hk2 hinv hrun
            refine ⟨ρ2, hI2, hmono2, ?_⟩
            intro wl hwl
            rcases List.mem_cons.1 hwl with rfl | hwl
            · dsimp only
              exact hmono2 _ _ heq2
            · exact hcov2 wl hwl
    case cons.inr.intro.intro.intro.intro =>
      cases h1 : findSet parent fuel (r * w + c) with
      | none => rw [h1] at hrun; cases hrun
      | some pr1 =>
        obtain ⟨r1, q1⟩ := pr1
        rw [h1] at hrun
        dsimp only at hrun
        obtain ⟨hr1, hk1⟩ := findSet_sound fuel parent _ r1 q1 hkuf h1
        cases h2 : findSet q1 fuel ((r + 1) * w + c) with
        | none => rw [h2] at hrun; cases hrun
        | some pr2 =>
          obtain ⟨r2, q2⟩ := pr2
          rw [h2] at hrun
          dsimp only at hrun
          obtain ⟨hr2, hk2⟩ := findSet_sound fuel q1 _ r2 q2 hk1 h2
          subst hr1
          subst hr2
          by_cases hne : ρ (r * w + c) ≠ ρ ((r + 1) * w + c)
          · rw [if_pos hne] at hrun
            cases h3 : unionSets q2 rank fuel (r * w + c) ((r + 1) * w + c) with
            | none => rw [h3] at hrun; cases hrun
            | some pr3 =>
              obtain ⟨p3, rk3⟩ := pr3
              rw [h3] at hrun
              dsimp only at hrun
              obtain ⟨u, v, huv, hk3⟩ := unionSets_sound hk2 hne h3
              have hclh := hcl _ (List.mem_cons_self _ _)
              dsimp only at hclh
              have hcellL : g.val (2 * (r : Int) + 1) (2 * (c : Int) + 1) = 0 :=
                hinv.1 r c (by omega) (hc)
              have hcellR : g.val (2 * ((r + 1 : Nat) : Int) + 1) (2 * (c : Int) + 1) = 0 :=
                hinv.1 (r + 1) (c) (hr) (hc)
              have hmg := val_mono_set0 g (2 * (r : Int) + 2) (2 * (c : Int) + 1)
              have hwopen : (g.set (2 * (r : Int) + 2) (2 * (c : Int) + 1) 0).val
                  ((r : Int) + (((r + 1 : Nat) : Int)) + 1) ((c : Int) + ((c : Int)) + 1) = 0 := by
                rw [show ((r : Int) + (((r + 1 : Nat) : Int)) + 1) = (2 * (r : Int) + 2) from by push_cast; omega,
                  show ((c : Int) + ((c : Int)) + 1) = (2 * (c : Int) + 1) from by push_cast; omega]
                exact Grid.val_set_self _ _ _ _
              have hbr := connected_adjacent_cells (Or.inl ⟨rfl, rfl⟩)
                (hmg _ _ hcellL) (hmg _ _ hcellR) hwopen
              have hpc : passageCount w h (g.set (2 * (r : Int) + 2) (2 * (c : Int) + 1) 0)
                  = passageCount w h g + 1 := by
                have hpm : (((2 * (r : Int) + 2), (2 * (c : Int) + 1)) : Coord) ∈ passageList w h :=
                  passageList_mem.2 (Or.inr ⟨r, c, by omega, hc, rfl⟩)
                unfold passageCount
                exact countOpen_set_mem hpm (passageList_nodup w h)
                  (by intro h0; rw [hclh] at h0; cases h0)
              have hi1 : r * w + c < h * w := ord_lt (by omega) (hc)
              have hi2 : ((r + 1) * w + c) < h * w := ord_lt (hr) (hc)
              have huw : ∃ x, x < h * w ∧ ρ x = u := by
                rcases huv with ⟨hu, _⟩ | ⟨hu, _⟩
                · exact ⟨r * w + c, hi1, hu.symm⟩
                · exact ⟨((r + 1) * w + c), hi2, hu.symm⟩
              have hvw : v ∈ Finset.image ρ (Finset.range (h * w)) := by
                rcases huv with ⟨_, hv⟩ | ⟨_, hv⟩
                · exact Finset.mem_image.2 ⟨((r + 1) * w + c), Finset.mem_range.2 hi2, hv.symm⟩
                · exact Finset.mem_image.2 ⟨r * w + c, Finset.mem_range.2 hi1, hv.symm⟩
              have hneuv : u ≠ v := by
                rcases huv with ⟨hu, hv⟩ | ⟨hu, hv⟩
                · rw [hu, hv]; exact hne
                · rw [hu, hv]; exact fun he => hne he.symm
              have himg := image_merge_erase (n := h * w) huw hneuv
              have hK2 : passageCount w h (g.set (2 * (r : Int) + 2) (2 * (c : Int) + 1) 0) +
                  (Finset.image (fun x => if ρ x = v then u else ρ x)
                    (Finset.range (h * w))).card = h * w := by
                rw [hpc, himg, Finset.card_erase_of_mem hvw]
                have hc1 : 1 ≤ (Finset.image ρ (Finset.range (h * w))).card :=
                  Finset.card_pos.2 ⟨v, hvw⟩
                have hold := hinv.2.1
                omega
              have hK3 : ∀ a b a1 b1 : Nat, a < h → b < w → a1 < h → b1 < w →
                  (if ρ (a * w + b) = v then u else ρ (a * w + b)) =
                  (if ρ (a1 * w + b1) = v then u else ρ (a1 * w + b1)) →
                  connectedIn (g.set (2 * (r : Int) + 2) (2 * (c : Int) + 1) 0)
                    (2 * (a : Int) + 1, 2 * (b : Int) + 1)
                    (2 * (a1 : Int) + 1, 2 * (b1 : Int) + 1) := by
                rcases huv with ⟨hu, hv⟩ | ⟨hu, hv⟩
                · subst hu
                  subst hv
                  exact classes_merge_connect (by omega) (hc) (hr) (hc)
                    hinv.2.2 hmg hbr
                · subst hu
                  subst hv
                  exact classes_merge_connect (hr) (hc) (by omega) (hc)
                    hinv.2.2 hmg (connectedIn_symm hbr)
              have hcl2 : ∀ wl ∈ rest,
                  (g.set (2 * (r : Int) + 2) (2 * (c : Int) + 1) 0).val wl.r wl.c = 1 := by
                intro wl hwl
                have hne2 : ¬(wl.r = (2 * (r : Int) + 2) ∧ wl.c = (2 * (c : Int) + 1)) := by
                  intro hcc
                  exact hndh (List.mem_map.2 ⟨wl, hwl,
                    by rw [Prod.mk.injEq]; exact ⟨hcc.1, hcc.2⟩⟩)
                rw [Grid.val_set_other _ _ _ _ _ _ hne2]
                exact hcl wl (List.mem_cons_of_mem _ hwl)
              obtain ⟨ρ2, hI2, hmono2, hcov2⟩ := ih (g.set (2 * (r : Int) + 2) (2 * (c : Int) + 1) 0)
                p3 rk3 (fun x => if ρ x = v then u else ρ x) gout
                hsub2 hnd2 hcl2 hk3
                ⟨fun a b ha hb => hmg _ _ (hinv.1 a b ha hb), hK2, hK3⟩ hrun
              refine ⟨ρ2, hI2, ?_, ?_⟩
              · intro x y hxy
                exact hmono2 x y (by rw [hxy])
              · intro wl hwl
                rcases List.mem_cons.1 hwl with rfl | hwl
                · dsimp only
                  apply hmono2
                  dsimp only
                  rcases huv with ⟨hu, hv⟩ | ⟨hu, hv⟩
                  · subst hu
                    subst hv
                    rw [if_neg hne, if_pos rfl]
                  · subst hu
                    subst hv
                    rw [if_pos rfl, if_neg (fun he => hne he.symm)]
                · exact hcov2 wl hwl
          · rw [if_neg hne] at hrun
            have heq2 := not_not.1 hne
            obtain ⟨ρ2, hI2, hmono2, hcov2⟩ := ih g q2 rank ρ gout hsub2 hnd2
              (fun wl hwl => hcl wl (List.mem_cons_of_mem _ hwl)) hk2 hinv hrun
            refine ⟨ρ2, hI2, hmono2, ?_⟩
            intro wl hwl
            rcases List.mem_cons.1 hwl with rfl | hwl
            · dsimp only
              exact hmono2 _ _ heq2
            · exact hcov2 wl hwl

/-- C1 for randomized Kruskal: a successful run is a perfect maze. -/
theorem kruskal_perfect (w h : Nat) (rng : Rng) (hw : 1 ≤ w) (hh : 1 ≤ h)
    (g : Grid) (hgen : generateKruskalsMaze w h rng = some g) :
    perfectMaze w h g := by
  unfold generateKruskalsMaze at hgen
  dsimp only at hgen
  rcases Option.map_eq_some'.1 hgen with ⟨out, hrun, rfl⟩
  apply perfectMaze_set_outside (by intro hr; unfold inRect at hr; omega)
  apply perfectMaze_set_outside (by intro hr; unfold inRect at hr; omega)
  have hg1val : ∀ r c : Int, ((cellList h w).foldl
      (fun g p => g.set (2 * (p.1 : Int) + 1) (2 * (p.2 : Int) + 1) 0)
      (mkGrid (2 * (h : Int) + 1) (2 * (w : Int) + 1) 1)).val r c
      = if ∃ p ∈ cellList h w, r = 2 * (p.1 : Int) + 1 ∧ c = 2 * (p.2 : Int) + 1 then 0
        else 1 :=
    fun r c => foldl_carve_val (cellList h w) _ r c
  have hK1 : ∀ a b : Nat, a < h → b < w → ((cellList h w).foldl
      (fun g p => g.set (2 * (p.1 : Int) + 1) (2 * (p.2 : Int) + 1) 0)
      (mkGrid (2 * (h : Int) + 1) (2 * (w : Int) + 1) 1)).val
      (2 * (a : Int) + 1) (2 * (b : Int) + 1) = 0 := by
    intro a b ha hb
    rw [hg1val, if_pos ⟨(a, b), cellList_mem.2 ⟨ha, hb⟩, rfl, rfl⟩]
  have hpass : ∀ pl ∈ passageList w h, ((cellList h w).foldl
      (fun g p => g.set (2 * (p.1 : Int) + 1) (2 * (p.2 : Int) + 1) 0)
      (mkGrid (2 * (h : Int) + 1) (2 * (w : Int) + 1) 1)).val pl.1 pl.2 = 1 := by
    intro pl hpl
    rw [hg1val, if_neg ?hne]
    case hne =>
      rintro ⟨p, _, he1, he2⟩
      rcases passageList_mem.1 hpl with ⟨i, j, _, _, hpe⟩ | ⟨i, j, _, _, hpe⟩ <;>
        (rw [hpe] at he1 he2; dsimp only at he1 he2; omega)
  have hpc0 : passageCount w h ((cellList h w).foldl
      (fun g p => g.set (2 * (p.1 : Int) + 1) (2 * (p.2 : Int) + 1) 0)
      (mkGrid (2 * (h : Int) + 1) (2 * (w : Int) + 1) 1)) = 0 :=
    List.countP_eq_zero.2 (fun p hp => by
      simp only [hpass p hp, decide_eq_true_eq]
      omega)
  have hkuf0 : KUF (fun i => i) (fun i => i) := ⟨fun i => rfl, fun i => rfl, fun i hi => hi⟩
  have hinv0 : kruskalInv w h ((cellList h w).foldl
      (fun g p => g.set (2 * (p.1 : Int) + 1) (2 * (p.2 : Int) + 1) 0)
      (mkGrid (2 * (h : Int) + 1) (2 * (w : Int) + 1) 1)) (fun i => i) := by
    refine ⟨hK1, ?_, ?_⟩
    · rw [hpc0]
      rw [show Finset.image (fun i => i) (Finset.range (h * w)) = Finset.range (h * w)
        from Finset.image_id]
      rw [Finset.card_range]
      omega
    · intro a b a1 b1 ha hb ha1 hb1 heq
      obtain ⟨rfl, rfl⟩ := ord_uniq hb hb1 heq
      exact Relation.ReflTransGen.refl
  have hperm := shuffleList_perm rng (kruskalWalls w h) 0
  have hwnodup : ((kruskalWalls w h).map (fun wl => ((wl.r, wl.c) : Coord))).Nodup := by
    rw [kruskalWalls_pos]
    exact passageList_nodup w h
  obtain ⟨ρ2, hI2, hmono2, hcov2⟩ := kruskalProcess_spec (w * h + 1)
    (shuffleList rng (kruskalWalls w h) 0).1 _ (fun i => i) (fun _ => 0) (fun i => i) out
    (fun wl hwl => hperm.mem_iff.1 hwl)
    (((hperm.map (fun wl => ((wl.r, wl.c) : Coord))).nodup_iff).2 hwnodup)
    (fun wl hwl => hpass (wl.r, wl.c) (by
      rw [← kruskalWalls_pos]
      exact List.mem_map.2 ⟨wl, hperm.mem_iff.1 hwl, rfl⟩))
    hkuf0 hinv0 hrun
  have hadjcl : ∀ a b a1 b1 : Nat, a < h → b < w → a1 < h → b1 < w →
      ((a1 = a + 1 ∧ b1 = b) ∨ (a = a1 + 1 ∧ b1 = b) ∨
       (b1 = b + 1 ∧ a1 = a) ∨ (b = b1 + 1 ∧ a1 = a)) →
      ρ2 (a * w + b) = ρ2 (a1 * w + b1) := by
    intro a b a1 b1 ha hb ha1 hb1 hadj
    rcases hadj with ⟨he1, he2⟩ | ⟨he1, he2⟩ | ⟨he1, he2⟩ | ⟨he1, he2⟩
    · rw [he1, he2]
      exact hcov2 ⟨2 * (a : Int) + 2, 2 * (b : Int) + 1, (a, b), (a + 1, b)⟩
        (hperm.mem_iff.2 (kruskalWalls_mem.2 (Or.inr ⟨a, b, by omega, hb, rfl⟩)))
    · rw [he1, he2]
      exact (hcov2 ⟨2 * (a1 : Int) + 2, 2 * (b : Int) + 1, (a1, b), (a1 + 1, b)⟩
        (hperm.mem_iff.2 (kruskalWalls_mem.2 (Or.inr ⟨a1, b, by omega, hb, rfl⟩)))).symm
    · rw [he1, he2]
      exact hcov2 ⟨2 * (a : Int) + 1, 2 * (b : Int) + 2, (a, b), (a, b + 1)⟩
        (hperm.mem_iff.2 (kruskalWalls_mem.2 (Or.inl ⟨a, b, ha, by omega, rfl⟩)))
    · rw [he1, he2]
      exact (hcov2 ⟨2 * (a : Int) + 1, 2 * (b1 : Int) + 2, (a, b1), (a, b1 + 1)⟩
        (hperm.mem_iff.2 (kruskalWalls_mem.2 (Or.inl ⟨a, b1, ha, by omega, rfl⟩)))).symm
  have hall : ∀ i j, i < h → j < w → ρ2 (i * w + j) = ρ2 (0 * w + 0) := by
    refine cell_closure (fun i j => ρ2 (i * w + j) = ρ2 (0 * w + 0)) ?_
      (show 0 < h from by omega) (show 0 < w from by omega) rfl
    intro i j i1 j1 hi hj hi1 hj1 hS hadj
    exact (hadjcl i j i1 j1 hi hj hi1 hj1 hadj).symm.trans hS
  have himg1 : Finset.image ρ2 (Finset.range (h * w)) = {ρ2 0} := by
    ext y
    simp only [Finset.mem_image, Finset.mem_range, Finset.mem_singleton]
    constructor
    · rintro ⟨x, hx, rfl⟩
      have hw0 : 0 < w := by omega
      have h1 : x / w < h := (Nat.div_lt_iff_lt_mul hw0).2 hx
      have h2 : x % w < w := Nat.mod_lt _ hw0
      have h3 := hall (x / w) (x % w) h1 h2
      have h4 : x / w * w + x % w = x := by
        rw [Nat.mul_comm (x / w) w]
        exact Nat.div_add_mod x w
      rw [← h4, h3, show 0 * w + 0 = 0 from by omega]
    · rintro rfl
      refine ⟨0, ?_, rfl⟩
      have hpos := Nat.mul_pos (show 0 < h from by omega) (show 0 < w from by omega)
      omega
  have hcard1 : (Finset.image ρ2 (Finset.range (h * w))).card = 1 := by
    rw [himg1]
    exact Finset.card_singleton _
  obtain ⟨hK1f, hK2f, hK3f⟩ := hI2
  refine ⟨?_, ?_, ?_, ?_⟩
  · intro p hp
    rcases cellPosList_mem.1 hp with ⟨i, j, hi, hj, rfl⟩
    exact hK1f i j hi hj
  · unfold openCellCount countOpen
    rw [List.countP_eq_length.2, cellPosList_length]
    intro p hp
    rcases cellPosList_mem.1 hp with ⟨i, j, hi, hj, rfl⟩
    simpa using hK1f i j hi hj
  · have hc := Nat.mul_comm h w
    omega
  · intro p hp q hq
    rcases cellPosList_mem.1 hp with ⟨i, j, hi, hj, rfl⟩
    rcases cellPosList_mem.1 hq with ⟨i1, j1, hi1, hj1, rfl⟩
    exact hK3f i j i1 j1 hi hj hi1 hj1
      (((hall i j hi hj).trans (hall i1 j1 hi1 hj1).symm))

/-! ## Wilson builds a perfect maze -/

theorem Grid.set_set_comm (g : Grid) (r1 c1 r2 c2 : Int) :
    (g.set r1 c1 0).set r2 c2 0 = (g.set r2 c2 0).set r1 c1 0 := by
  cases g with
  | mk rows cols val =>
    unfold Grid.set
    dsimp only
    congr 1
    funext r c
    by_cases h2 : r = r2 ∧ c = c2 <;> by_cases h1 : r = r1 ∧ c = c1 <;>
      simp [h1, h2]

/-- Carving the fresh walk start into a tree grid opens the floating
chain. -/
theorem wchainInv_init {w h : Nat} {s : Coord} {g : Grid} {cvis : List Coord}
    {a0 b0 : Nat}
    (hinv : growInv w h s g cvis) (hcv : cvis ≠ [])
    (ha0 : a0 < h) (hb0 : b0 < w)
    (hnew : (((a0 : Nat) : Int), ((b0 : Nat) : Int)) ∉ cvis) :
    wchainInv w h s (g.set (2 * (a0 : Int) + 1) (2 * (b0 : Int) + 1) 0) cvis
      [(((a0 : Nat) : Int), ((b0 : Nat) : Int))] (a0, b0) := by
  obtain ⟨h1, h2, h3, h4, h5, h6, h7, h8⟩ := hinv
  have hfresh : g.val (2 * (a0 : Int) + 1) (2 * (b0 : Int) + 1) ≠ 0 :=
    fun h0 => hnew ((h3 a0 b0 ha0 hb0).1 h0)
  have hlen1 : 1 ≤ cvis.length := by
    cases cvis with
    | nil => exact absurd rfl hcv
    | cons x t => simp
  refine ⟨?_, ?_, ?_, ?_, ?_, ?_, ?_, ?_, ?_, ha0, hb0, ?_⟩
  · simp [List.nodup_append, h1, hnew]
  · intro p hp
    rcases List.mem_append.1 hp with hp | hp
    · exact h2 p hp
    · exact ⟨a0, b0, ha0, hb0, List.mem_singleton.1 hp⟩
  · intro x y hx hy
    by_cases hxy : x = a0 ∧ y = b0
    · obtain ⟨rfl, rfl⟩ := hxy
      constructor
      · intro _
        exact List.mem_append.2 (Or.inr (List.mem_singleton.2 rfl))
      · intro _
        exact Grid.val_set_self _ _ _ _
    · rw [Grid.val_set_other _ _ _ _ _ _
        (by rintro ⟨u1, u2⟩; exact hxy ⟨by omega, by omega⟩)]
      rw [h3 x y hx hy, List.mem_append, List.mem_singleton]
      constructor
      · exact Or.inl
      · rintro (hm | hm)
        · exact hm
        · rw [Prod.mk.injEq] at hm
          exact absurd ⟨by omega, by omega⟩ hxy
  · intro x y hx hy h0
    rw [Grid.val_set_other _ _ _ _ _ _ (by rintro ⟨u1, u2⟩; omega)] at h0
    exact Or.inl (h4 x y hx hy h0)
  · intro x y hx hy h0
    rw [Grid.val_set_other _ _ _ _ _ _ (by rintro ⟨u1, u2⟩; omega)] at h0
    exact Or.inl (h5 x y hx hy h0)
  · unfold openCellCount
    rw [countOpen_set_mem (cellPosList_mem.2 ⟨a0, b0, ha0, hb0, rfl⟩)
      (cellPosList_nodup w h) hfresh]
    unfold openCellCount at h6
    rw [h6]
    simp
  · unfold passageCount
    have hnp : ((2 * (a0 : Int) + 1, 2 * (b0 : Int) + 1) : Coord) ∉ passageList w h := by
      intro hm
      rw [passageList_mem_parity] at hm
      omega
    rw [countOpen_set_not_mem hnp]
    unfold passageCount at h7
    rw [h7]
    simp only [List.length_append, List.length_singleton]
    omega
  · intro p hp
    exact connectedIn_mono (val_mono_set0 _ _ _) (h8 p hp)
  · exact List.mem_singleton.2 rfl
  · intro p hp
    obtain rfl := List.mem_singleton.1 hp
    exact Relation.ReflTransGen.refl

/-- The Wilson carve of one fresh walk cell extends the floating chain. -/
theorem wchainInv_step {w h : Nat} {s : Coord} {g : Grid} {cvis chain : List Coord}
    {qa qb a' b' : Nat}
    (hinv : wchainInv w h s g cvis chain (qa, qb))
    (ha' : a' < h) (hb' : b' < w)
    (hadj : (a' = qa + 1 ∧ b' = qb) ∨ (qa = a' + 1 ∧ b' = qb) ∨
            (b' = qb + 1 ∧ a' = qa) ∨ (qb = b' + 1 ∧ a' = qa))
    (hnew : (((a' : Nat) : Int), ((b' : Nat) : Int)) ∉ cvis ++ chain) :
    wchainInv w h s ((g.set (2 * (a' : Int) + 1) (2 * (b' : Int) + 1) 0).set
      ((a' : Int) + (qa : Int) + 1) ((b' : Int) + (qb : Int) + 1) 0) cvis
      (chain ++ [(((a' : Nat) : Int), ((b' : Nat) : Int))]) (a', b') := by
  obtain ⟨h1, h2, h3, h4, h5, h6, h7, h8, hqm, hqa, hqb, h9⟩ := hinv
  have hgeq : (g.set (2 * (a' : Int) + 1) (2 * (b' : Int) + 1) 0).set
      ((a' : Int) + (qa : Int) + 1) ((b' : Int) + (qb : Int) + 1) 0
      = (g.set ((qa : Int) + (a' : Int) + 1) ((qb : Int) + (b' : Int) + 1) 0).set
        (2 * (a' : Int) + 1) (2 * (b' : Int) + 1) 0 := by
    rw [Grid.set_set_comm]
    rw [show ((a' : Int) + (qa : Int) + 1) = (qa : Int) + (a' : Int) + 1 from by omega,
      show ((b' : Int) + (qb : Int) + 1) = (qb : Int) + (b' : Int) + 1 from by omega]
  rw [hgeq]
  have hopen : g.val (2 * (qa : Int) + 1) (2 * (qb : Int) + 1) = 0 :=
    (h3 qa qb hqa hqb).2 (List.mem_append.2 (Or.inr hqm))
  have hcellfresh : g.val (2 * (a' : Int) + 1) (2 * (b' : Int) + 1) ≠ 0 :=
    fun h0 => hnew ((h3 a' b' ha' hb').1 h0)
  have hmidfresh : g.val ((qa : Int) + (a' : Int) + 1) ((qb : Int) + (b' : Int) + 1) ≠ 0 := by
    intro h0
    rcases hadj with ⟨he1, he2⟩ | ⟨he1, he2⟩ | ⟨he1, he2⟩ | ⟨he1, he2⟩
    · rw [show ((qa : Int) + (a' : Int) + 1) = 2 * (qa : Int) + 2 from by omega,
        show ((qb : Int) + (b' : Int) + 1) = 2 * (qb : Int) + 1 from by omega] at h0
      rcases h4 qa qb (by omega) hqb h0 with ⟨_, hm2⟩ | ⟨_, hm2⟩
      · refine hnew (List.mem_append.2 (Or.inl ?_))
        rw [show (((a' : Nat) : Int), ((b' : Nat) : Int)) = ((qa : Int) + 1, (qb : Int))
          from by rw [Prod.mk.injEq]; constructor <;> omega]
        exact hm2
      · refine hnew (List.mem_append.2 (Or.inr ?_))
        rw [show (((a' : Nat) : Int), ((b' : Nat) : Int)) = ((qa : Int) + 1, (qb : Int))
          from by rw [Prod.mk.injEq]; constructor <;> omega]
        exact hm2
    · rw [show ((qa : Int) + (a' : Int) + 1) = 2 * (a' : Int) + 2 from by omega,
        show ((qb : Int) + (b' : Int) + 1) = 2 * (b' : Int) + 1 from by omega] at h0
      rcases h4 a' b' (by omega) hb' h0 with ⟨hm1, _⟩ | ⟨hm1, _⟩
      · exact hnew (List.mem_append.2 (Or.inl hm1))
      · exact hnew (List.mem_append.2 (Or.inr hm1))
    · rw [show ((qa : Int) + (a' : Int) + 1) = 2 * (qa : Int) + 1 from by omega,
        show ((qb : Int) + (b' : Int) + 1) = 2 * (qb : Int) + 2 from by omega] at h0
      rcases h5 qa qb hqa (by omega) h0 with ⟨_, hm2⟩ | ⟨_, hm2⟩
      · refine hnew (List.mem_append.2 (Or.inl ?_))
        rw [show (((a' : Nat) : Int), ((b' : Nat) : Int)) = ((qa : Int), (qb : Int) + 1)
          from by rw [Prod.mk.injEq]; constructor <;> omega]
        exact hm2
      · refine hnew (List.mem_append.2 (Or.inr ?_))
        rw [show (((a' : Nat) : Int), ((b' : Nat) : Int)) = ((qa : Int), (qb : Int) + 1)
          from by rw [Prod.mk.injEq]; constructor <;> omega]
        exact hm2
    · rw [show ((qa : Int) + (a' : Int) + 1) = 2 * (a' : Int) + 1 from by omega,
        show ((qb : Int) + (b' : Int) + 1) = 2 * (b' : Int) + 2 from by omega] at h0
      rcases h5 a' b' ha' (by omega) h0 with ⟨hm1, _⟩ | ⟨hm1, _⟩
      · exact hnew (List.mem_append.2 (Or.inl hm1))
      · exact hnew (List.mem_append.2 (Or.inr hm1))
  obtain ⟨hcnt1, hcnt2, hconn⟩ := carve_step hqa hqb ha' hb' hadj hopen hcellfresh hmidfresh
  have hmono2 : ∀ r c : Int, g.val r c = 0 →
      ((g.set ((qa : Int) + (a' : Int) + 1) ((qb : Int) + (b' : Int) + 1) 0).set
        (2 * (a' : Int) + 1) (2 * (b' : Int) + 1) 0).val r c = 0 :=
    fun r c hv => val_mono_set0 _ _ _ r c (val_mono_set0 _ _ _ r c hv)
  refine ⟨?_, ?_, ?_, ?_, ?_, ?_, ?_, ?_, ?_, ha', hb', ?_⟩
  · rw [← List.append_assoc, List.nodup_append]
    refine ⟨h1, List.nodup_singleton _, ?_⟩
    intro x hx hx2
    exact hnew ((List.mem_singleton.1 hx2) ▸ hx)
  · intro p hp
    rw [← List.append_assoc] at hp
    rcases List.mem_append.1 hp with hp | hp
    · exact h2 p hp
    · exact ⟨a', b', ha', hb', List.mem_singleton.1 hp⟩
  · intro x y hx hy
    rw [← List.append_assoc]
    by_cases hxy : x = a' ∧ y = b'
    · obtain ⟨rfl, rfl⟩ := hxy
      constructor
      · intro _
        exact List.mem_append.2 (Or.inr (List.mem_singleton.2 rfl))
      · intro _
        exact Grid.val_set_self _ _ _ _
    · rw [val_set2_other (by rintro ⟨u1, u2⟩; omega)
        (by rintro ⟨u1, u2⟩; exact hxy ⟨by omega, by omega⟩), h3 x y hx hy]
      constructor
      · intro hm
        exact List.mem_append.2 (Or.inl hm)
      · intro hm
        rcases List.mem_append.1 hm with hm | hm
        · exact hm
        · rw [List.mem_singleton, Prod.mk.injEq] at hm
          exact absurd ⟨by omega, by omega⟩ hxy
  · intro x y hx hy h0
    by_cases hqm2 : 2 * (x : Int) + 2 = (qa : Int) + (a' : Int) + 1 ∧
        2 * (y : Int) + 1 = (qb : Int) + (b' : Int) + 1
    · rcases hadj with ⟨he1, he2⟩ | ⟨he1, he2⟩ | ⟨he1, he2⟩ | ⟨he1, he2⟩
      · have hxa : x = qa ∧ y = qb := ⟨by omega, by omega⟩
        obtain ⟨rfl, rfl⟩ := hxa
        refine Or.inr ⟨List.mem_append.2 (Or.inl hqm), ?_⟩
        rw [show ((x : Int) + 1, (y : Int)) = (((a' : Nat) : Int), ((b' : Nat) : Int)) from by
          rw [Prod.mk.injEq]; constructor <;> omega]
        exact List.mem_append.2 (Or.inr (List.mem_singleton.2 rfl))
      · have hxa : x = a' ∧ y = b' := ⟨by omega, by omega⟩
        obtain ⟨rfl, rfl⟩ := hxa
        refine Or.inr ⟨List.mem_append.2 (Or.inr (List.mem_singleton.2 rfl)), ?_⟩
        rw [show ((x : Int) + 1, (y : Int)) = (((qa : Nat) : Int), ((qb : Nat) : Int)) from by
          rw [Prod.mk.injEq]; constructor <;> omega]
        exact List.mem_append.2 (Or.inl hqm)
      · exact absurd hqm2.1 (by omega)
      · exact absurd hqm2.1 (by omega)
    · have hval : ((g.set ((qa : Int) + (a' : Int) + 1) ((qb : Int) + (b' : Int) + 1) 0).set
          (2 * (a' : Int) + 1) (2 * (b' : Int) + 1) 0).val
          (2 * (x : Int) + 2) (2 * (y : Int) + 1) = g.val (2 * (x : Int) + 2)
          (2 * (y : Int) + 1) := by
        apply val_set2_other
        · rintro ⟨u1, u2⟩
          exact hqm2 ⟨u1, u2⟩
        · rintro ⟨u1, u2⟩
          omega
      rw [hval] at h0
      rcases h4 x y hx hy h0 with ⟨hm1, hm2⟩ | ⟨hm1, hm2⟩
      · exact Or.inl ⟨hm1, hm2⟩
      · exact Or.inr ⟨List.mem_append.2 (Or.inl hm1), List.mem_append.2 (Or.inl hm2)⟩
  · intro x y hx hy h0
    by_cases hqm2 : 2 * (x : Int) + 1 = (qa : Int) + (a' : Int) + 1 ∧
        2 * (y : Int) + 2 = (qb : Int) + (b' : Int) + 1
    · rcases hadj with ⟨he1, he2⟩ | ⟨he1, he2⟩ | ⟨he1, he2⟩ | ⟨he1, he2⟩
      · exact absurd hqm2.1 (by omega)
      · exact absurd hqm2.1 (by omega)
      · have hxa : x = qa ∧ y = qb := ⟨by omega, by omega⟩
        obtain ⟨rfl, rfl⟩ := hxa
        refine Or.inr ⟨List.mem_append.2 (Or.inl hqm), ?_⟩
        rw [show ((x : Int), (y : Int) + 1) = (((a' : Nat) : Int), ((b' : Nat) : Int)) from by
          rw [Prod.mk.injEq]; constructor <;> omega]
        exact List.mem_append.2 (Or.inr (List.mem_singleton.2 rfl))
      · have hxa : x = a' ∧ y = b' := ⟨by omega, by omega⟩
        obtain ⟨rfl, rfl⟩ := hxa
        refine Or.inr ⟨List.mem_append.2 (Or.inr (List.mem_singleton.2 rfl)), ?_⟩
        rw [show ((x : Int), (y : Int) + 1) = (((qa : Nat) : Int), ((qb : Nat) : Int)) from by
          rw [Prod.mk.injEq]; constructor <;> omega]
        exact List.mem_append.2 (Or.inl hqm)
    · have hval : ((g.set ((qa : Int) + (a' : Int) + 1) ((qb : Int) + (b' : Int) + 1) 0).set
          (2 * (a' : Int) + 1) (2 * (b' : Int) + 1) 0).val
          (2 * (x : Int) + 1) (2 * (y : Int) + 2) = g.val (2 * (x : Int) + 1)
          (2 * (y : Int) + 2) := by
        apply val_set2_other
        · rintro ⟨u1, u2⟩
          exact hqm2 ⟨u1, u2⟩
        · rintro ⟨u1, u2⟩
          omega
      rw [hval] at h0
      rcases h5 x y hx hy h0 with ⟨hm1, hm2⟩ | ⟨hm1, hm2⟩
      · exact Or.inl ⟨hm1, hm2⟩
      · exact Or.inr ⟨List.mem_append.2 (Or.inl hm1), List.mem_append.2 (Or.inl hm2)⟩
  · rw [hcnt1, h6]
    simp only [List.length_append, List.length_singleton]
    omega
  · rw [hcnt2]
    simp only [List.length_append, List.length_singleton] at h7 ⊢
    omega
  · intro p hp
    exact connectedIn_mono hmono2 (h8 p hp)
  · exact List.mem_append.2 (Or.inr (List.mem_singleton.2 rfl))
  · intro p hp
    rcases List.mem_append.1 hp with hp | hp
    · exact Relation.ReflTransGen.trans
        (connectedIn_mono hmono2 (h9 p hp)) hconn
    · obtain rfl := List.mem_singleton.1 hp
      exact Relation.ReflTransGen.refl

/-- Carving the wall from the chain's last cell to the tree cell the walk
ended on restores the growth invariant for the union. -/
theorem wchainInv_attach {w h : Nat} {s : Coord} {g : Grid} {cvis chain : List Coord}
    {qa qb ta tb : Nat}
    (hinv : wchainInv w h s g cvis chain (qa, qb))
    (hta : ta < h) (htb : tb < w)
    (htm : (((ta : Nat) : Int), ((tb : Nat) : Int)) ∈ cvis)
    (hadj : (ta = qa + 1 ∧ tb = qb) ∨ (qa = ta + 1 ∧ tb = qb) ∨
            (tb = qb + 1 ∧ ta = qa) ∨ (qb = tb + 1 ∧ ta = qa)) :
    growInv w h s ((g.set (2 * (ta : Int) + 1) (2 * (tb : Int) + 1) 0).set
      ((ta : Int) + (qa : Int) + 1) ((tb : Int) + (qb : Int) + 1) 0) (cvis ++ chain) := by
  obtain ⟨h1, h2, h3, h4, h5, h6, h7, h8, hqm, hqa, hqb, h9⟩ := hinv
  have hdisj : ∀ x : Coord, x ∈ cvis → x ∈ chain → False := by
    intro x hx1 hx2
    exact (List.nodup_append.1 h1).2.2 hx1 hx2
  have hqne : ¬(qa = ta ∧ qb = tb) := by
    rintro ⟨rfl, rfl⟩
    exact hdisj _ htm hqm
  have htopen : g.val (2 * (ta : Int) + 1) (2 * (tb : Int) + 1) = 0 :=
    (h3 ta tb hta htb).2 (List.mem_append.2 (Or.inl htm))
  have hqopen : g.val (2 * (qa : Int) + 1) (2 * (qb : Int) + 1) = 0 :=
    (h3 qa qb hqa hqb).2 (List.mem_append.2 (Or.inr hqm))
  have hmidfresh : g.val ((ta : Int) + (qa : Int) + 1) ((tb : Int) + (qb : Int) + 1) ≠ 0 := by
    intro h0
    rcases hadj with ⟨he1, he2⟩ | ⟨he1, he2⟩ | ⟨he1, he2⟩ | ⟨he1, he2⟩
    · rw [show ((ta : Int) + (qa : Int) + 1) = 2 * (qa : Int) + 2 from by omega,
        show ((tb : Int) + (qb : Int) + 1) = 2 * (qb : Int) + 1 from by omega] at h0
      rcases h4 qa qb (by omega) hqb h0 with ⟨hm1, hm2⟩ | ⟨hm1, hm2⟩
      · exact hdisj _ hm1 hqm
      · refine hdisj _ htm ?_
        rw [show (((ta : Nat) : Int), ((tb : Nat) : Int)) = ((qa : Int) + 1, (qb : Int))
          from by rw [Prod.mk.injEq]; constructor <;> omega] at htm ⊢
        exact hm2
    · rw [show ((ta : Int) + (qa : Int) + 1) = 2 * (ta : Int) + 2 from by omega,
        show ((tb : Int) + (qb : Int) + 1) = 2 * (tb : Int) + 1 from by omega] at h0
      rcases h4 ta tb (by omega) htb h0 with ⟨hm1, hm2⟩ | ⟨hm1, hm2⟩
      · refine hdisj _ ?_ hqm
        rw [show (((qa : Nat) : Int), ((qb : Nat) : Int)) = ((ta : Int) + 1, (tb : Int))
          from by rw [Prod.mk.injEq]; constructor <;> omega]
        exact hm2
      · exact hdisj _ htm hm1
    · rw [show ((ta : Int) + (qa : Int) + 1) = 2 * (qa : Int) + 1 from by omega,
        show ((tb : Int) + (qb : Int) + 1) = 2 * (qb : Int) + 2 from by omega] at h0
      rcases h5 qa qb hqa (by omega) h0 with ⟨hm1, hm2⟩ | ⟨hm1, hm2⟩
      · exact hdisj _ hm1 hqm
      · refine hdisj _ htm ?_
        rw [show (((ta : Nat) : Int), ((tb : Nat) : Int)) = ((qa : Int), (qb : Int) + 1)
          from by rw [Prod.mk.injEq]; constructor <;> omega] at htm ⊢
        exact hm2
    · rw [show ((ta : Int) + (qa : Int) + 1) = 2 * (ta : Int) + 1 from by omega,
        show ((tb : Int) + (qb : Int) + 1) = 2 * (tb : Int) + 2 from by omega] at h0
      rcases h5 ta tb hta (by omega) h0 with ⟨hm1, hm2⟩ | ⟨hm1, hm2⟩
      · refine hdisj _ ?_ hqm
        rw [show (((qa : Nat) : Int), ((qb : Nat) : Int)) = ((ta : Int), (tb : Int) + 1)
          from by rw [Prod.mk.injEq]; constructor <;> omega]
        exact hm2
      · exact hdisj _ htm hm1
  have hmidpar : ¬(2 * (ta : Int) + 1 = (ta : Int) + (qa : Int) + 1 ∧
      2 * (tb : Int) + 1 = (tb : Int) + (qb : Int) + 1) := by
    rcases hadj with ⟨he1, he2⟩ | ⟨he1, he2⟩ | ⟨he1, he2⟩ | ⟨he1, he2⟩ <;> omega
  have hvt : ((g.set (2 * (ta : Int) + 1) (2 * (tb : Int) + 1) 0).set
      ((ta : Int) + (qa : Int) + 1) ((tb : Int) + (qb : Int) + 1) 0).val
      (2 * (ta : Int) + 1) (2 * (tb : Int) + 1) = 0 := by
    rw [Grid.val_set_other _ _ _ _ _ _ hmidpar]
    exact Grid.val_set_self _ _ _ _
  have hvmid : ((g.set (2 * (ta : Int) + 1) (2 * (tb : Int) + 1) 0).set
      ((ta : Int) + (qa : Int) + 1) ((tb : Int) + (qb : Int) + 1) 0).val
      ((ta : Int) + (qa : Int) + 1) ((tb : Int) + (qb : Int) + 1) = 0 :=
    Grid.val_set_self _ _ _ _
  have hvq : ((g.set (2 * (ta : Int) + 1) (2 * (tb : Int) + 1) 0).set
      ((ta : Int) + (qa : Int) + 1) ((tb : Int) + (qb : Int) + 1) 0).val
      (2 * (qa : Int) + 1) (2 * (qb : Int) + 1) = 0 := by
    rw [val_set2_other (by rintro ⟨u1, u2⟩; exact hqne ⟨by omega, by omega⟩)
      (by rintro ⟨u1, u2⟩
          rcases hadj with ⟨he1, he2⟩ | ⟨he1, he2⟩ | ⟨he1, he2⟩ | ⟨he1, he2⟩ <;> omega)]
    exact hqopen
  have hmono2 : ∀ r c : Int, g.val r c = 0 →
      ((g.set (2 * (ta : Int) + 1) (2 * (tb : Int) + 1) 0).set
        ((ta : Int) + (qa : Int) + 1) ((tb : Int) + (qb : Int) + 1) 0).val r c = 0 :=
    fun r c hv => val_mono_set0 _ _ _ r c (val_mono_set0 _ _ _ r c hv)
  have hbridge : connectedIn ((g.set (2 * (ta : Int) + 1) (2 * (tb : Int) + 1) 0).set
      ((ta : Int) + (qa : Int) + 1) ((tb : Int) + (qb : Int) + 1) 0)
      (2 * (qa : Int) + 1, 2 * (qb : Int) + 1) (2 * (ta : Int) + 1, 2 * (tb : Int) + 1) := by
    refine Relation.ReflTransGen.head
      (show stepAdj _ (2 * (qa : Int) + 1, 2 * (qb : Int) + 1)
        (((ta : Int) + (qa : Int) + 1, (tb : Int) + (qb : Int) + 1) : Coord) from
        ⟨hvq, hvmid, ?_⟩)
      (Relation.ReflTransGen.single
        (show stepAdj _ (((ta : Int) + (qa : Int) + 1, (tb : Int) + (qb : Int) + 1) : Coord)
          (2 * (ta : Int) + 1, 2 * (tb : Int) + 1) from ⟨hvmid, hvt, ?_⟩)) <;>
      (simp only [moveDirs, List.mem_cons, List.not_mem_nil, or_false, Prod.ext_iff];
       rcases hadj with ⟨he1, he2⟩ | ⟨he1, he2⟩ | ⟨he1, he2⟩ | ⟨he1, he2⟩ <;> omega)
  refine ⟨h1, h2, ?_, ?_, ?_, ?_, ?_, ?_⟩
  · intro x y hx hy
    by_cases hxy : x = ta ∧ y = tb
    · obtain ⟨rfl, rfl⟩ := hxy
      constructor
      · intro _
        exact List.mem_append.2 (Or.inl htm)
      · intro _
        exact hvt
    · rw [val_set2_other (by rintro ⟨u1, u2⟩; exact hxy ⟨by omega, by omega⟩)
        (by rintro ⟨u1, u2⟩
            rcases hadj with ⟨he1, he2⟩ | ⟨he1, he2⟩ | ⟨he1, he2⟩ | ⟨he1, he2⟩ <;> omega)]
      exact h3 x y hx hy
  · intro x y hx hy h0
    by_cases hqm2 : 2 * (x : Int) + 2 = (ta : Int) + (qa : Int) + 1 ∧
        2 * (y : Int) + 1 = (tb : Int) + (qb : Int) + 1
    · rcases hadj with ⟨he1, he2⟩ | ⟨he1, he2⟩ | ⟨he1, he2⟩ | ⟨he1, he2⟩
      · have hxa : x = qa ∧ y = qb := ⟨by omega, by omega⟩
        obtain ⟨rfl, rfl⟩ := hxa
        refine ⟨List.mem_append.2 (Or.inr hqm), ?_⟩
        rw [show ((x : Int) + 1, (y : Int)) = (((ta : Nat) : Int), ((tb : Nat) : Int)) from by
          rw [Prod.mk.injEq]; constructor <;> omega]
        exact List.mem_append.2 (Or.inl htm)
      · have hxa : x = ta ∧ y = tb := ⟨by omega, by omega⟩
        obtain ⟨rfl, rfl⟩ := hxa
        refine ⟨List.mem_append.2 (Or.inl htm), ?_⟩
        rw [show ((x : Int) + 1, (y : Int)) = (((qa : Nat) : Int), ((qb : Nat) : Int)) from by
          rw [Prod.mk.injEq]; constructor <;> omega]
        exact List.mem_append.2 (Or.inr hqm)
      · exact absurd hqm2.1 (by omega)
      · exact absurd hqm2.1 (by omega)
    · have hval : ((g.set (2 * (ta : Int) + 1) (2 * (tb : Int) + 1) 0).set
          ((ta : Int) + (qa : Int) + 1) ((tb : Int) + (qb : Int) + 1) 0).val
          (2 * (x : Int) + 2) (2 * (y : Int) + 1) = g.val (2 * (x : Int) + 2)
          (2 * (y : Int) + 1) := by
        apply val_set2_other
        · rintro ⟨u1, u2⟩
          omega
        · rintro ⟨u1, u2⟩
          exact hqm2 ⟨u1, u2⟩
      rw [hval] at h0
      rcases h4 x y hx hy h0 with ⟨hm1, hm2⟩ | ⟨hm1, hm2⟩
      · exact ⟨List.mem_append.2 (Or.inl hm1), List.mem_append.2 (Or.inl hm2)⟩
      · exact ⟨List.mem_append.2 (Or.inr hm1), List.mem_append.2 (Or.inr hm2)⟩
  · intro x y hx hy h0
    by_cases hqm2 : 2 * (x : Int) + 1 = (ta : Int) + (qa : Int) + 1 ∧
        2 * (y : Int) + 2 = (tb : Int) + (qb : Int) + 1
    · rcases hadj with ⟨he1, he2⟩ | ⟨he1, he2⟩ | ⟨he1, he2⟩ | ⟨he1, he2⟩
      · exact absurd hqm2.1 (by omega)
      · exact absurd hqm2.1 (by omega)
      · have hxa : x = qa ∧ y = qb := ⟨by omega, by omega⟩
        obtain ⟨rfl, rfl⟩ := hxa
        refine ⟨List.mem_append.2 (Or.inr hqm), ?_⟩
        rw [show ((x : Int), (y : Int) + 1) = (((ta : Nat) : Int), ((tb : Nat) : Int)) from by
          rw [Prod.mk.injEq]; constructor <;> omega]
        exact List.mem_append.2 (Or.inl htm)
      · have hxa : x = ta ∧ y = tb := ⟨by omega, by omega⟩
        obtain ⟨rfl, rfl⟩ := hxa
        refine ⟨List.mem_append.2 (Or.inl htm), ?_⟩
        rw [show ((x : Int), (y : Int) + 1) = (((qa : Nat) : Int), ((qb : Nat) : Int)) from by
          rw [Prod.mk.injEq]; constructor <;> omega]
        exact List.mem_append.2 (Or.inr hqm)
    · have hval : ((g.set (2 * (ta : Int) + 1) (2 * (tb : Int) + 1) 0).set
          ((ta : Int) + (qa : Int) + 1) ((tb : Int) + (qb : Int) + 1) 0).val
          (2 * (x : Int) + 1) (2 * (y : Int) + 2) = g.val (2 * (x : Int) + 1)
          (2 * (y : Int) + 2) := by
        apply val_set2_other
        · rintro ⟨u1, u2⟩
          omega
        · rintro ⟨u1, u2⟩
          exact hqm2 ⟨u1, u2⟩
      rw [hval] at h0
      rcases h5 x y hx hy h0 with ⟨hm1, hm2⟩ | ⟨hm1, hm2⟩
      · exact ⟨List.mem_append.2 (Or.inl hm1), List.mem_append.2 (Or.inl hm2)⟩
      · exact ⟨List.mem_append.2 (Or.inr hm1), List.mem_append.2 (Or.inr hm2)⟩
  · unfold openCellCount
    have hmidcell : (((ta : Int) + (qa : Int) + 1, (tb : Int) + (qb : Int) + 1) : Coord)
        ∉ cellPosList w h := by
      intro hm
      rcases cellPosList_mem.1 hm with ⟨i, j, _, _, hpe⟩
      rw [Prod.mk.injEq] at hpe
      rcases hadj with ⟨he1, he2⟩ | ⟨he1, he2⟩ | ⟨he1, he2⟩ | ⟨he1, he2⟩ <;> omega
    rw [countOpen_set_not_mem hmidcell,
      countOpen_set_open (show g.val ((2 * (ta : Int) + 1, 2 * (tb : Int) + 1) : Coord).1
        ((2 * (ta : Int) + 1, 2 * (tb : Int) + 1) : Coord).2 = 0 from htopen)]
    exact h6
  · unfold passageCount
    have hmidpass : (((ta : Int) + (qa : Int) + 1, (tb : Int) + (qb : Int) + 1) : Coord)
        ∈ passageList w h := by
      rw [passageList_mem_parity]
      rcases hadj with ⟨he1, he2⟩ | ⟨he1, he2⟩ | ⟨he1, he2⟩ | ⟨he1, he2⟩
      · exact ⟨by omega, by omega, by omega, by omega, Or.inr ⟨by omega, by omega⟩⟩
      · exact ⟨by omega, by omega, by omega, by omega, Or.inr ⟨by omega, by omega⟩⟩
      · exact ⟨by omega, by omega, by omega, by omega, Or.inl ⟨by omega, by omega⟩⟩
      · exact ⟨by omega, by omega, by omega, by omega, Or.inl ⟨by omega, by omega⟩⟩
    have htcellpass : ((2 * (ta : Int) + 1, 2 * (tb : Int) + 1) : Coord)
        ∉ passageList w h := by
      intro hm
      rw [passageList_mem_parity] at hm
      omega
    rw [countOpen_set_mem hmidpass (passageList_nodup w h)
        (by
          intro hv
          rw [Grid.val_set_other _ _ _ _ _ _ (fun hcc => hmidpar ⟨hcc.1.symm, hcc.2.symm⟩)]
            at hv
          exact hmidfresh hv),
      countOpen_set_not_mem htcellpass]
    unfold passageCount at h7
    omega
  · intro p hp
    rcases List.mem_append.1 hp with hp | hp
    · exact connectedIn_mono hmono2 (h8 p hp)
    · exact Relation.ReflTransGen.trans (connectedIn_mono hmono2 (h9 p hp))
        (Relation.ReflTransGen.trans hbridge
          (connectedIn_mono hmono2 (h8 _ htm)))

theorem wilsonPick_spec {w h : Nat} (rng : Rng) (hw : 1 ≤ w) (hh : 1 ≤ h) :
    ∀ (fuel : Nat) (vis : List Coord) (i : Nat) (out : Coord × Nat),
      wilsonPick w h rng fuel vis i = some out →
      (∃ a b : Nat, a < h ∧ b < w ∧ out.1 = (2 * (a : Int) + 1, 2 * (b : Int) + 1)) ∧
      out.1 ∉ vis := by
  intro fuel
  induction fuel with
  | zero => intro vis i out hp; simp [wilsonPick] at hp
  | succ f ih =>
    intro vis i out hp
    unfold wilsonPick at hp
    dsimp only at hp
    split at hp
    · exact ih vis (i + 2) out hp
    · rename_i hnm
      cases hp
      exact ⟨⟨draw rng i h, draw rng (i + 1) w, draw_lt rng i h (by omega),
        draw_lt rng (i + 1) w (by omega), rfl⟩, hnm⟩

theorem findIdx_some_spec {α : Type} (p : α → Bool) :
    ∀ (l : List α) (idx : Nat), l.findIdx? p = some idx →
      ∃ hlt : idx < l.length, p (l.get ⟨idx, hlt⟩) = true := by
  intro l
  induction l with
  | nil => intro idx hf; simp [List.findIdx?] at hf
  | cons x xs ih =>
    intro idx hf
    rw [List.findIdx?_cons] at hf
    split at hf
    · rename_i hpx
      cases hf
      exact ⟨by simp, hpx⟩
    · rw [List.findIdx?_succ] at hf
      rcases Option.map_eq_some'.1 hf with ⟨j, hj, rfl⟩
      obtain ⟨hlt, hpj⟩ := ih j hj
      refine ⟨by simp; omega, ?_⟩
      simpa using hpj

theorem take_succ_concat {α : Type} (l : List α) (n : Nat) (h : n < l.length) :
    l.take (n + 1) = l.take n ++ [l.get ⟨n, h⟩] := by
  rw [List.take_succ, List.getElem?_eq_getElem h]
  rfl

/-- The loop-erased walk returns a duplicate-free chain of adjacent valid
cells whose last element alone lies in the carved set. -/
theorem wilsonWalk_spec {w h : Nat} (rng : Rng) (vis : List Coord) :
    ∀ (fuel : Nat) (path pv : List Coord) (cur : Coord) (i : Nat)
      (out : List Coord × Nat),
      (∃ pre, path = pre ++ [cur]) →
      path.Nodup →
      (∀ x ∈ path, x ∈ pv) →
      (∀ x ∈ path, x ∈ vis → x = cur) →
      (∀ x ∈ path, ∃ a b : Nat, a < h ∧ b < w ∧
        x = (2 * (a : Int) + 1, 2 * (b : Int) + 1)) →
      List.Chain' adj2 path →
      wilsonWalk (2 * (h : Int) + 1) (2 * (w : Int) + 1) rng vis fuel path pv cur i
        = some out →
      ∃ (pre2 : List Coord) (last2 : Coord),
        out.1 = pre2 ++ [last2] ∧ last2 ∈ vis ∧ out.1.Nodup ∧
        (∀ x ∈ out.1, x ∈ vis → x = last2) ∧
        (∀ x ∈ out.1, ∃ a b : Nat, a < h ∧ b < w ∧
          x = (2 * (a : Int) + 1, 2 * (b : Int) + 1)) ∧
        List.Chain' adj2 out.1 := by
  intro fuel
  induction fuel with
  | zero => intro path pv cur i out _ _ _ _ _ _ hrun; simp [wilsonWalk] at hrun
  | succ f ih =>
    intro path pv cur i out hpre hnd hsub hvis hcell hchain hrun
    unfold wilsonWalk at hrun
    by_cases hcv : cur ∈ vis
    · rw [if_pos hcv] at hrun
      cases hrun
      obtain ⟨pre, hpe⟩ := hpre
      exact ⟨pre, cur, hpe, hcv, hnd, hvis, hcell, hchain⟩
    · rw [if_neg hcv] at hrun
      dsimp only at hrun
      have hdm : dirs2.getD (draw rng i 4) ((0 : Int), (0 : Int)) ∈ dirs2 := by
        rw [List.getD_eq_getElem dirs2 ((0 : Int), (0 : Int))
          (show draw rng i 4 < dirs2.length from draw_lt rng i 4 (by omega))]
        exact List.getElem_mem _
      by_cases hic : isCellG (2 * (h : Int) + 1) (2 * (w : Int) + 1)
          (cur.1 + (dirs2.getD (draw rng i 4) ((0 : Int), (0 : Int))).1)
          (cur.2 + (dirs2.getD (draw rng i 4) ((0 : Int), (0 : Int))).2) = true
      · rw [if_pos hic] at hrun
        by_cases hpv : ((cur.1 + (dirs2.getD (draw rng i 4) ((0 : Int), (0 : Int))).1,
            cur.2 + (dirs2.getD (draw rng i 4) ((0 : Int), (0 : Int))).2) : Coord) ∈ pv
        · rw [if_pos hpv] at hrun
          cases hf : path.findIdx? (fun p => decide
              (p = (cur.1 + (dirs2.getD (draw rng i 4) ((0 : Int), (0 : Int))).1,
                cur.2 + (dirs2.getD (draw rng i 4) ((0 : Int), (0 : Int))).2))) with
          | none => rw [hf] at hrun; cases hrun
          | some idx =>
            rw [hf] at hrun
            dsimp only at hrun
            obtain ⟨hlt, hpj⟩ := findIdx_some_spec _ path idx hf
            have hget := of_decide_eq_true hpj
            refine ih (path.take (idx + 1)) (pv.filter (fun x => x ∉ path.drop (idx + 1)))
              _ (i + 1) out ?_ ?_ ?_ ?_ ?_ ?_ hrun
            · exact ⟨path.take idx, by rw [take_succ_concat path idx hlt, hget]⟩
            · exact (List.take_sublist _ _).nodup hnd
            · intro x hx
              rw [List.mem_filter]
              refine ⟨hsub x (List.take_subset _ _ hx), ?_⟩
              simp only [decide_eq_true_eq]
              exact fun hdrop => List.disjoint_take_drop hnd le_rfl hx hdrop
            · intro x hx hxv
              exact absurd ((hvis x (List.take_subset _ _ hx) hxv) ▸ hxv) hcv
            · intro x hx
              exact hcell x (List.take_subset _ _ hx)
            · exact hchain.take _
        · rw [if_neg hpv] at hrun
          have hnp : ((cur.1 + (dirs2.getD (draw rng i 4) ((0 : Int), (0 : Int))).1,
              cur.2 + (dirs2.getD (draw rng i 4) ((0 : Int), (0 : Int))).2) : Coord)
              ∉ path := fun hm => hpv (hsub _ hm)
          refine ih (path ++ [(cur.1 + (dirs2.getD (draw rng i 4) ((0 : Int), (0 : Int))).1,
              cur.2 + (dirs2.getD (draw rng i 4) ((0 : Int), (0 : Int))).2)])
            (pv ++ [(cur.1 + (dirs2.getD (draw rng i 4) ((0 : Int), (0 : Int))).1,
              cur.2 + (dirs2.getD (draw rng i 4) ((0 : Int), (0 : Int))).2)])
            _ (i + 1) out ⟨path, rfl⟩ ?_ ?_ ?_ ?_ ?_ hrun
          · rw [List.nodup_append]
            exact ⟨hnd, List.nodup_singleton _,
              fun x hx hx2 => hnp ((List.mem_singleton.1 hx2) ▸ hx)⟩
          · intro x hx
            rcases List.mem_append.1 hx with hx | hx
            · exact List.mem_append.2 (Or.inl (hsub x hx))
            · exact List.mem_append.2 (Or.inr hx)
          · intro x hx hxv
            rcases List.mem_append.1 hx with hx | hx
            · exact absurd ((hvis x hx hxv) ▸ hxv) hcv
            · exact List.mem_singleton.1 hx
          · intro x hx
            rcases List.mem_append.1 hx with hx | hx
            · exact hcell x hx
            · obtain rfl := List.mem_singleton.1 hx
              rcases isCellG_iff.1 hic with ⟨a, b, ha, hb, he1, he2⟩
              exact ⟨a, b, ha, hb, by rw [Prod.mk.injEq]; exact ⟨he1, he2⟩⟩
          · rw [List.chain'_append]
            refine ⟨hchain, List.chain'_singleton _, ?_⟩
            intro x hx y hy
            obtain ⟨pre, rfl⟩ := hpre
            rw [List.getLast?_concat] at hx
            obtain rfl := Option.mem_some_iff.1 hx
            obtain rfl := Option.mem_some_iff.1 hy
            show ((_ - _, _ - _) : Coord) ∈ dirs2
            rw [show (cur.1 + (dirs2.getD (draw rng i 4) ((0 : Int), (0 : Int))).1 - cur.1)
                = (dirs2.getD (draw rng i 4) ((0 : Int), (0 : Int))).1 from by ring,
              show (cur.2 + (dirs2.getD (draw rng i 4) ((0 : Int), (0 : Int))).2 - cur.2)
                = (dirs2.getD (draw rng i 4) ((0 : Int), (0 : Int))).2 from by ring]
            exact hdm
      · rw [if_neg hic] at hrun
        exact ih path pv cur (i + 1) out hpre hnd hsub hvis hcell hchain hrun

/-- Carving a finished walk (after its fresh start opened the chain)
extends the tree by the walk's fresh cells. -/
theorem wilsonCarve_run {w h : Nat} {s : Coord} :
    ∀ (fr : List Coord) (lastp : Coord) (g : Grid) (cvis chain : List Coord)
      (vis : List Coord) (qa qb : Nat),
      wchainInv w h s g cvis chain (qa, qb) →
      vis.Perm ((cvis ++ chain).map (fun p => ((2 * p.1 + 1, 2 * p.2 + 1) : Coord))) →
      (∀ x ∈ fr, ∃ a b : Nat, a < h ∧ b < w ∧
        x = (2 * (a : Int) + 1, 2 * (b : Int) + 1)) →
      (∀ x ∈ fr, x ∉ (cvis ++ chain).map
        (fun p => ((2 * p.1 + 1, 2 * p.2 + 1) : Coord))) →
      fr.Nodup →
      (∃ ta tb : Nat, ta < h ∧ tb < w ∧
        lastp = (2 * (ta : Int) + 1, 2 * (tb : Int) + 1) ∧
        (((ta : Nat) : Int), ((tb : Nat) : Int)) ∈ cvis) →
      List.Chain' adj2 (((2 * (qa : Int) + 1, 2 * (qb : Int) + 1) : Coord)
        :: (fr ++ [lastp])) →
      ∃ cvis2 : List Coord,
        cvis2 ≠ [] ∧
        growInv w h s (wilsonCarve g vis (fr ++ [lastp])
          (some (2 * (qa : Int) + 1, 2 * (qb : Int) + 1))).1 cvis2 ∧
        (wilsonCarve g vis (fr ++ [lastp])
          (some (2 * (qa : Int) + 1, 2 * (qb : Int) + 1))).2.Perm
          (cvis2.map (fun p => ((2 * p.1 + 1, 2 * p.2 + 1) : Coord))) := by
  intro fr
  induction fr with
  | nil =>
    intro lastp g cvis chain vis qa qb hinv hcorr _ _ _ hlast hch
    obtain ⟨ta, tb, hta, htb, rfl, htm⟩ := hlast
    have hadj : adj2 ((2 * (qa : Int) + 1, 2 * (qb : Int) + 1) : Coord)
        ((2 * (ta : Int) + 1, 2 * (tb : Int) + 1) : Coord) :=
      (List.chain'_cons.1 hch).1
    have hadjN : (ta = qa + 1 ∧ tb = qb) ∨ (qa = ta + 1 ∧ tb = qb) ∨
        (tb = qb + 1 ∧ ta = qa) ∨ (qb = tb + 1 ∧ ta = qa) := by
      unfold adj2 at hadj
      simp only [dirs2, List.mem_cons, List.not_mem_nil, or_false, Prod.ext_iff] at hadj
      omega
    have hunf : wilsonCarve g vis
        ([] ++ [((2 * (ta : Int) + 1, 2 * (tb : Int) + 1) : Coord)])
        (some (2 * (qa : Int) + 1, 2 * (qb : Int) + 1))
        = ((g.set (2 * (ta : Int) + 1) (2 * (tb : Int) + 1) 0).set
            ((2 * (ta : Int) + 1 + (2 * (qa : Int) + 1)) / 2)
            ((2 * (tb : Int) + 1 + (2 * (qb : Int) + 1)) / 2) 0,
          addUnique vis (2 * (ta : Int) + 1, 2 * (tb : Int) + 1)) := rfl
    rw [hunf,
      show ((2 * (ta : Int) + 1 + (2 * (qa : Int) + 1)) / 2)
        = (ta : Int) + (qa : Int) + 1 from by omega,
      show ((2 * (tb : Int) + 1 + (2 * (qb : Int) + 1)) / 2)
        = (tb : Int) + (qb : Int) + 1 from by omega]
    have hlm : ((2 * (ta : Int) + 1, 2 * (tb : Int) + 1) : Coord) ∈ vis := by
      rw [hcorr.mem_iff]
      exact List.mem_map.2 ⟨(((ta : Nat) : Int), ((tb : Nat) : Int)),
        List.mem_append.2 (Or.inl htm), rfl⟩
    have haddu : addUnique vis ((2 * (ta : Int) + 1, 2 * (tb : Int) + 1) : Coord) = vis := by
      unfold addUnique
      rw [if_pos hlm]
    rw [haddu]
    refine ⟨cvis ++ chain, ?_, wchainInv_attach hinv hta htb htm hadjN, hcorr⟩
    intro he
    rw [List.append_eq_nil] at he
    exact (List.ne_nil_of_mem hinv.2.2.2.2.2.2.2.2.1) he.2
  | cons x fr' ih =>
    intro lastp g cvis chain vis qa qb hinv hcorr hcellfr hfreshfr hndfr hlast hch
    obtain ⟨a', b', ha', hb', rfl⟩ := hcellfr x (List.mem_cons_self _ _)
    have hch2 := List.chain'_cons.1 (by
      simpa using hch :
        List.Chain' adj2 (((2 * (qa : Int) + 1, 2 * (qb : Int) + 1) : Coord)
          :: (2 * (a' : Int) + 1, 2 * (b' : Int) + 1) :: (fr' ++ [lastp])))
    have hadjN : (a' = qa + 1 ∧ b' = qb) ∨ (qa = a' + 1 ∧ b' = qb) ∨
        (b' = qb + 1 ∧ a' = qa) ∨ (qb = b' + 1 ∧ a' = qa) := by
      have hadj := hch2.1
      unfold adj2 at hadj
      simp only [dirs2, List.mem_cons, List.not_mem_nil, or_false, Prod.ext_iff] at hadj
      omega
    have hxfresh := hfreshfr _ (List.mem_cons_self _ _)
    have hnew : (((a' : Nat) : Int), ((b' : Nat) : Int)) ∉ cvis ++ chain := by
      intro hm
      exact hxfresh (List.mem_map.2 ⟨_, hm, rfl⟩)
    have hxnvis : ((2 * (a' : Int) + 1, 2 * (b' : Int) + 1) : Coord) ∉ vis := by
      rw [hcorr.mem_iff]
      exact hxfresh
    have hunf : wilsonCarve g vis
        (((2 * (a' : Int) + 1, 2 * (b' : Int) + 1) : Coord) :: fr' ++ [lastp])
        (some (2 * (qa : Int) + 1, 2 * (qb : Int) + 1))
        = wilsonCarve
            ((g.set (2 * (a' : Int) + 1) (2 * (b' : Int) + 1) 0).set
              ((2 * (a' : Int) + 1 + (2 * (qa : Int) + 1)) / 2)
              ((2 * (b' : Int) + 1 + (2 * (qb : Int) + 1)) / 2) 0)
            (addUnique vis (2 * (a' : Int) + 1, 2 * (b' : Int) + 1))
            (fr' ++ [lastp])
            (some (2 * (a' : Int) + 1, 2 * (b' : Int) + 1)) := rfl
    rw [show (((2 * (a' : Int) + 1, 2 * (b' : Int) + 1) : Coord) :: fr') ++ [lastp]
        = ((2 * (a' : Int) + 1, 2 * (b' : Int) + 1) : Coord) :: fr' ++ [lastp]
        from by simp, hunf,
      show ((2 * (a' : Int) + 1 + (2 * (qa : Int) + 1)) / 2)
        = (a' : Int) + (qa : Int) + 1 from by omega,
      show ((2 * (b' : Int) + 1 + (2 * (qb : Int) + 1)) / 2)
        = (b' : Int) + (qb : Int) + 1 from by omega,
      show addUnique vis ((2 * (a' : Int) + 1, 2 * (b' : Int) + 1) : Coord)
        = vis ++ [((2 * (a' : Int) + 1, 2 * (b' : Int) + 1) : Coord)] from by
          unfold addUnique
          rw [if_neg hxnvis]]
    refine ih lastp _ cvis (chain ++ [(((a' : Nat) : Int), ((b' : Nat) : Int))]) _ a' b'
      (wchainInv_step hinv ha' hb' hadjN hnew) ?_ ?_ ?_ (List.nodup_cons.1 hndfr).2 ?_
      hch2.2
    · rw [← List.append_assoc, List.map_append]
      refine hcorr.append ?_
      simp
    · intro y hy
      exact hcellfr y (List.mem_cons_of_mem _ hy)
    · intro y hy
      rw [← List.append_assoc, List.map_append, List.mem_append]
      rintro (hm | hm)
      · exact hfreshfr y (List.mem_cons_of_mem _ hy) hm
      · simp only [List.map_cons, List.map_nil, List.mem_singleton] at hm
        exact (List.nodup_cons.1 hndfr).1 (hm ▸ hy)
    · obtain ⟨ta, tb, hta, htb, he, htm⟩ := hlast
      exact ⟨ta, tb, hta, htb, he, htm⟩

/-- Re-carving an already carved position leaves the growth invariant in
place. -/
theorem growInv_set_open {w h : Nat} {s : Coord} {g : Grid} {cvis : List Coord}
    {r c : Int} (hinv : growInv w h s g cvis) (hv : g.val r c = 0) :
    growInv w h s (g.set r c 0) cvis := by
  have hval : ∀ r' c' : Int, (g.set r c 0).val r' c' = g.val r' c' := by
    intro r' c'
    by_cases hc : r' = r ∧ c' = c
    · obtain ⟨rfl, rfl⟩ := hc
      rw [Grid.val_set_self, hv]
    · exact Grid.val_set_other _ _ _ _ _ _ hc
  obtain ⟨h1, h2, h3, h4, h5, h6, h7, h8⟩ := hinv
  refine ⟨h1, h2, ?_, ?_, ?_, ?_, ?_, ?_⟩
  · intro x y hx hy
    rw [hval]
    exact h3 x y hx hy
  · intro x y hx hy h0
    rw [hval] at h0
    exact h4 x y hx hy h0
  · intro x y hx hy h0
    rw [hval] at h0
    exact h5 x y hx hy h0
  · unfold openCellCount
    rw [countOpen_congr (fun p _ => hval p.1 p.2)]
    exact h6
  · unfold passageCount
    rw [countOpen_congr (fun p _ => hval p.1 p.2)]
    exact h7
  · intro p hp
    exact connectedIn_mono (val_mono_set0 _ _ _) (h8 p hp)

/-- The outer Wilson loop keeps the growth invariant and ends in a
perfect maze. -/
theorem wilsonOuter_spec {w h : Nat} (rng : Rng) (s : Coord) (walkFuel : Nat)
    (hw : 1 ≤ w) (hh : 1 ≤ h) :
    ∀ (fuel : Nat) (mz : Grid) (vis : List Coord) (i : Nat) (gout : Grid)
      (cvis : List Coord),
      growInv w h s mz cvis →
      cvis ≠ [] →
      vis.Perm (cvis.map (fun p => ((2 * p.1 + 1, 2 * p.2 + 1) : Coord))) →
      wilsonOuter w h (2 * (h : Int) + 1) (2 * (w : Int) + 1) rng walkFuel fuel mz vis i
        = some gout →
      perfectMaze w h gout := by
  intro fuel
  induction fuel with
  | zero => intro mz vis i gout cvis _ _ _ hrun; simp [wilsonOuter] at hrun
  | succ f ih =>
    intro mz vis i gout cvis hinv hcne hcorr hrun
    unfold wilsonOuter at hrun
    by_cases hlen : vis.length < w * h
    · rw [if_pos hlen] at hrun
      cases hp : wilsonPick w h rng walkFuel vis i with
      | none => rw [hp] at hrun; cases hrun
      | some pr =>
        obtain ⟨start, i1⟩ := pr
        rw [hp] at hrun
        dsimp only at hrun
        obtain ⟨⟨a0, b0, ha0, hb0, hse⟩, hsnv⟩ :=
          wilsonPick_spec rng hw hh walkFuel vis i _ hp
        dsimp only at hse hsnv
        subst hse
        cases hwk : wilsonWalk (2 * (h : Int) + 1) (2 * (w : Int) + 1) rng vis walkFuel
            [(2 * (a0 : Int) + 1, 2 * (b0 : Int) + 1)]
            [(2 * (a0 : Int) + 1, 2 * (b0 : Int) + 1)]
            (2 * (a0 : Int) + 1, 2 * (b0 : Int) + 1) i1 with
        | none => rw [hwk] at hrun; cases hrun
        | some wout =>
          rw [hwk] at hrun
          dsimp only at hrun
          obtain ⟨pre2, last2, hout1, hlv, hnd2, hvis2, hcell2, hch2⟩ :=
            wilsonWalk_spec rng vis walkFuel _ _ _ i1 wout
              ⟨[], rfl⟩ (List.nodup_singleton _)
              (fun x hx => hx)
              (fun x hx _ => List.mem_singleton.1 hx)
              (fun x hx => ⟨a0, b0, ha0, hb0, List.mem_singleton.1 hx⟩)
              (List.chain'_singleton _) hwk
          have hlastcell : ∃ la lb : Nat, la < h ∧ lb < w ∧
              last2 = (2 * (la : Int) + 1, 2 * (lb : Int) + 1) ∧
              (((la : Nat) : Int), ((lb : Nat) : Int)) ∈ cvis := by
            obtain ⟨la, lb, hla, hlb, hle⟩ := hcell2 last2
              (by rw [hout1]; exact List.mem_append.2 (Or.inr (List.mem_singleton.2 rfl)))
            refine ⟨la, lb, hla, hlb, hle, ?_⟩
            have hm2 := hcorr.mem_iff.1 hlv
            rcases List.mem_map.1 hm2 with ⟨q, hq, hqe⟩
            have hqc : q = (((la : Nat) : Int), ((lb : Nat) : Int)) := by
              rw [hle] at hqe
              rw [Prod.mk.injEq] at hqe ⊢
              constructor <;> omega
            rw [← hqc]
            exact hq
          rw [hout1] at hrun
          cases pre2 with
          | nil =>
            obtain ⟨la, lb, hla, hlb, hle, hlm⟩ := hlastcell
            subst hle
            rw [show (([] : List Coord) ++ [((2 * (la : Int) + 1, 2 * (lb : Int) + 1)
              : Coord)]) = [((2 * (la : Int) + 1, 2 * (lb : Int) + 1) : Coord)]
              from by simp] at hrun
            have hunf : wilsonCarve mz vis
                [((2 * (la : Int) + 1, 2 * (lb : Int) + 1) : Coord)] none
                = (mz.set (2 * (la : Int) + 1) (2 * (lb : Int) + 1) 0,
                  addUnique vis (2 * (la : Int) + 1, 2 * (lb : Int) + 1)) := rfl
            rw [hunf] at hrun
            dsimp only at hrun
            have hopen : mz.val (2 * (la : Int) + 1) (2 * (lb : Int) + 1) = 0 :=
              (hinv.2.2.1 la lb hla hlb).2 hlm
            have haddu : addUnique vis
                ((2 * (la : Int) + 1, 2 * (lb : Int) + 1) : Coord) = vis := by
              unfold addUnique
              rw [if_pos hlv]
            rw [haddu] at hrun
            exact ih _ _ _ gout cvis (growInv_set_open hinv hopen) hcne hcorr hrun
          | cons p0 pre' =>
            obtain ⟨c0a, c0b, hc0a, hc0b, rfl⟩ := hcell2 p0
              (by rw [hout1]; exact List.mem_cons_self _ _)
            rw [List.cons_append] at hrun hout1
            have hp0nt : ((2 * (c0a : Int) + 1, 2 * (c0b : Int) + 1) : Coord)
                ∉ pre' ++ [last2] := (List.nodup_cons.1 (hout1 ▸ hnd2)).1
            have hp0ne : ((2 * (c0a : Int) + 1, 2 * (c0b : Int) + 1) : Coord) ≠ last2 := by
              intro he
              exact hp0nt (he ▸ List.mem_append.2 (Or.inr (List.mem_singleton.2 rfl)))
            have hp0nv : ((2 * (c0a : Int) + 1, 2 * (c0b : Int) + 1) : Coord) ∉ vis := by
              intro hm
              exact hp0ne (hvis2 _ (by rw [hout1]; exact List.mem_cons_self _ _) hm)
            have hp0fresh : (((c0a : Nat) : Int), ((c0b : Nat) : Int)) ∉ cvis := by
              intro hm
              exact hp0nv (hcorr.mem_iff.2 (List.mem_map.2 ⟨_, hm, rfl⟩))
            have hunf : wilsonCarve mz vis
                (((2 * (c0a : Int) + 1, 2 * (c0b : Int) + 1) : Coord)
                  :: (pre' ++ [last2])) none
                = wilsonCarve (mz.set (2 * (c0a : Int) + 1) (2 * (c0b : Int) + 1) 0)
                  (addUnique vis (2 * (c0a : Int) + 1, 2 * (c0b : Int) + 1))
                  (pre' ++ [last2])
                  (some (2 * (c0a : Int) + 1, 2 * (c0b : Int) + 1)) := rfl
            rw [hunf,
              show addUnique vis ((2 * (c0a : Int) + 1, 2 * (c0b : Int) + 1) : Coord)
                = vis ++ [((2 * (c0a : Int) + 1, 2 * (c0b : Int) + 1) : Coord)] from by
                  unfold addUnique
                  rw [if_neg hp0nv]] at hrun
            have hinit := wchainInv_init hinv hcne hc0a hc0b hp0fresh
            have hndpath : (((2 * (c0a : Int) + 1, 2 * (c0b : Int) + 1) : Coord)
                :: (pre' ++ [last2])).Nodup := hout1 ▸ hnd2
            have hsperm : (vis ++ [((2 * (c0a : Int) + 1, 2 * (c0b : Int) + 1) : Coord)]).Perm
                ((cvis ++ [(((c0a : Nat) : Int), ((c0b : Nat) : Int))]).map
                  (fun p => ((2 * p.1 + 1, 2 * p.2 + 1) : Coord))) := by
              rw [List.map_append]
              refine List.Perm.append hcorr ?_
              simp
            have hscell : ∀ x ∈ pre', ∃ a b : Nat, a < h ∧ b < w ∧
                x = (2 * (a : Int) + 1, 2 * (b : Int) + 1) := by
              intro x hx
              exact hcell2 x (by
                rw [hout1]
                exact List.mem_cons_of_mem _ (List.mem_append.2 (Or.inl hx)))
            have hsfresh : ∀ x ∈ pre', x ∉
                ((cvis ++ [(((c0a : Nat) : Int), ((c0b : Nat) : Int))]).map
                  (fun p => ((2 * p.1 + 1, 2 * p.2 + 1) : Coord))) := by
              intro x hx hm
              rw [List.map_append, List.mem_append] at hm
              have hxnl : x ≠ last2 := by
                intro he
                have hnp := List.nodup_append.1 (List.nodup_cons.1 hndpath).2
                exact hnp.2.2 hx (he ▸ List.mem_singleton.2 rfl)
              rcases hm with hm | hm
              · have hxv : x ∈ vis := hcorr.mem_iff.2 hm
                exact hxnl (hvis2 x (by
                  rw [hout1]
                  exact List.mem_cons_of_mem _ (List.mem_append.2 (Or.inl hx))) hxv)
              · simp only [List.map_cons, List.map_nil, List.mem_singleton] at hm
                exact (List.nodup_cons.1 hndpath).1 (hm ▸ List.mem_append.2 (Or.inl hx))
            have hsnd : pre'.Nodup :=
              ((List.nodup_append.1 (List.nodup_cons.1 hndpath).2)).1
            have hschain : List.Chain' adj2
                (((2 * (c0a : Int) + 1, 2 * (c0b : Int) + 1) : Coord)
                  :: (pre' ++ [last2])) := hout1 ▸ hch2
            obtain ⟨cvis2, hc2ne, hg2, hperm2⟩ := wilsonCarve_run pre' last2 _ cvis
              [(((c0a : Nat) : Int), ((c0b : Nat) : Int))] _ c0a c0b hinit
              hsperm hscell hsfresh hsnd hlastcell hschain
            exact ih _ _ _ gout cvis2 hg2 hc2ne hperm2 hrun
    · rw [if_neg hlen] at hrun
      cases hrun
      refine growInv_perfect hinv ?_
      have hle := hcorr.length_eq
      rw [List.length_map] at hle
      omega

/-- C1 for Wilson: a successful run is a perfect maze. -/
theorem wilson_perfect (w h : Nat) (rng : Rng) (fuel : Nat) (hw : 1 ≤ w) (hh : 1 ≤ h)
    (g : Grid) (hgen : generateWilsonsMaze w h rng fuel = some g) :
    perfectMaze w h g := by
  unfold generateWilsonsMaze at hgen
  dsimp only at hgen
  rcases Option.map_eq_some'.1 hgen with ⟨out, hrun, rfl⟩
  apply perfectMaze_set_outside (by intro hr; unfold inRect at hr; omega)
  apply perfectMaze_set_outside (by intro hr; unfold inRect at hr; omega)
  have hs1 : draw rng 0 h < h := draw_lt rng 0 h (by omega)
  have hs2 : draw rng 1 w < w := draw_lt rng 1 w (by omega)
  refine wilsonOuter_spec rng _ fuel hw hh (w * h + 1) _ _ 2 out
    [((((draw rng 0 h : Nat)) : Int), (((draw rng 1 w : Nat)) : Int))]
    (growInv_init hs1 hs2) (by simp) ?_ hrun
  simp

/-- C1: for every perfect-maze generator (recursive backtracker, Prim,
Kruskal, binary tree, Wilson, Aldous-Broder, growing tree under any
policy), every width and height at least one, and every outcome of the
random choices, the returned grid has exactly width*height carved
interior cells, exactly width*height - 1 carved internal passages, and
every interior cell reaches every other through carved positions: the
carved cell graph is a spanning tree. -/
theorem perfect_generators_all (w h : Nat) (rng : Rng) (fuel : Nat) (method : GTMethod)
    (hw : 1 ≤ w) (hh : 1 ≤ h) :
    perfectMaze w h (generateBinaryTreeMaze w h rng) ∧
    (∀ g, generateRecursiveBacktrackerMaze w h rng = some g → perfectMaze w h g) ∧
    (∀ g, generatePrimsMaze w h rng = some g → perfectMaze w h g) ∧
    (∀ g, generateKruskalsMaze w h rng = some g → perfectMaze w h g) ∧
    (∀ g, generateGrowingTreeMaze w h rng method = some g → perfectMaze w h g) ∧
    (∀ g, generateAldousBroderMaze w h rng fuel = some g → perfectMaze w h g) ∧
    (∀ g, generateWilsonsMaze w h rng fuel = some g → perfectMaze w h g) :=
  ⟨binTree_perfect w h rng hw hh,
   fun g hg => backtracker_perfect w h rng hw hh g hg,
   fun g hg => prims_perfect w h rng hw hh g hg,
   fun g hg => kruskal_perfect w h rng hw hh g hg,
   fun g hg => growingTree_perfect w h rng method hw hh g hg,
   fun g hg => aldousBroder_perfect w h rng fuel hw hh g hg,
   fun g hg => wilson_perfect w h rng fuel hw hh g hg⟩

theorem perfect_generators_all_witness :
    perfectMaze 2 2 (generateBinaryTreeMaze 2 2 (fun i => (i * 31 + 17) % 97)) ∧
    perfectMaze 2 2 ((generateRecursiveBacktrackerMaze 2 2
      (fun i => (i * 31 + 17) % 97)).getD (mkGrid 0 0 0)) ∧
    perfectMaze 2 2 ((generatePrimsMaze 2 2 (fun i => (i * 31 + 17) % 97)).getD
      (mkGrid 0 0 0)) ∧
    perfectMaze 2 2 ((generateKruskalsMaze 2 2 (fun i => (i * 31 + 17) % 97)).getD
      (mkGrid 0 0 0)) ∧
    perfectMaze 2 2 ((generateGrowingTreeMaze 2 2 (fun i => (i * 31 + 17) % 97)
      GTMethod.newest).getD (mkGrid 0 0 0)) ∧
    perfectMaze 1 1 ((generateAldousBroderMaze 1 1 (fun i => (i * 31 + 17) % 97) 40).getD
      (mkGrid 0 0 0)) ∧
    perfectMaze 1 1 ((generateWilsonsMaze 1 1 (fun i => (i * 31 + 17) % 97) 40).getD
      (mkGrid 0 0 0)) := by
  have h22 := perfect_generators_all 2 2 (fun i => (i * 31 + 17) % 97) 40 GTMethod.newest
    (by decide) (by decide)
  have h11 := perfect_generators_all 1 1 (fun i => (i * 31 + 17) % 97) 40 GTMethod.newest
    (by decide) (by decide)
  exact ⟨h22.1, h22.2.1 _ rfl, h22.2.2.1 _ rfl, h22.2.2.2.1 _ rfl, h22.2.2.2.2.1 _ rfl,
    h11.2.2.2.2.2.1 _ rfl, h11.2.2.2.2.2.2 _ rfl⟩

end MazeLib
